import Mathlib

/-! The mount tree of Ade's Virtual File System (adefs), its packages and its files.

A shallow embedding of `src/adefs.h`, `src/adefs/adefs.cpp` and the packages
`src/adefs/package_gcf`, `package_zip` and `package_fs`.

* `std::string` is a `List Char`; `::tolower` (C locale) is `Char.toLower`, which only
  moves `A`..`Z`.
* `Attributes` (uint16) and open modes (uint32) are natural numbers; the only operations on
  them are `&` and `|`, which cannot overflow.
* A `std::shared_ptr<IDirectory>` / `std::weak_ptr<IDirectory>` is the address of the backend,
  a natural number; `lock : Nat → Option (IDirectory H)` plays `weak_ptr::lock()`: it is `none`
  for an expired (or null) reference.
* A `MountPoint*` returned by `get_mountpoint` is the chain of child keys leading from the
  node the call was made on to the returned node.
* The recursive member functions recurse on a strictly shorter path; the embedding carries
  that bound as a proof argument, so every function is total.
* `m_mutex` is left out, and so is `m_p_parent` (used by `fullpath` only) in `MountPoint`;
  `LinkedMountPoint` is the same class with `m_p_parent` kept, and agrees with `MountPoint`
  once the pointer is left out. `std::bad_alloc` is not modelled, so the `catch(...)`
  branches are never taken.
* A host file is its length and its bytes; a `std::ifstream` is a position with `failbit`,
  `eofbit` and `gcount`. Unsigned 32-bit arithmetic is reduced modulo `2 ^ 32`; what the
  source leaves undefined or unbounded is a `Fault`.
* A loop or recursion that the source does not bound (`read`, the walk of `PackageZIP::scan`,
  `scan_directory`) takes a number of passes, its fuel, and ends with `Fault.out_of_fuel`
  when the fuel is used up. A backend made by a package is kept in a list of backends, and
  its address is its index there.
-/

namespace adefs

/-! ## Constants of `adefs.h` -/

def ATTR_READ : Nat := 0x00001
def ATTR_WRITE : Nat := 0x00002
def ATTR_RANDOM : Nat := 0x00004
def ATTR_DIR : Nat := 0x00008

def MODE_READ : Nat := 0x00001
def MODE_WRITE : Nat := 0x00002
def MODE_APPEND : Nat := 0x00004
def MODE_AT_END : Nat := 0x00008
def MODE_TRUNCATE : Nat := 0x00010

/-! ## Strings -/

/-- The effect of `std::transform(s.begin(), s.end(), s.begin(), ::tolower)`. -/
def lower (s : List Char) : List Char := s.map Char.toLower

/-- The call `s.find_first_of("/")`; `none` is `std::string::npos`. -/
def find_first_of : List Char → Option Nat
  | [] => none
  | c :: cs => if c = '/' then some 0 else (find_first_of cs).map (fun i => i + 1)

/-- The call `s.find_last_of("/")`; `none` is `std::string::npos`. -/
def find_last_of : List Char → Option Nat
  | [] => none
  | c :: cs =>
    match find_last_of cs with
    | some i => some (i + 1)
    | none => if c = '/' then some 0 else none

/-- The inline function `split_path` of `adefs.h`: `(out_path, out_filename)`. -/
def split_path (in_path : List Char) : List Char × List Char :=
  match find_last_of in_path with
  | none => ([], in_path)
  | some pos => (in_path.take pos, in_path.drop (pos + 1))

/-- The first directory name peeled off a path (`sub_dir` / `mpname` before lower-casing):
the whole path when it has no `/`, else `path.substr(0,pos)`. -/
def peel_dir (path : List Char) : List Char :=
  match find_first_of path with
  | none => path
  | some pos => path.take pos

/-- The rest of the path after the first directory name (`sub_path`): empty when the path has
no `/`, else `path.substr(pos+1)`. -/
def peel_path (path : List Char) : List Char :=
  match find_first_of path with
  | none => []
  | some pos => path.drop (pos + 1)

/-! ## Directory backends -/

/-- The part of the interface `IDirectory` that the mount tree calls. `H` is the type of
file handles (`std::unique_ptr<IFile>`, `none` being the null pointer). -/
structure IDirectory (H : Type) where
  dir_attr : Nat
  file_exists : List Char → Bool
  openfile : List Char → Nat → Option H

/-! ## Mount points -/

/-- The class `MountPoint`: `m_name`, `m_attributes`, `m_directories` (weak references, in
insertion order) and `m_children` (a `std::map` from child name to child, kept as an
association list in which the first entry for a key is the binding). -/
inductive MountPoint where
  | mk (m_name : List Char) (m_attributes : Nat) (m_directories : List Nat)
      (m_children : List (List Char × MountPoint))

namespace MountPoint

def m_name : MountPoint → List Char
  | mk n _ _ _ => n

def m_attributes : MountPoint → Nat
  | mk _ a _ _ => a

def m_directories : MountPoint → List Nat
  | mk _ _ d _ => d

def m_children : MountPoint → List (List Char × MountPoint)
  | mk _ _ _ c => c

end MountPoint

/-- The lookup `m_children.find(key)`; `none` is `m_children.end()`. -/
def children_find : List (List Char × MountPoint) → List Char → Option MountPoint
  | [], _ => none
  | (k, v) :: rest, key => if k = key then some v else children_find rest key

/-- The assignment `m_children[key] = value`. -/
def children_set :
    List (List Char × MountPoint) → List Char → MountPoint → List (List Char × MountPoint)
  | [], key, value => [(key, value)]
  | (k, v) :: rest, key, value =>
    if k = key then (key, value) :: rest else (k, v) :: children_set rest key value

namespace MountPoint

/-- The node after `m_children[key] = child` (also used to write back a child that a
recursive call has changed in place). -/
def set_child : MountPoint → List Char → MountPoint → MountPoint
  | mk n a d c, key, child => mk n a d (children_set c key child)

/-- The node after `m_directories.push_back(p_dir)`. -/
def push_directory : MountPoint → Nat → MountPoint
  | mk n a d c, p_dir => mk n a (d ++ [p_dir]) c

/-- The method `MountPoint::reset`. -/
def reset (_mp : MountPoint) : MountPoint := mk [] 0 [] []

end MountPoint

/-- The node a `MountPoint*` designates: follow the child keys from `mp`. -/
def node_at : MountPoint → List (List Char) → Option MountPoint
  | mp, [] => some mp
  | mp, k :: ks =>
    match children_find mp.m_children k with
    | none => none
    | some child => node_at child ks

/-- Recursion of `MountPoint::get_mountpoint(path, b_create)` with the bound on the path
length made explicit. The result is the node after the call and the returned pointer
(`none` is `nullptr`). The two recursive calls that omit `b_create` get its default value
`true` (`adefs.h`, line 335). -/
def get_mountpoint_go : (n : Nat) → MountPoint → (path : List Char) → path.length < n → Bool →
    MountPoint × Option (List (List Char))
  | 0, _, _, h, _ => absurd h (Nat.not_lt_zero _)
  | n + 1, mp, path, h, b_create =>
    if hp : path = [] then (mp, some [])
    else
      have hpos : 0 < path.length := List.length_pos.mpr hp
      if path.head? = some '/' then
        get_mountpoint_go n mp (path.drop 1) (by rw [List.length_drop]; omega) true
      else
        let sub_dir := lower (peel_dir path)
        have hdec : (peel_path path).length < n := by
          unfold peel_path
          split
          · simp only [List.length_nil]; omega
          · rw [List.length_drop]; omega
        match children_find mp.m_children sub_dir with
        | some child =>
          let r := get_mountpoint_go n child (peel_path path) hdec true
          (mp.set_child sub_dir r.1, r.2.map (fun a => sub_dir :: a))
        | none =>
          if b_create then
            let p_new_mp := MountPoint.mk sub_dir mp.m_attributes [] []
            let r := get_mountpoint_go n p_new_mp (peel_path path) hdec b_create
            (mp.set_child sub_dir r.1, r.2.map (fun a => sub_dir :: a))
          else (mp, none)

/-- The method `MountPoint::get_mountpoint`. -/
def MountPoint.get_mountpoint (mp : MountPoint) (path : List Char) (b_create : Bool) :
    MountPoint × Option (List (List Char)) :=
  get_mountpoint_go (path.length + 1) mp path (Nat.lt_succ_self _) b_create

/-- Recursion of `MountPoint::mount(path, p_dir)`: the node after the call and the returned
status (`err ? -1 : 0`). `err = !!mount(...)` is true when the inner call returned nonzero. -/
def mount_go : (n : Nat) → MountPoint → (path : List Char) → path.length < n → Nat →
    MountPoint × Int
  | 0, _, _, h, _ => absurd h (Nat.not_lt_zero _)
  | n + 1, mp, path, h, p_dir =>
    if hp : path = [] then (mp.push_directory p_dir, 0)
    else
      have hpos : 0 < path.length := List.length_pos.mpr hp
      if path.head? = some '/' then
        let r := mount_go n mp (path.drop 1) (by rw [List.length_drop]; omega) p_dir
        (r.1, if r.2 ≠ 0 then -1 else 0)
      else
        let sub_dir := lower (peel_dir path)
        have hdec : (peel_path path).length < n := by
          unfold peel_path
          split
          · simp only [List.length_nil]; omega
          · rw [List.length_drop]; omega
        let p_mp : MountPoint :=
          match children_find mp.m_children sub_dir with
          | some child => child
          | none => MountPoint.mk sub_dir mp.m_attributes [] []
        let r := mount_go n p_mp (peel_path path) hdec p_dir
        (mp.set_child sub_dir r.1, if r.2 ≠ 0 then -1 else 0)

/-- The method `MountPoint::mount`. -/
def MountPoint.mount (mp : MountPoint) (path : List Char) (p_dir : Nat) : MountPoint × Int :=
  mount_go (path.length + 1) mp path (Nat.lt_succ_self _) p_dir

/-- The loop of `find_file_owner` over `m_directories.rbegin() .. rend()`: `dirs` is the
directory list already reversed. An expired reference, or a backend whose `dir_attr()` lacks
the required bits, is passed over; the first remaining backend with the file is the owner. -/
def search_directories {H : Type} (lock : Nat → Option (IDirectory H)) (required_attributes : Nat)
    (name : List Char) : List Nat → Option (Nat × IDirectory H)
  | [] => none
  | idb :: rest =>
    match lock idb with
    | none => search_directories lock required_attributes name rest
    | some p_dir =>
      if p_dir.dir_attr &&& required_attributes ≠ required_attributes then
        search_directories lock required_attributes name rest
      else if p_dir.file_exists name then some (idb, p_dir)
      else search_directories lock required_attributes name rest

/-- Recursion of `MountPoint::find_file_owner(path, required_attributes)`; the owner is
returned with its address. The two recursive calls omit `required_attributes`, which
therefore takes its default value `0` (`adefs.h`, line 372). -/
def find_file_owner_go {H : Type} (lock : Nat → Option (IDirectory H)) :
    (n : Nat) → MountPoint → (path : List Char) → path.length < n → Nat →
    Option (Nat × IDirectory H)
  | 0, _, _, h, _ => absurd h (Nat.not_lt_zero _)
  | n + 1, mp, path, h, required_attributes =>
    if hs : path.head? = some '/' then
      find_file_owner_go lock n mp (path.drop 1)
        (by cases path with
            | nil => simp at hs
            | cons c cs => simp only [List.drop_one, List.tail_cons, List.length_cons] at h ⊢; omega)
        0
    else
      match hf : find_first_of path with
      | none =>
        if mp.m_attributes &&& required_attributes = required_attributes then
          search_directories lock required_attributes (lower path) mp.m_directories.reverse
        else none
      | some pos =>
        let mpname := lower (path.take pos)
        match children_find mp.m_children mpname with
        | some child =>
          let mppath := lower (path.drop (pos + 1))
          find_file_owner_go lock n child mppath
            (by cases path with
                | nil => simp [find_first_of] at hf
                | cons c cs =>
                  simp only [mppath, lower, List.length_map, List.length_drop,
                    List.length_cons] at h ⊢
                  omega)
            0
        | none => none

/-- The method `MountPoint::find_file_owner`. -/
def MountPoint.find_file_owner {H : Type} (lock : Nat → Option (IDirectory H)) (mp : MountPoint)
    (path : List Char) (required_attributes : Nat) : Option (Nat × IDirectory H) :=
  find_file_owner_go lock (path.length + 1) mp path (Nat.lt_succ_self _) required_attributes

/-- The local `attr` of `MountPoint::openfile`:
`(mode & MODE_READ ? ATTR_READ : 0) | (mode & MODE_WRITE ? ATTR_WRITE : 0)`. -/
def openfile_attr (mode : Nat) : Nat :=
  (if mode &&& MODE_READ ≠ 0 then ATTR_READ else 0) |||
    (if mode &&& MODE_WRITE ≠ 0 then ATTR_WRITE else 0)

/-- The method `MountPoint::openfile`. The result is the returned handle together with the
calls `p_dir->openfile(name, mode)` made on backends, each as (address, name, mode). -/
def MountPoint.openfile {H : Type} (lock : Nat → Option (IDirectory H)) (mp : MountPoint)
    (filename : List Char) (mode : Nat) : Option H × List (Nat × List Char × Nat) :=
  let attr := openfile_attr mode
  match mp.find_file_owner lock filename attr with
  | none => (none, [])
  | some (addr, p_dir) =>
    if p_dir.dir_attr &&& attr = attr then
      match find_last_of filename with
      | none => (p_dir.openfile filename mode, [(addr, filename, mode)])
      | some pos =>
        (p_dir.openfile (filename.drop (pos + 1)) mode, [(addr, filename.drop (pos + 1), mode)])
    else (none, [])

/-! ## The facade `AdeFS` -/

/-- The class `AdeFS`; `P` and `F` stand for `package_shared_ptr` and
`package_factory_shared_ptr`. -/
structure AdeFS (P F : Type) where
  m_root : MountPoint
  m_owned_packages : List P
  m_package_factories : List F
  m_package_factories_by_type : List (List Char × F)

namespace AdeFS

variable {P F : Type}

/-- The constructor `AdeFS::AdeFS`: the root is `MountPoint("", ATTR_READ | ATTR_WRITE)`. -/
def new : AdeFS P F :=
  ⟨MountPoint.mk [] (ATTR_READ ||| ATTR_WRITE) [] [], [], [], []⟩

/-- The method `AdeFS::reset`. -/
def reset (fs : AdeFS P F) : AdeFS P F :=
  ⟨fs.m_root.reset, [], [], []⟩

/-- The method `AdeFS::mount(directory_shared_ptr, mountpoint)`. -/
def mount (fs : AdeFS P F) (p_dir : Nat) (mountpoint : List Char) : AdeFS P F × Int :=
  let r := fs.m_root.mount mountpoint p_dir
  ({ fs with m_root := r.1 }, r.2)

/-- The method `AdeFS::get_mountpoint`. -/
def get_mountpoint (fs : AdeFS P F) (path : List Char) (b_create : Bool) :
    AdeFS P F × Option (List (List Char)) :=
  let r := fs.m_root.get_mountpoint path b_create
  ({ fs with m_root := r.1 }, r.2)

/-- The method `AdeFS::openfile`. -/
def openfile {H : Type} (lock : Nat → Option (IDirectory H)) (fs : AdeFS P F)
    (filename : List Char) (mode : Nat) : Option H × List (Nat × List Char × Nat) :=
  fs.m_root.openfile lock filename mode

end AdeFS

/-! ## Reference definitions -/

/-- Reference segmentation of a path: its `/`-separated pieces, the empty ones dropped, each
lower-cased. -/
def path_segments (P : List Char) : List (List Char) :=
  ((P.splitOn '/').filter (fun s => !s.isEmpty)).map lower

/-- Reference for descending with creation: below `mp`, every node missing along `keys` is
added, named by its key, with the attributes of its parent and nothing mounted. -/
def make_path : MountPoint → List (List Char) → MountPoint
  | mp, [] => mp
  | mp, k :: ks =>
    match children_find mp.m_children k with
    | some child => mp.set_child k (make_path child ks)
    | none => mp.set_child k (make_path (MountPoint.mk k mp.m_attributes [] []) ks)

/-- Reference for mounting: as `make_path`, and the backend is appended to the directory list
of the node at `keys`. -/
def mount_at : MountPoint → List (List Char) → Nat → MountPoint
  | mp, [], p_dir => mp.push_directory p_dir
  | mp, k :: ks, p_dir =>
    match children_find mp.m_children k with
    | some child => mp.set_child k (mount_at child ks p_dir)
    | none => mp.set_child k (mount_at (MountPoint.mk k mp.m_attributes [] []) ks p_dir)

/-- The directory list of the node at `addr`, empty when there is no such node. -/
def directories_at (mp : MountPoint) (addr : List (List Char)) : List Nat :=
  match node_at mp addr with
  | some nd => nd.m_directories
  | none => []

/-! ## Example backends -/

/-- A backend with attributes `attr` that holds one file `name` (given in lower case); the file
opens, under any spelling of its name and in any mode, to the handle `content`. -/
def single_file_directory (attr : Nat) (name : List Char) (content : String) :
    IDirectory String :=
  ⟨attr, fun n => n == name, fun n _ => if lower n = name then some content else none⟩

/-- Two live backends at addresses `1` and `2`; every other reference is expired. -/
def lock_two (d1 d2 : IDirectory String) : Nat → Option (IDirectory String) :=
  fun a => if a = 1 then some d1 else if a = 2 then some d2 else none

/-- One live backend at address `1`; every other reference is expired. -/
def lock_one (d1 : IDirectory String) : Nat → Option (IDirectory String) :=
  fun a => if a = 1 then some d1 else none

/-- A freshly constructed root, `MountPoint("", ATTR_READ | ATTR_WRITE, nullptr)`. -/
def fresh_root : MountPoint := MountPoint.mk [] (ATTR_READ ||| ATTR_WRITE) [] []

/-! ## Files and input streams -/

/-- A file of the host: its length and its bytes (a byte is a number below 256; positions at
or past `size` hold nothing). -/
structure HostFile where
  size : Nat
  byte : Nat → Nat

/-- The file whose content is the given list of bytes. -/
def HostFile.ofList (bytes : List Nat) : HostFile := ⟨bytes.length, fun i => bytes.getD i 0⟩

/-- The bytes `[pos, pos + n)` of a file, cut at its end. -/
def HostFile.slice (f : HostFile) (pos n : Nat) : List Nat :=
  (List.range (min n (f.size - pos))).map (fun i => f.byte (pos + i))

/-- The state of a `std::ifstream` opened on a file, following the C++ standard: get
position, `failbit`, `eofbit` and the count of the last unformatted read. -/
structure IfStream where
  file : HostFile
  pos : Nat
  failbit : Bool
  eofbit : Bool
  gcount : Nat

namespace IfStream

/-- A stream just opened on `file` (without `ate`). -/
def opened (file : HostFile) : IfStream := ⟨file, 0, false, false, 0⟩

/-- The call `seekg(off, std::ios::beg)`: `eofbit` is cleared; a failed stream is left alone;
a negative offset sets `failbit`; a position past the end is accepted. -/
def seekg (s : IfStream) (off : Int) : IfStream :=
  if s.failbit then { s with eofbit := false }
  else if off < 0 then { s with eofbit := false, failbit := true }
  else { s with eofbit := false, pos := off.toNat }

/-- The call `seekg(off, std::ios::end)`. -/
def seekg_end (s : IfStream) (off : Int) : IfStream :=
  if s.failbit then { s with eofbit := false }
  else if (s.file.size : Int) + off < 0 then { s with eofbit := false, failbit := true }
  else { s with eofbit := false, pos := ((s.file.size : Int) + off).toNat }

/-- The call `read(p, n)` with the bytes stored: a stream that is not good only gets `failbit`;
otherwise up to `n` bytes are taken, and a short count sets `eofbit` and `failbit`. -/
def read (s : IfStream) (n : Nat) : IfStream × List Nat :=
  if s.failbit || s.eofbit then ({ s with failbit := true, gcount := 0 }, [])
  else
    let got := s.file.slice s.pos n
    ({ s with pos := s.pos + got.length, gcount := got.length,
              failbit := decide (got.length < n), eofbit := decide (got.length < n) }, got)

/-- The call `tellg()`: `-1` on a failed stream. -/
def tellg (s : IfStream) : Int := if s.failbit then -1 else (s.pos : Int)

end IfStream

/-! ## Machine integers -/

/-- Reduction to `std::uint32_t`. -/
def u32 (n : Nat) : Nat := n % 2 ^ 32

/-- Conversion of a `std::uint32_t` value to `std::int32_t` (`fileoffset`). -/
def to_int32 (n : Nat) : Int := if n % 2 ^ 32 < 2 ^ 31 then (n % 2 ^ 32 : Nat) else (n % 2 ^ 32 : Nat) - 2 ^ 32

/-- Conversion of a `std::int32_t` value to `std::uint32_t`. -/
def of_int32 (i : Int) : Nat := (i % 2 ^ 32).toNat

/-! ## Packages: the directory tree and its mounting -/

/-- The struct `DirectoryNode` of `PackageGCF` and of `PackageZIP`: `p_directory` (the address
of the backend, `none` for a null pointer) and `sub_directories` (a `std::map`, listed in the
order in which it is iterated). -/
inductive DirectoryNode where
  | mk (p_directory : Option Nat) (sub_directories : List (List Char × DirectoryNode))

namespace DirectoryNode

def p_directory : DirectoryNode → Option Nat
  | mk d _ => d

def sub_directories : DirectoryNode → List (List Char × DirectoryNode)
  | mk _ s => s

end DirectoryNode

mutual

/-- The method `mount_directory(p_mountpoint, path, dir_node)`, the same text in `PackageGCF`
and in `PackageZIP`: the mount point after the call and the returned status. -/
def mount_directory (mp : MountPoint) (path : List Char) : DirectoryNode → MountPoint × Int
  | .mk none _ => (mp, 0)
  | .mk (some p_dir) subs =>
    let r := mp.mount path p_dir
    if r.2 ≠ 0 then (r.1, -1)
    else
      let basepath := if path = [] then path else path ++ ['/']
      let rs := mount_sub_directories r.1 basepath subs
      (rs.1, if rs.2 then 1 else 0)

/-- The loop `for(auto & dir_pair : dir_node.sub_directories)` of `mount_directory`: the mount
point afterwards and `err`. -/
def mount_sub_directories (mp : MountPoint) (basepath : List Char) :
    List (List Char × DirectoryNode) → MountPoint × Bool
  | [] => (mp, false)
  | (name, child) :: rest =>
    let r := mount_directory mp (basepath ++ name) child
    if r.2 ≠ 0 then (r.1, true) else mount_sub_directories r.1 basepath rest

end

/-- The method `mount(p_mountpoint)` of `PackageGCF` and of `PackageZIP`; `none` is a null
`p_mountpoint`, and the mount point is the node at which the package is mounted. -/
def package_mount (p_mountpoint : Option MountPoint) (m_root_directory : DirectoryNode) :
    Option MountPoint × Int :=
  match p_mountpoint with
  | none => (none, -1)
  | some mp =>
    let r := mount_directory mp [] m_root_directory
    (some r.1, r.2)

/-! ## GCF packages: reading a file -/

/-- What can keep an operation from returning a value: an index outside a vector (undefined
behaviour), a division by zero (undefined behaviour), a loop that has not ended within the
given number of iterations, a C++ exception that leaves the function, or a signed 32-bit
result outside the range of `int` (undefined behaviour). -/
inductive Fault where
  | out_of_range
  | division_by_zero
  | out_of_fuel
  | exception
  | signed_overflow
  deriving DecidableEq, Repr

/-- The little-endian 32-bit value stored at `off` in a list of bytes (a missing byte counts
as `0`). -/
def le32 (bytes : List Nat) (off : Nat) : Nat :=
  bytes.getD off 0 + 2 ^ 8 * bytes.getD (off + 1) 0 + 2 ^ 16 * bytes.getD (off + 2) 0 +
    2 ^ 24 * bytes.getD (off + 3) 0

/-- The struct `GCFHeader` (44 bytes). -/
structure GCFHeader where
  Dummy0 : Nat
  Dummy1 : Nat
  FormatVersion : Nat
  CacheID : Nat
  GCFVersion : Nat
  Dummy3 : Nat
  Dummy4 : Nat
  FileSize : Nat
  BlockSize : Nat
  BlockCount : Nat
  Dummy5 : Nat
  deriving DecidableEq, Repr

/-- The size `sizeof(GCFHeader)`. -/
def sizeof_GCFHeader : Nat := 44

/-- A `GCFHeader` as `read((char *)&m_gcf_header, sizeof(GCFHeader))` fills it. -/
def GCFHeader.decode (bytes : List Nat) : GCFHeader :=
  ⟨le32 bytes 0, le32 bytes 4, le32 bytes 8, le32 bytes 12, le32 bytes 16, le32 bytes 20,
    le32 bytes 24, le32 bytes 28, le32 bytes 32, le32 bytes 36, le32 bytes 40⟩

/-- The struct `GCFDataBlockHeader`. -/
structure GCFDataBlockHeader where
  GCFVersion : Nat
  BlockCount : Nat
  BlockSize : Nat
  FirstBlockOffset : Nat
  BlocksUsed : Nat
  Checksum : Nat
  deriving DecidableEq, Repr

/-- The class `PackageGCF`; an entry of `m_file_info` is `(file_size, data_block_index)`. -/
structure PackageGCF where
  m_filename : List Char
  m_root_directory : DirectoryNode
  m_file_info : List (Nat × Nat)
  m_gcf_header : GCFHeader
  m_gcf_data_block_header : GCFDataBlockHeader
  m_fragmap_file_offset : Nat
  m_frag_map : List Nat

namespace PackageGCF

/-- The constructor `PackageGCF(filename)`: every `\\` of the name becomes `/`; the tree and
the tables are empty (the header records, not initialised in the source, are zero here). -/
def new (filename : List Char) : PackageGCF :=
  { m_filename := filename.map (fun c => if c = '\\' then '/' else c),
    m_root_directory := DirectoryNode.mk none [], m_file_info := [],
    m_gcf_header := ⟨0, 0, 0, 0, 0, 0, 0, 0, 0, 0, 0⟩,
    m_gcf_data_block_header := ⟨0, 0, 0, 0, 0, 0⟩, m_fragmap_file_offset := 0, m_frag_map := [] }

def get_blocksize (pkg : PackageGCF) : Nat := pkg.m_gcf_header.BlockSize

def get_blockcount (pkg : PackageGCF) : Nat := pkg.m_gcf_header.BlockCount

def get_first_block_offset (pkg : PackageGCF) : Nat :=
  pkg.m_gcf_data_block_header.FirstBlockOffset

/-- A package with the given block size, block count, first block offset and frag map, and
nothing else. -/
def with_blocks (block_size block_count first_block_offset : Nat) (frag_map : List Nat) :
    PackageGCF :=
  { PackageGCF.new [] with
    m_gcf_header := ⟨0, 0, 0, 0, 0, 0, 0, 0, block_size, block_count, 0⟩,
    m_gcf_data_block_header := ⟨0, 0, 0, first_block_offset, 0, 0⟩, m_frag_map := frag_map }

/-- The method `get_next_block`: `m_frag_map[index]`. -/
def get_next_block (pkg : PackageGCF) (index : Nat) : Except Fault Nat :=
  match pkg.m_frag_map.get? index with
  | some b => .ok b
  | none => .error .out_of_range

/-- The loop `while(block_offset--) first_block = m_frag_map[first_block];`. -/
def walk (pkg : PackageGCF) : Nat → Nat → Except Fault Nat
  | 0, first_block => .ok first_block
  | block_offset + 1, first_block =>
    match pkg.get_next_block first_block with
    | .ok b => walk pkg block_offset b
    | .error e => .error e

/-- The method `get_block_index(first_block, offset)`; `offset` is the 32-bit pattern of the
`fileoffset` argument, which the division converts back to unsigned. -/
def get_block_index (pkg : PackageGCF) (first_block offset : Nat) : Except Fault Nat :=
  if pkg.get_blocksize = 0 then .error .division_by_zero
  else pkg.walk (offset / pkg.get_blocksize) first_block

end PackageGCF

/-- The class `FileGCF` (the fields used after construction). -/
structure FileGCF where
  m_p_package : PackageGCF
  m_stream : IfStream
  m_size : Nat
  m_first_data_block_offset : Nat
  m_file_pointer : Nat
  m_block_num : Nat
  m_block_offset : Nat
  m_block_data_avail : Nat
  m_gcount : Nat
  m_b_failbit : Bool
  m_block_size : Nat
  m_first_data_block_index : Nat

namespace FileGCF

def tell (f : FileGCF) : Nat := f.m_file_pointer

def is_fail (f : FileGCF) : Bool := f.m_b_failbit

def is_eof (f : FileGCF) : Bool := decide (f.m_file_pointer ≥ f.m_size)

def count (f : FileGCF) : Nat := f.m_gcount

def size (f : FileGCF) : Nat := f.m_size

/-- The method `update_block_info`. -/
def update_block_info (f : FileGCF) : Except Fault FileGCF :=
  match f.m_p_package.get_block_index f.m_first_data_block_index f.m_file_pointer with
  | .error e => .error e
  | .ok block_num =>
    if f.m_block_size = 0 then .error .division_by_zero
    else
      let block_offset := f.m_file_pointer % f.m_block_size
      .ok { f with m_block_num := block_num, m_block_offset := block_offset,
                   m_block_data_avail := f.m_block_size - block_offset }

/-- The method `seek(filepos pos)`. -/
def seek (f : FileGCF) (pos : Nat) : Except Fault FileGCF :=
  update_block_info { f with m_file_pointer := min (u32 pos) f.m_size }

/-- The address `m_first_data_block_offset + (m_block_num * m_block_size) + m_block_offset`
as computed in `std::uint32_t` and stored in a `fileoffset`. -/
def fileofs (f : FileGCF) : Int :=
  to_int32 (u32 (u32 (f.m_first_data_block_offset + u32 (f.m_block_num * f.m_block_size)) +
    f.m_block_offset))

/-- One pass through the body of the `while(size)` loop of `read`, entered with `size ≠ 0`:
`none` when the loop is left by `break`, else the handle, the remaining size and the bytes
stored. -/
def read_iteration (f : FileGCF) (size : Nat) : Except Fault (Option (FileGCF × Nat × List Nat)) :=
  let readsize := min f.m_block_data_avail size
  if readsize = 0 then .ok none
  else
    let r := (f.m_stream.seekg f.fileofs).read readsize
    let readsize := r.1.gcount
    let f1 := { f with m_stream := r.1,
                       m_file_pointer := u32 (f.m_file_pointer + readsize),
                       m_block_data_avail := f.m_block_data_avail - readsize,
                       m_block_offset := u32 (f.m_block_offset + readsize) }
    if f1.m_block_data_avail = 0 then
      match f1.m_p_package.get_next_block f1.m_block_num with
      | .error e => .error e
      | .ok b =>
        .ok (some ({ f1 with m_block_num := b,
                             m_block_data_avail :=
                               if b ≥ f1.m_p_package.get_blockcount then 0 else f1.m_block_size,
                             m_block_offset := 0 }, size - readsize, r.2))
    else .ok (some (f1, size - readsize, r.2))

/-- The `while(size)` loop of `read`, run for at most `fuel` iterations; the result is the
handle, `totalread` and the bytes stored in the buffer. -/
def read_loop : Nat → FileGCF → Nat → Nat → List Nat → Except Fault (FileGCF × Nat × List Nat)
  | _, f, 0, totalread, buf => .ok (f, totalread, buf)
  | 0, _, _ + 1, _, _ => .error .out_of_fuel
  | fuel + 1, f, size + 1, totalread, buf =>
    match f.read_iteration (size + 1) with
    | .error e => .error e
    | .ok none => .ok (f, totalread, buf)
    | .ok (some (f1, size1, bytes)) =>
      read_loop fuel f1 size1 (totalread + bytes.length) (buf ++ bytes)

/-- The method `read(p_buffer, size)`, its loop bounded by `fuel` iterations: the handle
afterwards, the returned count and the bytes stored in the buffer. -/
def read (fuel : Nat) (f : FileGCF) (size : Nat) : Except Fault (FileGCF × Nat × List Nat) :=
  if f.is_eof || f.is_fail then .ok (f, 0, [])
  else
    let available := f.m_size - f.m_file_pointer
    read_loop fuel f (if size > available then available else size) 0 []

end FileGCF

/-- The enumeration `adefs::Seek`. -/
inductive Seek where
  | BEGINNING
  | CURRENT
  | END
  deriving DecidableEq, Repr

/-- The method `FileGCF::seek(fileoffset offset, adefs::Seek dir)`. -/
def FileGCF.seek_dir (f : FileGCF) (offset : Int) (dir : Seek) : Except Fault FileGCF :=
  match dir with
  | .BEGINNING => FileGCF.update_block_info { f with m_file_pointer := min (of_int32 offset) f.m_size }
  | .CURRENT =>
    let ofs : Int := to_int32 (of_int32 (to_int32 f.m_file_pointer + offset))
    FileGCF.update_block_info
      { f with m_file_pointer :=
          if ofs < 0 then 0 else if of_int32 ofs > f.m_size then f.m_size else of_int32 ofs }
  | .END => FileGCF.update_block_info { f with m_file_pointer := f.m_size }

/-! ### Reference content of a GCF file -/

/-- The `i`-th block of the chain `b0 = b`, `b(i+1) = frag_map[b(i)]` (an index outside the
map is read as `0`). -/
def gcf_chain (pkg : PackageGCF) (b : Nat) : Nat → Nat
  | 0 => b
  | i + 1 => gcf_chain pkg (pkg.m_frag_map.getD b 0) i

/-- Reference content: the concatenation of `k` data blocks along the chain from `b`, block
`b` lying at `FirstBlockOffset + b * BlockSize` in the package file, each cut to what remains
of `rem` bytes. -/
def gcf_data (pkg : PackageGCF) (file : HostFile) : Nat → Nat → Nat → List Nat
  | 0, _, _ => []
  | k + 1, b, rem =>
    file.slice (pkg.get_first_block_offset + b * pkg.get_blocksize) (min pkg.get_blocksize rem) ++
      gcf_data pkg file k (pkg.m_frag_map.getD b 0) (rem - pkg.get_blocksize)

/-- The number of blocks of a file of `S` bytes, `ceil(S / B)`. -/
def gcf_block_total (B S : Nat) : Nat := (S + B - 1) / B

/-- A handle on a file of `S` bytes whose chain starts at `first`, as the constructor leaves
it apart from the position: fields taken from the package, stream open on the package file and
not failed. -/
structure FileGCF.Attached (f : FileGCF) (pkg : PackageGCF) (file : HostFile) (first S : Nat) :
    Prop where
  package : f.m_p_package = pkg
  stream_file : f.m_stream.file = file
  stream_ok : f.m_stream.failbit = false
  not_failed : f.m_b_failbit = false
  size : f.m_size = S
  block_size : f.m_block_size = pkg.get_blocksize
  first_index : f.m_first_data_block_index = first
  first_offset : f.m_first_data_block_offset = pkg.get_first_block_offset

/-- The preconditions of the read laws: positive block size, a 32-bit size, and every block
of the chain that holds file bytes is an index of the frag map, below `BlockCount`, and lies
inside the package file, which is shorter than `2^31` bytes. -/
structure GCFWellFormed (pkg : PackageGCF) (file : HostFile) (first S : Nat) : Prop where
  block_size_pos : 0 < pkg.get_blocksize
  size_u32 : S < 2 ^ 32
  file_small : file.size < 2 ^ 31
  chain_ok : ∀ i, i * pkg.get_blocksize < S →
    gcf_chain pkg first i < pkg.m_frag_map.length ∧
    gcf_chain pkg first i < pkg.get_blockcount ∧
    pkg.get_first_block_offset + gcf_chain pkg first i * pkg.get_blocksize + pkg.get_blocksize ≤ file.size

/-! ### The scenario of the specification -/

/-- The package of the scenario: block size 4, frag map `[2, 3, 1, 0xFFFFFFFF]`, four blocks,
data blocks starting at offset 100. -/
def scenario_package : PackageGCF := PackageGCF.with_blocks 4 4 100 [2, 3, 1, 0xFFFFFFFF]

/-- A package file of 116 bytes whose byte at position `i` is `i`. -/
def scenario_file : HostFile := ⟨116, fun i => i⟩

/-- A handle of the scenario (first block 0, size 10), positioned anywhere. -/
def scenario_handle : FileGCF :=
  { m_p_package := scenario_package, m_stream := IfStream.opened scenario_file, m_size := 10,
    m_first_data_block_offset := 100, m_file_pointer := 0, m_block_num := 0, m_block_offset := 0,
    m_block_data_avail := 0, m_gcount := 0, m_b_failbit := false, m_block_size := 4,
    m_first_data_block_index := 0 }

/-- What a caller sees of a read: the returned count, the bytes stored, and `tell()`
afterwards. -/
def FileGCF.read_seen (r : Except Fault (FileGCF × Nat × List Nat)) :
    Except Fault (Nat × List Nat × Nat) :=
  r.map (fun x => (x.2.1, x.2.2, x.1.m_file_pointer))

/-- What a pass through the loop body of `read` leaves: the remaining size, the bytes stored,
the file pointer and the `failbit` of the package stream (`none` after `break`). -/
def FileGCF.iteration_seen (r : Except Fault (Option (FileGCF × Nat × List Nat))) :
    Except Fault (Option (Nat × List Nat × Nat × Bool)) :=
  r.map (Option.map (fun x => (x.2.1, x.2.2, x.1.m_file_pointer, x.1.m_stream.failbit)))

/-- A package whose single data block lies at offset `2^31` of the package file. -/
def high_package : PackageGCF := PackageGCF.with_blocks 4 1 (2 ^ 31) [0xFFFFFFFF]

/-- A package file of `2^31 + 4` bytes; byte `i` is `i mod 256`. -/
def high_file : HostFile := ⟨2 ^ 31 + 4, fun i => i % 256⟩

/-- A handle on the 4-byte file stored in the block of `high_package`. -/
def high_handle : FileGCF :=
  { m_p_package := high_package, m_stream := IfStream.opened high_file, m_size := 4,
    m_first_data_block_offset := 2 ^ 31, m_file_pointer := 0, m_block_num := 0,
    m_block_offset := 0, m_block_data_avail := 0, m_gcount := 0, m_b_failbit := false,
    m_block_size := 4, m_first_data_block_index := 0 }

/-- The method `PackageGCF::scan` up to the validation of the header. `open_file` is the host
file named `m_filename`, `none` when it cannot be opened; `scan_rest` stands for the statements
of `scan` after the validation (from the read of the block entry header on), which these
exits never reach. The result is the package afterwards and the returned value. -/
def PackageGCF.scan (open_file : Option HostFile)
    (scan_rest : HostFile → PackageGCF → PackageGCF × Int) (pkg : PackageGCF) :
    PackageGCF × Int :=
  match open_file with
  | none => (pkg, 0)
  | some gcf_file =>
    let filesize := gcf_file.size
    if filesize < sizeof_GCFHeader then (pkg, 0)
    else
      let pkg1 := { pkg with
        m_gcf_header := GCFHeader.decode (gcf_file.slice 0 sizeof_GCFHeader) }
      if pkg1.m_gcf_header.FileSize ≠ filesize then (pkg1, 0)
      else scan_rest gcf_file pkg1

/-- The lookup `sub_directories.find(key)`. -/
def sub_directories_find : List (List Char × DirectoryNode) → List Char → Option DirectoryNode
  | [], _ => none
  | (k, v) :: rest, key => if k = key then some v else sub_directories_find rest key

/-- The node of a package tree reached by a folder path (a list of folder names). -/
def dir_node_at : DirectoryNode → List (List Char) → Option DirectoryNode
  | dn, [] => some dn
  | dn, k :: ks =>
    match sub_directories_find dn.sub_directories k with
    | none => none
    | some child => dir_node_at child ks

/-- The backend of the folder at a path, as a list: empty when there is no such folder or it
has no backend. -/
def tree_backend (dn : DirectoryNode) : Option (List (List Char)) → List Nat
  | none => []
  | some ks =>
    match dir_node_at dn ks with
    | some nd => nd.p_directory.toList
    | none => []

/-- A folder name that is one path segment as stored in the tree: not empty, without `/`,
and in lower case. -/
def is_segment (k : List Char) : Bool := !k.isEmpty && !k.contains '/' && (lower k == k)

mutual

/-- A package tree as a scan builds it: every node has its backend, and the keys of every
`sub_directories` map are path segments and pairwise different. -/
def DirectoryNode.well_keyed : DirectoryNode → Bool
  | .mk d subs => d.isSome && sub_directories_well_keyed subs

/-- The condition of `well_keyed` on a `sub_directories` map. -/
def sub_directories_well_keyed : List (List Char × DirectoryNode) → Bool
  | [] => true
  | (k, child) :: rest =>
    is_segment k && rest.all (fun p => p.1 != k) && child.well_keyed &&
      sub_directories_well_keyed rest

end

/-- The address `addr` relative to the address `base`: `none` when `base` does not lead to
it. -/
def rel_addr : List (List Char) → List (List Char) → Option (List (List Char))
  | [], addr => some addr
  | _ :: _, [] => none
  | p :: ps, a :: as => if p = a then rel_addr ps as else none

/-- An archive tree for examples: the root folder (backend 1) with the folders `maps`
(backend 2, holding `de` with backend 3) and `sound` (backend 4). -/
def example_tree : DirectoryNode :=
  .mk (some 1) [("maps".toList, .mk (some 2) [("de".toList, .mk (some 3) [])]),
    ("sound".toList, .mk (some 4) [])]

/-- A handle attached to its package and positioned at `p`: when `p` is inside the file the
block fields are those of the block that holds byte `p`. -/
structure FileGCF.Positioned (f : FileGCF) (pkg : PackageGCF) (file : HostFile)
    (first S p : Nat) : Prop where
  attached : f.Attached pkg file first S
  pointer : f.m_file_pointer = p
  inside : p ≤ S
  block : p < S → f.m_block_num = gcf_chain pkg first (p / pkg.get_blocksize) ∧
    f.m_block_offset = p % pkg.get_blocksize ∧
    f.m_block_data_avail = pkg.get_blocksize - p % pkg.get_blocksize

/-- Byte `j` of a GCF file: byte `j mod B` of the block reached after `j / B` steps. -/
def gcf_byte (pkg : PackageGCF) (file : HostFile) (first j : Nat) : Nat :=
  file.byte (pkg.get_first_block_offset + gcf_chain pkg first (j / pkg.get_blocksize) * pkg.get_blocksize +
    j % pkg.get_blocksize)

/-- What the children of a folder contribute at an address given relative to the folder. -/
def children_backend (subs : List (List Char × DirectoryNode)) :
    Option (List (List Char)) → List Nat
  | some (k :: ks) =>
    match sub_directories_find subs k with
    | some child => tree_backend child (some ks)
    | none => []
  | _ => []

/-! ## ZIP packages -/

/-- The little-endian 16-bit value stored at `off` in a list of bytes. -/
def le16 (bytes : List Nat) (off : Nat) : Nat :=
  bytes.getD off 0 + 2 ^ 8 * bytes.getD (off + 1) 0

/-- The constant `sizeof_central_dir` (`sizeof(zip_central_dir) - 1`, packed). -/
def sizeof_central_dir : Nat := 18

/-- The constant `sizeof_dir_entry` (`sizeof(zip_dir_entry) - 1`, packed). -/
def sizeof_dir_entry : Nat := 42

/-- The constant `sizeof_zipfile_header` (`sizeof(zip_file_header)`, packed). -/
def sizeof_zipfile_header : Nat := 26

def ZIP_UNCOMPRESSED : Nat := 0

def ZIP_DEFLATED : Nat := 8

/-- The struct `zip_central_dir` without its comment, as `memcpy` fills it from 18 bytes. -/
structure zip_central_dir where
  disk_number : Nat
  central_dir_disk_num : Nat
  dir_entry_count_this_disk : Nat
  dir_entry_count : Nat
  dir_size : Nat
  dir_offset : Nat
  comment_length : Nat
  deriving DecidableEq, Repr

def zip_central_dir.decode (b : List Nat) : zip_central_dir :=
  ⟨le16 b 0, le16 b 2, le16 b 4, le16 b 6, le32 b 8, le32 b 12, le16 b 16⟩

/-- The fields of the struct `zip_dir_entry` that `scan` uses, decoded from its 42 bytes. -/
structure zip_dir_entry where
  compression_method : Nat
  crc : Nat
  size_compressed : Nat
  size_uncompressed : Nat
  filename_size : Nat
  extra_size : Nat
  comment_size : Nat
  file_offset : Nat
  deriving DecidableEq, Repr

def zip_dir_entry.decode (b : List Nat) : zip_dir_entry :=
  ⟨le16 b 6, le32 b 12, le32 b 16, le32 b 20, le16 b 24, le16 b 26, le16 b 28, le32 b 38⟩

/-- The struct `zip_file_header`, decoded from its 26 bytes. -/
structure zip_file_header where
  version : Nat
  flag : Nat
  compression_method : Nat
  dos_date : Nat
  crc : Nat
  size_compressed : Nat
  size_uncompressed : Nat
  filename_size : Nat
  extra_size : Nat
  deriving DecidableEq, Repr

def zip_file_header.decode (b : List Nat) : zip_file_header :=
  ⟨le16 b 0, le16 b 2, le16 b 4, le32 b 6, le32 b 10, le32 b 14, le32 b 18, le16 b 22,
    le16 b 24⟩

/-- The struct `FileInfo` of `package_zip`; the four `std::int32_t` fields are integers. -/
structure ZipFileInfo where
  size_compressed : Int
  size_uncompressed : Int
  file_offset : Int
  dir_entry_file_offset : Int
  crc : Nat
  compression_method : Nat
  deriving DecidableEq, Repr

/-- The class `DirectoryZIP`: the map `m_files` from lower-cased name to file id. -/
structure DirectoryZIP where
  m_files : List (List Char × Int)
  deriving DecidableEq, Repr

namespace DirectoryZIP

/-- The lookup `m_files.find(name)`. -/
def files_find : List (List Char × Int) → List Char → Option Int
  | [], _ => none
  | (k, v) :: rest, name => if k = name then some v else files_find rest name

/-- The assignment `m_files[name] = id`. -/
def files_set : List (List Char × Int) → List Char → Int → List (List Char × Int)
  | [], name, id => [(name, id)]
  | (k, v) :: rest, name, id =>
    if k = name then (name, id) :: rest else (k, v) :: files_set rest name id

/-- The method `DirectoryZIP::add_file`. -/
def add_file (d : DirectoryZIP) (filename : List Char) (id : Int) : DirectoryZIP :=
  if filename ≠ [] ∧ id ≥ 0 then ⟨files_set d.m_files (lower filename) id⟩ else d

/-- The method `DirectoryZIP::get_file_id`. -/
def get_file_id (d : DirectoryZIP) (filename : List Char) : Int :=
  match files_find d.m_files (lower filename) with
  | some id => id
  | none => -1

/-- The method `DirectoryZIP::file_exists`. -/
def file_exists (d : DirectoryZIP) (filename : List Char) : Bool :=
  (files_find d.m_files (lower filename)).isSome

end DirectoryZIP

/-- The class `PackageZIP`. The `DirectoryZIP` objects it has made are kept in `m_backends`;
the address of a backend, as held by `p_directory`, is its index there. -/
structure PackageZIP where
  m_filename : List Char
  m_file_info : List ZipFileInfo
  m_root_directory : DirectoryNode
  m_backends : List DirectoryZIP

namespace PackageZIP

/-- The constructor `PackageZIP(filename)`. -/
def new (filename : List Char) : PackageZIP := ⟨filename, [], DirectoryNode.mk none [], []⟩

/-- The method `get_file_info(id)`; `none` is `nullptr`. -/
def get_file_info (pkg : PackageZIP) (id : Int) : Option ZipFileInfo :=
  if id ≥ 0 ∧ id < to_int32 pkg.m_file_info.length then pkg.m_file_info.get? id.toNat else none

end PackageZIP

/-- The assignment `sub_directories[key] = node`. -/
def sub_directories_set :
    List (List Char × DirectoryNode) → List Char → DirectoryNode →
      List (List Char × DirectoryNode)
  | [], key, node => [(key, node)]
  | (k, v) :: rest, key, node =>
    if k = key then (key, node) :: rest else (k, v) :: sub_directories_set rest key node

/-- The suffix of a string from its first character other than `/`
(`find_first_not_of("/")`; the empty suffix is `npos`). -/
def skip_slashes : List Char → List Char
  | [] => []
  | c :: cs => if c = '/' then skip_slashes cs else c :: cs

/-- The descent of `PackageZIP::get_directory` from the node `node`; `rest` is the part of
`dirs` from `pos` on (empty for `npos`). The result is the node and the backends afterwards
and the returned pointer, as the folder names leading to it from `node` (`none` is
`nullptr`). A node made here gets a new `DirectoryZIP`, whose address is the next index of
`m_backends`. -/
def get_directory_go : (n : Nat) → List DirectoryZIP → DirectoryNode → (rest : List Char) →
    rest.length < n → Bool → DirectoryNode × List DirectoryZIP × Option (List (List Char))
  | 0, _, _, _, h, _ => absurd h (Nat.not_lt_zero _)
  | n + 1, backends, node, rest, h, b_create =>
    if hr : rest = [] then (node, backends, some [])
    else
      match hf : find_first_of rest with
      | none =>
        -- `dir = dirs.substr(pos); pos = npos`
        have hdec : ([] : List Char).length < n := by
          have := List.length_pos.mpr hr
          simp only [List.length_nil]; omega
        match sub_directories_find node.sub_directories rest with
        | some child =>
          let r := get_directory_go n backends child [] hdec b_create
          (.mk node.p_directory (sub_directories_set node.sub_directories rest r.1), r.2.1,
            r.2.2.map (fun a => rest :: a))
        | none =>
          if b_create then
            let r := get_directory_go n (backends ++ [⟨[]⟩])
              (.mk (some backends.length) []) [] hdec b_create
            (.mk node.p_directory (sub_directories_set node.sub_directories rest r.1), r.2.1,
              r.2.2.map (fun a => rest :: a))
          else (node, backends, none)
      | some pos2 =>
        -- `dir = dirs.substr(pos, pos2 - pos); pos = dirs.find_first_not_of("/", pos2)`
        let dir := rest.take pos2
        let next := skip_slashes (rest.drop pos2)
        if hd : dir = [] then
          (if next ≠ [] then (node, backends, none) else (node, backends, some []))
        else
          have hdec : (skip_slashes (rest.drop pos2)).length < n := by
            have hlen := List.length_pos.mpr hr
            have h0 : pos2 ≠ 0 := by
              intro h0
              apply hd
              simp [dir, h0]
            have h1 : ∀ l : List Char, (skip_slashes l).length ≤ l.length := by
              intro l
              induction l with
              | nil => simp [skip_slashes]
              | cons c cs ih =>
                simp only [skip_slashes]
                split
                · simp only [List.length_cons]; omega
                · exact Nat.le_refl _
            have h2 := h1 (rest.drop pos2)
            rw [List.length_drop] at h2
            omega
          match sub_directories_find node.sub_directories dir with
          | some child =>
            let r := get_directory_go n backends child next hdec b_create
            (.mk node.p_directory (sub_directories_set node.sub_directories dir r.1), r.2.1,
              r.2.2.map (fun a => dir :: a))
          | none =>
            if b_create then
              let r := get_directory_go n (backends ++ [⟨[]⟩])
                (.mk (some backends.length) []) next hdec b_create
              (.mk node.p_directory (sub_directories_set node.sub_directories dir r.1), r.2.1,
                r.2.2.map (fun a => dir :: a))
            else (node, backends, none)

namespace PackageZIP

/-- The method `PackageZIP::get_directory(path, b_create)`: the package afterwards and the
returned pointer. -/
def get_directory (pkg : PackageZIP) (path : List Char) (b_create : Bool) :
    PackageZIP × Option (List (List Char)) :=
  let dirs := lower path
  let r := get_directory_go ((skip_slashes dirs).length + 1) pkg.m_backends pkg.m_root_directory
    (skip_slashes dirs) (Nat.lt_succ_self _) b_create
  ({ pkg with m_root_directory := r.1, m_backends := r.2.1 }, r.2.2)

/-- The backend held by the node of the tree at a folder path. -/
def backend_of (pkg : PackageZIP) (ks : List (List Char)) : Option Nat :=
  match dir_node_at pkg.m_root_directory ks with
  | some nd => nd.p_directory
  | none => none

/-- The backend at address `a` after `add_file(filename, id)` on it. -/
def backends_add_file (backends : List DirectoryZIP) (a : Nat) (filename : List Char)
    (id : Int) : List DirectoryZIP :=
  match backends.get? a with
  | some d => backends.set a (d.add_file filename id)
  | none => backends

/-- The method `PackageZIP::add_file(path, info)`: the package afterwards and the returned
id. -/
def add_file (pkg : PackageZIP) (path : List Char) (info : ZipFileInfo) : PackageZIP × Int :=
  let located : PackageZIP × Option Nat × List Char :=
    match find_last_of path with
    | none => (pkg, pkg.m_root_directory.p_directory, path)
    | some pos =>
      let r := pkg.get_directory (path.take pos) true
      match r.2 with
      | some ks => (r.1, r.1.backend_of ks, path.drop (pos + 1))
      | none => (r.1, none, [])
  match located with
  | (pkg1, none, _) => (pkg1, -1)
  | (pkg1, some p_dir, filename) =>
    if filename = [] then (pkg1, -1)
    else
      let file_id : Int := to_int32 pkg1.m_file_info.length
      ({ pkg1 with m_file_info := pkg1.m_file_info ++ [info],
                   m_backends := backends_add_file pkg1.m_backends p_dir filename file_id },
        file_id)

end PackageZIP

/-- Whether the bytes `50 4B 05 06` stand at index `i` of the buffer. -/
def eocd_at (buffer : List Nat) (i : Nat) : Bool :=
  buffer.getD i 0 == 0x50 && buffer.getD (i + 1) 0 == 0x4B && buffer.getD (i + 2) 0 == 0x05 &&
    buffer.getD (i + 3) 0 == 0x06

/-- The search of `scan` for the bytes `50 4B 05 06`: the loop
`for(i = start; (i >= 0) && !found; --i, --pdata)`, here over `i = count - 1, ..., 0`; the
result is the index at which the signature was found. -/
def find_eocd (buffer : List Nat) : Nat → Option Nat
  | 0 => none
  | i + 1 => if eocd_at buffer i then some i else find_eocd buffer i

/-- A `std::string` made of the given bytes. -/
def string_of_bytes (bytes : List Nat) : List Char := bytes.map Char.ofNat

/-- The `FileInfo` that `scan` fills in for a central-directory record with the given
`file_offset`, read at `direntry_file_offset`, and the local header `fileheader`. -/
def scan_info (file_offset direntry_file_offset : Nat) (fileheader : zip_file_header) :
    ZipFileInfo :=
  { compression_method := fileheader.compression_method,
    crc := fileheader.crc,
    file_offset := to_int32 (file_offset + sizeof_zipfile_header + 4 +
      fileheader.filename_size + fileheader.extra_size),
    dir_entry_file_offset := to_int32 direntry_file_offset,
    size_compressed := to_int32 fileheader.size_compressed,
    size_uncompressed := to_int32 fileheader.size_uncompressed }

/-- The state of the `do ... while(!finished)` loop of `scan`: the stream, `offset`, the 26
bytes of `fileheader` and the package. -/
structure ZipWalk where
  zip_file : IfStream
  offset : Nat
  fileheader : List Nat
  pkg : PackageZIP

/-- One pass through the body of the `do ... while(!finished)` loop of `scan`: the state
afterwards and `finished`. -/
def ZipWalk.step (w : ZipWalk) : ZipWalk × Bool :=
  let r1 := (w.zip_file.seekg w.offset).read 4
  if !r1.1.failbit && r1.2 == [0x50, 0x4B, 1, 2] then
    let direntry_file_offset := u32 r1.1.pos
    let r2 := r1.1.read sizeof_dir_entry
    if !r2.1.failbit then
      let direntry := zip_dir_entry.decode r2.2
      let r3 := r2.1.read direntry.filename_size
      let filename := string_of_bytes
        (r3.2 ++ List.replicate (direntry.filename_size - r3.2.length) 0)
      let r4 := (r3.1.seekg direntry.file_offset).read 4
      let offset := u32 (w.offset + (sizeof_dir_entry + 4 + direntry.filename_size +
        direntry.extra_size + direntry.comment_size))
      if !r4.1.failbit && r4.2 == [0x50, 0x4B, 3, 4] then
        let r5 := r4.1.read sizeof_zipfile_header
        let fileheader_bytes := r5.2 ++ w.fileheader.drop r5.2.length
        let fileheader := zip_file_header.decode fileheader_bytes
        if fileheader.size_uncompressed ≠ 0 then
          let info := scan_info direntry.file_offset direntry_file_offset fileheader
          (⟨r5.1, offset, fileheader_bytes, (w.pkg.add_file filename info).1⟩, false)
        else (⟨r5.1, offset, fileheader_bytes, w.pkg⟩, false)
      else (⟨r4.1, offset, w.fileheader, w.pkg⟩, true)
    else (⟨r2.1, w.offset, w.fileheader, w.pkg⟩, true)
  else (⟨r1.1, w.offset, w.fileheader, w.pkg⟩, true)

/-- The `do ... while(!finished)` loop of `scan`, run for at most `fuel` passes. -/
def ZipWalk.run : Nat → ZipWalk → Except Fault ZipWalk
  | 0, _ => .error .out_of_fuel
  | fuel + 1, w =>
    let r := w.step
    if r.2 then .ok r.1 else ZipWalk.run fuel r.1

/-- The start of `PackageZIP::scan`: the sub-directories of the root are cleared and the root
gets a new, empty `DirectoryZIP`. -/
def PackageZIP.scan_reset (pkg : PackageZIP) : PackageZIP :=
  { pkg with m_root_directory := .mk (some pkg.m_backends.length) [],
             m_backends := pkg.m_backends ++ [⟨[]⟩] }

/-- The part of `PackageZIP::scan` that loads the central directory header from the opened
file: `none` when `scan` returns before the header is found, otherwise the stream and
`central_dir`. -/
def PackageZIP.locate_central_dir (file : HostFile) :
    Except Fault (Option (IfStream × zip_central_dir)) :=
  let filesize := file.size
  if filesize < sizeof_central_dir then .ok none
  else
    let buffsize : Int := min (to_int32 filesize) (0x0FFFF + sizeof_central_dir + 4 : Nat)
    -- `std::vector<char> buffer(buffsize+4)` throws on a negative size
    if buffsize + 4 < 0 then .error .exception
    else
      let r := ((IfStream.opened file).seekg_end (-buffsize)).read buffsize.toNat
      let buffer := r.2 ++ List.replicate (buffsize.toNat + 4 - r.2.length) 0
      match find_eocd buffer (buffsize - sizeof_central_dir + 1).toNat with
      | none => .ok none
      | some i =>
        .ok (some (r.1, zip_central_dir.decode ((buffer.drop (i + 4)).take sizeof_central_dir)))

/-- The part of `PackageZIP::scan` that follows the loading of `central_dir`. `garbage` is
the content of the local `fileheader` before it is first read into. -/
def PackageZIP.scan_central_dir (zip_file : IfStream) (central_dir : zip_central_dir)
    (garbage : List Nat) (fuel : Nat) (pkg : PackageZIP) : Except Fault (PackageZIP × Int) :=
  if central_dir.disk_number ≠ 0 ∨ central_dir.central_dir_disk_num ≠ 0 then .ok (pkg, 0)
  else if central_dir.dir_entry_count ≠ 0 then
    match ZipWalk.run fuel ⟨zip_file, central_dir.dir_offset, garbage, pkg⟩ with
    | .error e => .error e
    | .ok w => .ok (w.pkg, 0)
  else .ok (pkg, 0)

/-- The method `PackageZIP::scan`. `open_file` is the host file named `m_filename` (`none`
when it cannot be opened), `garbage` the 26 bytes that the local `fileheader` holds before it
is first read into, and `fuel` bounds the passes of the walk. The result is the package
afterwards and the returned value. -/
def PackageZIP.scan (open_file : Option HostFile) (garbage : List Nat) (fuel : Nat)
    (pkg : PackageZIP) : Except Fault (PackageZIP × Int) :=
  match open_file with
  | none => .ok (pkg.scan_reset, 0)
  | some file =>
    match PackageZIP.locate_central_dir file with
    | .error e => .error e
    | .ok none => .ok (pkg.scan_reset, 0)
    | .ok (some (zip_file, central_dir)) =>
      PackageZIP.scan_central_dir zip_file central_dir garbage fuel pkg.scan_reset

/-- A value computed in `int`: outside the 32-bit range the behaviour is undefined. -/
def int32_of (i : Int) : Except Fault Int :=
  if -(2 ^ 31) ≤ i ∧ i < 2 ^ 31 then .ok i else .error .signed_overflow

/-- The class `FileInMemory`. -/
structure FileInMemory where
  m_data : List Nat
  m_count : Nat
  m_mode : Nat
  m_position : Nat
  m_b_fail : Bool
  deriving DecidableEq, Repr

namespace FileInMemory

/-- The constructor `FileInMemory(mode)`. -/
def with_mode (mode : Nat) : FileInMemory := ⟨[], 0, mode, 0, false⟩

/-- The method `resize`: `m_data.resize(size)`. -/
def resize (f : FileInMemory) (size : Nat) : FileInMemory :=
  { f with m_data := f.m_data.take size ++ List.replicate (size - f.m_data.length) 0 }

/-- The method `size`. -/
def size (f : FileInMemory) : Nat := f.m_data.length

end FileInMemory

/-- The class `FileZIPStore` once `m_zip_file` is open. -/
structure FileZIPStore where
  m_fileinfo : ZipFileInfo
  m_zip_file : IfStream
  m_count : Nat

namespace FileZIPStore

/-- The method `is_fail`. -/
def is_fail (f : FileZIPStore) : Bool := f.m_zip_file.failbit

/-- The method `size`: the `std::int32_t` field converted to `size_t`. -/
def size (f : FileZIPStore) : Nat := (f.m_fileinfo.size_uncompressed % 2 ^ 64).toNat

/-- The method `tell`, computed in `size_t`. -/
def tell (f : FileZIPStore) : Nat :=
  ((f.m_zip_file.tellg - f.m_fileinfo.file_offset) % 2 ^ 64).toNat

/-- The method `is_eof`; the sum is computed in `int`. -/
def is_eof (f : FileZIPStore) : Except Fault Bool := do
  let limit ← int32_of (f.m_fileinfo.file_offset + f.m_fileinfo.size_uncompressed)
  pure (decide (f.m_zip_file.tellg ≥ limit))

/-- The method `seek(filepos pos)`; the sum is computed in `unsigned int`. -/
def seek (f : FileZIPStore) (pos : Nat) : FileZIPStore :=
  { f with m_zip_file := f.m_zip_file.seekg (u32 (of_int32 f.m_fileinfo.file_offset + pos)) }

/-- The clamping of `pos` in the cases `CURRENT` and `END` of `seek(offset, dir)`. -/
def clamp (f : FileZIPStore) (pos : Int) : Int :=
  if pos < 0 then 0
  else if pos > f.m_fileinfo.size_uncompressed then f.m_fileinfo.size_uncompressed
  else pos

/-- The method `seek(fileoffset offset, adefs::Seek dir)`; the sums are computed in `int`. -/
def seek_dir (f : FileZIPStore) (offset : Int) (dir : Seek) : Except Fault FileZIPStore :=
  match dir with
  | .BEGINNING => do
    let target ← int32_of (f.m_fileinfo.file_offset + offset)
    pure { f with m_zip_file := f.m_zip_file.seekg target }
  | .CURRENT => do
    let pos ← int32_of (to_int32 (f.tell % 2 ^ 32) + offset)
    let target ← int32_of (f.m_fileinfo.file_offset + f.clamp pos)
    pure { f with m_zip_file := f.m_zip_file.seekg target }
  | .END => do
    let pos ← int32_of (f.m_fileinfo.size_uncompressed - offset)
    let target ← int32_of (f.m_fileinfo.file_offset + f.clamp pos)
    pure { f with m_zip_file := f.m_zip_file.seekg target }

/-- The method `read`: the handle afterwards, the returned count and the bytes stored in the
buffer. -/
def read (f : FileZIPStore) (size : Nat) : Except Fault (FileZIPStore × Nat × List Nat) :=
  if f.is_fail then .ok (f, 0, [])
  else do
    let eof ← f.is_eof
    if eof then pure (f, 0, [])
    else
      let pos := to_int32 (f.m_zip_file.tellg % 2 ^ 32).toNat
      if pos < f.m_fileinfo.file_offset then pure (f, 0, [])
      else do
        let used ← int32_of (pos - f.m_fileinfo.file_offset)
        let left ← int32_of (f.m_fileinfo.size_uncompressed - used)
        let avail := (left % 2 ^ 64).toNat
        let r := f.m_zip_file.read (if size > avail then avail else size)
        pure ({ f with m_zip_file := r.1 }, r.1.gcount, r.2)

/-- The construction of a `FileZIPStore` followed by `open`, as `PackageZIP::openfile` does
it. `garbage` is the content of `m_fileinfo`, which the constructor leaves uninitialised, and
`archive` the host file named `zip_filename` (`none` when it cannot be opened). The result is
`none` when `open` returns `-1`. -/
def open_ (garbage : ZipFileInfo) (archive : Option HostFile) (fileinfo : ZipFileInfo)
    (mode : Nat) : Except Fault (Option FileZIPStore) :=
  if fileinfo.compression_method ≠ ZIP_UNCOMPRESSED then .ok none
  else
    match archive with
    | none => .ok none
    | some file => do
      let f : FileZIPStore := ⟨garbage, IfStream.opened file, 0⟩
      let f ← f.seek_dir 0 (if mode &&& MODE_AT_END ≠ 0 then Seek.END else Seek.BEGINNING)
      pure (some { f with m_fileinfo := fileinfo })

end FileZIPStore

/-- The handles that `PackageZIP::openfile` returns. -/
inductive ZipHandle where
  | stored (f : FileZIPStore)
  | memory (f : FileInMemory)

/-- The method `size` of a handle. -/
def ZipHandle.size : ZipHandle → Nat
  | .stored f => f.size
  | .memory f => f.size

/-- The method `PackageZIP::openfile(id, mode)`. `archive` is the host file named
`m_filename` (`none` when it cannot be opened) and `garbage` the uninitialised content of a
new `FileZIPStore`. `inflate` does nothing, since `PKGZIP_INFLATE_ZLIB` is not defined. -/
def PackageZIP.openfile (archive : Option HostFile) (garbage : ZipFileInfo) (pkg : PackageZIP)
    (id : Int) (mode : Nat) : Except Fault (Option ZipHandle) :=
  match pkg.get_file_info id with
  | none => .ok none
  | some info =>
    if info.compression_method = ZIP_UNCOMPRESSED then do
      let r ← FileZIPStore.open_ garbage archive info mode
      pure (r.map ZipHandle.stored)
    else if info.compression_method = ZIP_DEFLATED then
      match archive with
      | none => .ok none
      | some file =>
        -- `std::vector<char> data(size_compressed)` throws on a negative size, outside `try`
        if info.size_compressed < 0 then .error .exception
        else
          -- with `size_compressed = 0` the address `&data[0]` is passed on and no byte is stored
          let r := ((IfStream.opened file).seekg info.file_offset).read info.size_compressed.toNat
          if (r.1.gcount : Int) = info.size_compressed then
            -- `resize` throws on a negative size, inside `try`
            if info.size_uncompressed < 0 then .ok none
            else .ok (some (.memory
              ((FileInMemory.with_mode MODE_READ).resize info.size_uncompressed.toNat)))
          else .ok none
    else .ok none

/-! ## Example archives -/

/-- The two bytes of a 16-bit value, low byte first. -/
def bytes16 (n : Nat) : List Nat := [n % 256, n / 256 % 256]

/-- The four bytes of a 32-bit value, low byte first. -/
def bytes32 (n : Nat) : List Nat := [n % 256, n / 256 % 256, n / 65536 % 256, n / 16777216 % 256]

/-- The bytes of a text. -/
def bytes_of (s : String) : List Nat := s.toList.map Char.toNat

/-- A local file record: signature, header, name and data. -/
def zip_local (name : List Nat) (method size_compressed size_uncompressed : Nat)
    (data : List Nat) : List Nat :=
  [0x50, 0x4B, 3, 4] ++ bytes16 20 ++ bytes16 0 ++ bytes16 method ++ bytes32 0 ++ bytes32 0 ++
    bytes32 size_compressed ++ bytes32 size_uncompressed ++ bytes16 name.length ++ bytes16 0 ++
    name ++ data

/-- A central-directory record for the local record at `offset`. -/
def zip_entry (name : List Nat) (method size_compressed size_uncompressed offset : Nat) :
    List Nat :=
  [0x50, 0x4B, 1, 2] ++ bytes16 20 ++ bytes16 20 ++ bytes16 0 ++ bytes16 method ++ bytes32 0 ++
    bytes32 0 ++ bytes32 size_compressed ++ bytes32 size_uncompressed ++ bytes16 name.length ++
    bytes16 0 ++ bytes16 0 ++ bytes16 0 ++ bytes16 0 ++ bytes32 0 ++ bytes32 offset ++ name

/-- An end-of-central-directory record without comment. -/
def zip_eocd (disk_number central_dir_disk_num dir_entry_count dir_size dir_offset : Nat) :
    List Nat :=
  [0x50, 0x4B, 5, 6] ++ bytes16 disk_number ++ bytes16 central_dir_disk_num ++
    bytes16 dir_entry_count ++ bytes16 dir_entry_count ++ bytes32 dir_size ++
    bytes32 dir_offset ++ bytes16 0

/-- An archive of 209 bytes: 90 bytes of padding, the stored file `note.txt` with content
`hello` (local record at 90, data at 128), its central-directory record at 133 and the
end-of-central-directory record at 187. -/
def note_archive : HostFile :=
  HostFile.ofList (List.replicate 90 0 ++
    zip_local (bytes_of "note.txt") 0 5 5 (bytes_of "hello") ++
    zip_entry (bytes_of "note.txt") 0 5 5 90 ++
    zip_eocd 0 0 1 54 133)

/-- The archive `note_archive` with `disk_number = 1` in its last record. -/
def split_archive : HostFile :=
  HostFile.ofList (List.replicate 90 0 ++
    zip_local (bytes_of "note.txt") 0 5 5 (bytes_of "hello") ++
    zip_entry (bytes_of "note.txt") 0 5 5 90 ++
    zip_eocd 1 0 1 54 133)

/-- An archive that announces one entry (`dir_entry_count = 1`) and holds two contiguous
central-directory records: `a.txt` (local record at 0, data `A` at 35) and `b.txt` (local
record at 36, data `B` at 71); the central directory starts at 72. -/
def two_record_archive : HostFile :=
  HostFile.ofList (
    zip_local (bytes_of "a.txt") 0 1 1 (bytes_of "A") ++
    zip_local (bytes_of "b.txt") 0 1 1 (bytes_of "B") ++
    zip_entry (bytes_of "a.txt") 0 1 1 0 ++
    zip_entry (bytes_of "b.txt") 0 1 1 36 ++
    zip_eocd 0 0 1 51 72)

/-- The 26 bytes of an uninitialised `fileheader`, here all zero. -/
def zero_fileheader : List Nat := List.replicate 26 0

/-- Whether the bytes `50 4B 05 06` stand at position `q` of the file. -/
def file_eocd_at (file : HostFile) (q : Nat) : Bool :=
  file.byte q == 0x50 && file.byte (q + 1) == 0x4B && file.byte (q + 2) == 0x05 &&
    file.byte (q + 3) == 0x06

/-- A file of `2 ^ 31 + 22` bytes: zeros, then an end-of-central-directory record without
comment in the last 22 bytes. -/
def far_archive : HostFile :=
  ⟨2 ^ 31 + 22, fun i => if i < 2 ^ 31 then 0 else (zip_eocd 0 0 0 0 0).getD (i - 2 ^ 31) 0⟩

/-- The state of the walk over `two_record_archive` at its second record, after the first
has been registered in `pkg`. -/
def second_record_walk (pkg : PackageZIP) : ZipWalk :=
  ⟨⟨two_record_archive, 30, false, false, 26⟩, 123, zero_fileheader, pkg⟩

/-- An archive of 111 bytes with one deflated entry `a.txt` whose local header announces
1000 compressed bytes (42 uncompressed) at data offset 35, although only 76 bytes follow. -/
def truncated_archive : HostFile :=
  HostFile.ofList (
    zip_local (bytes_of "a.txt") 8 1000 42 [1, 2, 3] ++
    zip_entry (bytes_of "a.txt") 8 1000 42 0 ++
    zip_eocd 0 0 1 51 38)

/-- An archive of 108 bytes with one deflated entry `a.txt` whose local header announces no
compressed byte and 42 uncompressed bytes, at data offset 35. -/
def empty_deflated_archive : HostFile :=
  HostFile.ofList (
    zip_local (bytes_of "a.txt") 8 0 42 [] ++
    zip_entry (bytes_of "a.txt") 8 0 42 0 ++
    zip_eocd 0 0 1 51 35)

/-- The package that `scan` makes of `empty_deflated_archive`. -/
def empty_deflated_package : PackageZIP :=
  ⟨[], [⟨0, 42, 35, 39, 0, 8⟩], .mk (some 0) [], [⟨[("a.txt".toList, 0)]⟩]⟩

/-- The package that `scan` makes of `note_archive`. -/
def note_package : PackageZIP :=
  ⟨[], [⟨5, 5, 128, 137, 0, 0⟩], .mk (some 0) [], [⟨[("note.txt".toList, 0)]⟩]⟩

/-- An uninitialised `FileInfo` that happens to hold zeros. -/
def zero_info : ZipFileInfo := ⟨0, 0, 0, 0, 0, 0⟩

/-- A file of `2 ^ 31 + 4` bytes whose byte at position `i` is `i % 256`. -/
def far_data_archive : HostFile := ⟨2 ^ 31 + 4, fun i => i % 256⟩

/-- A stored handle on the entry of `far_data_archive` with data offset `2 ^ 31` and size 4:
`scan` stores the offset in a `std::int32_t`. -/
def far_handle : FileZIPStore :=
  ⟨⟨4, 4, to_int32 (2 ^ 31), 0, 0, 0⟩, IfStream.opened far_data_archive, 0⟩

/-- A stored handle on the entry `note.txt` of `note_archive`. -/
def note_handle : FileZIPStore := ⟨⟨5, 5, 128, 137, 0, 0⟩, IfStream.opened note_archive, 0⟩

/-- The call `get()` of a `std::ifstream`: the stream afterwards and the returned value, `-1`
being `EOF`; a byte is returned as an `unsigned char`. -/
def IfStream.get (s : IfStream) : IfStream × Int :=
  if s.failbit || s.eofbit then ({ s with failbit := true, gcount := 0 }, -1)
  else if s.pos < s.file.size then
    ({ s with pos := s.pos + 1, gcount := 1 }, (s.file.byte s.pos : Int))
  else ({ s with failbit := true, eofbit := true, gcount := 0 }, -1)

/-- The method `FileGCF::get`: the handle afterwards and the returned value (`-1` is `EOF`). -/
def FileGCF.get (f : FileGCF) : Except Fault (FileGCF × Int) :=
  if f.is_eof then .ok (f, -1)
  else
    let f1 := { f with m_stream := f.m_stream.seekg f.fileofs,
                       m_file_pointer := u32 (f.m_file_pointer + 1) }
    if f1.m_block_data_avail > 1 then
      let r := f1.m_stream.get
      .ok ({ f1 with m_block_data_avail := f1.m_block_data_avail - 1,
                     m_block_offset := u32 (f1.m_block_offset + 1), m_stream := r.1 }, r.2)
    else
      match f1.m_p_package.get_next_block f1.m_block_num with
      | .error e => .error e
      | .ok b =>
        let r := f1.m_stream.get
        .ok ({ f1 with m_block_num := b,
                       m_block_data_avail :=
                         if b ≥ f1.m_p_package.get_blockcount then 0 else f1.m_block_size,
                       m_block_offset := 0, m_stream := r.1 }, r.2)

/-- A 32-bit value: what a `std::uint32_t` can hold. -/
def is_u32 (n : Nat) : Bool := decide (n < 2 ^ 32)

namespace FileInMemory

/-- The constructor `FileInMemory(mode, p_data, size)`, with `p_data` the given bytes. -/
def with_data (mode : Nat) (data : List Nat) : FileInMemory :=
  if data ≠ [] ∧ mode &&& MODE_TRUNCATE = 0 then
    ⟨data, 0, mode,
      if mode &&& (MODE_APPEND ||| MODE_AT_END) ≠ 0 then u32 data.length else 0, false⟩
  else ⟨[], 0, mode, 0, false⟩

/-- The method `is_fail`. -/
def is_fail (f : FileInMemory) : Bool := f.m_b_fail

/-- The method `is_eof`: `m_position > m_data.size()`. -/
def is_eof (f : FileInMemory) : Bool := decide (f.m_position > f.m_data.length)

/-- The method `count`. -/
def count (f : FileInMemory) : Nat := f.m_count

/-- The method `get`: the handle afterwards and the returned value; a byte is returned as a
`char`, signed on the usual platforms. -/
def get (f : FileInMemory) : FileInMemory × Int :=
  if f.m_position ≥ f.m_data.length then ({ f with m_count := 0 }, 0)
  else
    let b := f.m_data.getD f.m_position 0
    ({ f with m_position := u32 (f.m_position + 1), m_count := 1 },
      if b < 128 then (b : Int) else (b : Int) - 256)

/-- The method `read(p_buffer, size)` with a buffer that is not null: the handle afterwards,
the returned count and the bytes stored in the buffer. -/
def read (f : FileInMemory) (size : Nat) : FileInMemory × Nat × List Nat :=
  if size ≠ 0 ∧ f.m_mode &&& MODE_READ ≠ 0 ∧ f.m_position < f.m_data.length then
    let sz := min size (f.m_data.length - f.m_position)
    ({ f with m_count := sz }, sz, (f.m_data.drop f.m_position).take sz)
  else ({ f with m_count := 0 }, 0, [])

/-- The method `write(p_data, size)` with the given bytes. -/
def write (f : FileInMemory) (data : List Nat) : FileInMemory :=
  if data ≠ [] ∧ f.m_mode &&& MODE_WRITE ≠ 0 then
    let position := if f.m_position > f.m_data.length then u32 f.m_data.length else f.m_position
    let old := f.m_data ++ List.replicate (position + data.length - f.m_data.length) 0
    { f with m_position := position,
             m_data := old.take position ++ data ++ old.drop (position + data.length) }
  else f

/-- The method `ignore`, which does nothing. -/
def ignore (f : FileInMemory) (_count : Nat) (_delimeter : Int) : FileInMemory := f

/-- The method `seek(filepos pos)`. -/
def seek (f : FileInMemory) (pos : Nat) : FileInMemory := { f with m_position := u32 pos }

/-- The method `seek(fileoffset, adefs::Seek)`, which does nothing. -/
def seek_dir (f : FileInMemory) (_offset : Int) (_dir : Seek) : FileInMemory := f

/-- The method `tell`, which returns 0. -/
def tell (_f : FileInMemory) : Nat := 0

end FileInMemory

/-- The memory handle that `PackageZIP::openfile` returns for a deflated entry of 42
uncompressed bytes. -/
def deflated_handle : FileInMemory := (FileInMemory.with_mode MODE_READ).resize 42

/-- The part of the interface `IFile` that `load` calls, for handles of type `H`: `read`
gives the handle afterwards, the returned count and the bytes stored in the buffer. -/
structure IFile (H : Type) where
  is_eof : H → Except Fault Bool
  is_fail : H → Bool
  read : H → Nat → Except Fault (H × Nat × List Nat)

/-- The loop of `MountPoint::load(filename, func, p_buffer, buffer_size)`, run for at most
`fuel` passes: the returned `size` and the calls of `func`, each with its offset (a
`fileoffset`) and the bytes handed over. -/
def load_loop {H : Type} (file : IFile H) (buffer_size : Nat) :
    Nat → H → Nat → List (Int × List Nat) → Except Fault (Nat × List (Int × List Nat))
  | 0, _, _, _ => .error .out_of_fuel
  | fuel + 1, p_file, size, calls =>
    match file.is_eof p_file with
    | .error e => .error e
    | .ok true => .ok (size, calls)
    | .ok false =>
      if file.is_fail p_file then .ok (size, calls)
      else
        match file.read p_file buffer_size with
        | .error e => .error e
        | .ok (p_file1, sizeread, bytes) =>
          -- `ssize_t sizeread`; `EOF` is `-1`
          if sizeread % 2 ^ 64 ≠ 2 ^ 64 - 1 ∧ sizeread ≠ 0 then
            load_loop file buffer_size fuel p_file1 ((size + sizeread) % 2 ^ 64)
              (calls ++ [(to_int32 size, bytes)])
          else load_loop file buffer_size fuel p_file1 size calls

/-- The method `MountPoint::load(filename, func, p_buffer, buffer_size)`, its loop bounded by
`fuel` passes; the file is opened with the default mode `MODE_READ`. -/
def MountPoint.load {H : Type} (file : IFile H) (lock : Nat → Option (IDirectory H))
    (mp : MountPoint) (filename : List Char) (buffer_size fuel : Nat) :
    Except Fault (Nat × List (Int × List Nat)) :=
  match (mp.openfile lock filename MODE_READ).1 with
  | none => .ok (0, [])
  | some p_file => load_loop file buffer_size fuel p_file 0 []

/-- The `IFile` methods of `FileInMemory`. -/
def FileInMemory.ifile : IFile FileInMemory :=
  ⟨fun f => .ok f.is_eof, fun f => f.is_fail, fun f n => .ok (f.read n)⟩

/-- The `IFile` methods of `FileGCF`, the loop of `read` bounded by `fuel` passes. -/
def FileGCF.ifile (fuel : Nat) : IFile FileGCF :=
  ⟨fun f => .ok f.is_eof, fun f => f.is_fail, fun f n => FileGCF.read fuel f n⟩

/-- The `IFile` methods of `FileZIPStore`. -/
def FileZIPStore.ifile : IFile FileZIPStore :=
  ⟨fun f => f.is_eof, fun f => f.is_fail, fun f n => f.read n⟩

/-- A backend that holds one file `name` (given in lower case), which opens to the handle
`p_file`. -/
def handle_directory {H : Type} (name : List Char) (p_file : H) : IDirectory H :=
  ⟨ATTR_READ, fun n => n == name, fun n _ => if lower n = name then some p_file else none⟩

/-! ## Directory backends of the archives -/

/-- The struct `DirectoryGCF::FileInfo`; the three numbers are `std::uint32_t`. -/
structure GCFFileInfo where
  filename : List Char
  index : Nat
  size : Nat
  file_id : Nat
  deriving DecidableEq, Repr

/-- The lookup `m.find(key)` in a `std::map` kept as an association list in which the first
entry for a key is the binding. -/
def map_find {V : Type} : List (List Char × V) → List Char → Option V
  | [], _ => none
  | (k, v) :: rest, key => if k = key then some v else map_find rest key

/-- The assignment `m[key] = value` in such a map. -/
def map_set {V : Type} : List (List Char × V) → List Char → V → List (List Char × V)
  | [], key, value => [(key, value)]
  | (k, v) :: rest, key, value =>
    if k = key then (key, value) :: rest else (k, v) :: map_set rest key value

/-- The class `DirectoryGCF`: the map `m_files` from lower-cased name to file information. -/
structure DirectoryGCF where
  m_files : List (List Char × GCFFileInfo)
  deriving DecidableEq, Repr

/-- The constant `FILE_NOT_FOUND`. -/
def FILE_NOT_FOUND : Int := -1

/-- The size of `GCFBlockEntryHeader` (eight 32-bit fields). -/
def sizeof_GCFBlockEntryHeader : Nat := 32

/-- The size of `GCFBlockEntry` (seven 32-bit fields). -/
def sizeof_GCFBlockEntry : Nat := 28

/-- The method `PackageGCF::get_file_info(file_id, out_block_index, out_file_size)`: `none`
is `false`, otherwise the two values written. -/
def PackageGCF.get_file_info (pkg : PackageGCF) (file_id : Nat) : Option (Nat × Nat) :=
  if file_id ≥ pkg.m_file_info.length then none
  else (pkg.m_file_info.get? file_id).map (fun info => (info.2, info.1))

/-- The constructor `FileGCF(id, mode, p_package)`, as `DirectoryGCF::openfile` uses it:
`none` when the constructor leaves `m_b_failbit` set, so that the handle is dropped.
`open_file` is the package file (`none` when it cannot be opened) and `garbage` the 28 bytes
that the local `block_entry` holds before it is read into. -/
def FileGCF.construct (id mode : Nat) (pkg : PackageGCF) (open_file : Option HostFile)
    (garbage : List Nat) : Except Fault (Option FileGCF) :=
  match pkg.get_file_info id with
  | none => .ok none
  | some (block_index, size) =>
    match open_file with
    | none => .ok none
    | some file =>
      let r := ((IfStream.opened file).seekg
        ((sizeof_GCFHeader + sizeof_GCFBlockEntryHeader + sizeof_GCFBlockEntry * block_index
          : Nat) : Int)).read sizeof_GCFBlockEntry
      let block_entry := r.2 ++ garbage.drop r.2.length
      match FileGCF.update_block_info
        { m_p_package := pkg, m_stream := r.1, m_size := size,
          m_first_data_block_offset := pkg.get_first_block_offset,
          m_file_pointer := if mode &&& MODE_AT_END ≠ 0 then size else 0,
          m_block_num := 0, m_block_offset := 0, m_block_data_avail := 0, m_gcount := 0,
          m_b_failbit := false, m_block_size := pkg.get_blocksize,
          m_first_data_block_index := le32 block_entry 12 } with
      | .error e => .error e
      | .ok f => .ok (some f)

namespace DirectoryGCF

/-- The method `get_fileinfo(filename, out_fileinfo)`: the returned value and, when it is 0,
the information written. -/
def get_fileinfo (d : DirectoryGCF) (filename : List Char) : Int × Option GCFFileInfo :=
  match map_find d.m_files (lower filename) with
  | some info => (0, some info)
  | none => (FILE_NOT_FOUND, none)

/-- The method `file_size`. -/
def file_size (d : DirectoryGCF) (filename : List Char) : Nat :=
  match d.get_fileinfo filename with
  | (_, some info) => info.size
  | (_, none) => 0

/-- The method `file_exists`: `!!m_files.count(name)`. -/
def file_exists (d : DirectoryGCF) (filename : List Char) : Bool :=
  (map_find d.m_files (lower filename)).isSome

/-- The method `file_attr`. -/
def file_attr (d : DirectoryGCF) (filename : List Char) : Nat :=
  if d.file_exists filename then ATTR_READ else 0

/-- The method `add_file(filename, index, size, id)`. -/
def add_file (d : DirectoryGCF) (filename : List Char) (index size id : Nat) : DirectoryGCF :=
  ⟨map_set d.m_files (lower filename) ⟨filename, index, size, id⟩⟩

/-- The method `openfile(filename, mode)`: the directory afterwards and the returned handle.
`pkg` is the package `m_p_package` points to; `open_file` and `garbage` are those of
`FileGCF.construct`. -/
def openfile (pkg : PackageGCF) (open_file : Option HostFile) (garbage : List Nat)
    (d : DirectoryGCF) (filename : List Char) (mode : Nat) :
    Except Fault (DirectoryGCF × Option FileGCF) :=
  if mode &&& (MODE_WRITE ||| MODE_APPEND) ≠ 0 ∨ mode &&& MODE_READ = 0 then .ok (d, none)
  else
    match d.get_fileinfo filename with
    | (_, none) => .ok (d, none)
    | (_, some info) =>
      match FileGCF.construct info.file_id mode pkg open_file garbage with
      | .error e => .error e
      | .ok p_file => .ok (d, p_file)

end DirectoryGCF

/-- The method `PackageZIP::get_filesize(id)`: the `std::int32_t` size converted to
`size_t`. -/
def PackageZIP.get_filesize (pkg : PackageZIP) (id : Int) : Nat :=
  if id ≥ 0 ∧ id < to_int32 pkg.m_file_info.length then
    match pkg.m_file_info.get? id.toNat with
    | some info => (info.size_uncompressed % 2 ^ 64).toNat
    | none => 0
  else 0

namespace DirectoryZIP

/-- The method `file_size`; `pkg` is the package `m_p_package` points to. -/
def file_size (pkg : PackageZIP) (d : DirectoryZIP) (filename : List Char) : Nat :=
  let id := d.get_file_id filename
  if id ≥ 0 then pkg.get_filesize id else 0

/-- The method `file_attr`. -/
def file_attr (d : DirectoryZIP) (filename : List Char) : Nat :=
  if d.file_exists filename then ATTR_READ else 0

/-- The method `openfile(filename, mode)`: the directory afterwards and the returned handle.
`pkg` is the package `m_p_package` points to; `archive` and `garbage` are those of
`PackageZIP.openfile`. -/
def openfile (pkg : PackageZIP) (archive : Option HostFile) (garbage : ZipFileInfo)
    (d : DirectoryZIP) (filename : List Char) (mode : Nat) :
    Except Fault (DirectoryZIP × Option ZipHandle) :=
  if mode &&& (MODE_WRITE ||| MODE_APPEND) ≠ 0 ∨ mode &&& MODE_READ = 0 then .ok (d, none)
  else
    let file_id := d.get_file_id filename
    if file_id < 0 then .ok (d, none)
    else
      match pkg.openfile archive garbage file_id mode with
      | .error e => .error e
      | .ok p_file => .ok (d, p_file)

end DirectoryZIP

/-- A `DirectoryGCF` after the calls `add_file(a.filename, a.index, a.size, a.file_id)` for
the entries `a` of `adds`, in order. -/
def DirectoryGCF.add_files (d : DirectoryGCF) (adds : List GCFFileInfo) : DirectoryGCF :=
  adds.foldl (fun d a => d.add_file a.filename a.index a.size a.file_id) d

/-- A `DirectoryZIP` after the calls `add_file(a.1, a.2)` for the entries `a` of `adds`, in
order. -/
def DirectoryZIP.add_files (d : DirectoryZIP) (adds : List (List Char × Int)) : DirectoryZIP :=
  adds.foldl (fun d a => d.add_file a.1 a.2) d

/-- The last entry of a list that satisfies `p`. -/
def find_last {A : Type} (p : A → Bool) (l : List A) : Option A := l.reverse.find? p

/-! ## Package factories -/

/-- The part of the interface `IPackageFactory` that `AdeFS` calls; `X` is the type of the
packages that factories create (`none` is a null `package_shared_ptr`). -/
structure IPackageFactory (X : Type) where
  file_types : List (List Char)
  is_supported : List Char → Bool
  create_package : List Char → Option X

/-- The call `s.find_last_of(".")`; `none` is `std::string::npos`. -/
def find_last_of_dot : List Char → Option Nat
  | [] => none
  | c :: cs =>
    match find_last_of_dot cs with
    | some i => some (i + 1)
    | none => if c = '.' then some 0 else none

/-- Whether `ext.find_first_of("/\\*")` is `std::string::npos`. -/
def no_path_char (ext : List Char) : Bool :=
  ext.all (fun c => c != '/' && c != '\\' && c != '*')

/-- The loop of `get_package_factory` over `m_package_factories`: the first factory whose
`is_supported(package_name)` is true, and the factories on which `is_supported` was
called. -/
def probe_factories {X F : Type} (fac : F → IPackageFactory X) (package_name : List Char) :
    List F → Option F × List F
  | [] => (none, [])
  | p_factory :: rest =>
    if (fac p_factory).is_supported package_name then (some p_factory, [p_factory])
    else
      let r := probe_factories fac package_name rest
      (r.1, p_factory :: r.2)

namespace AdeFS

variable {P F X : Type}

/-- The method `AdeFS::get_package_factory`: the returned factory and the factories on which
`is_supported` was called. `fac` gives the object a factory pointer designates. -/
def get_package_factory (fac : F → IPackageFactory X) (fs : AdeFS P F)
    (package_name : List Char) : Option F × List F :=
  let by_type : Option F :=
    match find_last_of_dot package_name with
    | some pos =>
      let ext := package_name.drop (pos + 1)
      if ext ≠ [] ∧ no_path_char ext then map_find fs.m_package_factories_by_type (lower ext)
      else none
    | none => none
  match by_type with
  | some p_factory => (some p_factory, [])
  | none => probe_factories fac package_name fs.m_package_factories

/-- The method `AdeFS::register_package_factory`; `none` is a null pointer. -/
def register_package_factory (fac : F → IPackageFactory X) (fs : AdeFS P F)
    (p_factory : Option F) : AdeFS P F :=
  match p_factory with
  | none => fs
  | some f =>
    { fs with
      m_package_factories := fs.m_package_factories ++ [f],
      m_package_factories_by_type :=
        (fac f).file_types.foldl (fun m type => map_set m (lower type) f)
          fs.m_package_factories_by_type }

/-- A new `AdeFS` after the calls `register_package_factory(p)` for the entries `p` of
`regs`, in order. -/
def registered (fac : F → IPackageFactory X) (regs : List (Option F)) : AdeFS P F :=
  regs.foldl (fun fs p => fs.register_package_factory fac p) AdeFS.new

end AdeFS

/-- Reference: whether a factory reported an extension equal to `e` ignoring ASCII case. -/
def reports_extension {X : Type} (p : IPackageFactory X) (e : List Char) : Bool :=
  p.file_types.any (fun t => lower t == lower e)

/-- Example: a factory that reports the given extensions, supports no name by probing and
creates nothing. -/
def extension_factory (types : List String) : IPackageFactory Unit :=
  ⟨types.map String.toList, fun _ => false, fun _ => none⟩

/-- Example: a factory that reports no extension and supports the names that start with
`pak`. -/
def probing_factory : IPackageFactory Unit :=
  ⟨[], fun name => name.take 3 == "pak".toList, fun _ => none⟩

/-- Example: the factories behind the pointers 0, 1, 2 and 3. -/
def example_factories (p : Nat) : IPackageFactory Unit :=
  if p = 0 then extension_factory ["gcf"]
  else if p = 1 then extension_factory ["ZIP", "gcf"]
  else if p = 2 then probing_factory
  else extension_factory []

/-! ## The host file system package -/

/-- What `readdir` gives for an entry: `d_name` and `d_type`. -/
structure DirEntry where
  d_name : List Char
  d_type : Nat
  deriving DecidableEq, Repr

/-- The fields of `struct stat` that `DirectoryFS` reads. -/
structure StatInfo where
  st_mode : Nat
  st_size : Nat
  deriving DecidableEq, Repr

/-- The host file system as `PackageFS` sees it: `opendir` followed by `readdir` until the
end (`none` when the directory cannot be opened), and `stat` (`none` when it fails). -/
structure HostFS where
  opendir : List Char → Option (List DirEntry)
  stat : List Char → Option StatInfo

def DT_DIR : Nat := 4

def DT_REG : Nat := 8

def S_IFDIR : Nat := 0x4000

def S_IREAD : Nat := 0x100

def S_IWRITE : Nat := 0x80

/-- The struct `DirectoryFS::FileInfo`. -/
structure FsFileInfo where
  filename : List Char
  attributes : Nat
  status : StatInfo
  deriving DecidableEq, Repr

/-- The class `DirectoryFS`. -/
structure DirectoryFS where
  m_path : List Char
  m_attributes : Nat
  m_files : List (List Char × FsFileInfo)
  deriving DecidableEq, Repr

/-- The replacement of every `\` by `/` (`std::replace`). -/
def fix_slashes (path : List Char) : List Char := path.map (fun c => if c = '\\' then '/' else c)

namespace DirectoryFS

/-- The constructor `DirectoryFS(path, attr)`. -/
def new (path : List Char) (attr : Nat) : DirectoryFS :=
  if path ≠ [] then
    let p := fix_slashes path
    ⟨if p.getLast? ≠ some '/' then p ++ ['/'] else p, attr, []⟩
  else ⟨path, attr, []⟩

/-- The method `rescan_file`: `none` when `stat` fails (a nonzero result), otherwise the
information filled in. -/
def rescan_file (host : HostFS) (d : DirectoryFS) (fileinfo : FsFileInfo) : Option FsFileInfo :=
  match host.stat (d.m_path ++ fileinfo.filename) with
  | none => none
  | some s =>
    let attr :=
      (if d.m_attributes &&& ATTR_WRITE ≠ 0 ∧ s.st_mode &&& S_IWRITE ≠ 0 then ATTR_WRITE else 0) |||
      (if d.m_attributes &&& ATTR_READ ≠ 0 ∧ s.st_mode &&& S_IREAD ≠ 0 then ATTR_READ else 0) |||
      (if s.st_mode &&& S_IFDIR ≠ 0 then ATTR_DIR else 0) ||| ATTR_RANDOM
    some { fileinfo with status := s, attributes := attr }

/-- Whether `FindFile::isdots()` holds for an entry. -/
def is_dots (e : DirEntry) : Bool :=
  decide (e.d_type &&& DT_DIR ≠ 0) && (e.d_name == ['.'] || e.d_name == ['.', '.'])

/-- The body of the loop of `scan` for one entry found: the directory, `count` and the
sub-directories afterwards. -/
def scan_entry (host : HostFS) (s : DirectoryFS × Nat × List (List Char)) (e : DirEntry) :
    DirectoryFS × Nat × List (List Char) :=
  if !is_dots e ∧ e.d_name ≠ [] then
    if e.d_type &&& DT_DIR ≠ 0 then
      if e.d_name ≠ "CVS".toList ∧ e.d_name ≠ ".git".toList then
        (s.1, s.2.1, s.2.2 ++ [e.d_name])
      else s
    else
      match s.1.rescan_file host ⟨e.d_name, 0, ⟨0, 0⟩⟩ with
      | some info =>
        ({ s.1 with m_files := map_set s.1.m_files (lower e.d_name) info }, s.2.1 + 1, s.2.2)
      | none => s
  else s

/-- The method `scan(p_out_directories)` with a pointer that is not null: the directory
afterwards, the returned count and the names pushed to `*p_out_directories`. -/
def scan (host : HostFS) (d : DirectoryFS) : DirectoryFS × Nat × List (List Char) :=
  let d0 := { d with m_files := [] }
  if d.m_path = [] then (d0, 0, [])
  else
    match host.opendir (d.m_path ++ ['.']) with
    | none => (d0, 0, [])
    | some entries => entries.foldl (scan_entry host) (d0, 0, [])

end DirectoryFS

/-- The class `PackageFS`; a directory of `m_directories` is kept with the address that the
mount tree holds for it. -/
structure PackageFS where
  m_path : List Char
  m_attributes : Nat
  m_directories : List (Nat × DirectoryFS)
  deriving DecidableEq, Repr

namespace PackageFS

/-- The constructor `PackageFS(path, attributes)`. -/
def new (path : List Char) (attributes : Nat) : PackageFS :=
  let p := fix_slashes path
  ⟨if p = [] ∨ p.getLast? ≠ some '/' then p ++ ['/'] else p, attributes, []⟩

/-- The private method `scan(path)`, its recursion bounded by `fuel` levels: the list
`m_directories` afterwards (the method returns 0). `first_address` is the address of the
first directory that `scan()` keeps; the following ones get the following addresses. -/
def scan_path (host : HostFS) (attributes first_address : Nat) :
    Nat → List Char → List (Nat × DirectoryFS) → Except Fault (List (Nat × DirectoryFS))
  | 0, _, _ => .error .out_of_fuel
  | fuel + 1, path, dirs =>
    let r := (DirectoryFS.new path attributes).scan host
    let dirs1 := if r.2.1 ≠ 0 then dirs ++ [(first_address + dirs.length, r.1)] else dirs
    r.2.2.foldlM
      (fun ds subdir => scan_path host attributes first_address fuel (path ++ subdir ++ ['/']) ds)
      dirs1

/-- The method `scan()`: the package afterwards and the returned value. -/
def scan (host : HostFS) (fuel first_address : Nat) (pkg : PackageFS) :
    Except Fault (PackageFS × Int) :=
  match scan_path host pkg.m_attributes first_address fuel pkg.m_path [] with
  | .error e => .error e
  | .ok dirs => .ok ({ pkg with m_directories := dirs }, 0)

/-- The method `mount(p_mountpoint)` with a pointer that is not null: the node afterwards and
the returned value. -/
def mount (pkg : PackageFS) (mp : MountPoint) : MountPoint × Int :=
  let r := pkg.m_directories.foldl
    (fun (s : MountPoint × Bool) p_dir =>
      let m := s.1.mount (p_dir.2.m_path.drop pkg.m_path.length) p_dir.1
      (m.1, s.2 || decide (m.2 ≠ 0)))
    (mp, false)
  (r.1, if r.2 then 1 else 0)

/-- Reference: the directories below `path` are nested at most `depth` levels deep, `path`
itself counted, as the recursion of `scan(path)` meets them. -/
def depth_within (host : HostFS) (attributes : Nat) : Nat → List Char → Bool
  | 0, _ => false
  | depth + 1, path =>
    ((DirectoryFS.new path attributes).scan host).2.2.all
      (fun subdir => depth_within host attributes depth (path ++ subdir ++ ['/']))

end PackageFS

/-! ## Packages of the facade -/

/-- The interface `IPackage` for the packages of type `X` that factories create: `scan()`
gives the package afterwards and the returned value, `mount(p_mountpoint)` the package and
the node afterwards and the returned value. -/
structure IPackage (X : Type) where
  scan : X → X × Int
  mount : X → MountPoint → X × MountPoint × Int

/-- A package that `AdeFS` owns: one made by a factory, or a `PackageFS`. -/
inductive AnyPackage (X : Type) where
  | made (p : X)
  | host (p : PackageFS)

/-- The tree with the node at `addr` replaced (the effect of changes made through the
pointer that `get_mountpoint` returned). -/
def replace_at : MountPoint → List (List Char) → MountPoint → MountPoint
  | _, [], node => node
  | mp, k :: ks, node =>
    match children_find mp.m_children k with
    | some child => mp.set_child k (replace_at child ks node)
    | none => mp

namespace AdeFS

variable {F X : Type}

/-- The method `AdeFS::create_package`. `host`, `fuel` and `first_address` are those of
`PackageFS.scan`. -/
def create_package (fac : F → IPackageFactory X) (ops : IPackage X) (host : HostFS)
    (fuel first_address : Nat) (fs : AdeFS (AnyPackage X) F) (package_name : List Char) :
    Except Fault (Option (AnyPackage X)) :=
  match (fs.get_package_factory fac package_name).1 with
  | some p_factory =>
    match (fac p_factory).create_package package_name with
    | none => .ok none
    | some p_np =>
      let r := ops.scan p_np
      if r.2 = 0 then .ok (some (.made r.1)) else .ok none
  | none =>
    match (PackageFS.new package_name ATTR_READ).scan host fuel first_address with
    | .error e => .error e
    | .ok r => if r.2 = 0 then .ok (some (.host r.1)) else .ok none

/-- The call `p_package->mount(p_mp)`. -/
def package_mount (ops : IPackage X) (p_package : AnyPackage X) (mp : MountPoint) :
    AnyPackage X × MountPoint × Int :=
  match p_package with
  | .made p => let r := ops.mount p mp; (.made r.1, r.2.1, r.2.2)
  | .host p => let r := p.mount mp; (.host p, r.1, r.2)

/-- The method `AdeFS::mount(package_name, mountpoint)`: the facade afterwards and the
returned value. -/
def mount_package (fac : F → IPackageFactory X) (ops : IPackage X) (host : HostFS)
    (fuel first_address : Nat) (fs : AdeFS (AnyPackage X) F)
    (package_name mountpoint : List Char) : Except Fault (AdeFS (AnyPackage X) F × Int) :=
  match fs.create_package fac ops host fuel first_address package_name with
  | .error e => .error e
  | .ok none => .ok (fs, -1)
  | .ok (some p_package) =>
    let g := fs.m_root.get_mountpoint mountpoint true
    match g.2 with
    | none => .ok ({ fs with m_root := g.1 }, -1)
    | some addr =>
      match node_at g.1 addr with
      | none => .ok ({ fs with m_root := g.1 }, -1)
      | some p_mp =>
        let r := package_mount ops p_package p_mp
        if r.2.2 ≠ 0 then .ok ({ fs with m_root := replace_at g.1 addr r.2.1 }, -1)
        else
          .ok ({ fs with m_root := replace_at g.1 addr r.2.1,
                         m_owned_packages := fs.m_owned_packages ++ [r.1] }, 0)

end AdeFS

/-- A host file system without any directory or file. -/
def empty_host : HostFS := ⟨fun _ => none, fun _ => none⟩

/-- Example: operations of packages that are lists of backend addresses: `scan` succeeds
when the list is not empty, `mount` mounts every backend on the node. -/
def list_package : IPackage (List Nat) :=
  ⟨fun p => (p, if p = [] then 1 else 0),
   fun p mp => (p, p.foldl (fun m d => (m.mount [] d).1) mp, 0)⟩

/-- Example: a factory for the extension `pak` whose packages are `[7]` for the name
`good.pak` and the empty list, whose scan fails, for any other name but `none.pak`, for
which it creates nothing. -/
def pak_factory (_p : Nat) : IPackageFactory (List Nat) :=
  ⟨["pak".toList], fun _ => false,
   fun name => if name = "good.pak".toList then some [7]
     else if name = "none.pak".toList then none else some []⟩

/-- A host file system with the directory `data`, holding the file `a.txt` of 3 bytes and the
directory `sub` with the file `b.txt` of 5 bytes. -/
def data_host : HostFS :=
  ⟨fun path =>
      if path = "data/.".toList then
        some [⟨".".toList, DT_DIR⟩, ⟨"..".toList, DT_DIR⟩, ⟨"a.txt".toList, DT_REG⟩,
          ⟨"sub".toList, DT_DIR⟩]
      else if path = "data/sub/.".toList then
        some [⟨".".toList, DT_DIR⟩, ⟨"..".toList, DT_DIR⟩, ⟨"b.txt".toList, DT_REG⟩]
      else none,
    fun path =>
      if path = "data/a.txt".toList then some ⟨0x8000 ||| S_IREAD ||| S_IWRITE, 3⟩
      else if path = "data/sub/b.txt".toList then some ⟨0x8000 ||| S_IREAD, 5⟩
      else none⟩

/-! ## Mount points with their parent pointer -/

/-- The class `MountPoint` with `m_p_parent` kept. A pointer to a node is the list of child
keys that leads to the node from the root (nodes are never moved or removed by
`get_mountpoint` and `mount`); `none` is `nullptr`. -/
inductive LinkedMountPoint where
  | mk (m_p_parent : Option (List (List Char))) (m_name : List Char) (m_attributes : Nat)
      (m_directories : List Nat) (m_children : List (List Char × LinkedMountPoint))

namespace LinkedMountPoint

def m_p_parent : LinkedMountPoint → Option (List (List Char))
  | mk p _ _ _ _ => p

def m_name : LinkedMountPoint → List Char
  | mk _ n _ _ _ => n

def m_attributes : LinkedMountPoint → Nat
  | mk _ _ a _ _ => a

def m_directories : LinkedMountPoint → List Nat
  | mk _ _ _ d _ => d

def m_children : LinkedMountPoint → List (List Char × LinkedMountPoint)
  | mk _ _ _ _ c => c

/-- The node after `m_children[key] = child`. -/
def set_child : LinkedMountPoint → List Char → LinkedMountPoint → LinkedMountPoint
  | mk p n a d c, key, child => mk p n a d (map_set c key child)

/-- The node after `m_directories.push_back(p_dir)`. -/
def push_directory : LinkedMountPoint → Nat → LinkedMountPoint
  | mk p n a d c, p_dir => mk p n a (d ++ [p_dir]) c

end LinkedMountPoint

/-- Recursion of `MountPoint::get_mountpoint(path, b_create)` on a node whose own address is
`self` (the pointer `this`); otherwise as `get_mountpoint_go`. -/
def linked_get_mountpoint_go : (n : Nat) → List (List Char) → LinkedMountPoint →
    (path : List Char) → path.length < n → Bool →
    LinkedMountPoint × Option (List (List Char))
  | 0, _, _, _, h, _ => absurd h (Nat.not_lt_zero _)
  | n + 1, self, mp, path, h, b_create =>
    if hp : path = [] then (mp, some [])
    else
      have hpos : 0 < path.length := List.length_pos.mpr hp
      if path.head? = some '/' then
        linked_get_mountpoint_go n self mp (path.drop 1) (by rw [List.length_drop]; omega) true
      else
        let sub_dir := lower (peel_dir path)
        have hdec : (peel_path path).length < n := by
          unfold peel_path
          split
          · simp only [List.length_nil]; omega
          · rw [List.length_drop]; omega
        match map_find mp.m_children sub_dir with
        | some child =>
          let r := linked_get_mountpoint_go n (self ++ [sub_dir]) child (peel_path path) hdec true
          (mp.set_child sub_dir r.1, r.2.map (fun a => sub_dir :: a))
        | none =>
          if b_create then
            let p_new_mp := LinkedMountPoint.mk (some self) sub_dir mp.m_attributes [] []
            let r := linked_get_mountpoint_go n (self ++ [sub_dir]) p_new_mp (peel_path path)
              hdec b_create
            (mp.set_child sub_dir r.1, r.2.map (fun a => sub_dir :: a))
          else (mp, none)

/-- The method `MountPoint::get_mountpoint` on the node at address `self`. -/
def LinkedMountPoint.get_mountpoint (mp : LinkedMountPoint) (self : List (List Char))
    (path : List Char) (b_create : Bool) : LinkedMountPoint × Option (List (List Char)) :=
  linked_get_mountpoint_go (path.length + 1) self mp path (Nat.lt_succ_self _) b_create

/-- Recursion of `MountPoint::mount(path, p_dir)` on a node whose own address is `self`;
otherwise as `mount_go`. -/
def linked_mount_go : (n : Nat) → List (List Char) → LinkedMountPoint → (path : List Char) →
    path.length < n → Nat → LinkedMountPoint × Int
  | 0, _, _, _, h, _ => absurd h (Nat.not_lt_zero _)
  | n + 1, self, mp, path, h, p_dir =>
    if hp : path = [] then (mp.push_directory p_dir, 0)
    else
      have hpos : 0 < path.length := List.length_pos.mpr hp
      if path.head? = some '/' then
        let r := linked_mount_go n self mp (path.drop 1) (by rw [List.length_drop]; omega) p_dir
        (r.1, if r.2 ≠ 0 then -1 else 0)
      else
        let sub_dir := lower (peel_dir path)
        have hdec : (peel_path path).length < n := by
          unfold peel_path
          split
          · simp only [List.length_nil]; omega
          · rw [List.length_drop]; omega
        let p_mp : LinkedMountPoint :=
          match map_find mp.m_children sub_dir with
          | some child => child
          | none => LinkedMountPoint.mk (some self) sub_dir mp.m_attributes [] []
        let r := linked_mount_go n (self ++ [sub_dir]) p_mp (peel_path path) hdec p_dir
        (mp.set_child sub_dir r.1, if r.2 ≠ 0 then -1 else 0)

/-- The method `MountPoint::mount` on the node at address `self`. -/
def LinkedMountPoint.mount (mp : LinkedMountPoint) (self : List (List Char))
    (path : List Char) (p_dir : Nat) : LinkedMountPoint × Int :=
  linked_mount_go (path.length + 1) self mp path (Nat.lt_succ_self _) p_dir

/-- The root of a freshly constructed `AdeFS`: `m_root("", ATTR_READ | ATTR_WRITE, nullptr)`. -/
def linked_root : LinkedMountPoint :=
  LinkedMountPoint.mk none [] (ATTR_READ ||| ATTR_WRITE) [] []

/-- The node that the pointer `addr` designates, counted from `mp`. -/
def linked_node_at : LinkedMountPoint → List (List Char) → Option LinkedMountPoint
  | mp, [] => some mp
  | mp, k :: ks =>
    match map_find mp.m_children k with
    | none => none
    | some child => linked_node_at child ks

/-- The tree after a method `f` has been called on the node at `rel` below `mp`, `mp` being
at address `self`; `f` gets the address of its node. Nothing happens when there is no such
node. -/
def call_at (f : List (List Char) → LinkedMountPoint → LinkedMountPoint) :
    LinkedMountPoint → List (List Char) → List (List Char) → LinkedMountPoint
  | mp, self, [] => f self mp
  | mp, self, k :: ks =>
    match map_find mp.m_children k with
    | some child => mp.set_child k (call_at f child (self ++ [k]) ks)
    | none => mp

/-- The states of the mount tree of a freshly constructed `AdeFS` after calls of
`get_mountpoint` and `mount` on the root or on any node that a pointer designates. -/
inductive Reachable : LinkedMountPoint → Prop where
  | fresh : Reachable linked_root
  | get_mountpoint (t : LinkedMountPoint) (node : List (List Char)) (path : List Char)
      (b_create : Bool) :
      Reachable t →
      Reachable (call_at (fun self mp => (mp.get_mountpoint self path b_create).1) t [] node)
  | mount (t : LinkedMountPoint) (node : List (List Char)) (path : List Char) (p_dir : Nat) :
      Reachable t →
      Reachable (call_at (fun self mp => (mp.mount self path p_dir).1) t [] node)

/-- Whether a key is not empty and holds neither `/` nor an upper-case ASCII letter. -/
def is_key (k : List Char) : Bool := !k.isEmpty && !k.contains '/' && !k.any Char.isUpper

mutual

/-- Whether, below a node at address `self`, every child is stored under its name, which is
a key, points to its parent, and has the attributes `attr`, and so on downwards. -/
def LinkedMountPoint.linked (self : List (List Char)) (attr : Nat) : LinkedMountPoint → Bool
  | .mk _ _ _ _ cs => children_linked self attr cs

/-- The checks of `LinkedMountPoint.linked` for a list of children. -/
def children_linked (self : List (List Char)) (attr : Nat) :
    List (List Char × LinkedMountPoint) → Bool
  | [] => true
  | (k, c) :: rest =>
    (c.m_name == k) && is_key k && (c.m_p_parent == some self) && (c.m_attributes == attr) &&
      c.linked (self ++ [k]) attr && children_linked self attr rest

end

/-- The tree of a fresh `AdeFS` after `mount("/Data/Maps", p_dir)` with the backend at
address 1. -/
def data_maps_tree : LinkedMountPoint :=
  call_at (fun self mp => (mp.mount self "/Data/Maps".toList 1).1) linked_root [] []

mutual

/-- The `MountPoint` that a `LinkedMountPoint` is once the parent pointers are left out. -/
def LinkedMountPoint.erase : LinkedMountPoint → MountPoint
  | .mk _ n a d cs => MountPoint.mk n a d (erase_children cs)

/-- The children of `LinkedMountPoint.erase`. -/
def erase_children : List (List Char × LinkedMountPoint) → List (List Char × MountPoint)
  | [] => []
  | (k, c) :: rest => (k, c.erase) :: erase_children rest

end

/-- What `LinkedMountPoint.linked` asks of a child stored under `k` below a node at address
`here` with attributes `attr`. -/
structure ChildLinked (here : List (List Char)) (attr : Nat) (k : List Char)
    (c : LinkedMountPoint) : Prop where
  name : c.m_name = k
  key : is_key k = true
  parent : c.m_p_parent = some here
  attributes : c.m_attributes = attr
  below : c.linked (here ++ [k]) attr = true

/-- What a call on a node keeps: its links below, and its own parent pointer, name and
attributes. -/
structure NodeKept (here : List (List Char)) (attr : Nat) (before after : LinkedMountPoint) :
    Prop where
  linked : after.linked here attr = true
  parent : after.m_p_parent = before.m_p_parent
  name : after.m_name = before.m_name
  attributes : after.m_attributes = before.m_attributes

/-! ## The factory of GCF packages -/

/-- The method `PackageFactoryGCF::is_supported`: `ext` is `path.substr(pos)`, the text from
the last `.` on, the `.` included. -/
def PackageFactoryGCF.is_supported (path : List Char) : Bool :=
  match find_last_of_dot path with
  | none => false
  | some pos => lower (path.drop pos) == "gcf".toList

/-- The class `PackageFactoryGCF` as a package factory: `file_types()` is `{"gcf"}` and
`create_package(path)` makes a `PackageGCF`. -/
def PackageFactoryGCF.factory : IPackageFactory PackageGCF :=
  ⟨["gcf".toList], PackageFactoryGCF.is_supported, fun path => some (PackageGCF.new path)⟩

/-! ## ZIP packages: `get` on a stored handle -/

/-- The method `FileZIPStore::get`: the handle afterwards and the returned value (`-1` is
`EOF`). -/
def FileZIPStore.get (f : FileZIPStore) : Except Fault (FileZIPStore × Int) := do
  let eof ← f.is_eof
  if eof || f.is_fail then pure (f, -1)
  else
    let r := f.m_zip_file.get
    pure ({ f with m_zip_file := r.1 }, r.2)

/-- What a caller sees of `get`: the returned value. -/
def FileZIPStore.get_seen (r : Except Fault (FileZIPStore × Int)) : Except Fault Int :=
  r.map (fun x => x.2)

/-! ## GCF packages: the directory of the package file -/

/-- Conversion of a `size_t` value to `std::streamoff` (64-bit, signed). -/
def to_int64 (n : Nat) : Int :=
  if n % 2 ^ 64 < 2 ^ 63 then (n % 2 ^ 64 : Nat) else (n % 2 ^ 64 : Nat) - 2 ^ 64

/-- The value `(size_t)gcf_file.tellg()`. -/
def IfStream.tellg_size_t (s : IfStream) : Nat := (s.tellg % 2 ^ 64).toNat

/-- The call `seekg(pos, std::ios::beg)` with `pos` computed in `size_t`. -/
def IfStream.seekg_size_t (s : IfStream) (pos : Nat) : IfStream := s.seekg (to_int64 pos)

/-- The bytes of an object after `read((char *)&object, n)` has stored the bytes `got` in it:
what was not overwritten keeps its former content `old`. -/
def read_into (old got : List Nat) : List Nat := got ++ old.drop got.length

/-- The struct `GCFDirectoryHeader` (56 bytes). -/
structure GCFDirectoryHeader where
  Dummy0 : Nat
  CacheID : Nat
  GCFVersion : Nat
  ItemCount : Nat
  FileCount : Nat
  Dummy1 : Nat
  DirectorySize : Nat
  NameSize : Nat
  Info1Count : Nat
  CopyCount : Nat
  LocalCount : Nat
  Dummy2 : Nat
  Dummy3 : Nat
  Checksum : Nat
  deriving DecidableEq, Repr

def sizeof_GCFDirectoryHeader : Nat := 56

def GCFDirectoryHeader.decode (b : List Nat) : GCFDirectoryHeader :=
  ⟨le32 b 0, le32 b 4, le32 b 8, le32 b 12, le32 b 16, le32 b 20, le32 b 24, le32 b 28,
    le32 b 32, le32 b 36, le32 b 40, le32 b 44, le32 b 48, le32 b 52⟩

/-- The struct `GCFDirectoryEntry` (28 bytes). -/
structure GCFDirectoryEntry where
  NameOffset : Nat
  ItemSize : Nat
  ChecksumIndex : Nat
  DirectoryType : Nat
  ParentIndex : Nat
  NextIndex : Nat
  FirstIndex : Nat
  deriving DecidableEq, Repr

def sizeof_GCFDirectoryEntry : Nat := 28

def GCFDirectoryEntry.decode (b : List Nat) : GCFDirectoryEntry :=
  ⟨le32 b 0, le32 b 4, le32 b 8, le32 b 12, le32 b 16, le32 b 20, le32 b 24⟩

/-- The size of `GCFDirectoryMapHeader` (two 32-bit fields). -/
def sizeof_GCFDirectoryMapHeader : Nat := 8

/-- The struct `GCFChecksumHeader` (8 bytes). -/
structure GCFChecksumHeader where
  Dummy0 : Nat
  ChecksumSize : Nat
  deriving DecidableEq, Repr

def sizeof_GCFChecksumHeader : Nat := 8

def GCFChecksumHeader.decode (b : List Nat) : GCFChecksumHeader := ⟨le32 b 0, le32 b 4⟩

/-- The size of `GCFChecksumMapHeader` (four 32-bit fields). -/
def sizeof_GCFChecksumMapHeader : Nat := 16

def sizeof_GCFDataBlockHeader : Nat := 24

def GCFDataBlockHeader.decode (b : List Nat) : GCFDataBlockHeader :=
  ⟨le32 b 0, le32 b 4, le32 b 8, le32 b 12, le32 b 16, le32 b 20⟩

/-- The 24 bytes of a `GCFDataBlockHeader`. -/
def GCFDataBlockHeader.encode (h : GCFDataBlockHeader) : List Nat :=
  bytes32 h.GCFVersion ++ bytes32 h.BlockCount ++ bytes32 h.BlockSize ++
    bytes32 h.FirstBlockOffset ++ bytes32 h.BlocksUsed ++ bytes32 h.Checksum

/-- The struct `PackageGCF::DirectoryInfo`: `raw_dir_block`, `dir_map`, and `p_names` as its
offset in `raw_dir_block`; `p_header` is offset 0 and `p_entries` offset
`sizeof(GCFDirectoryHeader)`. -/
structure DirectoryInfo where
  raw_dir_block : List Nat
  dir_map : List Nat
  p_names : Nat
  deriving DecidableEq, Repr

/-- The first `n` 32-bit values stored in a list of bytes. -/
def le32_values (bytes : List Nat) (n : Nat) : List Nat :=
  (List.range n).map (fun i => le32 bytes (4 * i))

/-- The part of `PackageGCF::scan` from "Read the Directory Header" to "Read the data block
header": the stream and the package afterwards and `dirinfo`. `gcf_file` is the stream as it
is when the directory header is about to be read; `garbage_dir_header` and
`garbage_chksum_header` are the bytes that the locals `dir_header` and `chksum_header` hold
before they are read into. Sums are computed in `size_t`. -/
def PackageGCF.scan_directory_info (gcf_file : IfStream)
    (garbage_dir_header garbage_chksum_header : List Nat) (pkg : PackageGCF) :
    IfStream × DirectoryInfo × PackageGCF :=
  let dirpos := gcf_file.tellg_size_t
  let r1 := gcf_file.read sizeof_GCFDirectoryHeader
  let dir_header := GCFDirectoryHeader.decode (read_into garbage_dir_header r1.2)
  -- Read the directory info.
  let r2 := (r1.1.seekg_size_t (dirpos + dir_header.DirectorySize)).read
    sizeof_GCFDirectoryMapHeader
  let r3 := r2.1.read (dir_header.ItemCount * 4)
  let r4 := (r3.1.seekg_size_t dirpos).read dir_header.DirectorySize
  let dirinfo : DirectoryInfo :=
    { dir_map := le32_values r3.2 dir_header.ItemCount,
      raw_dir_block := r4.2 ++ List.replicate (dir_header.DirectorySize - r4.2.length) 0,
      p_names := sizeof_GCFDirectoryHeader + sizeof_GCFDirectoryEntry * dir_header.ItemCount }
  -- Find the data blocks.
  let chksum_pos := dirpos +
    (dir_header.DirectorySize + sizeof_GCFDirectoryMapHeader + dir_header.ItemCount * 4)
  let r5 := (r4.1.seekg_size_t chksum_pos).read sizeof_GCFChecksumHeader
  let chksum_header := GCFChecksumHeader.decode (read_into garbage_chksum_header r5.2)
  let r6 := r5.1.read sizeof_GCFChecksumMapHeader
  let data_pos := chksum_pos + (chksum_header.ChecksumSize + sizeof_GCFChecksumHeader)
  -- Read the data block header.
  let r7 := (r6.1.seekg_size_t data_pos).read sizeof_GCFDataBlockHeader
  (r7.1, dirinfo,
    { pkg with m_gcf_data_block_header :=
        GCFDataBlockHeader.decode (read_into pkg.m_gcf_data_block_header.encode r7.2) })

/-- A package file for examples, 112 bytes: a `GCFDirectoryHeader` at 0 with
`DirectorySize = 56` and `ItemCount = 0`, the `GCFDirectoryMapHeader` at 56, the
`GCFChecksumHeader` at 64 with `ChecksumSize = 16`, the `GCFChecksumMapHeader` at 72, and at
88 a `GCFDataBlockHeader` with `FirstBlockOffset = 1000` and `Checksum = 7`. -/
def layout_file : HostFile :=
  HostFile.ofList (
    bytes32 4 ++ bytes32 0 ++ bytes32 1 ++ bytes32 0 ++ bytes32 0 ++ bytes32 0x8000 ++
    bytes32 56 ++ bytes32 0 ++ bytes32 0 ++ bytes32 0 ++ bytes32 0 ++ bytes32 0 ++ bytes32 0 ++
    bytes32 0 ++
    bytes32 1 ++ bytes32 0 ++
    bytes32 1 ++ bytes32 16 ++
    bytes32 0x14893721 ++ bytes32 1 ++ bytes32 0 ++ bytes32 0 ++
    bytes32 1 ++ bytes32 2 ++ bytes32 4 ++ bytes32 1000 ++ bytes32 2 ++ bytes32 7)

/-! ## GCF packages: the scan of the directory -/

namespace DirectoryInfo

/-- The entry `p_entries[entry_index]`, read in `raw_dir_block`; an entry that is not wholly
inside the block is an access outside it. -/
def entry (dirinfo : DirectoryInfo) (entry_index : Nat) : Except Fault GCFDirectoryEntry :=
  let off := sizeof_GCFDirectoryHeader + sizeof_GCFDirectoryEntry * entry_index
  if off + sizeof_GCFDirectoryEntry ≤ dirinfo.raw_dir_block.length then
    .ok (GCFDirectoryEntry.decode
      ((dirinfo.raw_dir_block.drop off).take sizeof_GCFDirectoryEntry))
  else .error .out_of_range

end DirectoryInfo

/-- The characters of a C string stored in a list of bytes: those before the first zero
byte; a string that is not ended inside the list is an access outside it. -/
def c_string : List Nat → Except Fault (List Char)
  | [] => .error .out_of_range
  | b :: rest =>
    if b = 0 then .ok []
    else
      match c_string rest with
      | .ok s => .ok (Char.ofNat b :: s)
      | .error e => .error e

/-- The string `std::string(dirinfo.p_names + NameOffset)`. -/
def DirectoryInfo.name (dirinfo : DirectoryInfo) (NameOffset : Nat) :
    Except Fault (List Char) :=
  c_string (dirinfo.raw_dir_block.drop (dirinfo.p_names + NameOffset))

/-- The method `PackageGCF::add_file(size, block_index)`: the package afterwards and the
returned id. -/
def PackageGCF.add_file (pkg : PackageGCF) (size block_index : Nat) : PackageGCF × Nat :=
  ({ pkg with m_file_info := pkg.m_file_info ++ [(size, block_index)] },
    u32 pkg.m_file_info.length)

/-- The call `p_dir->add_file(filename, index, size, id)` on the backend at address `p_dir`
of the list of backends. -/
def gcf_backends_add_file (backends : List DirectoryGCF) (p_dir : Nat) (filename : List Char)
    (index size id : Nat) : List DirectoryGCF :=
  match backends.get? p_dir with
  | some d => backends.set p_dir (d.add_file filename index size id)
  | none => backends

mutual

/-- The method `PackageGCF::scan_directory(dirinfo, entry_index, dir_node)`, its recursion
and loop bounded by `fuel`: the package, the `DirectoryGCF` objects made so far and
`dir_node` afterwards. The address of a backend is its index in the list; the node passed in
is emptied first, so only the node afterwards appears here. -/
def scan_directory : Nat → DirectoryInfo → Nat → PackageGCF → List DirectoryGCF →
    Except Fault (PackageGCF × List DirectoryGCF × DirectoryNode)
  | 0, _, _, _, _ => .error .out_of_fuel
  | fuel + 1, dirinfo, entry_index, pkg, backends =>
    -- `auto p_dir = std::make_shared<DirectoryGCF>(this)`
    let p_dir := backends.length
    match scan_entries fuel dirinfo entry_index p_dir pkg (backends ++ [⟨[]⟩]) [] with
    | .error e => .error e
    | .ok (pkg1, backends1, sub_directories) =>
      .ok (pkg1, backends1, .mk (some p_dir) sub_directories)

/-- The loop `while(entry_index)` of `scan_directory`, with `p_dir` the address of the
backend of the folder and `sub_directories` the map of the node so far. -/
def scan_entries : Nat → DirectoryInfo → Nat → Nat → PackageGCF → List DirectoryGCF →
    List (List Char × DirectoryNode) →
    Except Fault (PackageGCF × List DirectoryGCF × List (List Char × DirectoryNode))
  | 0, _, _, _, _, _, _ => .error .out_of_fuel
  | fuel + 1, dirinfo, entry_index, p_dir, pkg, backends, sub_directories =>
    if entry_index = 0 then .ok (pkg, backends, sub_directories)
    else
      match dirinfo.entry entry_index with
      | .error e => .error e
      | .ok entry =>
        match dirinfo.name entry.NameOffset with
        | .error e => .error e
        | .ok filename =>
          if entry.DirectoryType ≠ 0 then
            -- `dirinfo.dir_map.at(entry_index)` throws outside the vector
            match dirinfo.dir_map.get? entry_index with
            | none => .error .exception
            | some block_index =>
              let r := pkg.add_file entry.ItemSize block_index
              scan_entries fuel dirinfo entry.NextIndex p_dir r.1
                (gcf_backends_add_file backends p_dir filename block_index entry.ItemSize r.2)
                sub_directories
          else
            match scan_directory fuel dirinfo entry.FirstIndex pkg backends with
            | .error e => .error e
            | .ok (pkg1, backends1, sub_dir) =>
              scan_entries fuel dirinfo entry.NextIndex p_dir pkg1 backends1
                (sub_directories_set sub_directories (lower filename) sub_dir)

end

/-- The end of `PackageGCF::scan`: the scan of the directory starts at the first child of
entry 0 when entry 0 is a folder, and `m_root_directory` is the node it fills. -/
def PackageGCF.scan_tree (fuel : Nat) (dirinfo : DirectoryInfo) (pkg : PackageGCF)
    (backends : List DirectoryGCF) : Except Fault (PackageGCF × List DirectoryGCF) :=
  match dirinfo.entry 0 with
  | .error e => .error e
  | .ok root =>
    let entry_index := if root.DirectoryType = 0 then root.FirstIndex else 0
    match scan_directory fuel dirinfo entry_index pkg backends with
    | .error e => .error e
    | .ok (pkg1, backends1, dir_node) =>
      .ok ({ pkg1 with m_root_directory := dir_node }, backends1)

/-- Reference: the entries met by a traversal, as a tree: the end of a sibling list, a file
entry followed by its next sibling, or a folder entry with its first child and its next
sibling. -/
inductive EntryTree where
  | done
  | file (index : Nat) (next : EntryTree)
  | folder (index : Nat) (first : EntryTree) (next : EntryTree)
  deriving DecidableEq, Repr

namespace EntryTree

/-- The indices of the file entries in traversal order: siblings along `NextIndex`, the
subtree of a folder when the folder entry is met. -/
def files : EntryTree → List Nat
  | done => []
  | file index next => index :: files next
  | folder _ first next => files first ++ files next

/-- The indices of the entries of the sibling list itself. -/
def siblings : EntryTree → List Nat
  | done => []
  | file index next => index :: siblings next
  | folder index _ next => index :: siblings next

/-- A bound on the fuel that the traversal needs. -/
def cost : EntryTree → Nat
  | done => 1
  | file _ next => 1 + cost next
  | folder _ first next => 2 + cost first + cost next

end EntryTree

namespace DirectoryInfo

/-- The entry at an index, all zero when it cannot be read. -/
def entry_of (dirinfo : DirectoryInfo) (i : Nat) : GCFDirectoryEntry :=
  match dirinfo.entry i with
  | .ok e => e
  | .error _ => ⟨0, 0, 0, 0, 0, 0, 0⟩

/-- The name of the entry at an index, empty when it cannot be read. -/
def name_of (dirinfo : DirectoryInfo) (i : Nat) : List Char :=
  match dirinfo.name (dirinfo.entry_of i).NameOffset with
  | .ok s => s
  | .error _ => []

/-- Reference: the table of entries holds the tree `t` from `entry_index` on: every entry of
the tree is not entry 0, can be read together with its name, is a file (`DirectoryType` not
zero, with a `dir_map` value) or a folder as the tree says, and is followed along `NextIndex`
and `FirstIndex` as the tree says; a sibling list ends at index 0. -/
def lays_out (dirinfo : DirectoryInfo) : Nat → EntryTree → Bool
  | entry_index, .done => entry_index == 0
  | entry_index, .file index next =>
    entry_index == index && index != 0 &&
    (match dirinfo.entry index with
     | .ok e =>
       (match dirinfo.name e.NameOffset with
        | .ok _ => true
        | .error _ => false) &&
       e.DirectoryType != 0 && decide (index < dirinfo.dir_map.length) &&
       lays_out dirinfo e.NextIndex next
     | .error _ => false)
  | entry_index, .folder index first next =>
    entry_index == index && index != 0 &&
    (match dirinfo.entry index with
     | .ok e =>
       (match dirinfo.name e.NameOffset with
        | .ok _ => true
        | .error _ => false) &&
       e.DirectoryType == 0 && lays_out dirinfo e.FirstIndex first &&
       lays_out dirinfo e.NextIndex next
     | .error _ => false)

/-- Reference: within every folder of the tree the names are different ignoring case. -/
def distinct_names (dirinfo : DirectoryInfo) : EntryTree → Bool
  | .done => true
  | .file index next =>
    next.siblings.all (fun j => lower (dirinfo.name_of j) != lower (dirinfo.name_of index)) &&
    distinct_names dirinfo next
  | .folder index first next =>
    next.siblings.all (fun j => lower (dirinfo.name_of j) != lower (dirinfo.name_of index)) &&
    distinct_names dirinfo first && distinct_names dirinfo next

/-- Reference: what a folder holds after the scan of the sibling list `t`, whose first file
gets the id `n`: `d` is the backend of the folder and `subs` the sub-directories of its
node. Every file entry is found in `d` under its lower-cased name, with its name, its
`dir_map` value, its `ItemSize` and its id; every folder entry is found in `subs` under its
lower-cased name, as a node with a backend that holds the entries of the folder. -/
def holds (dirinfo : DirectoryInfo) (backends : List DirectoryGCF) :
    EntryTree → Nat → DirectoryGCF → List (List Char × DirectoryNode) → Prop
  | .done, _, _, _ => True
  | .file index next, n, d, subs =>
    map_find d.m_files (lower (dirinfo.name_of index)) =
      some ⟨dirinfo.name_of index, dirinfo.dir_map.getD index 0,
        (dirinfo.entry_of index).ItemSize, n⟩ ∧
    holds dirinfo backends next (n + 1) d subs
  | .folder index first next, n, d, subs =>
    (∃ a child_subs child_d,
      sub_directories_find subs (lower (dirinfo.name_of index)) =
        some (.mk (some a) child_subs) ∧
      backends.get? a = some child_d ∧
      holds dirinfo backends first n child_d child_subs) ∧
    holds dirinfo backends next (n + first.files.length) d subs

end DirectoryInfo

/-- A directory block for examples, with four entries: the root folder (entry 0, first child
1), the file `A.txt` (entry 1, 10 bytes, next sibling 2), the folder `Maps` (entry 2, first
child 3) and the file `de.bsp` (entry 3, 20 bytes); `dir_map` is `[0, 5, 0, 9]`. -/
def example_dirinfo : DirectoryInfo :=
  { raw_dir_block :=
      List.replicate 12 0 ++ bytes32 4 ++ List.replicate 40 0 ++
      (bytes32 0 ++ bytes32 0 ++ bytes32 0xFFFFFFFF ++ bytes32 0 ++ bytes32 0xFFFFFFFF ++
        bytes32 0 ++ bytes32 1) ++
      (bytes32 1 ++ bytes32 10 ++ bytes32 0 ++ bytes32 0x4000 ++ bytes32 0 ++ bytes32 2 ++
        bytes32 0) ++
      (bytes32 7 ++ bytes32 1 ++ bytes32 0 ++ bytes32 0 ++ bytes32 0 ++ bytes32 0 ++
        bytes32 3) ++
      (bytes32 12 ++ bytes32 20 ++ bytes32 0 ++ bytes32 0x4000 ++ bytes32 2 ++ bytes32 0 ++
        bytes32 0) ++
      [0] ++ bytes_of "A.txt" ++ [0] ++ bytes_of "Maps" ++ [0] ++ bytes_of "de.bsp" ++ [0],
    dir_map := [0, 5, 0, 9],
    p_names := 56 + 28 * 4 }

/-- The tree of `example_dirinfo` from entry 1 on. -/
def example_entries : EntryTree := .file 1 (.folder 2 (.file 3 .done) .done)

/-- Reference: the entry of `m_file_info` for the file entry at an index: its `ItemSize` and
its `dir_map` value. -/
def DirectoryInfo.info_of (dirinfo : DirectoryInfo) (i : Nat) : Nat × Nat :=
  ((dirinfo.entry_of i).ItemSize, dirinfo.dir_map.getD i 0)

/-- What the loop of `scan_directory` makes of a sibling list that is laid out as the tree
`t`. -/
structure ScannedEntries (dirinfo : DirectoryInfo) (t : EntryTree) (p_dir : Nat)
    (pkg : PackageGCF) (bs : List DirectoryGCF) (subs : List (List Char × DirectoryNode))
    (d : DirectoryGCF) (bs1 : List DirectoryGCF) (subs1 : List (List Char × DirectoryNode))
    (d1 : DirectoryGCF) : Prop where
  longer : bs.length ≤ bs1.length
  others : ∀ a, a < bs.length → a ≠ p_dir → bs1.get? a = bs.get? a
  backend : bs1.get? p_dir = some d1
  files_kept : ∀ key, (∀ j ∈ t.siblings, lower (dirinfo.name_of j) ≠ key) →
    map_find d1.m_files key = map_find d.m_files key
  subs_kept : ∀ key, (∀ j ∈ t.siblings, lower (dirinfo.name_of j) ≠ key) →
    sub_directories_find subs1 key = sub_directories_find subs key
  holds : ∀ bs2, (∀ a, bs.length ≤ a → a < bs1.length → bs2.get? a = bs1.get? a) →
    dirinfo.holds bs2 t pkg.m_file_info.length d1 subs1

/-! ## ZIP packages: the record at the offset of the walk -/

/-- Reference: the central-directory entry that stands at `offset` (after its 4-byte
signature). -/
def ZipWalk.entry_at (w : ZipWalk) : zip_dir_entry :=
  zip_dir_entry.decode (w.zip_file.file.slice (w.offset + 4) sizeof_dir_entry)

/-- Reference: the file name that follows the entry at `offset`. -/
def ZipWalk.name_at (w : ZipWalk) : List Char :=
  string_of_bytes (w.zip_file.file.slice (w.offset + 4 + sizeof_dir_entry)
    w.entry_at.filename_size)

/-- Reference: the local file header that stands at the `file_offset` of the entry (after its
4-byte signature). -/
def ZipWalk.local_header_at (w : ZipWalk) : zip_file_header :=
  zip_file_header.decode
    (w.zip_file.file.slice (w.entry_at.file_offset + 4) sizeof_zipfile_header)

/-- An archive of 103 bytes with one stored entry named `d/` of one byte (`A`): local record
at 0, central-directory record at 33, end-of-central-directory record at 81. -/
def folder_archive : HostFile :=
  HostFile.ofList (
    zip_local (bytes_of "d/") 0 1 1 (bytes_of "A") ++
    zip_entry (bytes_of "d/") 0 1 1 0 ++
    zip_eocd 0 0 1 48 33)

/-- The state of the walk over `note_archive` at its record, in a package as `scan` starts
it. -/
def note_walk : ZipWalk :=
  ⟨IfStream.opened note_archive, 133, zero_fileheader, (PackageZIP.new []).scan_reset⟩

/-! ## ZIP packages: the tree of directories -/

/-- The backend held by the node reached from `node` by a folder path (`none` when there is
no such node or it holds a null pointer). -/
def DirectoryNode.backend_at (node : DirectoryNode) (ks : List (List Char)) : Option Nat :=
  match dir_node_at node ks with
  | some nd => nd.p_directory
  | none => none

/-- Reference for `get_directory(path, true)`: below `node`, every node missing along `keys`
is added with a new, empty `DirectoryZIP`, whose address is the next index of the list of
backends. -/
def make_directories : DirectoryNode → List DirectoryZIP → List (List Char) →
    DirectoryNode × List DirectoryZIP
  | node, backends, [] => (node, backends)
  | node, backends, k :: ks =>
    match sub_directories_find node.sub_directories k with
    | some child =>
      let r := make_directories child backends ks
      (.mk node.p_directory (sub_directories_set node.sub_directories k r.1), r.2)
    | none =>
      let r := make_directories (.mk (some backends.length) []) (backends ++ [⟨[]⟩]) ks
      (.mk node.p_directory (sub_directories_set node.sub_directories k r.1), r.2)

/-- A tree as `scan` keeps it: every node holds a backend, which is one of the backends made
so far, and no two nodes hold the same backend. -/
structure TreeOk (node : DirectoryNode) (backends : List DirectoryZIP) : Prop where
  present : ∀ ks, (dir_node_at node ks).isSome → (node.backend_at ks).isSome
  bound : ∀ ks a, node.backend_at ks = some a → a < backends.length
  inj : ∀ ks1 ks2 a, node.backend_at ks1 = some a → node.backend_at ks2 = some a → ks1 = ks2

/-- Reference: the id that the backend of the folder at `ks` gives for a file name
(`get_file_id`), `-1` when there is no such folder. -/
def PackageZIP.file_id_at (pkg : PackageZIP) (ks : List (List Char)) (name : List Char) : Int :=
  match pkg.backend_of ks with
  | some a =>
    match pkg.m_backends.get? a with
    | some d => d.get_file_id name
    | none => -1
  | none => -1

/-- An example `FileInfo`: a stored entry of 7 bytes at offset 64. -/
def example_info : ZipFileInfo := ⟨7, 7, 64, 4, 0, 0⟩

/-- What making the folders along `ks` below `node` keeps and adds. -/
structure MadeFrom (node : DirectoryNode) (bs : List DirectoryZIP) (ks : List (List Char))
    (r1 : DirectoryNode) (r2 : List DirectoryZIP) : Prop where
  ok : TreeOk r1 r2
  longer : bs.length ≤ r2.length
  old : ∀ a, a < bs.length → r2.get? a = bs.get? a
  fresh : ∀ a, bs.length ≤ a → a < r2.length → r2.get? a = some ⟨[]⟩
  kept : ∀ ks1 a, node.backend_at ks1 = some a → r1.backend_at ks1 = some a
  origin : ∀ ks1 a, r1.backend_at ks1 = some a →
    node.backend_at ks1 = some a ∨ (bs.length ≤ a ∧ node.backend_at ks1 = none)
  chain : ∀ i, (r1.backend_at (ks.take i)).isSome

/-! ## Sequences of calls on a GCF handle -/

namespace FileGCF

/-- The method `write`, which does nothing. -/
def write (f : FileGCF) (_data : List Nat) : FileGCF := f

/-- The loop `while(count-- && !is_eof() && !is_fail()) if(get() == delimeter) break;` of
`ignore`. -/
def ignore_loop : Nat → Int → FileGCF → Except Fault FileGCF
  | 0, _, f => .ok f
  | count + 1, delimeter, f =>
    if f.is_eof || f.is_fail then .ok f
    else
      match f.get with
      | .error e => .error e
      | .ok (f1, c) => if c = delimeter then .ok f1 else ignore_loop count delimeter f1

/-- The method `ignore(count, delimeter)`. -/
def ignore (f : FileGCF) (count : Nat) (delimeter : Int) : Except Fault FileGCF :=
  if delimeter < 0 then f.seek_dir (to_int32 count) Seek.CURRENT
  else f.ignore_loop count delimeter

end FileGCF

/-- A call on an open file, with its arguments. -/
inductive FileOp where
  | seek (pos : Nat)
  | seek_dir (offset : Int) (dir : Seek)
  | read (size : Nat)
  | get
  | ignore (count : Nat) (delimeter : Int)
  | write (data : List Nat)
  deriving DecidableEq, Repr

/-- The handle after a call; the loop of `read` is bounded by `fuel` passes. -/
def FileGCF.apply (fuel : Nat) (f : FileGCF) : FileOp → Except Fault FileGCF
  | .seek pos => f.seek pos
  | .seek_dir offset dir => f.seek_dir offset dir
  | .read size => (FileGCF.read fuel f size).map (fun r => r.1)
  | .get => f.get.map (fun r => r.1)
  | .ignore count delimeter => f.ignore count delimeter
  | .write data => .ok (f.write data)

/-- The handle after a sequence of calls. -/
def FileGCF.run (fuel : Nat) : FileGCF → List FileOp → Except Fault FileGCF
  | f, [] => .ok f
  | f, op :: ops =>
    match f.apply fuel op with
    | .error e => .error e
    | .ok f1 => FileGCF.run fuel f1 ops

theorem ofNat_shift_facts (n : Nat) (h1 : 65 ≤ n) (h2 : n ≤ 90) :
    Char.ofNat (n + 32) ≠ '/' ∧ (Char.ofNat (n + 32)).toLower = Char.ofNat (n + 32) := by
  interval_cases n <;> decide

theorem toLower_eq_slash (c : Char) : c.toLower = '/' ↔ c = '/' := by
  unfold Char.toLower
  simp only
  split
  · rename_i h
    constructor
    · intro h2
      exact absurd h2 (ofNat_shift_facts c.toNat h.1 h.2).1
    · intro h2; subst h2; simp at h
  · exact Iff.rfl

theorem toLower_toLower (c : Char) : c.toLower.toLower = c.toLower := by
  by_cases h : c.toNat ≥ 65 ∧ c.toNat ≤ 90
  · have : c.toLower = Char.ofNat (c.toNat + 32) := by
      unfold Char.toLower; simp only; rw [if_pos h]
    rw [this]
    exact (ofNat_shift_facts c.toNat h.1 h.2).2
  · have : c.toLower = c := by
      unfold Char.toLower; simp only; rw [if_neg h]
    rw [this, this]

theorem lower_lower (s : List Char) : lower (lower s) = lower s := by
  simp [lower, toLower_toLower]

theorem lower_nil : lower [] = [] := rfl

theorem lower_cons (c : Char) (s : List Char) : lower (c :: s) = c.toLower :: lower s := rfl

theorem lower_append (s t : List Char) : lower (s ++ t) = lower s ++ lower t := by
  simp [lower]

theorem lower_eq_nil (s : List Char) : lower s = [] ↔ s = [] := by
  simp [lower]

theorem lower_take (s : List Char) (n : Nat) : lower (s.take n) = (lower s).take n := by
  simp [lower, List.map_take]

theorem lower_drop (s : List Char) (n : Nat) : lower (s.drop n) = (lower s).drop n := by
  simp [lower, List.map_drop]

theorem length_lower (s : List Char) : (lower s).length = s.length := by
  simp [lower]

theorem find_first_of_lower (s : List Char) : find_first_of (lower s) = find_first_of s := by
  induction s with
  | nil => rfl
  | cons c cs ih =>
    rw [lower_cons]
    simp only [find_first_of, ih, toLower_eq_slash]

theorem find_last_of_lower (s : List Char) : find_last_of (lower s) = find_last_of s := by
  induction s with
  | nil => rfl
  | cons c cs ih =>
    rw [lower_cons]
    simp only [find_last_of, ih, toLower_eq_slash]

theorem head_lower (s : List Char) : (lower s).head? = some '/' ↔ s.head? = some '/' := by
  cases s with
  | nil => simp [lower]
  | cons c cs => simp [lower, toLower_eq_slash]

theorem split_path_lower (s : List Char) :
    split_path (lower s) = (lower (split_path s).1, lower (split_path s).2) := by
  unfold split_path
  rw [find_last_of_lower]
  cases find_last_of s with
  | none => rfl
  | some pos => simp only [lower_take, lower_drop]

theorem find_first_of_eq_none (s : List Char) : find_first_of s = none ↔ '/' ∉ s := by
  induction s with
  | nil => simp [find_first_of]
  | cons c cs ih =>
    by_cases hc : c = '/'
    · simp [find_first_of, hc]
    · have : ¬ '/' = c := fun h => hc h.symm
      simp [find_first_of, hc, ih, this]

theorem find_last_of_eq_none (s : List Char) : find_last_of s = none ↔ '/' ∉ s := by
  induction s with
  | nil => simp [find_last_of]
  | cons c cs ih =>
    by_cases hc : c = '/'
    · cases h : find_last_of cs <;> simp [find_last_of, hc, h]
    · have : ¬ '/' = c := fun h => hc h.symm
      cases h : find_last_of cs with
      | none => simpa [find_last_of, hc, h, this] using ih.mp h
      | some i =>
        have : '/' ∈ cs := by
          by_contra hn
          rw [ih.mpr hn] at h
          cases h
        simp [find_last_of, h, this]

theorem find_first_of_some (s : List Char) (p : Nat) (h : find_first_of s = some p) :
    s = s.take p ++ '/' :: s.drop (p + 1) ∧ '/' ∉ s.take p ∧ p < s.length := by
  induction s generalizing p with
  | nil => simp [find_first_of] at h
  | cons c cs ih =>
    by_cases hc : c = '/'
    · simp only [find_first_of, hc, if_true, Option.some.injEq] at h
      subst h; subst hc
      simp
    · simp only [find_first_of, hc, if_false, Option.map_eq_some'] at h
      obtain ⟨q, hq, rfl⟩ := h
      obtain ⟨h1, h2, h3⟩ := ih q hq
      refine ⟨?_, ?_, ?_⟩
      · simp only [List.take_succ_cons, List.drop_succ_cons, List.cons_append]
        rw [← h1]
      · simp only [List.take_succ_cons, List.mem_cons, not_or]
        exact ⟨fun h => hc h.symm, h2⟩
      · simp only [List.length_cons]; omega

theorem find_first_of_append_slash (A B : List Char) (hA : '/' ∉ A) :
    find_first_of (A ++ '/' :: B) = some A.length := by
  induction A with
  | nil => simp [find_first_of]
  | cons c cs ih =>
    simp only [List.mem_cons, not_or] at hA
    have hc : ¬ c = '/' := fun h => hA.1 h.symm
    simp [find_first_of, hc, ih hA.2]

theorem find_last_of_append_slash (A B : List Char) :
    find_last_of (A ++ '/' :: B) =
      match find_last_of B with
      | some i => some (A.length + 1 + i)
      | none => some A.length := by
  induction A with
  | nil =>
    cases h : find_last_of B <;> simp [find_last_of, h]
    omega
  | cons c cs ih =>
    cases h : find_last_of B with
    | none =>
      rw [h] at ih
      simp [find_last_of, ih]
    | some i =>
      rw [h] at ih
      simp [find_last_of, ih]
      omega

theorem split_path_append_slash (A B : List Char) :
    split_path (A ++ '/' :: B) =
      if find_last_of B = none then (A, B)
      else (A ++ '/' :: (split_path B).1, (split_path B).2) := by
  unfold split_path
  rw [find_last_of_append_slash]
  cases h : find_last_of B with
  | none => simp
  | some i =>
    simp only [reduceCtorEq, if_false]
    have e1 : A.length + 1 + i = A.length + (i + 1) := by omega
    have e2 : A.length + 1 + i + 1 = A.length + (i + 1 + 1) := by omega
    rw [e2, e1, List.take_append, List.drop_append]
    simp

/-! ## The reference segmentation -/

theorem path_segments_nil : path_segments [] = [] := by
  simp [path_segments]

theorem path_segments_single (A : List Char) (hA : '/' ∉ A) :
    path_segments A = if A = [] then [] else [lower A] := by
  unfold path_segments
  have : A.splitOn '/' = [A] := by
    apply List.splitOnP_eq_single
    intro x hx h
    simp only [beq_iff_eq] at h
    exact hA (h ▸ hx)
  rw [this]
  by_cases h : A = []
  · simp [h]
  · simp [h]

theorem path_segments_first (A B : List Char) (hA : '/' ∉ A) :
    path_segments (A ++ '/' :: B) = (if A = [] then [] else [lower A]) ++ path_segments B := by
  unfold path_segments
  have : (A ++ '/' :: B).splitOn '/' = A :: B.splitOn '/' := by
    apply List.splitOnP_first
    · intro x hx h
      simp only [beq_iff_eq] at h
      exact hA (h ▸ hx)
    · simp
  rw [this]
  by_cases h : A = []
  · simp [h]
  · simp [h]

theorem path_segments_slash (B : List Char) : path_segments ('/' :: B) = path_segments B := by
  have := path_segments_first [] B (by simp)
  simpa using this

theorem path_segments_lower (P : List Char) : path_segments (lower P) = path_segments P := by
  generalize hn : P.length = n
  induction n using Nat.strong_induction_on generalizing P with
  | _ n ih =>
    subst hn
    cases hf : find_first_of P with
    | none =>
      have h1 : '/' ∉ P := (find_first_of_eq_none P).mp hf
      have h2 : '/' ∉ lower P := by
        rw [← find_first_of_eq_none, find_first_of_lower]; exact hf
      rw [path_segments_single _ h1, path_segments_single _ h2, lower_lower]
      simp [lower_eq_nil]
    | some p =>
      obtain ⟨h1, h2, h3⟩ := find_first_of_some P p hf
      have h4 : '/' ∉ lower (P.take p) := by
        rw [← find_first_of_eq_none, find_first_of_lower, find_first_of_eq_none]; exact h2
      have e : lower P = lower (P.take p) ++ '/' :: lower (P.drop (p + 1)) := by
        conv_lhs => rw [h1]
        rw [lower_append, lower_cons]
        rfl
      rw [e, path_segments_first _ _ h4]
      conv_rhs => rw [h1, path_segments_first _ _ h2]
      rw [ih (P.drop (p + 1)).length (by rw [List.length_drop]; omega) _ rfl, lower_lower]
      simp [lower_eq_nil]

/-- Unfolding of the segmentation along the recursion of the source: a path that is not
empty and does not start with `/`. -/
theorem path_segments_peel (path : List Char) (hp : path ≠ []) (hs : path.head? ≠ some '/') :
    path_segments path = lower (peel_dir path) :: path_segments (peel_path path) := by
  unfold peel_dir peel_path
  cases hf : find_first_of path with
  | none =>
    have h1 : '/' ∉ path := (find_first_of_eq_none path).mp hf
    simp [path_segments_single _ h1, hp, path_segments_nil]
  | some p =>
    obtain ⟨h1, h2, h3⟩ := find_first_of_some path p hf
    have hne : path.take p ≠ [] := by
      intro h0
      rw [h0] at h1
      rw [h1] at hs
      simp at hs
    simp only
    conv_lhs => rw [h1, path_segments_first _ _ h2]
    simp [hne]

/-! ## Refinement of the recursive functions -/

theorem make_path_cons (mp : MountPoint) (k : List Char) (ks : List (List Char)) :
    make_path mp (k :: ks) =
      mp.set_child k (make_path
        (match children_find mp.m_children k with
         | some child => child
         | none => MountPoint.mk k mp.m_attributes [] []) ks) := by
  rw [make_path]
  cases children_find mp.m_children k <;> rfl

theorem mount_at_cons (mp : MountPoint) (k : List Char) (ks : List (List Char)) (d : Nat) :
    mount_at mp (k :: ks) d =
      mp.set_child k (mount_at
        (match children_find mp.m_children k with
         | some child => child
         | none => MountPoint.mk k mp.m_attributes [] []) ks d) := by
  rw [mount_at]
  cases children_find mp.m_children k <;> rfl

theorem drop_one_of_head_slash (path : List Char) (hs : path.head? = some '/') :
    path = '/' :: path.drop 1 := by
  cases path with
  | nil => simp at hs
  | cons c cs => simp at hs; simp [hs]

/-- With `b_create = true` the recursion of `get_mountpoint` creates the path of the
reference segmentation and returns the node it addresses. -/
theorem get_mountpoint_go_create (n : Nat) (mp : MountPoint) (path : List Char)
    (h : path.length < n) :
    get_mountpoint_go n mp path h true =
      (make_path mp (path_segments path), some (path_segments path)) := by
  induction n generalizing mp path with
  | zero => exact absurd h (Nat.not_lt_zero _)
  | succ n ih =>
    rw [get_mountpoint_go]
    by_cases hp : path = []
    · subst hp
      simp [path_segments_nil, make_path]
    · rw [dif_neg hp]
      by_cases hs : path.head? = some '/'
      · simp only [hs, if_true]
        rw [ih]
        conv_rhs => rw [drop_one_of_head_slash path hs, path_segments_slash]
      · simp only [hs, if_false]
        rw [path_segments_peel path hp hs, make_path_cons]
        cases hc : children_find mp.m_children (lower (peel_dir path)) with
        | some child => simp only [ih, Option.map_some', if_true]
        | none => simp only [ih, Option.map_some', if_true]

theorem get_mountpoint_create (mp : MountPoint) (path : List Char) :
    mp.get_mountpoint path true =
      (make_path mp (path_segments path), some (path_segments path)) :=
  get_mountpoint_go_create _ mp path _

theorem mount_go_eq (n : Nat) (mp : MountPoint) (path : List Char) (h : path.length < n)
    (d : Nat) :
    mount_go n mp path h d = (mount_at mp (path_segments path) d, 0) := by
  induction n generalizing mp path with
  | zero => exact absurd h (Nat.not_lt_zero _)
  | succ n ih =>
    rw [mount_go]
    by_cases hp : path = []
    · subst hp
      simp [path_segments_nil, mount_at]
    · rw [dif_neg hp]
      by_cases hs : path.head? = some '/'
      · simp only [hs, if_true]
        rw [ih]
        conv_rhs => rw [drop_one_of_head_slash path hs, path_segments_slash]
        simp
      · simp only [hs, if_false]
        rw [path_segments_peel path hp hs, mount_at_cons, ih]
        simp

theorem mount_eq (mp : MountPoint) (path : List Char) (d : Nat) :
    mp.mount path d = (mount_at mp (path_segments path) d, 0) :=
  mount_go_eq _ mp path _ d

theorem node_at_cons (mp : MountPoint) (k : List Char) (ks : List (List Char)) :
    node_at mp (k :: ks) =
      match children_find mp.m_children k with
      | none => none
      | some child => node_at child ks := by
  rw [node_at]

/-- What `find_file_owner` computes: a bare name is searched in the node itself under the
required mask; any path with a `/` is searched, with the mask dropped to `0`, in the node
addressed by the segments before the last `/`. -/
theorem find_file_owner_go_eq {H : Type} (lock : Nat → Option (IDirectory H)) (n : Nat)
    (mp : MountPoint) (path : List Char) (h : path.length < n) (req : Nat) :
    find_file_owner_go lock n mp path h req =
      if find_first_of path = none then
        (if mp.m_attributes &&& req = req then
          search_directories lock req (lower path) mp.m_directories.reverse
        else none)
      else
        match node_at mp (path_segments (split_path path).1) with
        | none => none
        | some nd =>
          search_directories lock 0 (lower (split_path path).2) nd.m_directories.reverse := by
  induction n generalizing mp path req with
  | zero => exact absurd h (Nat.not_lt_zero _)
  | succ n ih =>
    rw [find_file_owner_go]
    by_cases hs : path.head? = some '/'
    · rw [dif_pos hs, ih]
      have e := drop_one_of_head_slash path hs
      generalize path.drop 1 = rest at e
      subst e
      have hsp := split_path_append_slash [] rest
      simp only [List.nil_append] at hsp
      have hff : find_first_of ('/' :: rest) ≠ none := by simp [find_first_of]
      rw [if_neg hff, hsp]
      by_cases hr : find_first_of rest = none
      · have hl : find_last_of rest = none := by
          rw [find_last_of_eq_none, ← find_first_of_eq_none]; exact hr
        simp [hr, hl, path_segments_nil, node_at]
      · have hl : ¬ find_last_of rest = none := by
          rw [find_last_of_eq_none, ← find_first_of_eq_none]; exact hr
        simp only [hr, hl, if_false, path_segments_slash]
    · rw [dif_neg hs]
      split
      · rename_i hf
        simp [hf]
      · rename_i pos hf
        obtain ⟨h1, h2, h3⟩ := find_first_of_some path pos hf
        have hne : path.take pos ≠ [] := by
          intro h0
          rw [h0] at h1
          rw [h1] at hs
          simp at hs
        have hff : find_first_of path ≠ none := by simp [hf]
        rw [if_neg hff]
        have hsp := split_path_append_slash (path.take pos) (path.drop (pos + 1))
        rw [← h1] at hsp
        rw [hsp]
        by_cases hr : find_first_of (path.drop (pos + 1)) = none
        · have hl : find_last_of (path.drop (pos + 1)) = none := by
            rw [find_last_of_eq_none, ← find_first_of_eq_none]; exact hr
          simp only [hl, if_true, path_segments_single _ h2, hne, if_false, node_at_cons]
          cases hc : children_find mp.m_children (lower (path.take pos)) with
          | none => rfl
          | some child =>
            simp only [ih, find_first_of_lower, hr, if_true, Nat.and_zero, lower_lower, node_at]
        · have hl : ¬ find_last_of (path.drop (pos + 1)) = none := by
            rw [find_last_of_eq_none, ← find_first_of_eq_none]; exact hr
          simp only [hl, if_false, path_segments_first _ _ h2, hne, List.singleton_append,
            node_at_cons]
          cases hc : children_find mp.m_children (lower (path.take pos)) with
          | none => rfl
          | some child =>
            simp only [ih, find_first_of_lower, hr, if_false, split_path_lower,
              path_segments_lower, lower_lower]

theorem find_file_owner_eq {H : Type} (lock : Nat → Option (IDirectory H))
    (mp : MountPoint) (path : List Char) (req : Nat) :
    mp.find_file_owner lock path req =
      if find_first_of path = none then
        (if mp.m_attributes &&& req = req then
          search_directories lock req (lower path) mp.m_directories.reverse
        else none)
      else
        match node_at mp (path_segments (split_path path).1) with
        | none => none
        | some nd =>
          search_directories lock 0 (lower (split_path path).2) nd.m_directories.reverse :=
  find_file_owner_go_eq lock _ mp path _ req

/-! ### The children map -/

theorem children_find_set_same (cs : List (List Char × MountPoint)) (k : List Char)
    (v : MountPoint) : children_find (children_set cs k v) k = some v := by
  induction cs with
  | nil => simp [children_set, children_find]
  | cons hd tl ih =>
    obtain ⟨k0, v0⟩ := hd
    by_cases hk : k0 = k
    · simp [children_set, children_find, hk]
    · simp [children_set, children_find, hk, ih]

theorem children_find_set_other (cs : List (List Char × MountPoint)) (k k2 : List Char)
    (v : MountPoint) (hne : k2 ≠ k) :
    children_find (children_set cs k v) k2 = children_find cs k2 := by
  induction cs with
  | nil =>
    have : ¬ k = k2 := fun h => hne h.symm
    simp [children_set, children_find, this]
  | cons hd tl ih =>
    obtain ⟨k0, v0⟩ := hd
    by_cases hk : k0 = k
    · subst hk
      have : ¬ k0 = k2 := fun h => hne h.symm
      simp [children_set, children_find, this]
    · by_cases hk2 : k0 = k2
      · subst hk2
        simp [children_set, children_find, hk]
      · simp [children_set, children_find, hk, hk2, ih]

theorem children_set_set (cs : List (List Char × MountPoint)) (k : List Char)
    (v w : MountPoint) : children_set (children_set cs k v) k w = children_set cs k w := by
  induction cs with
  | nil => simp [children_set]
  | cons hd tl ih =>
    obtain ⟨k0, v0⟩ := hd
    by_cases hk : k0 = k
    · simp [children_set, hk]
    · simp [children_set, hk, ih]

theorem set_child_children (mp : MountPoint) (k : List Char) (v : MountPoint) :
    (mp.set_child k v).m_children = children_set mp.m_children k v := by
  cases mp; rfl

theorem set_child_name (mp : MountPoint) (k : List Char) (v : MountPoint) :
    (mp.set_child k v).m_name = mp.m_name := by
  cases mp; rfl

theorem set_child_attributes (mp : MountPoint) (k : List Char) (v : MountPoint) :
    (mp.set_child k v).m_attributes = mp.m_attributes := by
  cases mp; rfl

theorem set_child_directories (mp : MountPoint) (k : List Char) (v : MountPoint) :
    (mp.set_child k v).m_directories = mp.m_directories := by
  cases mp; rfl

theorem set_child_set_child (mp : MountPoint) (k : List Char) (v w : MountPoint) :
    (mp.set_child k v).set_child k w = mp.set_child k w := by
  cases mp
  simp [MountPoint.set_child, children_set_set]

theorem find_set_child_same (mp : MountPoint) (k : List Char) (v : MountPoint) :
    children_find (mp.set_child k v).m_children k = some v := by
  rw [set_child_children, children_find_set_same]

theorem find_set_child_other (mp : MountPoint) (k k2 : List Char) (v : MountPoint)
    (hne : k2 ≠ k) :
    children_find (mp.set_child k v).m_children k2 = children_find mp.m_children k2 := by
  rw [set_child_children, children_find_set_other _ _ _ _ hne]

/-! ### Creating a path -/

theorem make_path_idem (mp : MountPoint) (ks : List (List Char)) :
    make_path (make_path mp ks) ks = make_path mp ks := by
  induction ks generalizing mp with
  | nil => rfl
  | cons k ks ih =>
    rw [make_path_cons mp, make_path_cons (mp.set_child k _), find_set_child_same]
    simp only
    rw [ih, set_child_set_child]

theorem node_at_make_path (mp : MountPoint) (ks : List (List Char)) :
    (node_at (make_path mp ks) ks).isSome := by
  induction ks generalizing mp with
  | nil => rfl
  | cons k ks ih =>
    rw [make_path_cons, node_at_cons, find_set_child_same]
    exact ih _

/-! ### Mounting at an address -/

theorem directories_at_nil (mp : MountPoint) : directories_at mp [] = mp.m_directories := rfl

theorem directories_at_cons (mp : MountPoint) (k : List Char) (ks : List (List Char)) :
    directories_at mp (k :: ks) =
      match children_find mp.m_children k with
      | none => []
      | some child => directories_at child ks := by
  unfold directories_at
  rw [node_at_cons]
  cases children_find mp.m_children k <;> rfl

theorem directories_at_fresh (k : List Char) (a : Nat) (addr : List (List Char)) :
    directories_at (MountPoint.mk k a [] []) addr = [] := by
  cases addr with
  | nil => rfl
  | cons k2 ks => rw [directories_at_cons]; rfl

theorem push_directory_directories (mp : MountPoint) (d : Nat) :
    (mp.push_directory d).m_directories = mp.m_directories ++ [d] := by
  cases mp; rfl

theorem push_directory_children (mp : MountPoint) (d : Nat) :
    (mp.push_directory d).m_children = mp.m_children := by
  cases mp; rfl

theorem push_directory_name (mp : MountPoint) (d : Nat) :
    (mp.push_directory d).m_name = mp.m_name := by
  cases mp; rfl

theorem push_directory_attributes (mp : MountPoint) (d : Nat) :
    (mp.push_directory d).m_attributes = mp.m_attributes := by
  cases mp; rfl

theorem node_at_mount_at (mp : MountPoint) (ks : List (List Char)) (d : Nat) :
    (node_at (mount_at mp ks d) ks).isSome := by
  induction ks generalizing mp with
  | nil => rfl
  | cons k ks ih =>
    rw [mount_at_cons, node_at_cons, find_set_child_same]
    exact ih _

theorem directories_at_mount_at (mp : MountPoint) (ks : List (List Char)) (d : Nat) :
    directories_at (mount_at mp ks d) ks = directories_at mp ks ++ [d] := by
  induction ks generalizing mp with
  | nil => simp [mount_at, directories_at_nil, push_directory_directories]
  | cons k ks ih =>
    rw [mount_at_cons, directories_at_cons, find_set_child_same, directories_at_cons]
    simp only
    rw [ih]
    cases children_find mp.m_children k with
    | some child => rfl
    | none => simp [directories_at_fresh]

theorem directories_at_mount_at_other (mp : MountPoint) (ks : List (List Char)) (d : Nat)
    (addr : List (List Char)) (hne : addr ≠ ks) :
    directories_at (mount_at mp ks d) addr = directories_at mp addr := by
  induction ks generalizing mp addr with
  | nil =>
    cases addr with
    | nil => exact absurd rfl hne
    | cons k2 as =>
      simp only [mount_at, directories_at_cons, push_directory_children]
  | cons k ks ih =>
    rw [mount_at_cons]
    cases addr with
    | nil => simp only [directories_at_nil, set_child_directories]
    | cons k2 as =>
      rw [directories_at_cons, directories_at_cons]
      by_cases hk : k2 = k
      · subst hk
        rw [find_set_child_same]
        have hne2 : as ≠ ks := fun h => hne (by rw [h])
        simp only
        rw [ih _ _ hne2]
        cases children_find mp.m_children k2 with
        | some child => rfl
        | none => simp [directories_at_fresh]
      · rw [find_set_child_other _ _ _ _ hk]

theorem node_at_mount_at_keeps (mp : MountPoint) (ks : List (List Char)) (d : Nat)
    (addr : List (List Char)) (nd : MountPoint) (h : node_at mp addr = some nd) :
    ∃ nd2, node_at (mount_at mp ks d) addr = some nd2 ∧ nd2.m_name = nd.m_name ∧
      nd2.m_attributes = nd.m_attributes ∧
      ∀ k, (children_find nd.m_children k).isSome → (children_find nd2.m_children k).isSome := by
  induction ks generalizing mp addr with
  | nil =>
    cases addr with
    | nil =>
      simp only [node_at, Option.some.injEq] at h
      subst h
      exact ⟨_, rfl, push_directory_name _ _, push_directory_attributes _ _,
        fun k hk => by rw [mount_at, push_directory_children]; exact hk⟩
    | cons k2 as =>
      refine ⟨nd, ?_, rfl, rfl, fun k hk => hk⟩
      rw [← h, mount_at, node_at_cons, node_at_cons, push_directory_children]
  | cons k ks ih =>
    rw [mount_at_cons]
    cases addr with
    | nil =>
      simp only [node_at, Option.some.injEq] at h
      subst h
      refine ⟨_, rfl, set_child_name _ _ _, set_child_attributes _ _ _, ?_⟩
      intro k3 hk3
      by_cases hk : k3 = k
      · subst hk; rw [find_set_child_same]; rfl
      · rw [find_set_child_other _ _ _ _ hk]; exact hk3
    | cons k2 as =>
      rw [node_at_cons] at h
      rw [node_at_cons]
      by_cases hk : k2 = k
      · subst hk
        rw [find_set_child_same]
        cases hc : children_find mp.m_children k2 with
        | none => rw [hc] at h; cases h
        | some child =>
          rw [hc] at h
          exact ih child as h
      · rw [find_set_child_other _ _ _ _ hk]
        exact ⟨nd, h, rfl, rfl, fun k hk => hk⟩

/-! ### The search through the directory list -/

theorem search_directories_sound {H : Type} (lock : Nat → Option (IDirectory H)) (req : Nat)
    (name : List Char) (dirs : List Nat) (a : Nat) (d : IDirectory H)
    (h : search_directories lock req name dirs = some (a, d)) :
    a ∈ dirs ∧ lock a = some d ∧ d.dir_attr &&& req = req ∧ d.file_exists name = true := by
  induction dirs with
  | nil => simp [search_directories] at h
  | cons x rest ih =>
    rw [search_directories] at h
    cases hx : lock x with
    | none =>
      rw [hx] at h
      obtain ⟨h1, h2⟩ := ih h
      exact ⟨List.mem_cons_of_mem _ h1, h2⟩
    | some p =>
      rw [hx] at h
      simp only at h
      by_cases hattr : p.dir_attr &&& req ≠ req
      · rw [if_pos hattr] at h
        obtain ⟨h1, h2⟩ := ih h
        exact ⟨List.mem_cons_of_mem _ h1, h2⟩
      · rw [if_neg hattr] at h
        by_cases hex : p.file_exists name = true
        · rw [if_pos hex] at h
          simp only [Option.some.injEq, Prod.mk.injEq] at h
          obtain ⟨rfl, rfl⟩ := h
          exact ⟨List.mem_cons_self _ _, hx, not_not.mp hattr, hex⟩
        · rw [if_neg hex] at h
          obtain ⟨h1, h2⟩ := ih h
          exact ⟨List.mem_cons_of_mem _ h1, h2⟩

theorem search_directories_none {H : Type} (lock : Nat → Option (IDirectory H)) (req : Nat)
    (name : List Char) (dirs : List Nat)
    (h : ∀ a ∈ dirs, ∀ d, lock a = some d → d.dir_attr &&& req = req →
      d.file_exists name = false) :
    search_directories lock req name dirs = none := by
  induction dirs with
  | nil => rfl
  | cons x rest ih =>
    have ih2 := ih (fun a ha => h a (List.mem_cons_of_mem _ ha))
    rw [search_directories]
    cases hx : lock x with
    | none => exact ih2
    | some p =>
      simp only
      by_cases hattr : p.dir_attr &&& req ≠ req
      · rw [if_pos hattr]; exact ih2
      · rw [if_neg hattr]
        have := h x (List.mem_cons_self _ _) p hx (not_not.mp hattr)
        simp [this, ih2]

theorem search_directories_hit {H : Type} (lock : Nat → Option (IDirectory H)) (req : Nat)
    (name : List Char) (a : Nat) (rest : List Nat) (d : IDirectory H)
    (hl : lock a = some d) (hattr : d.dir_attr &&& req = req)
    (hex : d.file_exists name = true) :
    search_directories lock req name (a :: rest) = some (a, d) := by
  rw [search_directories, hl]
  simp [hattr, hex]

theorem search_directories_expired {H : Type} (lock : Nat → Option (IDirectory H)) (req : Nat)
    (name : List Char) (a : Nat) (rest : List Nat) (hl : lock a = none) :
    search_directories lock req name (a :: rest) = search_directories lock req name rest := by
  rw [search_directories, hl]

/-! ### Opening a file -/

theorem openfile_eq {H : Type} (lock : Nat → Option (IDirectory H)) (mp : MountPoint)
    (filename : List Char) (mode : Nat) :
    mp.openfile lock filename mode =
      match mp.find_file_owner lock filename (openfile_attr mode) with
      | none => (none, [])
      | some (addr, p_dir) =>
        if p_dir.dir_attr &&& openfile_attr mode = openfile_attr mode then
          (p_dir.openfile (split_path filename).2 mode, [(addr, (split_path filename).2, mode)])
        else (none, []) := by
  unfold MountPoint.openfile split_path
  simp only
  cases mp.find_file_owner lock filename (openfile_attr mode) with
  | none => rfl
  | some r =>
    obtain ⟨addr, p_dir⟩ := r
    simp only
    cases find_last_of filename <;> rfl

/-! ## C1: LIFO shadowing -/

theorem openfile_attr_read : openfile_attr MODE_READ = ATTR_READ := by decide

theorem split_path_leaf (M F : List Char) (hF : '/' ∉ F) :
    split_path (M ++ '/' :: F) = (M, F) := by
  rw [split_path_append_slash, (find_last_of_eq_none F).mpr hF]
  rfl

theorem find_first_of_leaf (M F : List Char) : find_first_of (M ++ '/' :: F) ≠ none := by
  rw [Ne, find_first_of_eq_none]
  simp

theorem node_at_of_directories_at (mp : MountPoint) (addr : List (List Char))
    (h : (node_at mp addr).isSome) :
    ∃ nd, node_at mp addr = some nd ∧ nd.m_directories = directories_at mp addr := by
  unfold directories_at
  cases hn : node_at mp addr with
  | none => rw [hn] at h; cases h
  | some nd => exact ⟨nd, rfl, rfl⟩

/-- C1. LIFO shadowing: whatever the state of the VFS (a fresh one included), after
`mount(d1, M)` and then `mount(d2, M)`, where `d2` is live, readable and has the lower-cased
leaf `F`, `openfile(M + "/" + F, MODE_READ)` returns what `d2.openfile(F, MODE_READ)` returns,
and the only backend whose `openfile` is called is `d2`. Nothing is needed of `d1`. -/
theorem lifo_shadowing {P F H : Type} (lock : Nat → Option (IDirectory H)) (fs : AdeFS P F)
    (M leaf : List Char) (a1 a2 : Nat) (d2 : IDirectory H)
    (hleaf : '/' ∉ leaf)
    (hlive : lock a2 = some d2)
    (hread : d2.dir_attr &&& ATTR_READ = ATTR_READ)
    (hexists : d2.file_exists (lower leaf) = true) :
    ((fs.mount a1 M).1.mount a2 M).1.openfile lock (M ++ '/' :: leaf) MODE_READ =
      (d2.openfile leaf MODE_READ, [(a2, leaf, MODE_READ)]) := by
  simp only [AdeFS.openfile, AdeFS.mount, mount_eq]
  rw [openfile_eq, find_file_owner_eq, if_neg (find_first_of_leaf M leaf),
    split_path_leaf M leaf hleaf]
  simp only
  obtain ⟨nd, hnd, hdirs⟩ := node_at_of_directories_at
    (mount_at (mount_at fs.m_root (path_segments M) a1) (path_segments M) a2)
    (path_segments M) (node_at_mount_at _ _ _)
  rw [directories_at_mount_at, directories_at_mount_at] at hdirs
  rw [hnd]
  simp only [hdirs, List.reverse_append, List.reverse_cons, List.reverse_nil, List.nil_append,
    List.singleton_append, List.cons_append]
  rw [search_directories_hit lock 0 (lower leaf) a2 _ d2 hlive (Nat.and_zero _) hexists]
  simp only [openfile_attr_read, hread, if_true]

/-- Witness for C1: host directories A and B both hold `hello.txt`, A is mounted at `/data`
and then B; opening `/data/hello.txt` yields B's content. -/
theorem lifo_shadowing_witness :
    (((AdeFS.new : AdeFS Unit Unit).mount 1 "/data".toList).1.mount 2 "/data".toList).1.openfile
        (lock_two (single_file_directory ATTR_READ "hello.txt".toList "first")
          (single_file_directory ATTR_READ "hello.txt".toList "second"))
        ("/data".toList ++ '/' :: "hello.txt".toList) MODE_READ =
      (some "second", [(2, "hello.txt".toList, MODE_READ)]) :=
  lifo_shadowing _ AdeFS.new "/data".toList "hello.txt".toList 1 2
    (single_file_directory ATTR_READ "hello.txt".toList "second")
    (by decide) rfl (by decide) (by decide)

/-! ## C2: the required mask below the top level -/

/-- C2, the code at the failing input. `d1` (READ|WRITE) and then `d2` (READ only) are
mounted at `/data`, both hold `f`. For `openfile("/data/f", MODE_WRITE)` the recursive calls
of `find_file_owner` drop the mask, the owner found is `d2`, the check in `openfile` then
rejects it, and no handle is returned although `d1` qualifies; with the mask kept, as in a
call on the node `/data` itself with the bare name, `d1` is the owner. -/
theorem write_mask_dropped_below_top :
    (((fresh_root.mount "/data".toList 1).1.mount "/data".toList 2).1.find_file_owner
        (lock_two (single_file_directory (ATTR_READ ||| ATTR_WRITE) "f".toList "one")
          (single_file_directory ATTR_READ "f".toList "two"))
        "/data/f".toList (openfile_attr MODE_WRITE)).map Prod.fst = some 2 ∧
    ((fresh_root.mount "/data".toList 1).1.mount "/data".toList 2).1.openfile
        (lock_two (single_file_directory (ATTR_READ ||| ATTR_WRITE) "f".toList "one")
          (single_file_directory ATTR_READ "f".toList "two"))
        "/data/f".toList MODE_WRITE = (none, []) ∧
    (MountPoint.mk "data".toList (ATTR_READ ||| ATTR_WRITE) [1, 2] []).openfile
        (lock_two (single_file_directory (ATTR_READ ||| ATTR_WRITE) "f".toList "one")
          (single_file_directory ATTR_READ "f".toList "two"))
        "f".toList MODE_WRITE = (some "one", [(1, "f".toList, MODE_WRITE)]) := by
  refine ⟨?_, ?_, ?_⟩ <;> decide

/-! ## C3: case-insensitive paths -/

theorem find_file_owner_lower {H : Type} (lock : Nat → Option (IDirectory H))
    (mp : MountPoint) (path : List Char) (req : Nat) :
    mp.find_file_owner lock (lower path) req = mp.find_file_owner lock path req := by
  rw [find_file_owner_eq, find_file_owner_eq, find_first_of_lower, split_path_lower,
    path_segments_lower, lower_lower, lower_lower]

theorem split_path_snd_lower (P1 P2 : List Char) (h : lower P1 = lower P2) :
    lower (split_path P1).2 = lower (split_path P2).2 := by
  have e1 := congrArg Prod.snd (split_path_lower P1)
  have e2 := congrArg Prod.snd (split_path_lower P2)
  simp only at e1 e2
  rw [← e1, ← e2, h]

/-- C3. Path case-insensitivity: if `P1` and `P2` are equal after lower-casing, then for every
tree and mode `find_file_owner` gives the same owner (or none) for both, the backend calls made
by the two `openfile`s go to the same backends with the same mode and with names equal after
lower-casing, and when every live backend opens a name as it opens the lower-cased name the
two `openfile`s return the same handle. -/
theorem path_case_insensitive {H : Type} (lock : Nat → Option (IDirectory H)) (t : MountPoint)
    (mode : Nat) (P1 P2 : List Char) (hcase : lower P1 = lower P2) :
    t.find_file_owner lock P1 (openfile_attr mode) =
        t.find_file_owner lock P2 (openfile_attr mode) ∧
      (t.openfile lock P1 mode).2.map (fun c => (c.1, lower c.2.1, c.2.2)) =
        (t.openfile lock P2 mode).2.map (fun c => (c.1, lower c.2.1, c.2.2)) ∧
      ((∀ a d, lock a = some d → ∀ n m, d.openfile n m = d.openfile (lower n) m) →
        (t.openfile lock P1 mode).1 = (t.openfile lock P2 mode).1) := by
  have hown : t.find_file_owner lock P1 (openfile_attr mode) =
      t.find_file_owner lock P2 (openfile_attr mode) := by
    rw [← find_file_owner_lower lock t P1, ← find_file_owner_lower lock t P2, hcase]
  have hleaf := split_path_snd_lower P1 P2 hcase
  refine ⟨hown, ?_, ?_⟩
  · rw [openfile_eq, openfile_eq, hown]
    cases t.find_file_owner lock P2 (openfile_attr mode) with
    | none => rfl
    | some r =>
      obtain ⟨a, d⟩ := r
      simp only
      split <;> simp [hleaf]
  · intro hins
    rw [openfile_eq, openfile_eq, hown]
    cases hr : t.find_file_owner lock P2 (openfile_attr mode) with
    | none => rfl
    | some r =>
      obtain ⟨a, d⟩ := r
      simp only
      have hl : lock a = some d := by
        rw [find_file_owner_eq] at hr
        split at hr
        · split at hr
          · exact (search_directories_sound _ _ _ _ _ _ hr).2.1
          · cases hr
        · split at hr
          · cases hr
          · exact (search_directories_sound _ _ _ _ _ _ hr).2.1
      split
      · simp only
        rw [hins a d hl (split_path P1).2, hins a d hl (split_path P2).2, hleaf]
      · rfl

/-- Witness for C3: `/DATA/hello.txt` and `/data/Hello.Txt` open the same file. -/
theorem path_case_insensitive_witness :
    (fresh_root.mount "/data".toList 1).1.find_file_owner
        (lock_one (single_file_directory ATTR_READ "hello.txt".toList "bytes"))
        "/DATA/hello.txt".toList (openfile_attr MODE_READ) =
      (fresh_root.mount "/data".toList 1).1.find_file_owner
        (lock_one (single_file_directory ATTR_READ "hello.txt".toList "bytes"))
        "/data/Hello.Txt".toList (openfile_attr MODE_READ) ∧
    ((fresh_root.mount "/data".toList 1).1.openfile
        (lock_one (single_file_directory ATTR_READ "hello.txt".toList "bytes"))
        "/DATA/hello.txt".toList MODE_READ).1 = some "bytes" ∧
    ((fresh_root.mount "/data".toList 1).1.openfile
        (lock_one (single_file_directory ATTR_READ "hello.txt".toList "bytes"))
        "/data/Hello.Txt".toList MODE_READ).1 = some "bytes" :=
  ⟨(path_case_insensitive _ _ MODE_READ "/DATA/hello.txt".toList "/data/Hello.Txt".toList
      (by decide)).1, by decide, by decide⟩

/-! ## C4: where a handle comes from -/

theorem find_file_owner_sound {H : Type} (lock : Nat → Option (IDirectory H))
    (t : MountPoint) (path : List Char) (req : Nat) (a : Nat) (b : IDirectory H)
    (h : t.find_file_owner lock path req = some (a, b)) :
    ∃ nd, node_at t (path_segments (split_path path).1) = some nd ∧ a ∈ nd.m_directories ∧
      lock a = some b ∧ b.file_exists (lower (split_path path).2) = true := by
  rw [find_file_owner_eq] at h
  by_cases hf : find_first_of path = none
  · rw [if_pos hf] at h
    have hl : find_last_of path = none := by
      rw [find_last_of_eq_none, ← find_first_of_eq_none]; exact hf
    have hsp : split_path path = ([], path) := by
      unfold split_path; rw [hl]
    rw [hsp]
    split at h
    · obtain ⟨h1, h2, _, h4⟩ := search_directories_sound _ _ _ _ _ _ h
      exact ⟨t, by simp [path_segments_nil, node_at], List.mem_reverse.mp h1, h2, h4⟩
    · cases h
  · rw [if_neg hf] at h
    split at h
    · cases h
    · rename_i nd hnd
      obtain ⟨h1, h2, _, h4⟩ := search_directories_sound _ _ _ _ _ _ h
      exact ⟨nd, hnd, List.mem_reverse.mp h1, h2, h4⟩

/-- C4. If `MountPoint::openfile` returns a handle `h`, it is what `b.openfile(leaf, mode)`
returned for a live backend `b` in the directory list of the node addressed by the part of the
path before its last `/`, with `(b.dir_attr() & required) == required` and
`b.file_exists(lower(leaf))`, and that call is the only backend call made; if that node has no
such backend (or does not exist), no handle is returned and no backend is asked to open.
`required` has ATTR_READ iff the mode has MODE_READ and ATTR_WRITE iff it has MODE_WRITE. -/
theorem openfile_handle_origin {H : Type} (lock : Nat → Option (IDirectory H))
    (t : MountPoint) (path : List Char) (mode : Nat) :
    (∀ h calls, t.openfile lock path mode = (some h, calls) →
      ∃ a b nd, node_at t (path_segments (split_path path).1) = some nd ∧
        a ∈ nd.m_directories ∧ lock a = some b ∧
        b.dir_attr &&& openfile_attr mode = openfile_attr mode ∧
        b.file_exists (lower (split_path path).2) = true ∧
        b.openfile (split_path path).2 mode = some h ∧
        calls = [(a, (split_path path).2, mode)]) ∧
    ((∀ nd, node_at t (path_segments (split_path path).1) = some nd →
        ∀ a ∈ nd.m_directories, ∀ b, lock a = some b →
          b.dir_attr &&& openfile_attr mode = openfile_attr mode →
          b.file_exists (lower (split_path path).2) = false) →
      t.openfile lock path mode = (none, [])) ∧
    ((openfile_attr mode &&& ATTR_READ = ATTR_READ ↔ mode &&& MODE_READ ≠ 0) ∧
      (openfile_attr mode &&& ATTR_WRITE = ATTR_WRITE ↔ mode &&& MODE_WRITE ≠ 0)) := by
  refine ⟨?_, ?_, ?_⟩
  · intro h calls hopen
    rw [openfile_eq] at hopen
    cases hr : t.find_file_owner lock path (openfile_attr mode) with
    | none => rw [hr] at hopen; cases hopen
    | some r =>
      obtain ⟨a, b⟩ := r
      rw [hr] at hopen
      simp only at hopen
      obtain ⟨nd, h1, h2, h3, h4⟩ := find_file_owner_sound lock t path _ a b hr
      by_cases hattr : b.dir_attr &&& openfile_attr mode = openfile_attr mode
      · rw [if_pos hattr] at hopen
        simp only [Prod.mk.injEq] at hopen
        exact ⟨a, b, nd, h1, h2, h3, hattr, h4, hopen.1, hopen.2.symm⟩
      · rw [if_neg hattr] at hopen
        cases hopen
  · intro hnone
    rw [openfile_eq]
    cases hr : t.find_file_owner lock path (openfile_attr mode) with
    | none => rfl
    | some r =>
      obtain ⟨a, b⟩ := r
      simp only
      obtain ⟨nd, h1, h2, h3, h4⟩ := find_file_owner_sound lock t path _ a b hr
      by_cases hattr : b.dir_attr &&& openfile_attr mode = openfile_attr mode
      · have := hnone nd h1 a h2 b h3 hattr
        rw [h4] at this
        cases this
      · rw [if_neg hattr]
  · unfold openfile_attr
    constructor
    · split <;> split <;> rename_i hr hw <;>
        simp only [ATTR_READ, ATTR_WRITE, ne_eq, hr, not_false_eq_true, not_true_eq_false,
          iff_true, iff_false] <;> decide
    · split <;> split <;> rename_i hr hw <;>
        simp only [ATTR_READ, ATTR_WRITE, ne_eq, hw, not_false_eq_true, not_true_eq_false,
          iff_true, iff_false] <;> decide

/-- Witness for C4: the handle returned for `/data/f` in mode READ comes from the backend
mounted at `/data`. -/
theorem openfile_handle_origin_witness :
    ∃ a b nd, node_at (fresh_root.mount "/data".toList 1).1
          (path_segments (split_path "/data/f".toList).1) = some nd ∧
        a ∈ nd.m_directories ∧
        lock_one (single_file_directory ATTR_READ "f".toList "bytes") a = some b ∧
        b.dir_attr &&& openfile_attr MODE_READ = openfile_attr MODE_READ ∧
        b.file_exists (lower (split_path "/data/f".toList).2) = true ∧
        b.openfile (split_path "/data/f".toList).2 MODE_READ = some "bytes" ∧
        [(1, "f".toList, MODE_READ)] = [(a, (split_path "/data/f".toList).2, MODE_READ)] :=
  (openfile_handle_origin (lock_one (single_file_directory ATTR_READ "f".toList "bytes"))
    (fresh_root.mount "/data".toList 1).1 "/data/f".toList MODE_READ).1
    "bytes" [(1, "f".toList, MODE_READ)] (by decide)

/-! ## C5: expired references -/

/-- C5 as stated fails on a node whose own attributes lack ATTR_READ. The mount point
`MountPoint("w", ATTR_WRITE, nullptr)` gets `d1` (live, readable, holding `f`) and then `d2`
(expired) mounted on it, so its directory list is `[d1, d2]`; `openfile("f")` returns no handle
and calls no backend, because `find_file_owner` tests `m_attributes` of the node before it
looks at the list. -/
theorem expired_skipped_counterexample :
    (((MountPoint.mk "w".toList ATTR_WRITE [] []).mount [] 1).1.mount [] 2).1.m_directories
        = [1, 2] ∧
    lock_one (single_file_directory ATTR_READ "f".toList "bytes") 2 = none ∧
    (single_file_directory ATTR_READ "f".toList "bytes").dir_attr &&& ATTR_READ = ATTR_READ ∧
    (single_file_directory ATTR_READ "f".toList "bytes").file_exists (lower "f".toList) = true ∧
    (single_file_directory ATTR_READ "f".toList "bytes").openfile "f".toList MODE_READ
        = some "bytes" ∧
    (((MountPoint.mk "w".toList ATTR_WRITE [] []).mount [] 1).1.mount [] 2).1.openfile
        (lock_one (single_file_directory ATTR_READ "f".toList "bytes")) "f".toList MODE_READ
        = (none, []) := by
  exact ⟨by decide, rfl, by decide, by decide, by decide, by decide⟩

/-- C5, amended. Let the part of the path before its last `/` address a node `nd` (for a bare
name, the node `openfile` is called on). If the attributes of `nd` contain those the mode
requires, the directory list of `nd` is `[d1, d2]`, `d2` is expired, and `d1` is live, has the
required attributes and has the lower-cased leaf, then `openfile` returns what
`d1.openfile(leaf, mode)` returns and calls no other backend. If every reference in the list of
`nd` is expired, `openfile` returns no handle. -/
theorem expired_references_skipped {H : Type} (lock : Nat → Option (IDirectory H))
    (t : MountPoint) (path : List Char) (mode : Nat) (nd : MountPoint)
    (hnode : node_at t (path_segments (split_path path).1) = some nd) :
    (∀ a1 a2 d1, nd.m_attributes &&& openfile_attr mode = openfile_attr mode →
      nd.m_directories = [a1, a2] → lock a2 = none → lock a1 = some d1 →
      d1.dir_attr &&& openfile_attr mode = openfile_attr mode →
      d1.file_exists (lower (split_path path).2) = true →
      t.openfile lock path mode =
        (d1.openfile (split_path path).2 mode, [(a1, (split_path path).2, mode)])) ∧
    ((∀ a ∈ nd.m_directories, lock a = none) → t.openfile lock path mode = (none, [])) := by
  have hbare : find_first_of path = none → split_path path = ([], path) ∧ nd = t := by
    intro hf
    have hl : find_last_of path = none := by
      rw [find_last_of_eq_none, ← find_first_of_eq_none]; exact hf
    have hsp : split_path path = ([], path) := by
      unfold split_path; rw [hl]
    refine ⟨hsp, ?_⟩
    rw [hsp] at hnode
    simp only [path_segments_nil, node_at, Option.some.injEq] at hnode
    exact hnode.symm
  constructor
  · intro a1 a2 d1 hmask hdirs h2 h1 hattr hex
    have hown : t.find_file_owner lock path (openfile_attr mode) = some (a1, d1) := by
      rw [find_file_owner_eq]
      by_cases hf : find_first_of path = none
      · obtain ⟨hsp, hnd⟩ := hbare hf
        subst hnd
        rw [hsp] at hex
        rw [if_pos hf, if_pos hmask, hdirs]
        simp only [List.reverse_cons, List.reverse_nil, List.nil_append, List.singleton_append]
        rw [search_directories_expired _ _ _ _ _ h2,
          search_directories_hit _ _ _ _ _ d1 h1 hattr hex]
      · rw [if_neg hf, hnode]
        simp only [hdirs, List.reverse_cons, List.reverse_nil, List.nil_append,
          List.singleton_append]
        rw [search_directories_expired _ _ _ _ _ h2,
          search_directories_hit _ _ _ _ _ d1 h1 (Nat.and_zero _) hex]
    rw [openfile_eq, hown]
    simp only [hattr, if_true]
  · intro hall
    have hsearch : ∀ req name,
        search_directories lock req name nd.m_directories.reverse = none := by
      intro req name
      apply search_directories_none
      intro a ha d hl
      rw [hall a (List.mem_reverse.mp ha)] at hl
      cases hl
    have hown : t.find_file_owner lock path (openfile_attr mode) = none := by
      rw [find_file_owner_eq]
      by_cases hf : find_first_of path = none
      · obtain ⟨_, hnd⟩ := hbare hf
        subst hnd
        rw [if_pos hf, hsearch]
        simp
      · rw [if_neg hf, hnode]
        exact hsearch _ _
    rw [openfile_eq, hown]

/-- Witness for C5: at `/data` the list is `[d1, d2]`, `d2` has expired, and `/data/f` is
opened through `d1`. -/
theorem expired_references_skipped_witness :
    ((fresh_root.mount "/data".toList 1).1.mount "/data".toList 2).1.openfile
        (lock_one (single_file_directory ATTR_READ "f".toList "bytes"))
        "/data/f".toList MODE_READ =
      (some "bytes", [(1, "f".toList, MODE_READ)]) :=
  (expired_references_skipped
    (lock_one (single_file_directory ATTR_READ "f".toList "bytes"))
    ((fresh_root.mount "/data".toList 1).1.mount "/data".toList 2).1
    "/data/f".toList MODE_READ
    (MountPoint.mk "data".toList (ATTR_READ ||| ATTR_WRITE) [1, 2] []) rfl).1
    1 2 (single_file_directory ATTR_READ "f".toList "bytes") (by decide) rfl rfl rfl
    (by decide) (by decide)

/-! ## C6: after reset -/

/-- C6. In every state of the VFS, for every path and mode, `openfile` right after `reset()`
returns no handle (and calls no backend), whatever references are still live. -/
theorem openfile_after_reset {P F H : Type} (lock : Nat → Option (IDirectory H))
    (fs : AdeFS P F) (path : List Char) (mode : Nat) :
    fs.reset.openfile lock path mode = (none, []) := by
  have hown : fs.reset.m_root.find_file_owner lock path (openfile_attr mode) = none := by
    rw [find_file_owner_eq]
    simp only [AdeFS.reset, MountPoint.reset]
    split
    · split <;> rfl
    · cases path_segments (split_path path).1 with
      | nil => rfl
      | cons k ks => rfl
  simp only [AdeFS.openfile]
  rw [openfile_eq, hown]

/-! ## C7: `get_mountpoint` with creation is idempotent -/

/-- C7. For every tree and path, `get_mountpoint(P, true)` returns a node of the resulting
tree, a second call returns the same node, and the second call leaves the whole tree (every
node and every children map) as the first call left it. -/
theorem get_mountpoint_idempotent (t : MountPoint) (P : List Char) :
    (t.get_mountpoint P true).2.isSome ∧
    ((t.get_mountpoint P true).2.bind (node_at (t.get_mountpoint P true).1)).isSome ∧
    ((t.get_mountpoint P true).1.get_mountpoint P true).2 = (t.get_mountpoint P true).2 ∧
    ((t.get_mountpoint P true).1.get_mountpoint P true).1 = (t.get_mountpoint P true).1 := by
  simp only [get_mountpoint_create, make_path_idem, Option.isSome_some, Option.some_bind,
    node_at_make_path, and_self]

/-! ## C8: `get_mountpoint` without creation -/

/-- C8, the code at the failing inputs. With `b_create = false`: on the bare path `x` nothing
is created and `nullptr` is returned; on `/x` the flag is lost with the leading `/`, the child
`x` is created and returned; on `a/b` with `a` present the flag is lost in the descent and `b`
is created and returned. -/
theorem create_flag_dropped :
    fresh_root.get_mountpoint "x".toList false = (fresh_root, none) ∧
    fresh_root.get_mountpoint "/x".toList false =
      (MountPoint.mk [] (ATTR_READ ||| ATTR_WRITE) []
        [("x".toList, MountPoint.mk "x".toList (ATTR_READ ||| ATTR_WRITE) [] [])],
       some ["x".toList]) ∧
    (MountPoint.mk [] (ATTR_READ ||| ATTR_WRITE) []
        [("a".toList, MountPoint.mk "a".toList (ATTR_READ ||| ATTR_WRITE) [] [])]).get_mountpoint
        "a/b".toList false =
      (MountPoint.mk [] (ATTR_READ ||| ATTR_WRITE) []
        [("a".toList, MountPoint.mk "a".toList (ATTR_READ ||| ATTR_WRITE) []
          [("b".toList, MountPoint.mk "b".toList (ATTR_READ ||| ATTR_WRITE) [] [])])],
       some ["a".toList, "b".toList]) :=
  ⟨rfl, rfl, rfl⟩

/-! ## C9: the effect of `mount` -/

/-- C9. `MountPoint::mount(P, d)` returns 0; afterwards the node denoted by `P` exists and its
directory list is the previous one (empty if the node is new) with `d` appended; the directory
list at every other address is unchanged; every node that existed is still at its address with
the same name and attributes, and every child key it had is still bound. -/
theorem mount_appends_directory (t : MountPoint) (P : List Char) (d : Nat) :
    (t.mount P d).2 = 0 ∧
    (node_at (t.mount P d).1 (path_segments P)).isSome ∧
    directories_at (t.mount P d).1 (path_segments P) =
      directories_at t (path_segments P) ++ [d] ∧
    (∀ addr, addr ≠ path_segments P →
      directories_at (t.mount P d).1 addr = directories_at t addr) ∧
    (∀ addr nd, node_at t addr = some nd →
      ∃ nd2, node_at (t.mount P d).1 addr = some nd2 ∧ nd2.m_name = nd.m_name ∧
        nd2.m_attributes = nd.m_attributes ∧
        ∀ k, (children_find nd.m_children k).isSome →
          (children_find nd2.m_children k).isSome) := by
  rw [mount_eq]
  exact ⟨rfl, node_at_mount_at _ _ _, directories_at_mount_at _ _ _,
    fun addr hne => directories_at_mount_at_other _ _ _ addr hne,
    fun addr nd h => node_at_mount_at_keeps _ _ _ addr nd h⟩

/-! ## C10: path segmentation -/

/-- C10. `get_mountpoint(P, true)` returns the node addressed by the reference segmentation of
`P` (the non-empty `/`-separated pieces, lower-cased) in the tree in which the missing nodes of
that address have been created, and `mount(P, d)` appends `d` at that same address. So
`/A//b/` and `a/b` denote one node, and `.`, `..` and `~` are child names like any other. -/
theorem path_segmentation_reference (t : MountPoint) (P : List Char) (d : Nat) :
    t.get_mountpoint P true = (make_path t (path_segments P), some (path_segments P)) ∧
    t.mount P d = (mount_at t (path_segments P) d, 0) ∧
    (node_at (make_path t (path_segments P)) (path_segments P)).isSome ∧
    (node_at (mount_at t (path_segments P) d) (path_segments P)).isSome ∧
    path_segments "/A//b/".toList = ["a".toList, "b".toList] ∧
    path_segments "a/b".toList = ["a".toList, "b".toList] ∧
    path_segments "x/../~/./y".toList =
      ["x".toList, "..".toList, "~".toList, ".".toList, "y".toList] := by
  exact ⟨get_mountpoint_create t P, mount_eq t P d, node_at_make_path _ _,
    node_at_mount_at _ _ _, by decide, by decide, by decide⟩

/-! ## Lemmas on streams and block arithmetic -/

theorem div_mod_within (p i B : Nat) (h : p % B + i < B) :
    (p + i) / B = p / B ∧ (p + i) % B = p % B + i := by
  have hB : 0 < B := by omega
  have e : p + i = (p % B + i) + B * (p / B) := by
    have := Nat.div_add_mod p B
    omega
  rw [e, Nat.add_mul_div_left _ _ hB, Nat.add_mul_mod_self_left, Nat.div_eq_of_lt h,
    Nat.mod_eq_of_lt h]
  simp

theorem div_mod_boundary (p B : Nat) (hB : 0 < B) :
    (p + (B - p % B)) / B = p / B + 1 ∧ (p + (B - p % B)) % B = 0 := by
  have hm : p % B < B := Nat.mod_lt _ hB
  have e : p + (B - p % B) = 0 + B * (p / B + 1) := by
    have := Nat.div_add_mod p B
    rw [Nat.mul_add]
    omega
  rw [e, Nat.add_mul_div_left _ _ hB, Nat.add_mul_mod_self_left]
  simp

theorem slice_eq_map (f : HostFile) (pos n : Nat) (h : pos + n ≤ f.size) :
    f.slice pos n = (List.range n).map (fun i => f.byte (pos + i)) := by
  unfold HostFile.slice
  have : min n (f.size - pos) = n := by omega
  rw [this]

theorem slice_length (f : HostFile) (pos n : Nat) (h : pos + n ≤ f.size) :
    (f.slice pos n).length = n := by
  rw [slice_eq_map f pos n h]
  simp

theorem seekg_read_ok (s : IfStream) (off n : Nat) (hs : s.failbit = false)
    (h : off + n ≤ s.file.size) :
    ((s.seekg (off : Int)).read n) =
      ({ file := s.file, pos := off + n, failbit := false, eofbit := false, gcount := n },
        s.file.slice off n) := by
  have hlen := slice_length s.file off n h
  have hneg : ¬ ((off : Int) < 0) := by omega
  simp only [IfStream.seekg, hs, hneg, if_false, IfStream.read, Bool.false_eq_true,
    Bool.or_self, Int.toNat_ofNat, hlen, Nat.lt_irrefl, decide_False]

theorem to_int32_small (n : Nat) (h : n < 2 ^ 31) : to_int32 n = (n : Int) := by
  unfold to_int32
  have : n % 2 ^ 32 = n := Nat.mod_eq_of_lt (by omega)
  rw [this, if_pos h]

theorem u32_small (n : Nat) (h : n < 2 ^ 32) : u32 n = n := Nat.mod_eq_of_lt h

theorem range_map_split (g : Nat → Nat) (p r n : Nat) (h : r ≤ n) :
    (List.range r).map (fun i => g (p + i)) ++ (List.range (n - r)).map (fun i => g (p + r + i)) =
      (List.range n).map (fun i => g (p + i)) := by
  have e : n = r + (n - r) := by omega
  conv_rhs => rw [e, List.range_add]
  simp [List.map_append, Nat.add_assoc]

theorem with_blocks_get_blocksize (a b c : Nat) (m : List Nat) :
    (PackageGCF.with_blocks a b c m).get_blocksize = a := rfl

theorem with_blocks_get_blockcount (a b c : Nat) (m : List Nat) :
    (PackageGCF.with_blocks a b c m).get_blockcount = b := rfl

theorem with_blocks_get_first_block_offset (a b c : Nat) (m : List Nat) :
    (PackageGCF.with_blocks a b c m).get_first_block_offset = c := rfl

theorem with_blocks_frag_map (a b c : Nat) (m : List Nat) :
    (PackageGCF.with_blocks a b c m).m_frag_map = m := rfl

/-! ## Lemmas on the chain of blocks -/

theorem gcf_chain_succ (pkg : PackageGCF) (b i : Nat) :
    gcf_chain pkg b (i + 1) = pkg.m_frag_map.getD (gcf_chain pkg b i) 0 := by
  induction i generalizing b with
  | zero => rfl
  | succ i ih =>
    have h1 : gcf_chain pkg b (i + 1 + 1) =
        gcf_chain pkg (pkg.m_frag_map.getD b 0) (i + 1) := rfl
    have h2 : gcf_chain pkg b (i + 1) = gcf_chain pkg (pkg.m_frag_map.getD b 0) i := rfl
    rw [h1, ih, h2]

theorem get_next_block_ok (pkg : PackageGCF) (b : Nat) (h : b < pkg.m_frag_map.length) :
    pkg.get_next_block b = .ok (pkg.m_frag_map.getD b 0) := by
  unfold PackageGCF.get_next_block
  rw [List.getD_eq_getElem?_getD, List.get?_eq_getElem?, List.getElem?_eq_getElem h]
  rfl

theorem walk_eq_chain (pkg : PackageGCF) (n b : Nat)
    (h : ∀ i, i < n → gcf_chain pkg b i < pkg.m_frag_map.length) :
    pkg.walk n b = .ok (gcf_chain pkg b n) := by
  induction n generalizing b with
  | zero => rfl
  | succ n ih =>
    have h0 : b < pkg.m_frag_map.length := h 0 (Nat.succ_pos _)
    rw [PackageGCF.walk, get_next_block_ok pkg b h0]
    simp only
    rw [ih]
    · rfl
    · intro i hi
      exact h (i + 1) (Nat.succ_lt_succ hi)

theorem block_index_lt (B S i : Nat) (hB : 0 < B) (p : Nat) (hp : p ≤ S) (hi : i < p / B) :
    i * B < S := by
  have h1 : (i + 1) * B ≤ (p / B) * B := Nat.mul_le_mul_right B hi
  have h2 : (p / B) * B ≤ p := Nat.div_mul_le_self p B
  have h3 : (i + 1) * B = i * B + B := by rw [Nat.add_mul]; simp
  omega

theorem block_index_lt_self (B S p : Nat) (hp : p < S) : (p / B) * B < S := by
  have h2 : (p / B) * B ≤ p := Nat.div_mul_le_self p B
  omega

theorem update_block_info_ok (f : FileGCF) (pkg : PackageGCF) (file : HostFile)
    (first S p : Nat) (hw : GCFWellFormed pkg file first S) (ha : f.Attached pkg file first S)
    (hp : f.m_file_pointer = p) (hle : p ≤ S) :
    ∃ f1, f.update_block_info = .ok f1 ∧ f1.Positioned pkg file first S p ∧
      f1.m_block_num = gcf_chain pkg first (p / pkg.get_blocksize) ∧
      f1.m_block_offset = p % pkg.get_blocksize ∧ f1.m_stream = f.m_stream := by
  have hB := hw.block_size_pos
  have hwalk : pkg.walk (p / pkg.get_blocksize) first =
      .ok (gcf_chain pkg first (p / pkg.get_blocksize)) :=
    walk_eq_chain pkg _ first (fun i hi =>
      (hw.chain_ok i (block_index_lt pkg.get_blocksize S i hB p hle hi)).1)
  have hne : ¬ pkg.get_blocksize = 0 := by omega
  refine ⟨{ f with m_block_num := gcf_chain pkg first (p / pkg.get_blocksize),
                   m_block_offset := p % pkg.get_blocksize,
                   m_block_data_avail := pkg.get_blocksize - p % pkg.get_blocksize }, ?_, ?_, rfl, rfl,
    rfl⟩
  · unfold FileGCF.update_block_info PackageGCF.get_block_index
    rw [ha.package, ha.first_index, hp, ha.block_size]
    simp only [hne, if_false, hwalk]
  · exact ⟨⟨ha.package, ha.stream_file, ha.stream_ok, ha.not_failed, ha.size, ha.block_size,
      ha.first_index, ha.first_offset⟩, hp, hle, fun _ => ⟨rfl, rfl, rfl⟩⟩

/-! ## The read loop on a well-formed file -/

theorem read_iteration_ok (f : FileGCF) (pkg : PackageGCF) (file : HostFile)
    (first S p size : Nat) (hw : GCFWellFormed pkg file first S)
    (hpos : f.Positioned pkg file first S p) (hsize : 0 < size) (hfit : p + size ≤ S) :
    ∃ f1 r, 0 < r ∧ r ≤ size ∧
      f.read_iteration size = .ok (some (f1, size - r,
        (List.range r).map (fun i => gcf_byte pkg file first (p + i)))) ∧
      f1.Positioned pkg file first S (p + r) := by
  have hB := hw.block_size_pos
  have hpS : p < S := by omega
  obtain ⟨hbn, hbo, hba⟩ := hpos.block hpS
  have ha := hpos.attached
  have hmod : p % pkg.get_blocksize < pkg.get_blocksize := Nat.mod_lt _ hB
  obtain ⟨hc1, hc2, hc3⟩ := hw.chain_ok (p / pkg.get_blocksize) (block_index_lt_self _ S p hpS)
  have hfs := hw.file_small
  have hS := hw.size_u32
  -- the chunk
  have hr : ∃ r, r = min f.m_block_data_avail size := ⟨_, rfl⟩
  obtain ⟨r, hrdef⟩ := hr
  have hr0 : 0 < r := by omega
  have hrs : r ≤ size := by omega
  have hra : r ≤ pkg.get_blocksize - p % pkg.get_blocksize := by omega
  -- the address
  have haddr : f.fileofs =
      ((pkg.get_first_block_offset + gcf_chain pkg first (p / pkg.get_blocksize) * pkg.get_blocksize +
        p % pkg.get_blocksize : Nat) : Int) := by
    unfold FileGCF.fileofs
    rw [ha.first_offset, hbn, ha.block_size, hbo]
    have q1 : u32 (gcf_chain pkg first (p / pkg.get_blocksize) * pkg.get_blocksize) =
        gcf_chain pkg first (p / pkg.get_blocksize) * pkg.get_blocksize := u32_small _ (by omega)
    have q2 : u32 (pkg.get_first_block_offset +
        gcf_chain pkg first (p / pkg.get_blocksize) * pkg.get_blocksize) =
        pkg.get_first_block_offset + gcf_chain pkg first (p / pkg.get_blocksize) * pkg.get_blocksize :=
      u32_small _ (by omega)
    have q3 : u32 (pkg.get_first_block_offset +
        gcf_chain pkg first (p / pkg.get_blocksize) * pkg.get_blocksize + p % pkg.get_blocksize) =
        pkg.get_first_block_offset + gcf_chain pkg first (p / pkg.get_blocksize) * pkg.get_blocksize +
          p % pkg.get_blocksize := u32_small _ (by omega)
    rw [q1, q2, q3, to_int32_small _ (by omega)]
  have hread := seekg_read_ok f.m_stream
    (pkg.get_first_block_offset + gcf_chain pkg first (p / pkg.get_blocksize) * pkg.get_blocksize +
      p % pkg.get_blocksize) r ha.stream_ok (by rw [ha.stream_file]; omega)
  have hbytes : f.m_stream.file.slice
      (pkg.get_first_block_offset + gcf_chain pkg first (p / pkg.get_blocksize) * pkg.get_blocksize +
        p % pkg.get_blocksize) r =
      (List.range r).map (fun i => gcf_byte pkg file first (p + i)) := by
    rw [slice_eq_map _ _ _ (by rw [ha.stream_file]; omega), ha.stream_file]
    apply List.map_congr_left
    intro i hi
    have hi2 : i < r := List.mem_range.mp hi
    obtain ⟨e1, e2⟩ := div_mod_within p i pkg.get_blocksize (by omega)
    unfold gcf_byte
    rw [e1, e2, Nat.add_assoc]
  have hrne : ¬ r = 0 := by omega
  by_cases hend : f.m_block_data_avail - r = 0
  · -- the block is used up
    have hreq : r = pkg.get_blocksize - p % pkg.get_blocksize := by omega
    obtain ⟨e1, e2⟩ := div_mod_boundary p pkg.get_blocksize hB
    rw [← hreq] at e1 e2
    refine ⟨{ f with
        m_stream := ⟨f.m_stream.file, pkg.get_first_block_offset +
          gcf_chain pkg first (p / pkg.get_blocksize) * pkg.get_blocksize + p % pkg.get_blocksize + r,
          false, false, r⟩,
        m_file_pointer := p + r, m_block_data_avail :=
          if gcf_chain pkg first (p / pkg.get_blocksize + 1) ≥ pkg.get_blockcount then 0
          else pkg.get_blocksize,
        m_block_offset := 0,
        m_block_num := gcf_chain pkg first (p / pkg.get_blocksize + 1) }, r, hr0, hrs, ?_, ?_⟩
    · unfold FileGCF.read_iteration
      simp only [← hrdef, hrne, if_false, haddr, hread, hbytes, hend, if_true]
      rw [ha.package, hbn, get_next_block_ok pkg _ hc1, ← gcf_chain_succ, hpos.pointer,
        u32_small (p + r) (by omega), ha.block_size]
    · refine ⟨⟨ha.package, ha.stream_file, rfl, ha.not_failed, ha.size, ha.block_size,
        ha.first_index, ha.first_offset⟩, rfl, by omega, ?_⟩
      intro hlt
      simp only
      rw [e1, e2]
      have hnext := (hw.chain_ok (p / pkg.get_blocksize + 1) (by
        have := Nat.div_add_mod (p + r) pkg.get_blocksize
        rw [e1, e2] at this
        rw [Nat.mul_comm]
        omega)).2.1
      have hnot : ¬ gcf_chain pkg first (p / pkg.get_blocksize + 1) ≥ pkg.get_blockcount := by omega
      simp [hnot]
  · -- the read ends inside the block
    have hrlt : p % pkg.get_blocksize + r < pkg.get_blocksize := by omega
    obtain ⟨e1, e2⟩ := div_mod_within p r pkg.get_blocksize hrlt
    refine ⟨{ f with
        m_stream := ⟨f.m_stream.file, pkg.get_first_block_offset +
          gcf_chain pkg first (p / pkg.get_blocksize) * pkg.get_blocksize + p % pkg.get_blocksize + r,
          false, false, r⟩,
        m_file_pointer := p + r, m_block_data_avail := f.m_block_data_avail - r,
        m_block_offset := p % pkg.get_blocksize + r }, r, hr0, hrs, ?_, ?_⟩
    · unfold FileGCF.read_iteration
      simp only [← hrdef, hrne, if_false, haddr, hread, hbytes, hend]
      rw [hpos.pointer, hbo, u32_small (p + r) (by omega),
        u32_small (p % pkg.get_blocksize + r) (by omega)]
    · refine ⟨⟨ha.package, ha.stream_file, rfl, ha.not_failed, ha.size, ha.block_size,
        ha.first_index, ha.first_offset⟩, rfl, by omega, ?_⟩
      intro _
      simp only
      rw [e1, e2]
      exact ⟨hbn, rfl, by omega⟩

theorem read_loop_ok (fuel : Nat) (f : FileGCF) (pkg : PackageGCF) (file : HostFile)
    (first S p size total : Nat) (buf : List Nat) (hw : GCFWellFormed pkg file first S)
    (hpos : f.Positioned pkg file first S p) (hfit : p + size ≤ S) (hfuel : size ≤ fuel) :
    ∃ f1, FileGCF.read_loop fuel f size total buf =
        .ok (f1, total + size,
          buf ++ (List.range size).map (fun i => gcf_byte pkg file first (p + i))) ∧
      f1.Positioned pkg file first S (p + size) := by
  induction fuel generalizing f p size total buf with
  | zero =>
    have : size = 0 := by omega
    subst this
    exact ⟨f, by simp [FileGCF.read_loop], hpos⟩
  | succ n ih =>
    cases size with
    | zero => exact ⟨f, by simp [FileGCF.read_loop], hpos⟩
    | succ s =>
      obtain ⟨f1, r, hr0, hrs, hit, hpos1⟩ :=
        read_iteration_ok f pkg file first S p (s + 1) hw hpos (Nat.succ_pos _) hfit
      obtain ⟨f2, hloop, hpos2⟩ := ih f1 (p + r) (s + 1 - r)
        (total + ((List.range r).map (fun i => gcf_byte pkg file first (p + i))).length)
        (buf ++ (List.range r).map (fun i => gcf_byte pkg file first (p + i)))
        hpos1 (by omega) (by omega)
      refine ⟨f2, ?_, ?_⟩
      · rw [FileGCF.read_loop, hit]
        simp only
        rw [hloop, List.append_assoc,
          range_map_split (gcf_byte pkg file first) p r (s + 1) hrs]
        simp only [List.length_map, List.length_range]
        have : total + r + (s + 1 - r) = total + (s + 1) := by omega
        rw [this]
      · have : p + r + (s + 1 - r) = p + (s + 1) := by omega
        rw [this] at hpos2
        exact hpos2

/-- On a well-formed file, `seek(p)` and then `read(n)` with enough fuel returns
`min(n, S - p)` and the bytes `p .. p + min(n, S - p)` of the file, and leaves the handle
positioned after them. -/
theorem seek_read_ok (fuel : Nat) (f : FileGCF) (pkg : PackageGCF) (file : HostFile)
    (first S p n : Nat) (hw : GCFWellFormed pkg file first S)
    (ha : f.Attached pkg file first S) (hp : p ≤ S) (hfuel : min n (S - p) ≤ fuel) :
    ∃ f1 f2, f.seek p = .ok f1 ∧
      f1.m_block_num = gcf_chain pkg first (p / pkg.get_blocksize) ∧
      f1.m_block_offset = p % pkg.get_blocksize ∧
      FileGCF.read fuel f1 n = .ok (f2, min n (S - p),
        (List.range (min n (S - p))).map (fun i => gcf_byte pkg file first (p + i))) ∧
      f2.Positioned pkg file first S (p + min n (S - p)) := by
  have hS := hw.size_u32
  have hmin : min (u32 p) f.m_size = p := by
    rw [u32_small p (by omega), ha.size]; omega
  obtain ⟨f1, hseek, hpos1, hbn, hbo, _⟩ := update_block_info_ok
    { f with m_file_pointer := min (u32 p) f.m_size } pkg file first S p hw
    ⟨ha.package, ha.stream_file, ha.stream_ok, ha.not_failed, ha.size, ha.block_size,
      ha.first_index, ha.first_offset⟩ hmin hp
  have ha1 := hpos1.attached
  by_cases heof : p = S
  · refine ⟨f1, f1, hseek, hbn, hbo, ?_, ?_⟩
    · have : f1.is_eof = true := by
        simp [FileGCF.is_eof, hpos1.pointer, ha1.size, heof]
      simp [FileGCF.read, this, heof]
    · have : p + min n (S - p) = p := by omega
      rw [this]; exact hpos1
  · have hlt : p < S := by omega
    have hsz : (if n > f1.m_size - f1.m_file_pointer then f1.m_size - f1.m_file_pointer else n)
        = min n (S - p) := by
      rw [ha1.size, hpos1.pointer]
      split <;> omega
    obtain ⟨f2, hloop, hpos2⟩ := read_loop_ok fuel f1 pkg file first S p (min n (S - p)) 0 []
      hw hpos1 (by omega) hfuel
    refine ⟨f1, f2, hseek, hbn, hbo, ?_, hpos2⟩
    have h1 : f1.is_eof = false := by
      simp [FileGCF.is_eof, hpos1.pointer, ha1.size, hlt]
    have h2 : f1.is_fail = false := by
      simp [FileGCF.is_fail, ha1.not_failed]
    unfold FileGCF.read
    simp only [h1, h2, Bool.or_self, Bool.false_eq_true, if_false, hsz]
    rw [hloop]
    simp

/-! ## The reference content, byte by byte -/

theorem slice_zero (f : HostFile) (pos : Nat) : f.slice pos 0 = [] := by
  simp [HostFile.slice]

theorem gcf_data_eq_bytes (pkg : PackageGCF) (file : HostFile) (hB : 0 < pkg.get_blocksize)
    (k b rem : Nat)
    (hin : ∀ i, i * pkg.get_blocksize < rem →
      pkg.get_first_block_offset + gcf_chain pkg b i * pkg.get_blocksize + pkg.get_blocksize ≤ file.size)
    (hk : rem ≤ k * pkg.get_blocksize) :
    gcf_data pkg file k b rem = (List.range rem).map (fun j => gcf_byte pkg file b (0 + j)) := by
  induction k generalizing b rem with
  | zero =>
    have : rem = 0 := by omega
    subst this
    rfl
  | succ k ih =>
    rw [gcf_data]
    have hk2 : rem - pkg.get_blocksize ≤ k * pkg.get_blocksize := by
      rw [Nat.add_mul] at hk; omega
    rw [ih (pkg.m_frag_map.getD b 0) (rem - pkg.get_blocksize) (fun i hi => by
      have h1 : (i + 1) * pkg.get_blocksize < rem := by rw [Nat.add_mul]; omega
      exact hin (i + 1) h1) hk2]
    have hhead : file.slice (pkg.get_first_block_offset + b * pkg.get_blocksize) (min pkg.get_blocksize rem) =
        (List.range (min pkg.get_blocksize rem)).map (fun j => gcf_byte pkg file b (0 + j)) := by
      by_cases h0 : rem = 0
      · subst h0; simp [slice_zero]
      · have h1 := hin 0 (by omega)
        have h2 : gcf_chain pkg b 0 = b := rfl
        rw [h2] at h1
        rw [slice_eq_map _ _ _ (by omega)]
        apply List.map_congr_left
        intro j hj
        have hj2 : j < min pkg.get_blocksize rem := List.mem_range.mp hj
        unfold gcf_byte
        rw [Nat.zero_add, Nat.div_eq_of_lt (by omega), Nat.mod_eq_of_lt (by omega), h2]
    have htail : (List.range (rem - pkg.get_blocksize)).map
          (fun j => gcf_byte pkg file (pkg.m_frag_map.getD b 0) (0 + j)) =
        (List.range (rem - min pkg.get_blocksize rem)).map
          (fun j => gcf_byte pkg file b (0 + min pkg.get_blocksize rem + j)) := by
      by_cases hle : rem ≤ pkg.get_blocksize
      · have e1 : rem - pkg.get_blocksize = 0 := by omega
        have e2 : rem - min pkg.get_blocksize rem = 0 := by omega
        rw [e1, e2]
        rfl
      · have e2 : min pkg.get_blocksize rem = pkg.get_blocksize := by omega
        rw [e2]
        apply List.map_congr_left
        intro j _
        unfold gcf_byte
        have e3 : (0 + pkg.get_blocksize + j) = j + pkg.get_blocksize * 1 := by omega
        rw [e3, Nat.add_mul_div_left _ _ hB, Nat.add_mul_mod_self_left, Nat.zero_add]
        rfl
    rw [hhead, htail]
    exact range_map_split (gcf_byte pkg file b) 0 (min pkg.get_blocksize rem) rem (by omega)

theorem gcf_block_total_covers (B S : Nat) (hB : 0 < B) : S ≤ gcf_block_total B S * B := by
  unfold gcf_block_total
  have h1 := Nat.div_add_mod (S + B - 1) B
  have h2 : (S + B - 1) % B < B := Nat.mod_lt _ hB
  rw [Nat.mul_comm] at h1
  omega

theorem gcf_data_eq (pkg : PackageGCF) (file : HostFile) (first S : Nat)
    (hw : GCFWellFormed pkg file first S) :
    gcf_data pkg file (gcf_block_total pkg.get_blocksize S) first S =
      (List.range S).map (fun j => gcf_byte pkg file first j) := by
  rw [gcf_data_eq_bytes pkg file hw.block_size_pos _ first S
    (fun i hi => (hw.chain_ok i hi).2.2) (gcf_block_total_covers _ _ hw.block_size_pos)]
  simp

theorem range_map_drop_take (g : Nat → Nat) (S p n : Nat) :
    (((List.range S).map g).drop p).take n =
      (List.range (min n (S - p))).map (fun i => g (p + i)) := by
  apply List.ext_getElem
  · simp
  · intro i h1 h2
    simp

/-! ## Lemmas for mounting a package tree -/

theorem path_segments_append_slash (A B : List Char) :
    path_segments (A ++ '/' :: B) = path_segments A ++ path_segments B := by
  generalize hn : A.length = n
  induction n using Nat.strong_induction_on generalizing A with
  | _ n ih =>
    subst hn
    cases hf : find_first_of A with
    | none =>
      have h1 : '/' ∉ A := (find_first_of_eq_none A).mp hf
      rw [path_segments_first A B h1, path_segments_single A h1]
    | some p =>
      obtain ⟨h1, h2, h3⟩ := find_first_of_some A p hf
      have e : A ++ '/' :: B = A.take p ++ '/' :: (A.drop (p + 1) ++ '/' :: B) := by
        conv_lhs => rw [h1]
        simp
      rw [e, path_segments_first _ _ h2,
        ih (A.drop (p + 1)).length (by rw [List.length_drop]; omega) _ rfl]
      conv_rhs => rw [h1, path_segments_first _ _ h2]
      simp

theorem is_segment_spec (k : List Char) (h : is_segment k = true) :
    k ≠ [] ∧ '/' ∉ k ∧ lower k = k := by
  simp only [is_segment, Bool.and_eq_true, Bool.not_eq_true', beq_iff_eq] at h
  obtain ⟨⟨h1, h2⟩, h3⟩ := h
  refine ⟨?_, ?_, h3⟩
  · intro h0; subst h0; simp at h1
  · intro hm
    have : k.contains '/' = true := by simpa using hm
    rw [this] at h2
    cases h2

theorem path_segments_child (path k : List Char) (hk : is_segment k = true) :
    path_segments ((if path = [] then path else path ++ ['/']) ++ k) =
      path_segments path ++ [k] := by
  obtain ⟨h1, h2, h3⟩ := is_segment_spec k hk
  have hseg : path_segments k = [k] := by
    rw [path_segments_single k h2, if_neg h1, h3]
  by_cases hp : path = []
  · subst hp
    simp [hseg, path_segments_nil]
  · rw [if_neg hp]
    have : path ++ ['/'] ++ k = path ++ '/' :: k := by simp
    rw [this, path_segments_append_slash, hseg]

theorem rel_addr_eq_nil (base addr : List (List Char)) :
    rel_addr base addr = some [] ↔ addr = base := by
  induction base generalizing addr with
  | nil => simp [rel_addr]
  | cons p ps ih =>
    cases addr with
    | nil => simp [rel_addr]
    | cons a as =>
      by_cases h : p = a
      · subst h
        simp [rel_addr, ih]
      · have h2 : ¬ a = p := fun e => h e.symm
        simp [rel_addr, h, h2]

theorem rel_addr_snoc (base addr : List (List Char)) (k : List Char) :
    rel_addr (base ++ [k]) addr =
      match rel_addr base addr with
      | some (k2 :: ks) => if k = k2 then some ks else none
      | _ => none := by
  induction base generalizing addr with
  | nil =>
    cases addr with
    | nil => simp [rel_addr]
    | cons a as => simp [rel_addr]
  | cons p ps ih =>
    cases addr with
    | nil => simp [rel_addr]
    | cons a as =>
      by_cases h : p = a
      · subst h
        simp [rel_addr, ih]
      · simp [rel_addr, h]

theorem sub_directories_find_none (subs : List (List Char × DirectoryNode)) (k : List Char)
    (h : subs.all (fun p => p.1 != k) = true) : sub_directories_find subs k = none := by
  induction subs with
  | nil => rfl
  | cons hd tl ih =>
    obtain ⟨k0, v0⟩ := hd
    simp only [List.all_cons, Bool.and_eq_true, bne_iff_ne, ne_eq] at h
    simp [sub_directories_find, h.1, ih h.2]

theorem directories_at_mount_at_all (mp : MountPoint) (ks : List (List Char)) (d : Nat)
    (addr : List (List Char)) :
    directories_at (mount_at mp ks d) addr =
      directories_at mp addr ++ (if addr = ks then [d] else []) := by
  by_cases h : addr = ks
  · subst h
    simp [directories_at_mount_at]
  · simp [h, directories_at_mount_at_other _ _ _ _ h]

theorem tree_backend_mk (d : Option Nat) (subs : List (List Char × DirectoryNode))
    (rel : Option (List (List Char))) :
    tree_backend (.mk d subs) rel =
      (if rel = some [] then d.toList else []) ++ children_backend subs rel := by
  cases rel with
  | none => rfl
  | some ks =>
    cases ks with
    | nil => simp [tree_backend, dir_node_at, children_backend, DirectoryNode.p_directory]
    | cons k ks =>
      simp only [tree_backend, dir_node_at, DirectoryNode.sub_directories, children_backend,
        reduceCtorEq, if_false, List.nil_append, Option.some.injEq]
      cases sub_directories_find subs k <;> rfl

mutual

theorem mount_directory_spec : ∀ (dn : DirectoryNode) (mp : MountPoint) (path : List Char),
    dn.well_keyed = true →
    (mount_directory mp path dn).2 = 0 ∧
    ∀ addr, directories_at (mount_directory mp path dn).1 addr =
      directories_at mp addr ++ tree_backend dn (rel_addr (path_segments path) addr)
  | .mk none subs, mp, path, hw => by
    simp [DirectoryNode.well_keyed] at hw
  | .mk (some d) subs, mp, path, hw => by
    have hsubs : sub_directories_well_keyed subs = true := by
      simpa [DirectoryNode.well_keyed] using hw
    obtain ⟨h1, h2⟩ := mount_sub_directories_spec subs (mount_at mp (path_segments path) d)
      path hsubs
    have hm : mp.mount path d = (mount_at mp (path_segments path) d, 0) := mount_eq mp path d
    constructor
    · simp only [mount_directory, hm, ne_eq, not_true_eq_false, if_false, h1]
      rfl
    · intro addr
      simp only [mount_directory, hm, ne_eq, not_true_eq_false, if_false]
      rw [h2 addr, directories_at_mount_at_all, tree_backend_mk, List.append_assoc]
      congr 2
      by_cases he : addr = path_segments path
      · have := (rel_addr_eq_nil (path_segments path) addr).mpr he
        rw [if_pos he, if_pos this]
        rfl
      · have : ¬ rel_addr (path_segments path) addr = some [] :=
          fun h => he ((rel_addr_eq_nil _ _).mp h)
        simp [he, this]

theorem mount_sub_directories_spec : ∀ (subs : List (List Char × DirectoryNode))
    (mp : MountPoint) (path : List Char),
    sub_directories_well_keyed subs = true →
    (mount_sub_directories mp (if path = [] then path else path ++ ['/']) subs).2 = false ∧
    ∀ addr,
      directories_at (mount_sub_directories mp (if path = [] then path else path ++ ['/'])
        subs).1 addr =
      directories_at mp addr ++ children_backend subs (rel_addr (path_segments path) addr)
  | [], mp, path, _ => by
    constructor
    · rfl
    · intro addr
      have : children_backend [] (rel_addr (path_segments path) addr) = [] := by
        cases rel_addr (path_segments path) addr with
        | none => rfl
        | some ks => cases ks <;> rfl
      simp [mount_sub_directories, this]
  | (k, child) :: rest, mp, path, hw => by
    simp only [sub_directories_well_keyed, Bool.and_eq_true] at hw
    obtain ⟨⟨⟨hk, hdist⟩, hchild⟩, hrest⟩ := hw
    obtain ⟨c1, c2⟩ := mount_directory_spec child mp
      ((if path = [] then path else path ++ ['/']) ++ k) hchild
    obtain ⟨r1, r2⟩ := mount_sub_directories_spec rest
      (mount_directory mp ((if path = [] then path else path ++ ['/']) ++ k) child).1 path hrest
    constructor
    · simp only [mount_sub_directories, c1, ne_eq, not_true_eq_false, if_false, r1]
    · intro addr
      simp only [mount_sub_directories, c1, ne_eq, not_true_eq_false, if_false]
      rw [r2 addr, c2 addr, path_segments_child path k hk, rel_addr_snoc, List.append_assoc]
      congr 1
      cases hrel : rel_addr (path_segments path) addr with
      | none => rfl
      | some ks =>
        cases ks with
        | nil => rfl
        | cons k2 ks2 =>
          by_cases hkk : k = k2
          · subst hkk
            simp [children_backend, sub_directories_find, sub_directories_find_none rest k hdist]
          · simp [children_backend, sub_directories_find, hkk, tree_backend]

end

/-! ## C11: sequential read of a GCF file -/

/-- C11 as stated fails when a block lies at or beyond offset `2^31` of the package file. The
file of 4 bytes has one block (block 0, in range) at `FirstBlockOffset = 2^31`, inside a
package file of `2^31 + 4` bytes. The address is stored in the 32-bit signed `fileoffset`, so
it is `-2^31`; `seekg` fails, the pass through the loop stores nothing and leaves the
remaining size at 4 and the pointer at 0, and the read has not returned after 100 passes. -/
theorem gcf_sequential_read_counterexample :
    0 < high_package.get_blocksize ∧
    gcf_chain high_package 0 0 < high_package.m_frag_map.length ∧
    high_package.get_first_block_offset + gcf_chain high_package 0 0 * high_package.get_blocksize +
      high_package.get_blocksize ≤ high_file.size ∧
    (high_handle.seek 0).map FileGCF.fileofs = .ok (-(2 ^ 31)) ∧
    FileGCF.iteration_seen (high_handle.seek 0 >>= fun f => f.read_iteration 4) =
      .ok (some (4, [], 0, true)) ∧
    FileGCF.read_seen (high_handle.seek 0 >>= fun f => FileGCF.read 100 f 4) =
      .error Fault.out_of_fuel :=
  ⟨by decide, by decide, by decide, rfl, rfl, rfl⟩

/-- C11, amended. For a handle on a file of `S` bytes with block size `B > 0` whose chain
`b0 = first`, `b(i+1) = frag_map[b(i)]` has its first `ceil(S/B)` blocks in range and inside
the package file, that file being shorter than `2^31` bytes: a read of `S` bytes from position
0 returns `S` within `S` passes of its loop and stores the concatenation of the blocks
`b0, b1, ...`, block `b` taken at `FirstBlockOffset + b * B`, the last one cut so that the
total is `S`. -/
theorem gcf_sequential_read (fuel : Nat) (f : FileGCF) (pkg : PackageGCF) (file : HostFile)
    (first S : Nat) (hw : GCFWellFormed pkg file first S) (ha : f.Attached pkg file first S)
    (hfuel : S ≤ fuel) :
    ∃ f1 f2, f.seek 0 = .ok f1 ∧
      FileGCF.read fuel f1 S =
        .ok (f2, S, gcf_data pkg file (gcf_block_total pkg.get_blocksize S) first S) ∧
      (gcf_data pkg file (gcf_block_total pkg.get_blocksize S) first S).length = S ∧
      f2.tell = S := by
  obtain ⟨f1, f2, h1, _, _, h2, h3⟩ :=
    seek_read_ok fuel f pkg file first S 0 S hw ha (Nat.zero_le _) (by simpa using hfuel)
  refine ⟨f1, f2, h1, ?_, ?_, ?_⟩
  · rw [h2, gcf_data_eq pkg file first S hw]
    simp
  · rw [gcf_data_eq pkg file first S hw]
    simp
  · have := h3.pointer
    simpa [FileGCF.tell] using this

theorem scenario_well_formed : GCFWellFormed scenario_package scenario_file 0 10 := by
  refine ⟨by decide, by decide, by decide, ?_⟩
  intro i hi
  have hi3 : i < 3 := by
    simp only [scenario_package, with_blocks_get_blocksize] at hi
    omega
  interval_cases i <;> decide

theorem scenario_attached :
    scenario_handle.Attached scenario_package scenario_file 0 10 :=
  ⟨rfl, rfl, rfl, rfl, rfl, rfl, rfl, rfl⟩

/-- Witness for C11: block size 4, frag map `[2, 3, 1, 0xFFFFFFFF]`, first block 0, size 10,
data blocks from offset 100 of a file whose byte `i` is `i`: the ten bytes are those of
blocks 0, 2 and 1 (4, 4 and 2 bytes), none of block 3. -/
theorem gcf_sequential_read_witness :
    gcf_data scenario_package scenario_file (gcf_block_total scenario_package.get_blocksize 10) 0 10
        = [100, 101, 102, 103, 108, 109, 110, 111, 104, 105] ∧
    ∃ f1 f2, scenario_handle.seek 0 = .ok f1 ∧
      FileGCF.read 10 f1 10 =
        .ok (f2, 10, gcf_data scenario_package scenario_file
          (gcf_block_total scenario_package.get_blocksize 10) 0 10) ∧
      (gcf_data scenario_package scenario_file
        (gcf_block_total scenario_package.get_blocksize 10) 0 10).length = 10 ∧
      f2.tell = 10 :=
  ⟨by decide, gcf_sequential_read 10 scenario_handle scenario_package scenario_file 0 10
    scenario_well_formed scenario_attached (Nat.le_refl _)⟩

/-! ## C12: random access to a GCF file -/

/-- C12 as stated fails when a block lies at or beyond offset `2^31` of the package file: on
the 4-byte file whose block is at `2^31`, `seek(2)` selects block 0 with offset 2, but the
address `2^31 + 2` is negative as a `fileoffset`, so `read(2)` stores nothing, makes no
progress and has not returned after 100 passes of its loop. -/
theorem gcf_random_access_counterexample :
    (high_handle.seek 2).map (fun f => (f.m_block_num, f.m_block_offset)) = .ok (0, 2) ∧
    (high_handle.seek 2).map FileGCF.fileofs = .ok (-(2 ^ 31) + 2) ∧
    FileGCF.iteration_seen (high_handle.seek 2 >>= fun f => f.read_iteration 2) =
      .ok (some (2, [], 2, true)) ∧
    FileGCF.read_seen (high_handle.seek 2 >>= fun f => FileGCF.read 100 f 2) =
      .error Fault.out_of_fuel :=
  ⟨rfl, rfl, rfl, rfl⟩

/-- C12, amended. For a well-formed handle (block size `B > 0`, the first `ceil(S/B)` blocks
of the chain in range and inside the package file, that file shorter than `2^31` bytes), every
`p ≤ S` and every `n`: `seek(p)` selects the block reached by following the frag map exactly
`p / B` times from the first block, with offset `p mod B`, and the following `read(n)` returns
`min(n, S - p)` and stores bytes `p .. p + min(n, S - p)` of what a single sequential read of
the whole file stores. -/
theorem gcf_random_access (fuel : Nat) (f : FileGCF) (pkg : PackageGCF) (file : HostFile)
    (first S p n : Nat) (hw : GCFWellFormed pkg file first S)
    (ha : f.Attached pkg file first S) (hp : p ≤ S) (hfuel : min n (S - p) ≤ fuel) :
    ∃ content g1 g2 f1 f2,
      f.seek 0 = .ok g1 ∧ FileGCF.read S g1 S = .ok (g2, S, content) ∧
      f.seek p = .ok f1 ∧
      pkg.walk (p / pkg.get_blocksize) first = .ok f1.m_block_num ∧
      f1.m_block_offset = p % pkg.get_blocksize ∧
      FileGCF.read fuel f1 n = .ok (f2, min n (S - p), (content.drop p).take n) ∧
      ((content.drop p).take n).length = min n (S - p) := by
  obtain ⟨g1, g2, hg1, _, _, hg2, _⟩ :=
    seek_read_ok S f pkg file first S 0 S hw ha (Nat.zero_le _) (by simp)
  obtain ⟨f1, f2, h1, hbn, hbo, h2, _⟩ := seek_read_ok fuel f pkg file first S p n hw ha hp hfuel
  have hwalk : pkg.walk (p / pkg.get_blocksize) first =
      .ok (gcf_chain pkg first (p / pkg.get_blocksize)) :=
    walk_eq_chain pkg _ first (fun i hi =>
      (hw.chain_ok i (block_index_lt pkg.get_blocksize S i hw.block_size_pos p hp hi)).1)
  refine ⟨(List.range S).map (fun j => gcf_byte pkg file first j), g1, g2, f1, f2, hg1, ?_, h1,
    ?_, hbo, ?_, ?_⟩
  · rw [hg2]; simp
  · rw [hwalk, hbn]
  · rw [h2, range_map_drop_take]
  · rw [range_map_drop_take]; simp

/-- Witness for C12: in the scenario, `seek(3)` then `read(4)` stores bytes 3 .. 6 of the
file, the last byte of block 0 and the first three of block 2. -/
theorem gcf_random_access_witness :
    (([100, 101, 102, 103, 108, 109, 110, 111, 104, 105] : List Nat).drop 3).take 4 =
      [103, 108, 109, 110] ∧
    ∃ content g1 g2 f1 f2,
      scenario_handle.seek 0 = .ok g1 ∧ FileGCF.read 10 g1 10 = .ok (g2, 10, content) ∧
      scenario_handle.seek 3 = .ok f1 ∧
      scenario_package.walk (3 / scenario_package.get_blocksize) 0 = .ok f1.m_block_num ∧
      f1.m_block_offset = 3 % scenario_package.get_blocksize ∧
      FileGCF.read 4 f1 4 = .ok (f2, min 4 (10 - 3), (content.drop 3).take 4) ∧
      ((content.drop 3).take 4).length = min 4 (10 - 3) :=
  ⟨by decide, gcf_random_access 4 scenario_handle scenario_package scenario_file 0 10 3 4
    scenario_well_formed scenario_attached (by decide) (by decide)⟩

/-! ## C13: the seek of the scenario -/

/-- C13 as stated fails: in the scenario, after `seek(6, BEGINNING)` the current block number
is 2 (one step along the chain 0, 2, 1), not 1, with offset 2; the following `read(2)` stores
the bytes at `FirstBlockOffset + 2 * 4 + 2` (here 110 and 111), which belong to block 2, and
not bytes 2 and 3 of block 1 (here 106 and 107). -/
theorem gcf_scenario_seek_counterexample :
    (scenario_handle.seek_dir 6 Seek.BEGINNING).map (fun f => (f.m_block_num, f.m_block_offset))
      = .ok (2, 2) ∧
    FileGCF.read_seen (scenario_handle.seek_dir 6 Seek.BEGINNING >>= fun f => FileGCF.read 2 f 2)
      = .ok (2, [110, 111], 8) ∧
    scenario_file.slice (scenario_package.get_first_block_offset + 1 * 4 + 2) 2 = [106, 107] ∧
    scenario_file.slice (scenario_package.get_first_block_offset + 2 * 4 + 2) 2 = [110, 111] :=
  ⟨rfl, rfl, by decide, by decide⟩

theorem scenario_well_formed_at (fbo : Nat) (file : HostFile) (h1 : fbo + 16 ≤ file.size)
    (h2 : file.size < 2 ^ 31) :
    GCFWellFormed (PackageGCF.with_blocks 4 4 fbo [2, 3, 1, 0xFFFFFFFF]) file 0 10 := by
  refine ⟨by show 0 < 4; decide, by decide, h2, ?_⟩
  intro i hi
  have hi3 : i < 3 := by
    simp only [with_blocks_get_blocksize] at hi
    omega
  interval_cases i
  · refine ⟨by show 0 < 4; decide, by show 0 < 4; decide, ?_⟩
    show fbo + 0 * 4 + 4 ≤ file.size
    omega
  · refine ⟨by show 2 < 4; decide, by show 2 < 4; decide, ?_⟩
    show fbo + 2 * 4 + 4 ≤ file.size
    omega
  · refine ⟨by show 1 < 4; decide, by show 1 < 4; decide, ?_⟩
    show fbo + 1 * 4 + 4 ≤ file.size
    omega

/-- C13, amended. With block size 4, frag map `[2, 3, 1, 0xFFFFFFFF]`, first block 0 and file
size 10, wherever the data blocks start in a package file that holds them below `2^31`: after
`seek(6, BEGINNING)` the current block number is 2 and the offset within the block is 2, and
the following `read(2)` returns 2 and stores bytes 2 and 3 of block 2. -/
theorem gcf_scenario_seek (fuel fbo : Nat) (file : HostFile) (f : FileGCF)
    (hfile : fbo + 16 ≤ file.size) (hsmall : file.size < 2 ^ 31)
    (ha : f.Attached (PackageGCF.with_blocks 4 4 fbo [2, 3, 1, 0xFFFFFFFF]) file 0 10) (hfuel : 2 ≤ fuel) :
    ∃ f1 f2, f.seek_dir 6 Seek.BEGINNING = .ok f1 ∧ f1.m_block_num = 2 ∧
      f1.m_block_offset = 2 ∧
      FileGCF.read fuel f1 2 =
        .ok (f2, 2, [file.byte (fbo + 2 * 4 + 2), file.byte (fbo + 2 * 4 + 3)]) := by
  obtain ⟨f1, f2, h1, hbn, hbo, h2, _⟩ := seek_read_ok fuel f _ file 0 10 6 2
    (scenario_well_formed_at fbo file hfile hsmall) ha (by decide) (by simpa using hfuel)
  refine ⟨f1, f2, h1, ?_, ?_, ?_⟩
  · rw [hbn]; simp [gcf_chain, with_blocks_get_blocksize, with_blocks_get_blockcount, with_blocks_get_first_block_offset, with_blocks_frag_map]
  · rw [hbo]; simp [with_blocks_get_blocksize]
  · rw [h2]
    simp [gcf_byte, gcf_chain, List.range_succ, with_blocks_get_blocksize, with_blocks_get_blockcount, with_blocks_get_first_block_offset, with_blocks_frag_map]

/-- Witness for C13: the scenario with the data blocks at offset 100. -/
theorem gcf_scenario_seek_witness :
    ∃ f1 f2, scenario_handle.seek_dir 6 Seek.BEGINNING = .ok f1 ∧ f1.m_block_num = 2 ∧
      f1.m_block_offset = 2 ∧
      FileGCF.read 2 f1 2 =
        .ok (f2, 2, [scenario_file.byte (100 + 2 * 4 + 2), scenario_file.byte (100 + 2 * 4 + 3)]) :=
  gcf_scenario_seek 2 100 scenario_file scenario_handle (by decide) (by decide)
    scenario_attached (Nat.le_refl _)

/-! ## C14: a corrupt or missing GCF -/

theorem openfile_empty_node {H : Type} (lock : Nat → Option (IDirectory H)) (name : List Char)
    (attr : Nat) (path : List Char) (mode : Nat) :
    (MountPoint.mk name attr [] []).openfile lock path mode = (none, []) := by
  have hown : (MountPoint.mk name attr [] []).find_file_owner lock path (openfile_attr mode)
      = none := by
    rw [find_file_owner_eq]
    split
    · split <;> rfl
    · cases path_segments (split_path path).1 with
      | nil => rfl
      | cons k ks => rfl
  rw [openfile_eq, hown]

/-- C14. If the package file cannot be opened, is shorter than the 44 bytes of `GCFHeader`, or
carries a `FileSize` field different from its length, then `scan()` on a newly constructed
package returns 0, whatever the rest of `scan` would do; no file is registered and the tree has
no backend and no sub-directory; `mount` on any mount point returns 0 and leaves it as it was;
and a mount point that had nothing else opens no path. -/
theorem gcf_corrupt_package_empty (open_file : Option HostFile)
    (scan_rest : HostFile → PackageGCF → PackageGCF × Int) (filename : List Char)
    (hbad : open_file = none ∨ ∃ file, open_file = some file ∧
      (file.size < 44 ∨ le32 (file.slice 0 44) 28 ≠ file.size)) :
    ((PackageGCF.new filename).scan open_file scan_rest).2 = 0 ∧
    ((PackageGCF.new filename).scan open_file scan_rest).1.m_file_info = [] ∧
    ((PackageGCF.new filename).scan open_file scan_rest).1.m_root_directory =
      DirectoryNode.mk none [] ∧
    (∀ mp : MountPoint,
      package_mount (some mp)
        ((PackageGCF.new filename).scan open_file scan_rest).1.m_root_directory = (some mp, 0)) ∧
    (∀ (H : Type) (lock : Nat → Option (IDirectory H)) (name : List Char) (attr : Nat)
      (path : List Char) (mode : Nat),
      ((package_mount (some (MountPoint.mk name attr [] []))
        ((PackageGCF.new filename).scan open_file scan_rest).1.m_root_directory).1.map
          (fun mp => mp.openfile lock path mode)) = some (none, [])) := by
  have key : ((PackageGCF.new filename).scan open_file scan_rest).2 = 0 ∧
      ((PackageGCF.new filename).scan open_file scan_rest).1.m_file_info = [] ∧
      ((PackageGCF.new filename).scan open_file scan_rest).1.m_root_directory =
        DirectoryNode.mk none [] := by
    rcases hbad with h | ⟨file, h, hf⟩
    · subst h
      exact ⟨rfl, rfl, rfl⟩
    · subst h
      rcases hf with hf | hf
      · simp [PackageGCF.scan, sizeof_GCFHeader, hf, PackageGCF.new]
      · by_cases hs : file.size < 44
        · simp [PackageGCF.scan, sizeof_GCFHeader, hs, PackageGCF.new]
        · have hd : (GCFHeader.decode (file.slice 0 44)).FileSize ≠ file.size := hf
          simp [PackageGCF.scan, sizeof_GCFHeader, hs, hd, PackageGCF.new]
  obtain ⟨k1, k2, k3⟩ := key
  refine ⟨k1, k2, k3, ?_, ?_⟩
  · intro mp
    rw [k3]
    rfl
  · intro H lock name attr path mode
    rw [k3]
    simp only [package_mount, mount_directory, Option.map_some']
    rw [openfile_empty_node]

/-- Witness for C14: a package file of three bytes. -/
theorem gcf_corrupt_package_empty_witness :
    ((PackageGCF.new "game.gcf".toList).scan (some (HostFile.ofList [1, 2, 3]))
        (fun _ pkg => (pkg, 0))).2 = 0 ∧
    ((PackageGCF.new "game.gcf".toList).scan (some (HostFile.ofList [1, 2, 3]))
        (fun _ pkg => (pkg, 0))).1.m_file_info = [] :=
  ⟨(gcf_corrupt_package_empty (some (HostFile.ofList [1, 2, 3])) (fun _ pkg => (pkg, 0))
      "game.gcf".toList (Or.inr ⟨_, rfl, Or.inl (by decide)⟩)).1,
   (gcf_corrupt_package_empty (some (HostFile.ofList [1, 2, 3])) (fun _ pkg => (pkg, 0))
      "game.gcf".toList (Or.inr ⟨_, rfl, Or.inl (by decide)⟩)).2.1⟩

/-! ## C15: where the backends of an archive are mounted -/

theorem sub_directories_find_well_keyed (subs : List (List Char × DirectoryNode))
    (k : List Char) (c : DirectoryNode) (hw : sub_directories_well_keyed subs = true)
    (hf : sub_directories_find subs k = some c) : c.well_keyed = true := by
  induction subs with
  | nil => simp [sub_directories_find] at hf
  | cons hd tl ih =>
    obtain ⟨k0, v0⟩ := hd
    simp only [sub_directories_well_keyed, Bool.and_eq_true] at hw
    by_cases h : k0 = k
    · simp only [sub_directories_find, h, if_true, Option.some.injEq] at hf
      rw [← hf]; exact hw.1.2
    · simp only [sub_directories_find, h, if_false] at hf
      exact ih hw.2 hf

theorem dir_node_at_well_keyed (dn : DirectoryNode) (ks : List (List Char))
    (nd : DirectoryNode) (hw : dn.well_keyed = true) (h : dir_node_at dn ks = some nd) :
    nd.well_keyed = true := by
  induction ks generalizing dn with
  | nil =>
    simp only [dir_node_at, Option.some.injEq] at h
    rw [← h]; exact hw
  | cons k ks ih =>
    rw [dir_node_at] at h
    cases dn with
    | mk d subs =>
      have hsubs : sub_directories_well_keyed subs = true := by
        simp only [DirectoryNode.well_keyed, Bool.and_eq_true] at hw
        exact hw.2
      cases hf : sub_directories_find subs k with
      | none => simp [DirectoryNode.sub_directories, hf] at h
      | some c =>
        simp only [DirectoryNode.sub_directories, hf] at h
        exact ih c (sub_directories_find_well_keyed subs k c hsubs hf) h

theorem node_at_of_directories_ne (mp : MountPoint) (addr : List (List Char))
    (h : directories_at mp addr ≠ []) : (node_at mp addr).isSome := by
  unfold directories_at at h
  cases hn : node_at mp addr with
  | none => rw [hn] at h; exact absurd rfl h
  | some nd => rfl

/-- C15. For a package tree as a scan builds it (every folder with its backend, the folder
names path segments in lower case, different within a folder), of a GCF or of a ZIP package,
`mount(M)` returns 0; at every address below `M` the directory list is the previous one
followed by the backend of the folder with that path and by nothing else, so the root backend
is appended at `M` itself and the backend of the folder `s1/.../sk` once at the node reached
from `M` by `s1, ..., sk`, which exists afterwards. -/
theorem archive_mount_placement (mp : MountPoint) (dn : DirectoryNode)
    (hw : dn.well_keyed = true) :
    package_mount (some mp) dn = (some (mount_directory mp [] dn).1, 0) ∧
    (∀ addr, directories_at (mount_directory mp [] dn).1 addr =
      directories_at mp addr ++ tree_backend dn (some addr)) ∧
    (∀ ks nd, dir_node_at dn ks = some nd →
      ∃ d, nd.p_directory = some d ∧ (node_at (mount_directory mp [] dn).1 ks).isSome ∧
        directories_at (mount_directory mp [] dn).1 ks = directories_at mp ks ++ [d]) := by
  obtain ⟨h1, h2⟩ := mount_directory_spec dn mp [] hw
  have h3 : ∀ addr, directories_at (mount_directory mp [] dn).1 addr =
      directories_at mp addr ++ tree_backend dn (some addr) := by
    intro addr
    rw [h2 addr, path_segments_nil]
    rfl
  refine ⟨?_, h3, ?_⟩
  · simp only [package_mount, h1]
  · intro ks nd hnd
    have hwn := dir_node_at_well_keyed dn ks nd hw hnd
    cases nd with
    | mk d subs =>
      cases d with
      | none => simp [DirectoryNode.well_keyed] at hwn
      | some d =>
        have hd : directories_at (mount_directory mp [] dn).1 ks =
            directories_at mp ks ++ [d] := by
          rw [h3 ks]
          simp [tree_backend, hnd, DirectoryNode.p_directory]
        refine ⟨d, rfl, ?_, hd⟩
        apply node_at_of_directories_ne
        rw [hd]
        simp

/-- Witness for C15: the example tree mounted on a fresh node puts backend 1 on the node,
2 on `maps`, 3 on `maps/de` and 4 on `sound`. -/
theorem archive_mount_placement_witness :
    package_mount (some fresh_root) example_tree =
      (some (mount_directory fresh_root [] example_tree).1, 0) ∧
    directories_at (mount_directory fresh_root [] example_tree).1 [] = [1] ∧
    directories_at (mount_directory fresh_root [] example_tree).1 ["maps".toList] = [2] ∧
    directories_at (mount_directory fresh_root [] example_tree).1
      ["maps".toList, "de".toList] = [3] ∧
    directories_at (mount_directory fresh_root [] example_tree).1 ["sound".toList] = [4] :=
  ⟨(archive_mount_placement fresh_root example_tree (by decide)).1, by decide, by decide,
    by decide, by decide⟩

theorem find_eocd_some (buffer : List Nat) (i0 : Nat) (h0 : eocd_at buffer i0 = true) :
    ∀ n, i0 < n → (∀ j, i0 < j → j < n → eocd_at buffer j = false) →
      find_eocd buffer n = some i0 := by
  intro n
  induction n with
  | zero => intro h; omega
  | succ n ih =>
    intro hlt hno
    unfold find_eocd
    by_cases e : i0 = n
    · subst e
      rw [if_pos h0]
    · have hn : eocd_at buffer n = false := hno n (by omega) (by omega)
      rw [hn]
      simp only [Bool.false_eq_true, if_false]
      exact ih (by omega) (fun j h1 h2 => hno j h1 (by omega))

theorem find_eocd_none (buffer : List Nat) :
    ∀ n, (∀ j, j < n → eocd_at buffer j = false) → find_eocd buffer n = none := by
  intro n
  induction n with
  | zero => intro _; rfl
  | succ n ih =>
    intro hno
    unfold find_eocd
    rw [hno n (by omega)]
    simp only [Bool.false_eq_true, if_false]
    exact ih (fun j h => hno j (by omega))

/-- The window that `scan` loads: the last `b` bytes of the file and four zero bytes. -/
theorem window_getD (file : HostFile) (b i : Nat) (hb : b ≤ file.size) (hi : i < b) :
    (file.slice (file.size - b) b ++ List.replicate 4 0).getD i 0 =
      file.byte (file.size - b + i) := by
  rw [slice_eq_map file _ _ (by omega)]
  rw [List.getD_eq_getElem?_getD, List.getElem?_append_left (by simpa using hi)]
  simp [hi]

theorem window_eocd_at (file : HostFile) (b i : Nat) (hb : b ≤ file.size) (hi : i + 4 ≤ b) :
    eocd_at (file.slice (file.size - b) b ++ List.replicate 4 0) i =
      file_eocd_at file (file.size - b + i) := by
  unfold eocd_at file_eocd_at
  rw [window_getD file b i hb (by omega), window_getD file b (i + 1) hb (by omega),
    window_getD file b (i + 2) hb (by omega), window_getD file b (i + 3) hb (by omega)]
  rfl

theorem window_record (file : HostFile) (b i : Nat) (hb : b ≤ file.size) (hi : i + 22 ≤ b) :
    ((file.slice (file.size - b) b ++ List.replicate 4 0).drop (i + 4)).take 18 =
      file.slice (file.size - b + i + 4) 18 := by
  rw [slice_eq_map file _ _ (by omega), slice_eq_map file _ _ (by omega)]
  rw [List.drop_append_of_le_length (by simp; omega), List.take_append_of_le_length (by simp; omega)]
  rw [range_map_drop_take]
  have : min 18 (b - (i + 4)) = 18 := by omega
  rw [this]
  apply List.map_congr_left
  intro k _
  congr 1
  omega

theorem locate_central_dir_eq (file : HostFile) (h18 : 18 ≤ file.size)
    (hs : file.size < 2 ^ 31) :
    PackageZIP.locate_central_dir file =
      match find_eocd (file.slice (file.size - min file.size 65557) (min file.size 65557) ++
          List.replicate 4 0) (min file.size 65557 - 17) with
      | none => .ok none
      | some i => .ok (some (⟨file, file.size, false, false, min file.size 65557⟩,
          zip_central_dir.decode
            (((file.slice (file.size - min file.size 65557) (min file.size 65557) ++
              List.replicate 4 0).drop (i + 4)).take 18))) := by
  have hb : min file.size 65557 ≤ file.size := Nat.min_le_left _ _
  have h1 : ¬ file.size < sizeof_central_dir := by unfold sizeof_central_dir; omega
  have h2 : (min (to_int32 file.size) (0x0FFFF + sizeof_central_dir + 4 : Nat) : Int) =
      ((min file.size 65557 : Nat) : Int) := by
    rw [to_int32_small _ hs]
    unfold sizeof_central_dir
    push_cast
    rfl
  unfold PackageZIP.locate_central_dir
  simp only [h1, if_false, h2]
  have h3 : ¬ ((min file.size 65557 : Nat) : Int) + 4 < 0 := by omega
  simp only [h3, if_false, Int.toNat_ofNat]
  have h4 : ((IfStream.opened file).seekg_end (-((min file.size 65557 : Nat) : Int))).read
      (min file.size 65557) =
      (⟨file, file.size, false, false, min file.size 65557⟩,
        file.slice (file.size - min file.size 65557) (min file.size 65557)) := by
    have e : ((file.size : Int) + -((min file.size 65557 : Nat) : Int)).toNat =
        file.size - min file.size 65557 := by omega
    have hl := slice_length file (file.size - min file.size 65557) (min file.size 65557)
      (by omega)
    have h5 : ¬ ((file.size : Int) + -((min file.size 65557 : Nat) : Int) < 0) := by omega
    simp only [IfStream.seekg_end, IfStream.opened, IfStream.read, Bool.false_eq_true, if_false,
      h5, e, hl, Bool.or_self, lt_self_iff_false, decide_False]
    congr 2
    omega
  rw [h4]
  have hl := slice_length file (file.size - min file.size 65557) (min file.size 65557)
    (by omega)
  have h6 : min file.size 65557 + 4 - (file.slice (file.size - min file.size 65557)
      (min file.size 65557)).length = 4 := by rw [hl]; omega
  have h7 : (((min file.size 65557 : Nat) : Int) - (sizeof_central_dir : Nat) + 1).toNat =
      min file.size 65557 - 17 := by unfold sizeof_central_dir; omega
  simp only [h6, h7]
  rfl

theorem far_archive_no_later (q : Nat) (h : far_archive.size - 22 < q) :
    file_eocd_at far_archive q = false := by
  have h1 : 2 ^ 31 < q := h
  have hb : far_archive.byte q ≠ 0x50 := by
    have e : far_archive.byte q =
        (if q < 2 ^ 31 then 0 else (zip_eocd 0 0 0 0 0).getD (q - 2 ^ 31) 0) := rfl
    rw [e, if_neg (by omega)]
    have hk1 : 1 ≤ q - 2 ^ 31 := by omega
    generalize q - 2 ^ 31 = k at hk1
    by_cases hk : k < 22
    · interval_cases k <;> decide
    · have hlen : (zip_eocd 0 0 0 0 0).length = 22 := by decide
      rw [List.getD_eq_default _ _ (by omega)]
      decide
  unfold file_eocd_at
  simp [hb]

/-- Claim C16, counterexample. The file `far_archive` has length `2 ^ 31 + 22`, ends with an
end-of-central-directory record without comment and holds no later signature, and `scan`
takes nothing from the record: the window size is computed in `int`, is negative, and the
construction of the buffer throws. -/
theorem zip_eocd_location_counterexample :
    22 ≤ far_archive.size ∧
    file_eocd_at far_archive (far_archive.size - 22 - 0) = true ∧
    (∀ q, far_archive.size - 22 - 0 < q → file_eocd_at far_archive q = false) ∧
    ∀ garbage fuel,
      (PackageZIP.new []).scan (some far_archive) garbage fuel = .error .exception :=
  ⟨by decide, by decide, fun q h => far_archive_no_later q h, fun _ _ => rfl⟩

/-- Claim C16, amended to archives shorter than `2 ^ 31` bytes. If the signature
`50 4B 05 06` stands at `L - 22 - c` with `c ≤ 65535` and nowhere later, the central
directory header that `scan` uses is decoded from the 18 bytes that follow the signature, and
`scan` continues with it; if the signature stands nowhere in the last `min L 65557` bytes,
`scan` returns 0 and the package is the one just reset, with no file registered. -/
theorem zip_eocd_location (file : HostFile) (hs : file.size < 2 ^ 31) :
    (∀ c, c ≤ 65535 → 22 + c ≤ file.size →
      file_eocd_at file (file.size - 22 - c) = true →
      (∀ q, file.size - 22 - c < q → q + 4 ≤ file.size → file_eocd_at file q = false) →
      PackageZIP.locate_central_dir file =
        .ok (some (⟨file, file.size, false, false, min file.size 65557⟩,
          zip_central_dir.decode (file.slice (file.size - 18 - c) 18))) ∧
      ∀ garbage fuel (pkg : PackageZIP),
        pkg.scan (some file) garbage fuel =
          PackageZIP.scan_central_dir ⟨file, file.size, false, false, min file.size 65557⟩
            (zip_central_dir.decode (file.slice (file.size - 18 - c) 18)) garbage fuel
            pkg.scan_reset) ∧
    ((∀ q, file.size - min file.size 65557 ≤ q → q + 4 ≤ file.size →
        file_eocd_at file q = false) →
      ∀ garbage fuel (pkg : PackageZIP),
        pkg.scan (some file) garbage fuel = .ok (pkg.scan_reset, 0)) := by
  constructor
  · intro c hc hL hsig hlast
    have hb : min file.size 65557 ≤ file.size := Nat.min_le_left _ _
    have hbc : 22 + c ≤ min file.size 65557 := by omega
    have hfind : find_eocd (file.slice (file.size - min file.size 65557)
        (min file.size 65557) ++ List.replicate 4 0) (min file.size 65557 - 17) =
        some (min file.size 65557 - 22 - c) := by
      apply find_eocd_some
      · rw [window_eocd_at file _ _ hb (by omega)]
        have : file.size - min file.size 65557 + (min file.size 65557 - 22 - c) =
            file.size - 22 - c := by omega
        rw [this]
        exact hsig
      · omega
      · intro j h1 h2
        rw [window_eocd_at file _ _ hb (by omega)]
        exact hlast _ (by omega) (by omega)
    have hloc : PackageZIP.locate_central_dir file =
        .ok (some (⟨file, file.size, false, false, min file.size 65557⟩,
          zip_central_dir.decode (file.slice (file.size - 18 - c) 18))) := by
      rw [locate_central_dir_eq file (by omega) hs, hfind]
      simp only
      rw [window_record file _ _ hb (by omega)]
      have : file.size - min file.size 65557 + (min file.size 65557 - 22 - c) + 4 =
          file.size - 18 - c := by omega
      rw [this]
    refine ⟨hloc, ?_⟩
    intro garbage fuel pkg
    unfold PackageZIP.scan
    simp only [hloc]
  · intro hno garbage fuel pkg
    have hloc : PackageZIP.locate_central_dir file = .ok none := by
      by_cases h18 : 18 ≤ file.size
      · have hb : min file.size 65557 ≤ file.size := Nat.min_le_left _ _
        rw [locate_central_dir_eq file h18 hs, find_eocd_none]
        intro j hj
        rw [window_eocd_at file _ _ hb (by omega)]
        exact hno _ (by omega) (by omega)
      · unfold PackageZIP.locate_central_dir
        have : file.size < sizeof_central_dir := by unfold sizeof_central_dir; omega
        simp only [this, if_true]
    unfold PackageZIP.scan
    simp only [hloc]

set_option maxRecDepth 8000 in
/-- Claim C16, witness: the archive `note_archive` of 209 bytes, whose last record stands at
187. -/
theorem zip_eocd_location_witness :
    note_archive.size < 2 ^ 31 ∧
    PackageZIP.locate_central_dir note_archive =
      .ok (some (⟨note_archive, 209, false, false, 209⟩,
        ⟨0, 0, 1, 1, 54, 133, 0⟩)) :=
  ⟨by decide,
   ((zip_eocd_location note_archive (by decide)).1 0 (by decide) (by decide) (by decide)
      (fun q h1 h2 => by
        have h3 : 187 < q := h1
        have h4 : q + 4 ≤ 209 := h2
        have h5 : q < 206 := by omega
        interval_cases q <;> decide)).1⟩

/-- Claim C17. When the central directory header that `scan` has located carries a non-zero
`disk_number` or `central_dir_disk_num`, `scan` returns 0 and registers no file: the table of
file information is as before, the tree is the root alone, and the backend of the root has
no file under any name. -/
theorem zip_multi_volume_rejected (file : HostFile) (s : IfStream) (cd : zip_central_dir)
    (garbage : List Nat) (fuel : Nat) (pkg : PackageZIP)
    (hloc : PackageZIP.locate_central_dir file = .ok (some (s, cd)))
    (hdisk : cd.disk_number ≠ 0 ∨ cd.central_dir_disk_num ≠ 0) :
    ∃ r, pkg.scan (some file) garbage fuel = .ok (r, 0) ∧
      r.m_file_info = pkg.m_file_info ∧
      r.m_root_directory.sub_directories = [] ∧
      ∃ a d, r.m_root_directory.p_directory = some a ∧ r.m_backends.get? a = some d ∧
        ∀ name, d.file_exists name = false := by
  refine ⟨pkg.scan_reset, ?_, rfl, rfl, pkg.m_backends.length, ⟨[]⟩, rfl, ?_, fun _ => rfl⟩
  · unfold PackageZIP.scan
    simp only [hloc]
    unfold PackageZIP.scan_central_dir
    rw [if_pos hdisk]
  · simp [PackageZIP.scan_reset]

set_option maxRecDepth 8000 in
/-- Claim C17, witness: the archive `split_archive`, whose last record has
`disk_number = 1`. -/
theorem zip_multi_volume_rejected_witness :
    PackageZIP.locate_central_dir split_archive =
      .ok (some (⟨split_archive, 209, false, false, 209⟩, ⟨1, 0, 1, 1, 54, 133, 0⟩)) ∧
    ∃ r, (PackageZIP.new []).scan (some split_archive) zero_fileheader 0 = .ok (r, 0) ∧
      r.m_file_info = [] ∧
      r.m_root_directory.sub_directories = [] ∧
      ∃ a d, r.m_root_directory.p_directory = some a ∧ r.m_backends.get? a = some d ∧
        ∀ name, d.file_exists name = false :=
  ⟨rfl,
   zip_multi_volume_rejected split_archive ⟨split_archive, 209, false, false, 209⟩
     ⟨1, 0, 1, 1, 54, 133, 0⟩ zero_fileheader 0 (PackageZIP.new []) rfl
     (Or.inl (by decide))⟩

theorem read_ok (s : IfStream) (n : Nat) (hf : s.failbit = false) (he : s.eofbit = false)
    (h : s.pos + n ≤ s.file.size) :
    s.read n =
      ({ file := s.file, pos := s.pos + n, failbit := false, eofbit := false, gcount := n },
        s.file.slice s.pos n) := by
  have hl := slice_length s.file s.pos n h
  simp [IfStream.read, hf, he, hl]

theorem getD_append_left (l rest : List Nat) (i : Nat) (h : i < l.length) :
    (l ++ rest).getD i 0 = l.getD i 0 := by
  rw [List.getD_eq_getElem?_getD, List.getD_eq_getElem?_getD, List.getElem?_append_left h]

theorem zip_file_header_decode_append (l rest : List Nat) (h : l.length = 26) :
    zip_file_header.decode (l ++ rest) = zip_file_header.decode l := by
  unfold zip_file_header.decode le16 le32
  simp only [getD_append_left l rest _ (show 0 < l.length by omega),
    getD_append_left l rest _ (show 0 + 1 < l.length by omega),
    getD_append_left l rest _ (show 2 < l.length by omega),
    getD_append_left l rest _ (show 2 + 1 < l.length by omega),
    getD_append_left l rest _ (show 4 < l.length by omega),
    getD_append_left l rest _ (show 4 + 1 < l.length by omega),
    getD_append_left l rest _ (show 6 < l.length by omega),
    getD_append_left l rest _ (show 6 + 1 < l.length by omega),
    getD_append_left l rest _ (show 6 + 2 < l.length by omega),
    getD_append_left l rest _ (show 6 + 3 < l.length by omega),
    getD_append_left l rest _ (show 10 < l.length by omega),
    getD_append_left l rest _ (show 10 + 1 < l.length by omega),
    getD_append_left l rest _ (show 10 + 2 < l.length by omega),
    getD_append_left l rest _ (show 10 + 3 < l.length by omega),
    getD_append_left l rest _ (show 14 < l.length by omega),
    getD_append_left l rest _ (show 14 + 1 < l.length by omega),
    getD_append_left l rest _ (show 14 + 2 < l.length by omega),
    getD_append_left l rest _ (show 14 + 3 < l.length by omega),
    getD_append_left l rest _ (show 18 < l.length by omega),
    getD_append_left l rest _ (show 18 + 1 < l.length by omega),
    getD_append_left l rest _ (show 18 + 2 < l.length by omega),
    getD_append_left l rest _ (show 18 + 3 < l.length by omega),
    getD_append_left l rest _ (show 22 < l.length by omega),
    getD_append_left l rest _ (show 22 + 1 < l.length by omega),
    getD_append_left l rest _ (show 24 < l.length by omega),
    getD_append_left l rest _ (show 24 + 1 < l.length by omega)]

theorem step_valid_record (w : ZipWalk) (hf : w.zip_file.failbit = false)
    (h1 : w.offset + 46 +
      (zip_dir_entry.decode (w.zip_file.file.slice (w.offset + 4) 42)).filename_size ≤
        w.zip_file.file.size)
    (hs1 : w.zip_file.file.slice w.offset 4 = [0x50, 0x4B, 1, 2])
    (h2 : (zip_dir_entry.decode (w.zip_file.file.slice (w.offset + 4) 42)).file_offset + 30 ≤
      w.zip_file.file.size)
    (hs2 : w.zip_file.file.slice
      (zip_dir_entry.decode (w.zip_file.file.slice (w.offset + 4) 42)).file_offset 4 =
        [0x50, 0x4B, 3, 4])
    (hsize32 : w.zip_file.file.size < 2 ^ 32)
    (hne : (zip_file_header.decode (w.zip_file.file.slice
      ((zip_dir_entry.decode (w.zip_file.file.slice (w.offset + 4) 42)).file_offset + 4)
        26)).size_uncompressed ≠ 0) :
    w.step.2 = false ∧
    w.step.1.pkg = (w.pkg.add_file
      (string_of_bytes (w.zip_file.file.slice (w.offset + 46)
        (zip_dir_entry.decode (w.zip_file.file.slice (w.offset + 4) 42)).filename_size))
      (scan_info (zip_dir_entry.decode (w.zip_file.file.slice (w.offset + 4) 42)).file_offset
        (w.offset + 4)
        (zip_file_header.decode (w.zip_file.file.slice
          ((zip_dir_entry.decode (w.zip_file.file.slice (w.offset + 4) 42)).file_offset + 4)
          26)))).1 ∧
    w.step.1.offset = u32 (w.offset + (46 +
      (zip_dir_entry.decode (w.zip_file.file.slice (w.offset + 4) 42)).filename_size +
      (zip_dir_entry.decode (w.zip_file.file.slice (w.offset + 4) 42)).extra_size +
      (zip_dir_entry.decode (w.zip_file.file.slice (w.offset + 4) 42)).comment_size)) := by
  obtain ⟨s, o, fh, pkg⟩ := w
  simp only at hf h1 hs1 h2 hs2 hne hsize32 ⊢
  generalize hde : zip_dir_entry.decode (s.file.slice (o + 4) 42) = de at h1 h2 hs2 hne ⊢
  have r1 : (s.seekg (o : Int)).read 4 =
      (⟨s.file, o + 4, false, false, 4⟩, [0x50, 0x4B, 1, 2]) := by
    rw [seekg_read_ok s o 4 hf (by omega), hs1]
  have r2 : (IfStream.mk s.file (o + 4) false false 4).read sizeof_dir_entry =
      (⟨s.file, o + 46, false, false, 42⟩, s.file.slice (o + 4) 42) := by
    rw [read_ok _ _ rfl rfl (by show o + 4 + 42 ≤ s.file.size; omega)]
    rfl
  have r3 : (IfStream.mk s.file (o + 46) false false 42).read de.filename_size =
      (⟨s.file, o + 46 + de.filename_size, false, false, de.filename_size⟩,
        s.file.slice (o + 46) de.filename_size) := by
    rw [read_ok _ _ rfl rfl (by show o + 46 + de.filename_size ≤ s.file.size; omega)]
  have r4 : ((IfStream.mk s.file (o + 46 + de.filename_size) false false
      de.filename_size).seekg (de.file_offset : Int)).read 4 =
      (⟨s.file, de.file_offset + 4, false, false, 4⟩, [0x50, 0x4B, 3, 4]) := by
    rw [seekg_read_ok _ de.file_offset 4 rfl (by show de.file_offset + 4 ≤ s.file.size; omega)]
    simp only [hs2]
  have r5 : (IfStream.mk s.file (de.file_offset + 4) false false 4).read
      sizeof_zipfile_header =
      (⟨s.file, de.file_offset + 30, false, false, 26⟩, s.file.slice (de.file_offset + 4) 26) := by
    rw [read_ok _ _ rfl rfl (by show de.file_offset + 4 + 26 ≤ s.file.size; omega)]
    rfl
  have hl3 : (s.file.slice (o + 46) de.filename_size).length = de.filename_size :=
    slice_length _ _ _ (by omega)
  have hl5 : (s.file.slice (de.file_offset + 4) 26).length = 26 :=
    slice_length _ _ _ (by omega)
  have hpos : u32 (o + 4) = o + 4 := u32_small _ (by omega)
  unfold ZipWalk.step
  simp only [r1, Bool.not_false, Bool.true_and, beq_self_eq_true, if_true, r2, hde, r3, hl3,
    Nat.sub_self, List.replicate_zero, List.append_nil, r4, r5, hl5, hpos]
  rw [zip_file_header_decode_append _ _ hl5, if_pos hne]
  exact ⟨rfl, rfl, rfl⟩

set_option maxRecDepth 8000 in
/-- Claim C18, counterexample. The archive `two_record_archive` announces one entry
(`dir_entry_count = 1`) and holds a second contiguous record with the signature
`50 4B 01 02` at 123; `scan` registers the files of both records. -/
theorem zip_walk_count_counterexample :
    PackageZIP.locate_central_dir two_record_archive =
      .ok (some (⟨two_record_archive, 196, false, false, 196⟩, ⟨0, 0, 1, 1, 51, 72, 0⟩)) ∧
    two_record_archive.slice (72 + 51) 4 = [0x50, 0x4B, 1, 2] ∧
    ∃ r, (PackageZIP.new []).scan (some two_record_archive) zero_fileheader 3 = .ok (r, 0) ∧
      r.m_file_info.length = 2 ∧
      r.m_backends = [⟨[("a.txt".toList, 0), ("b.txt".toList, 1)]⟩] :=
  ⟨rfl, by decide, _, rfl, rfl, rfl⟩

/-- Claim C18, amended. The walk does not count entries: `dir_entry_count` is only tested
against zero, so every non-zero count gives the same result; and a pass of the walk that
finds the signature `50 4B 01 02` at its offset, the whole record in the file, and the
signature `50 4B 03 04` with a whole header of non-zero `size_uncompressed` at the record's
`file_offset`, registers the file and does not end the walk, whatever the count. -/
theorem zip_walk_ignores_count (w : ZipWalk) (hf : w.zip_file.failbit = false)
    (h1 : w.offset + 46 +
      (zip_dir_entry.decode (w.zip_file.file.slice (w.offset + 4) 42)).filename_size ≤
        w.zip_file.file.size)
    (hs1 : w.zip_file.file.slice w.offset 4 = [0x50, 0x4B, 1, 2])
    (h2 : (zip_dir_entry.decode (w.zip_file.file.slice (w.offset + 4) 42)).file_offset + 30 ≤
      w.zip_file.file.size)
    (hs2 : w.zip_file.file.slice
      (zip_dir_entry.decode (w.zip_file.file.slice (w.offset + 4) 42)).file_offset 4 =
        [0x50, 0x4B, 3, 4])
    (hsize32 : w.zip_file.file.size < 2 ^ 32)
    (hne : (zip_file_header.decode (w.zip_file.file.slice
      ((zip_dir_entry.decode (w.zip_file.file.slice (w.offset + 4) 42)).file_offset + 4)
        26)).size_uncompressed ≠ 0) :
    (∀ (s : IfStream) (cd : zip_central_dir) (n : Nat) (garbage : List Nat) (fuel : Nat)
        (pkg : PackageZIP),
      PackageZIP.scan_central_dir s { cd with dir_entry_count := n + 1 } garbage fuel pkg =
        PackageZIP.scan_central_dir s { cd with dir_entry_count := 1 } garbage fuel pkg) ∧
    w.step.2 = false ∧
    w.step.1.pkg = (w.pkg.add_file
      (string_of_bytes (w.zip_file.file.slice (w.offset + 46)
        (zip_dir_entry.decode (w.zip_file.file.slice (w.offset + 4) 42)).filename_size))
      (scan_info (zip_dir_entry.decode (w.zip_file.file.slice (w.offset + 4) 42)).file_offset
        (w.offset + 4)
        (zip_file_header.decode (w.zip_file.file.slice
          ((zip_dir_entry.decode (w.zip_file.file.slice (w.offset + 4) 42)).file_offset + 4)
          26)))).1 ∧
    w.step.1.offset = u32 (w.offset + (46 +
      (zip_dir_entry.decode (w.zip_file.file.slice (w.offset + 4) 42)).filename_size +
      (zip_dir_entry.decode (w.zip_file.file.slice (w.offset + 4) 42)).extra_size +
      (zip_dir_entry.decode (w.zip_file.file.slice (w.offset + 4) 42)).comment_size)) := by
  refine ⟨?_, step_valid_record w hf h1 hs1 h2 hs2 hsize32 hne⟩
  intro s cd n garbage fuel pkg
  unfold PackageZIP.scan_central_dir
  simp

set_option maxRecDepth 8000 in
/-- Claim C18, witness: the second record of `two_record_archive`, at 123, beyond the one
announced entry. -/
theorem zip_walk_ignores_count_witness :
    (second_record_walk (PackageZIP.new []).scan_reset).step.2 = false ∧
    (second_record_walk (PackageZIP.new []).scan_reset).step.1.pkg.m_backends =
      [⟨[("b.txt".toList, 0)]⟩] :=
  have h := (zip_walk_ignores_count (second_record_walk (PackageZIP.new []).scan_reset) rfl
    (by decide) (by decide) (by decide) (by decide) (by decide) (by decide)).2
  ⟨h.1, by rw [h.2.1]; rfl⟩

theorem get_file_info_eq (pkg : PackageZIP) (id : Int) (hlen : pkg.m_file_info.length < 2 ^ 31) :
    pkg.get_file_info id =
      if 0 ≤ id ∧ id < (pkg.m_file_info.length : Int) then pkg.m_file_info.get? id.toNat
      else none := by
  unfold PackageZIP.get_file_info
  rw [to_int32_small _ hlen]

set_option maxRecDepth 8000 in
/-- Claim C19, counterexample. `scan` registers the deflated entry of `truncated_archive`
under id 0 with method 8, and `openfile(0, MODE_READ)` returns none: the archive does not
hold the announced 1000 compressed bytes. -/
theorem zip_openfile_dispatch_counterexample :
    ∃ pkg, (PackageZIP.new []).scan (some truncated_archive) zero_fileheader 2 = .ok (pkg, 0) ∧
      pkg.get_file_info 0 = some ⟨1000, 42, 35, 42, 0, 8⟩ ∧
      ∀ garbage, pkg.openfile (some truncated_archive) garbage 0 MODE_READ = .ok none :=
  ⟨_, rfl, rfl, fun _ => rfl⟩

/-- Claim C19, amended. On a package with fewer than `2^31` registered files:
`openfile(id, mode)` returns none when the archive cannot be opened, when `id` is not a
registered id, or when the method of the entry is neither 0 nor 8. With an archive that can be
opened: for method 0 it returns a stored handle on the entry when the seek that `open`
performs, computed from the still uninitialised `m_fileinfo` (`std::int32_t` fields), does not
overflow `int`, which it cannot without `MODE_AT_END`, and it has no defined result when that
sum overflows; for method 8 with `size_compressed >= 0` it returns a READ-mode memory handle
when `size_uncompressed >= 0` and either `size_compressed = 0` or the archive holds
`size_compressed` bytes from `file_offset >= 0` on, and none otherwise; for method 8 with
`size_compressed < 0` it is left by an exception. The `size()` of a returned handle is the
entry's `size_uncompressed` (a `std::int32_t`) when that is not negative. -/
theorem zip_openfile_dispatch (file : HostFile) (garbage : ZipFileInfo) (pkg : PackageZIP)
    (id : Int) (mode : Nat) (hlen : pkg.m_file_info.length < 2 ^ 31) :
    pkg.openfile none garbage id mode = .ok none ∧
    ((id < 0 ∨ (pkg.m_file_info.length : Int) ≤ id) →
      pkg.openfile (some file) garbage id mode = .ok none) ∧
    (∀ info, 0 ≤ id → pkg.m_file_info.get? id.toNat = some info →
      (info.compression_method ≠ 0 → info.compression_method ≠ 8 →
        pkg.openfile (some file) garbage id mode = .ok none) ∧
      (info.compression_method = 0 →
        -(2 ^ 31) ≤ garbage.file_offset → garbage.file_offset < 2 ^ 31 →
        -(2 ^ 31) ≤ garbage.size_uncompressed → garbage.size_uncompressed < 2 ^ 31 →
        ((mode &&& MODE_AT_END = 0 ∨
            garbage.file_offset + max 0 garbage.size_uncompressed < 2 ^ 31) →
          ∃ h, pkg.openfile (some file) garbage id mode = .ok (some (.stored h)) ∧
            h.m_fileinfo = info ∧
            (0 ≤ info.size_uncompressed → info.size_uncompressed < 2 ^ 31 →
              ((ZipHandle.stored h).size : Int) = info.size_uncompressed)) ∧
        (mode &&& MODE_AT_END ≠ 0 →
            2 ^ 31 ≤ garbage.file_offset + max 0 garbage.size_uncompressed →
          pkg.openfile (some file) garbage id mode = .error .signed_overflow)) ∧
      (info.compression_method = 8 → 0 ≤ info.size_compressed →
        ((info.size_compressed = 0 ∨
            (0 ≤ info.file_offset ∧ info.file_offset + info.size_compressed ≤ file.size)) →
          0 ≤ info.size_uncompressed →
          ∃ m, pkg.openfile (some file) garbage id mode = .ok (some (.memory m)) ∧
            m.m_mode = MODE_READ ∧
            ((ZipHandle.memory m).size : Int) = info.size_uncompressed) ∧
        (((0 < info.size_compressed ∧
            (info.file_offset < 0 ∨ (file.size : Int) < info.file_offset + info.size_compressed)) ∨
            info.size_uncompressed < 0) →
          pkg.openfile (some file) garbage id mode = .ok none)) ∧
      (info.compression_method = 8 → info.size_compressed < 0 →
        pkg.openfile (some file) garbage id mode = .error .exception)) := by
  refine ⟨?_, ?_, ?_⟩
  · unfold PackageZIP.openfile
    cases pkg.get_file_info id with
    | none => rfl
    | some info =>
      simp only
      by_cases h0 : info.compression_method = ZIP_UNCOMPRESSED
      · rw [if_pos h0]
        unfold FileZIPStore.open_
        simp only [h0, ne_eq, not_true_eq_false, if_false]
        rfl
      · rw [if_neg h0]
        split <;> rfl
  · intro hid
    unfold PackageZIP.openfile
    rw [get_file_info_eq pkg id hlen, if_neg (by omega)]
  · intro info hid hget
    have hlt : id.toNat < pkg.m_file_info.length := by
      rcases List.get?_eq_some.mp hget with ⟨h, _⟩
      exact h
    have hinfo : pkg.get_file_info id = some info := by
      rw [get_file_info_eq pkg id hlen, if_pos (by omega), hget]
    refine ⟨?_, ?_, ?_, ?_⟩
    · intro h0 h8
      unfold PackageZIP.openfile
      simp only [hinfo, ZIP_UNCOMPRESSED, ZIP_DEFLATED, h0, h8, if_false]
    · intro h0 hg1 hg2 hg3 hg4
      have hopen : pkg.openfile (some file) garbage id mode =
          ((FileZIPStore.mk garbage (IfStream.opened file) 0).seek_dir 0
            (if mode &&& MODE_AT_END ≠ 0 then Seek.END else Seek.BEGINNING)).map
            (fun f0 => some (.stored { f0 with m_fileinfo := info })) := by
        unfold PackageZIP.openfile
        simp only [hinfo, ZIP_UNCOMPRESSED, h0, if_true]
        unfold FileZIPStore.open_
        simp only [ZIP_UNCOMPRESSED, h0, ne_eq, not_true_eq_false, if_false]
        cases (FileZIPStore.mk garbage (IfStream.opened file) 0).seek_dir 0
          (if ¬ mode &&& MODE_AT_END = 0 then Seek.END else Seek.BEGINNING) <;> rfl
      have hbeg : ∃ f0, (FileZIPStore.mk garbage (IfStream.opened file) 0).seek_dir 0
          Seek.BEGINNING = .ok f0 := by
        unfold FileZIPStore.seek_dir
        simp only [int32_of, Int.add_zero]
        rw [if_pos ⟨hg1, hg2⟩]
        exact ⟨_, rfl⟩
      have hclamp : (FileZIPStore.mk garbage (IfStream.opened file) 0).clamp
          garbage.size_uncompressed = max 0 garbage.size_uncompressed := by
        unfold FileZIPStore.clamp
        simp only
        by_cases hn : garbage.size_uncompressed < 0
        · rw [if_pos hn]; omega
        · rw [if_neg hn, if_neg (by omega)]; omega
      have hend : (FileZIPStore.mk garbage (IfStream.opened file) 0).seek_dir 0 Seek.END =
          (int32_of (garbage.file_offset + max 0 garbage.size_uncompressed)).bind
            (fun target => .ok { (FileZIPStore.mk garbage (IfStream.opened file) 0) with
              m_zip_file := (IfStream.opened file).seekg target }) := by
        unfold FileZIPStore.seek_dir
        simp only [Int.sub_zero]
        have e : int32_of garbage.size_uncompressed = .ok garbage.size_uncompressed := by
          unfold int32_of
          rw [if_pos ⟨hg3, hg4⟩]
        rw [e]
        show (int32_of (garbage.file_offset + (FileZIPStore.mk garbage (IfStream.opened file)
          0).clamp garbage.size_uncompressed)).bind _ = _
        rw [hclamp]
        rfl
      refine ⟨?_, ?_⟩
      · intro hmode
        have hseek : ∃ f0, (FileZIPStore.mk garbage (IfStream.opened file) 0).seek_dir 0
            (if mode &&& MODE_AT_END ≠ 0 then Seek.END else Seek.BEGINNING) = .ok f0 := by
          by_cases hm : mode &&& MODE_AT_END = 0
          · simp only [hm, ne_eq, not_true_eq_false, if_false]
            exact hbeg
          · simp only [hm, ne_eq, not_false_eq_true, if_true]
            rw [hend]
            have hs : garbage.file_offset + max 0 garbage.size_uncompressed < 2 ^ 31 := by
              rcases hmode with h | h
              · exact absurd h hm
              · exact h
            unfold int32_of
            rw [if_pos ⟨by omega, hs⟩]
            exact ⟨_, rfl⟩
        obtain ⟨f0, hf0⟩ := hseek
        refine ⟨{ f0 with m_fileinfo := info }, ?_, rfl, ?_⟩
        · rw [hopen, hf0]
          rfl
        · intro hsu hsu2
          show ((info.size_uncompressed % 2 ^ 64).toNat : Int) = info.size_uncompressed
          have : info.size_uncompressed % 2 ^ 64 = info.size_uncompressed :=
            Int.emod_eq_of_lt hsu (by omega)
          rw [this]
          omega
      · intro hm hover
        rw [hopen]
        simp only [hm, ne_eq, not_false_eq_true, if_true]
        rw [hend]
        unfold int32_of
        rw [if_neg (by omega)]
        rfl
    · intro h8 hsc
      have h0 : ¬ info.compression_method = 0 := by omega
      have hopen : pkg.openfile (some file) garbage id mode =
          if (((IfStream.opened file).seekg info.file_offset).read
              info.size_compressed.toNat).1.gcount = info.size_compressed.toNat then
            if info.size_uncompressed < 0 then .ok none
            else .ok (some (.memory
              ((FileInMemory.with_mode MODE_READ).resize info.size_uncompressed.toNat)))
          else .ok none := by
        unfold PackageZIP.openfile
        have e : ∀ n : Nat, ((n : Int) = info.size_compressed) = (n = info.size_compressed.toNat) := by
          intro n
          apply propext
          omega
        simp only [hinfo, ZIP_UNCOMPRESSED, ZIP_DEFLATED, h0, h8, if_false, if_true,
          show ¬ info.size_compressed < 0 by omega, e, show ¬ (8 : Nat) = 0 by decide]
      refine ⟨?_, ?_⟩
      · intro hfit hsu
        have hg : (((IfStream.opened file).seekg info.file_offset).read
            info.size_compressed.toNat).1.gcount = info.size_compressed.toNat := by
          rcases hfit with hz | ⟨hfo, hfit⟩
          · rw [hz]
            unfold IfStream.read IfStream.seekg IfStream.opened HostFile.slice
            simp only [Int.toNat_zero]
            split <;> split <;> simp
          · obtain ⟨a, ha⟩ : ∃ a : Nat, info.file_offset = (a : Int) :=
              ⟨info.file_offset.toNat, by omega⟩
            rw [ha] at hfit ⊢
            rw [seekg_read_ok (IfStream.opened file) _ _ rfl (by
              show a + info.size_compressed.toNat ≤ file.size
              omega)]
        refine ⟨(FileInMemory.with_mode MODE_READ).resize info.size_uncompressed.toNat, ?_, rfl,
          ?_⟩
        · rw [hopen, if_pos hg, if_neg (by omega)]
        · show (((FileInMemory.with_mode MODE_READ).resize
            info.size_uncompressed.toNat).m_data.length : Int) = info.size_uncompressed
          simp [FileInMemory.resize, FileInMemory.with_mode]
          omega
      · intro hbad
        rw [hopen]
        rcases hbad with ⟨hpos, hout⟩ | hsu
        · have hg : (((IfStream.opened file).seekg info.file_offset).read
              info.size_compressed.toNat).1.gcount ≠ info.size_compressed.toNat := by
            by_cases hfo : info.file_offset < 0
            · have e : (((IfStream.opened file).seekg info.file_offset).read
                  info.size_compressed.toNat).1.gcount = 0 := by
                simp [IfStream.read, IfStream.seekg, IfStream.opened, hfo]
              rw [e]
              omega
            · have e : (((IfStream.opened file).seekg info.file_offset).read
                  info.size_compressed.toNat).1.gcount =
                  min info.size_compressed.toNat (file.size - info.file_offset.toNat) := by
                simp [IfStream.read, IfStream.seekg, IfStream.opened, hfo, HostFile.slice]
              rw [e]
              omega
          rw [if_neg hg]
        · simp [hsu]
    · intro h8 hsc
      have h0 : ¬ info.compression_method = 0 := by omega
      unfold PackageZIP.openfile
      simp only [hinfo, ZIP_UNCOMPRESSED, ZIP_DEFLATED, h0, h8, if_false, if_true, hsc,
        show ¬ (8 : Nat) = 0 by decide]
set_option maxRecDepth 8000 in
/-- Claim C19, witness: the stored entry `note.txt` of `note_archive`, opened for reading, and
the deflated entry of `empty_deflated_archive`, registered by `scan` with no compressed byte
and 42 uncompressed bytes, which opens as a READ-mode memory handle of size 42. -/
theorem zip_openfile_dispatch_witness :
    (∃ h, note_package.openfile (some note_archive) zero_info 0 MODE_READ =
        .ok (some (.stored h)) ∧
      h.m_fileinfo = ⟨5, 5, 128, 137, 0, 0⟩ ∧
      ((ZipHandle.stored h).size : Int) = 5) ∧
    (PackageZIP.new []).scan (some empty_deflated_archive) zero_fileheader 2 =
      .ok (empty_deflated_package, 0) ∧
    ∃ m, empty_deflated_package.openfile (some empty_deflated_archive) zero_info 0 MODE_READ =
        .ok (some (.memory m)) ∧
      m.m_mode = MODE_READ ∧ ((ZipHandle.memory m).size : Int) = 42 :=
  ⟨(((((zip_openfile_dispatch note_archive zero_info note_package 0 MODE_READ
      (by decide)).2.2 ⟨5, 5, 128, 137, 0, 0⟩ (by decide) rfl).2.1 rfl (by decide) (by decide)
      (by decide) (by decide)).1 (Or.inl (by decide))).imp
      (fun _ hh => ⟨hh.1, hh.2.1, hh.2.2 (by decide) (by decide)⟩)),
    rfl,
    ((((zip_openfile_dispatch empty_deflated_archive zero_info empty_deflated_package 0
      MODE_READ (by decide)).2.2 ⟨0, 42, 35, 39, 0, 8⟩ (by decide) rfl).2.2.1 rfl
      (by decide)).1 (Or.inl rfl) (by decide))⟩

set_option maxRecDepth 8000 in
theorem note_package_scan :
    (PackageZIP.new []).scan (some note_archive) zero_fileheader 2 = .ok (note_package, 0) :=
  rfl

theorem stored_read_eq (info : ZipFileInfo) (file : HostFile) (p gc cnt N A U : Nat)
    (hA : info.file_offset = (A : Int)) (hU : info.size_uncompressed = (U : Int))
    (hp : A ≤ p) (hpU : p ≤ A + U) (hfit : A + U ≤ file.size) (hsmall : A + U < 2 ^ 31) :
    ∃ g, (FileZIPStore.mk info ⟨file, p, false, false, gc⟩ cnt).read N =
      .ok (g, min N (A + U - p), file.slice p (min N (A + U - p))) ∧
      g.m_fileinfo = info ∧ g.is_fail = false := by
  have htell : IfStream.tellg ⟨file, p, false, false, gc⟩ = (p : Int) := rfl
  have hlim : int32_of (info.file_offset + info.size_uncompressed) =
      .ok ((A + U : Nat) : Int) := by
    rw [hA, hU]
    unfold int32_of
    rw [if_pos (by constructor <;> omega)]
    push_cast
    rfl
  have hfail : (FileZIPStore.mk info ⟨file, p, false, false, gc⟩ cnt).is_fail = false := rfl
  have heof : (FileZIPStore.mk info ⟨file, p, false, false, gc⟩ cnt).is_eof =
      .ok (decide (A + U ≤ p)) := by
    unfold FileZIPStore.is_eof
    simp only [hlim, htell, bind, Except.bind, pure, Except.pure]
    congr 1
    simp only [ge_iff_le, Nat.cast_le]
  unfold FileZIPStore.read
  simp only [hfail, Bool.false_eq_true, if_false, heof, bind, Except.bind, pure, Except.pure,
    htell]
  by_cases he : A + U ≤ p
  · have hm : min N (A + U - p) = 0 := by
      have : A + U - p = 0 := by omega
      rw [this]
      simp
    rw [hm, slice_zero]
    simp only [he, decide_True, if_true]
    exact ⟨_, rfl, rfl, rfl⟩
  · have hpos : to_int32 (((p : Int) % 2 ^ 32).toNat) = (p : Int) := by
      have e : ((p : Int) % 2 ^ 32).toNat = p := by
        have : ((p : Int) % 2 ^ 32) = (p : Int) := Int.emod_eq_of_lt (by omega) (by omega)
        rw [this]
        rfl
      rw [e, to_int32_small _ (by omega)]
    have hused : int32_of ((p : Int) - info.file_offset) = .ok ((p - A : Nat) : Int) := by
      rw [hA]
      unfold int32_of
      rw [if_pos (by constructor <;> omega)]
      congr 1
      omega
    have hleft : int32_of (info.size_uncompressed - ((p - A : Nat) : Int)) =
        .ok ((A + U - p : Nat) : Int) := by
      rw [hU]
      unfold int32_of
      rw [if_pos (by constructor <;> omega)]
      congr 1
      omega
    have havail : ((((A + U - p : Nat) : Int)) % 2 ^ 64).toNat = A + U - p := by
      have : (((A + U - p : Nat) : Int) % 2 ^ 64) = ((A + U - p : Nat) : Int) :=
        Int.emod_eq_of_lt (by omega) (by omega)
      rw [this]
      rfl
    have hsize : (if N > A + U - p then A + U - p else N) = min N (A + U - p) := by
      by_cases h : N > A + U - p
      · rw [if_pos h]; omega
      · rw [if_neg h]; omega
    have hread : (IfStream.mk file p false false gc).read (min N (A + U - p)) =
        (⟨file, p + min N (A + U - p), false, false, min N (A + U - p)⟩,
          file.slice p (min N (A + U - p))) :=
      read_ok _ _ rfl rfl (by show p + min N (A + U - p) ≤ file.size; omega)
    have hnlt : ¬ ((p : Int) < info.file_offset) := by rw [hA]; omega
    simp only [he, decide_False, Bool.false_eq_true, if_false, hpos, hnlt, hused, hleft, havail,
      hsize, hread]
    exact ⟨_, rfl, rfl, rfl⟩

/-- Claim C20, counterexample. The entry has data offset `A = 2 ^ 31` and size `U = 4`, the
archive holds the bytes `[A, A + U)`, and `seek(0)` followed by `read(4)` returns 0 bytes,
not 4: the offset is held as `-2 ^ 31`, so that `is_eof` is true. -/
theorem zip_stored_read_counterexample :
    far_handle.m_fileinfo.file_offset = to_int32 (2 ^ 31) ∧
    far_handle.m_fileinfo.size_uncompressed = 4 ∧
    2 ^ 31 + 4 ≤ far_data_archive.size ∧
    far_handle.is_fail = false ∧
    (far_handle.seek 0).m_zip_file.pos = 2 ^ 31 ∧
    (far_handle.seek 0).is_fail = false ∧
    ((far_handle.seek 0).read 4).map (fun r => r.2) = .ok (0, []) :=
  ⟨rfl, rfl, by decide, rfl, rfl, rfl, rfl⟩

/-- Claim C20, amended to entries that end below `2 ^ 31`. For a stored handle whose stream
has not failed, on an entry with data offset `A` and size `U` in an archive that holds the
bytes `[A, A + U)`, `seek(O)` with `O ≤ U` followed by `read(N)` returns `min N (U - O)` and
stores the archive bytes `[A + O, A + O + min N (U - O))`. -/
theorem zip_stored_read (f : FileZIPStore) (A U O N : Nat)
    (hA : f.m_fileinfo.file_offset = (A : Int))
    (hU : f.m_fileinfo.size_uncompressed = (U : Int))
    (hok : f.m_zip_file.failbit = false)
    (hfit : A + U ≤ f.m_zip_file.file.size)
    (hsmall : A + U < 2 ^ 31)
    (hO : O ≤ U) :
    ∃ g, (f.seek O).read N =
      .ok (g, min N (U - O), f.m_zip_file.file.slice (A + O) (min N (U - O))) ∧
      g.m_fileinfo = f.m_fileinfo ∧ g.is_fail = false := by
  obtain ⟨info, s, cnt⟩ := f
  obtain ⟨file, p, fb, eb, gc⟩ := s
  simp only at hA hU hok hfit hsmall
  subst hok
  have hseek : (FileZIPStore.mk info ⟨file, p, false, eb, gc⟩ cnt).seek O =
      ⟨info, ⟨file, A + O, false, false, gc⟩, cnt⟩ := by
    have e1 : of_int32 info.file_offset = A := by
      rw [hA]
      unfold of_int32
      have : ((A : Int) % 2 ^ 32) = (A : Int) := Int.emod_eq_of_lt (by omega) (by omega)
      rw [this]
      rfl
    have e2 : u32 (A + O) = A + O := u32_small _ (by omega)
    simp only [FileZIPStore.seek, e1, e2, IfStream.seekg, Bool.false_eq_true, if_false,
      show ¬ (((A + O : Nat) : Int) < 0) by omega, Int.toNat_ofNat]
  rw [hseek]
  obtain ⟨g, h1, h2, h3⟩ := stored_read_eq info file (A + O) gc cnt N A U hA hU (by omega)
    (by omega) hfit hsmall
  have e : A + U - (A + O) = U - O := by omega
  rw [e] at h1
  exact ⟨g, h1, h2, h3⟩

set_option maxRecDepth 8000 in
/-- Claim C20, witness: on the entry `note.txt` of `note_archive` (data at 128, size 5),
`seek(1)` followed by `read(10)` returns the 4 bytes of `ello`. -/
theorem zip_stored_read_witness :
    ∃ g, (note_handle.seek 1).read 10 = .ok (g, 4, bytes_of "ello") ∧
      g.m_fileinfo = note_handle.m_fileinfo ∧ g.is_fail = false :=
  zip_stored_read note_handle 128 5 1 10 rfl rfl rfl (by decide) (by decide) (by decide)

/-! ## C21: the position of a freshly opened stored handle -/

set_option maxRecDepth 8000 in
/-- C21: `FileZIPStore::open` seeks before it assigns `m_fileinfo`, so the stream of a fresh
stored handle is placed by the uninitialised `m_fileinfo` and not by the entry: its position
and `failbit` are those of `seekg(garbage.file_offset)`, whatever the entry. With an
uninitialised `FileInfo` of zeros, the handle on `note.txt` (data at 128, size 5) stands at
byte 0 of the archive: `tell()` is `2 ^ 64 - 128`, `read(10)` returns 0 bytes and `is_eof()`
is false. With an uninitialised offset of `-1` the stream has failed and `read(10)` returns
0 bytes. -/
theorem zip_fresh_handle_position :
    (∀ (garbage info : ZipFileInfo) (file : HostFile),
      (FileZIPStore.open_ garbage (some file)
          { info with compression_method := ZIP_UNCOMPRESSED } MODE_READ).map
        (Option.map (fun h => (h.m_zip_file.pos, h.m_zip_file.failbit))) =
      (int32_of (garbage.file_offset + 0)).map (fun t =>
        some (((IfStream.opened file).seekg t).pos, ((IfStream.opened file).seekg t).failbit))) ∧
    (∃ h, note_package.openfile (some note_archive) zero_info 0 MODE_READ =
        .ok (some (.stored h)) ∧
      h.m_fileinfo.file_offset = 128 ∧ h.m_fileinfo.size_uncompressed = 5 ∧
      h.m_zip_file.pos = 0 ∧ h.is_fail = false ∧
      h.tell = 2 ^ 64 - 128 ∧
      (h.read 10).map (fun r => r.2) = .ok (0, []) ∧
      h.is_eof = .ok false) ∧
    (∃ h, note_package.openfile (some note_archive) ⟨0, 0, -1, 0, 0, 0⟩ 0 MODE_READ =
        .ok (some (.stored h)) ∧
      h.is_fail = true ∧
      (h.read 10).map (fun r => r.2) = .ok (0, [])) := by
  refine ⟨?_, ⟨_, rfl, rfl, rfl, rfl, rfl, by decide, rfl, rfl⟩, ⟨_, rfl, rfl, rfl⟩⟩
  intro garbage info file
  unfold FileZIPStore.open_
  simp only [ne_eq, not_true_eq_false, if_false]
  have hm : (if MODE_READ &&& MODE_AT_END ≠ 0 then Seek.END else Seek.BEGINNING) =
      Seek.BEGINNING := by decide
  rw [hm]
  unfold FileZIPStore.seek_dir
  simp only
  cases int32_of (garbage.file_offset + 0) with
  | error e => rfl
  | ok t => rfl

/-! ## C22: reading from a memory handle -/

/-- C22: `FileInMemory::read` never moves `m_position` (only `get` and `seek` do). For every
handle and size, a read leaves the position and `is_eof()` as they were, and the same read
made again returns the same count and the same bytes. On the READ-mode handle of 42 bytes,
a read of 42 bytes returns 42, and a further read of one byte returns 1 byte, not 0, with
`is_eof()` false. -/
theorem memory_read_keeps_position :
    (∀ (f : FileInMemory) (size : Nat),
      (f.read size).1.m_position = f.m_position ∧
      (f.read size).1.is_eof = f.is_eof ∧
      ((f.read size).1.read size).2 = (f.read size).2) ∧
    deflated_handle.size = 42 ∧
    (deflated_handle.read 42).2 = (42, List.replicate 42 0) ∧
    ((deflated_handle.read 42).1.read 1).2 = (1, [0]) ∧
    ((deflated_handle.read 42).1.read 1).1.is_eof = false := by
  refine ⟨?_, by decide, by decide, by decide, by decide⟩
  intro f size
  unfold FileInMemory.read
  by_cases h : size ≠ 0 ∧ f.m_mode &&& MODE_READ ≠ 0 ∧ f.m_position < f.m_data.length
  · simp only [h, and_self, if_true, FileInMemory.is_eof, ne_eq, not_false_eq_true]
  · simp only [h, if_false, FileInMemory.is_eof]
    exact ⟨trivial, trivial, trivial⟩

/-! ## C23: archive backends are read-only -/

theorem lor_eq_zero (a b : Nat) : a ||| b = 0 ↔ a = 0 ∧ b = 0 := by
  constructor
  · intro h
    have key : ∀ i, a.testBit i = false ∧ b.testBit i = false := by
      intro i
      have := congrArg (fun n => Nat.testBit n i) h
      simp only [Nat.testBit_or, Nat.zero_testBit, Bool.or_eq_false_iff] at this
      exact this
    constructor
    · apply Nat.eq_of_testBit_eq
      intro i
      rw [(key i).1, Nat.zero_testBit]
    · apply Nat.eq_of_testBit_eq
      intro i
      rw [(key i).2, Nat.zero_testBit]
  · rintro ⟨rfl, rfl⟩
    rfl

theorem mode_rejected (mode : Nat)
    (h : mode &&& MODE_WRITE ≠ 0 ∨ mode &&& MODE_APPEND ≠ 0 ∨ mode &&& MODE_READ = 0) :
    mode &&& (MODE_WRITE ||| MODE_APPEND) ≠ 0 ∨ mode &&& MODE_READ = 0 := by
  rcases h with h | h | h
  · left
    rw [Nat.and_or_distrib_left]
    intro h0
    exact h ((lor_eq_zero _ _).mp h0).1
  · left
    rw [Nat.and_or_distrib_left]
    intro h0
    exact h ((lor_eq_zero _ _).mp h0).2
  · right
    exact h

/-- C23. `DirectoryZIP::openfile` and `DirectoryGCF::openfile` return none, and leave the
directory as it was, for every mode that contains `MODE_WRITE` or `MODE_APPEND` or lacks
`MODE_READ`, and for every file name that is not registered once lower-cased, whatever the
package and its file. -/
theorem archive_backends_read_only (filename : List Char) (mode : Nat) :
    (∀ (pkg : PackageZIP) (archive : Option HostFile) (garbage : ZipFileInfo)
        (d : DirectoryZIP),
      (mode &&& MODE_WRITE ≠ 0 ∨ mode &&& MODE_APPEND ≠ 0 ∨ mode &&& MODE_READ = 0 ∨
        d.file_exists filename = false) →
      DirectoryZIP.openfile pkg archive garbage d filename mode = .ok (d, none)) ∧
    (∀ (pkg : PackageGCF) (open_file : Option HostFile) (garbage : List Nat)
        (d : DirectoryGCF),
      (mode &&& MODE_WRITE ≠ 0 ∨ mode &&& MODE_APPEND ≠ 0 ∨ mode &&& MODE_READ = 0 ∨
        d.file_exists filename = false) →
      DirectoryGCF.openfile pkg open_file garbage d filename mode = .ok (d, none)) := by
  constructor
  · intro pkg archive garbage d h
    unfold DirectoryZIP.openfile
    by_cases hm : mode &&& (MODE_WRITE ||| MODE_APPEND) ≠ 0 ∨ mode &&& MODE_READ = 0
    · rw [if_pos hm]
    · rw [if_neg hm]
      have hx : d.file_exists filename = false := by
        rcases h with h | h | h | h
        · exact absurd (mode_rejected mode (Or.inl h)) hm
        · exact absurd (mode_rejected mode (Or.inr (Or.inl h))) hm
        · exact absurd (mode_rejected mode (Or.inr (Or.inr h))) hm
        · exact h
      have hid : d.get_file_id filename = -1 := by
        unfold DirectoryZIP.file_exists at hx
        unfold DirectoryZIP.get_file_id
        cases hf : DirectoryZIP.files_find d.m_files (lower filename) with
        | none => rfl
        | some v => rw [hf] at hx; cases hx
      simp only [hid]
      rfl
  · intro pkg open_file garbage d h
    unfold DirectoryGCF.openfile
    by_cases hm : mode &&& (MODE_WRITE ||| MODE_APPEND) ≠ 0 ∨ mode &&& MODE_READ = 0
    · rw [if_pos hm]
    · rw [if_neg hm]
      have hx : d.file_exists filename = false := by
        rcases h with h | h | h | h
        · exact absurd (mode_rejected mode (Or.inl h)) hm
        · exact absurd (mode_rejected mode (Or.inr (Or.inl h))) hm
        · exact absurd (mode_rejected mode (Or.inr (Or.inr h))) hm
        · exact h
      have hg : d.get_fileinfo filename = (FILE_NOT_FOUND, none) := by
        unfold DirectoryGCF.file_exists at hx
        unfold DirectoryGCF.get_fileinfo
        cases hf : map_find d.m_files (lower filename) with
        | none => rfl
        | some v => rw [hf] at hx; cases hx
      rw [hg]

/-- Witness for C23: the directory of `note_archive` opens `note.txt` neither for writing nor
under the unregistered name `nota.txt`. -/
theorem archive_backends_read_only_witness :
    DirectoryZIP.openfile note_package (some note_archive) zero_info
      ⟨[("note.txt".toList, 0)]⟩ "note.txt".toList (MODE_READ ||| MODE_WRITE) =
        .ok (⟨[("note.txt".toList, 0)]⟩, none) ∧
    DirectoryZIP.openfile note_package (some note_archive) zero_info
      ⟨[("note.txt".toList, 0)]⟩ "nota.txt".toList MODE_READ =
        .ok (⟨[("note.txt".toList, 0)]⟩, none) :=
  ⟨(archive_backends_read_only "note.txt".toList (MODE_READ ||| MODE_WRITE)).1 note_package
      (some note_archive) zero_info ⟨[("note.txt".toList, 0)]⟩ (Or.inl (by decide)),
   (archive_backends_read_only "nota.txt".toList MODE_READ).1 note_package
      (some note_archive) zero_info ⟨[("note.txt".toList, 0)]⟩
      (Or.inr (Or.inr (Or.inr (by decide))))⟩

/-! ## C24: the name space of a directory backend -/

theorem map_find_set {V : Type} (m : List (List Char × V)) (k k2 : List Char) (v : V) :
    map_find (map_set m k v) k2 = if k = k2 then some v else map_find m k2 := by
  induction m with
  | nil => simp [map_set, map_find]
  | cons p rest ih =>
    obtain ⟨k1, v1⟩ := p
    by_cases h1 : k1 = k
    · subst h1
      by_cases h2 : k1 = k2
      · simp [map_set, map_find, h2]
      · simp [map_set, map_find, h2]
    · by_cases h2 : k1 = k2
      · subst h2
        simp [map_set, map_find, h1, Ne.symm h1]
      · simp [map_set, map_find, h1, h2, ih]

theorem files_find_eq (m : List (List Char × Int)) (k : List Char) :
    DirectoryZIP.files_find m k = map_find m k := by
  induction m with
  | nil => rfl
  | cons p rest ih =>
    obtain ⟨k1, v1⟩ := p
    simp [DirectoryZIP.files_find, map_find, ih]

theorem files_set_eq (m : List (List Char × Int)) (k : List Char) (v : Int) :
    DirectoryZIP.files_set m k v = map_set m k v := by
  induction m with
  | nil => rfl
  | cons p rest ih =>
    obtain ⟨k1, v1⟩ := p
    simp [DirectoryZIP.files_set, map_set, ih]

theorem find_last_append {A : Type} (p : A → Bool) (l : List A) (a : A) :
    find_last p (l ++ [a]) = if p a then some a else find_last p l := by
  unfold find_last
  rw [List.reverse_append]
  simp [List.find?]
  cases p a <;> simp

theorem find_last_isSome {A : Type} (p : A → Bool) (l : List A) :
    (find_last p l).isSome = true ↔ ∃ a ∈ l, p a = true := by
  unfold find_last
  rw [List.find?_isSome]
  simp

theorem gcf_add_files_snoc (d : DirectoryGCF) (l : List GCFFileInfo) (a : GCFFileInfo) :
    d.add_files (l ++ [a]) = (d.add_files l).add_file a.filename a.index a.size a.file_id := by
  unfold DirectoryGCF.add_files
  rw [List.foldl_append]
  rfl

theorem zip_add_files_snoc (d : DirectoryZIP) (l : List (List Char × Int))
    (a : List Char × Int) : d.add_files (l ++ [a]) = (d.add_files l).add_file a.1 a.2 := by
  unfold DirectoryZIP.add_files
  rw [List.foldl_append]
  rfl

theorem gcf_add_files_find (n : List Char) (adds : List GCFFileInfo) :
    map_find ((DirectoryGCF.mk []).add_files adds).m_files (lower n) =
      find_last (fun a => lower a.filename == lower n) adds := by
  induction adds using List.reverseRecOn with
  | nil => rfl
  | append_singleton l a ih =>
    rw [gcf_add_files_snoc, find_last_append]
    show map_find (map_set ((DirectoryGCF.mk []).add_files l).m_files (lower a.filename)
      ⟨a.filename, a.index, a.size, a.file_id⟩) (lower n) = _
    rw [map_find_set, ih]
    by_cases h : lower a.filename = lower n
    · rw [if_pos h, if_pos (by simpa using h)]
    · rw [if_neg h, if_neg (by simpa using h)]

theorem zip_add_files_find (n : List Char) (adds : List (List Char × Int)) :
    map_find ((DirectoryZIP.mk []).add_files adds).m_files (lower n) =
      (find_last (fun a => decide (a.1 ≠ [] ∧ a.2 ≥ 0) && (lower a.1 == lower n)) adds).map
        (fun a => a.2) := by
  induction adds using List.reverseRecOn with
  | nil => rfl
  | append_singleton l a ih =>
    rw [zip_add_files_snoc, find_last_append]
    unfold DirectoryZIP.add_file
    by_cases hv : a.1 ≠ [] ∧ a.2 ≥ 0
    · rw [if_pos hv]
      show map_find (DirectoryZIP.files_set ((DirectoryZIP.mk []).add_files l).m_files
        (lower a.1) a.2) (lower n) = _
      rw [files_set_eq, map_find_set, ih]
      by_cases h : lower a.1 = lower n
      · rw [if_pos h, if_pos (by simp [hv, h])]
        rfl
      · rw [if_neg h, if_neg (by simp [h])]
    · rw [if_neg hv, ih, if_neg (by simp [hv])]

/-- C24. After any sequence of `add_file` calls on a new directory: for `DirectoryGCF`,
`file_exists(n)` is true exactly when some added name equals `n` after lower-casing of both,
`file_size(n)` is the size given in the last such call and 0 when there is none, and
`file_attr(n)` is `ATTR_READ` when the file exists and 0 otherwise; for `DirectoryZIP` the
same holds with the calls whose name is not empty and whose id is not negative, the size
being `get_filesize` of the package for the id given in the last such call, which is the
`size_uncompressed` registered under that id. -/
theorem directory_name_space (n : List Char) :
    (∀ adds : List GCFFileInfo,
      (((DirectoryGCF.mk []).add_files adds).file_exists n = true ↔
        ∃ a ∈ adds, lower a.filename = lower n) ∧
      ((DirectoryGCF.mk []).add_files adds).file_size n =
        (match find_last (fun a => lower a.filename == lower n) adds with
          | some a => a.size
          | none => 0) ∧
      ((DirectoryGCF.mk []).add_files adds).file_attr n =
        if ((DirectoryGCF.mk []).add_files adds).file_exists n then ATTR_READ else 0) ∧
    (∀ (pkg : PackageZIP) (adds : List (List Char × Int)),
      (((DirectoryZIP.mk []).add_files adds).file_exists n = true ↔
        ∃ a ∈ adds, (a.1 ≠ [] ∧ a.2 ≥ 0) ∧ lower a.1 = lower n) ∧
      ((DirectoryZIP.mk []).add_files adds).file_size pkg n =
        (match find_last (fun a => decide (a.1 ≠ [] ∧ a.2 ≥ 0) && (lower a.1 == lower n))
            adds with
          | some a => pkg.get_filesize a.2
          | none => 0) ∧
      ((DirectoryZIP.mk []).add_files adds).file_attr n =
        if ((DirectoryZIP.mk []).add_files adds).file_exists n then ATTR_READ else 0) ∧
    (∀ (pkg : PackageZIP) (id : Nat) (info : ZipFileInfo),
      pkg.m_file_info.length < 2 ^ 31 → pkg.m_file_info.get? id = some info →
      0 ≤ info.size_uncompressed → info.size_uncompressed < 2 ^ 31 →
      (pkg.get_filesize (id : Int) : Int) = info.size_uncompressed) := by
  refine ⟨?_, ?_, ?_⟩
  · intro adds
    refine ⟨?_, ?_, rfl⟩
    · unfold DirectoryGCF.file_exists
      rw [gcf_add_files_find, find_last_isSome]
      simp
    · unfold DirectoryGCF.file_size DirectoryGCF.get_fileinfo
      rw [gcf_add_files_find]
      cases find_last (fun a => lower a.filename == lower n) adds <;> rfl
  · intro pkg adds
    refine ⟨?_, ?_, rfl⟩
    · unfold DirectoryZIP.file_exists
      rw [files_find_eq, zip_add_files_find]
      have e : ∀ o : Option (List Char × Int), (o.map (fun a => a.2)).isSome = o.isSome := by
        intro o; cases o <;> rfl
      rw [e, find_last_isSome]
      simp
    · unfold DirectoryZIP.file_size DirectoryZIP.get_file_id
      rw [files_find_eq, zip_add_files_find]
      cases h : find_last (fun a => decide (a.1 ≠ [] ∧ a.2 ≥ 0) && (lower a.1 == lower n))
          adds with
      | none => rfl
      | some a =>
        have hmem : (find_last (fun a => decide (a.1 ≠ [] ∧ a.2 ≥ 0) &&
            (lower a.1 == lower n)) adds).isSome = true := by rw [h]; rfl
        have hp := List.find?_some h
        simp only [Bool.and_eq_true, decide_eq_true_eq] at hp
        have hge : a.2 ≥ 0 := hp.1.2
        simp only [Option.map_some']
        rw [if_pos hge]
  · intro pkg id info hlen hget hs0 hs1
    have hlt : id < pkg.m_file_info.length := by
      rcases List.get?_eq_some.mp hget with ⟨h, _⟩
      exact h
    unfold PackageZIP.get_filesize
    rw [to_int32_small _ hlen, if_pos (by constructor <;> omega)]
    simp only [Int.toNat_ofNat, hget]
    rw [Int.emod_eq_of_lt hs0 (by omega)]
    omega

/-- Witness for C24: with `HELLO.TXT` (11 bytes) added, `Hello.Txt` exists with size 11 and
`HelloO.txt` does not exist. -/
theorem directory_name_space_witness :
    ((DirectoryGCF.mk []).add_files [⟨"HELLO.TXT".toList, 0, 11, 0⟩]).file_exists
      "Hello.Txt".toList = true ∧
    ((DirectoryGCF.mk []).add_files [⟨"HELLO.TXT".toList, 0, 11, 0⟩]).file_size
      "Hello.Txt".toList = 11 ∧
    ((DirectoryGCF.mk []).add_files [⟨"HELLO.TXT".toList, 0, 11, 0⟩]).file_exists
      "HelloO.txt".toList = false ∧
    ((DirectoryZIP.mk []).add_files [("HELLO.TXT".toList, 0)]).file_exists
      "Hello.Txt".toList = true ∧
    (note_package.get_filesize ((0 : Nat) : Int) : Int) = 5 :=
  ⟨((directory_name_space "Hello.Txt".toList).1 [⟨"HELLO.TXT".toList, 0, 11, 0⟩]).1.mpr
      ⟨_, List.mem_singleton.mpr rfl, by decide⟩,
   by decide, by decide, by decide,
   (directory_name_space []).2.2 note_package 0 ⟨5, 5, 128, 137, 0, 0⟩ (by decide) rfl
      (by decide) (by decide)⟩

/-! ## C25: the choice of a package factory -/

theorem find_last_of_dot_none (s : List Char) : find_last_of_dot s = none ↔ '.' ∉ s := by
  induction s with
  | nil => simp [find_last_of_dot]
  | cons c cs ih =>
    unfold find_last_of_dot
    cases h : find_last_of_dot cs with
    | some i =>
      have : ¬ '.' ∉ cs := fun hn => by rw [ih.mpr hn] at h; cases h
      simp only [List.mem_cons, not_or, false_iff, not_and, reduceCtorEq]
      intro _
      exact this
    | none =>
      have hcs := ih.mp h
      by_cases hc : c = '.'
      · simp [hc]
      · simp only [hc, if_false, List.mem_cons, not_or, true_iff]
        exact ⟨fun e => hc e.symm, hcs⟩

theorem find_last_of_dot_append (pre e : List Char) (he : '.' ∉ e) :
    find_last_of_dot (pre ++ '.' :: e) = some pre.length := by
  induction pre with
  | nil =>
    show find_last_of_dot ('.' :: e) = some 0
    unfold find_last_of_dot
    rw [(find_last_of_dot_none e).mpr he]
    rfl
  | cons c cs ih =>
    show find_last_of_dot (c :: (cs ++ '.' :: e)) = some (cs.length + 1)
    unfold find_last_of_dot
    rw [ih]

theorem no_path_char_iff (e : List Char) :
    no_path_char e = true ↔ ∀ c ∈ e, c ≠ '/' ∧ c ≠ '\\' ∧ c ≠ '*' := by
  unfold no_path_char
  simp [List.all_eq_true, and_assoc]

theorem types_fold_find {F : Type} (f : F) (types : List (List Char)) :
    ∀ (m : List (List Char × F)) (k : List Char),
      map_find (types.foldl (fun m type => map_set m (lower type) f) m) k =
        if types.any (fun t => lower t == k) then some f else map_find m k := by
  induction types with
  | nil => intro m k; rfl
  | cons t ts ih =>
    intro m k
    rw [List.foldl_cons, ih, map_find_set]
    by_cases h1 : ts.any (fun t => lower t == k) = true
    · simp [h1]
    · by_cases h2 : lower t = k
      · simp [h1, h2]
      · simp [h1, h2]

theorem registered_snoc {P F X : Type} (fac : F → IPackageFactory X) (l : List (Option F))
    (p : Option F) :
    (AdeFS.registered fac (l ++ [p]) : AdeFS P F) =
      (AdeFS.registered fac l).register_package_factory fac p := by
  unfold AdeFS.registered
  rw [List.foldl_append]
  rfl

theorem registered_factories {P F X : Type} (fac : F → IPackageFactory X)
    (regs : List (Option F)) :
    (AdeFS.registered fac regs : AdeFS P F).m_package_factories = regs.reduceOption := by
  induction regs using List.reverseRecOn with
  | nil => rfl
  | append_singleton l p ih =>
    rw [registered_snoc, List.reduceOption_append]
    cases p with
    | none =>
      show (AdeFS.registered fac l : AdeFS P F).m_package_factories = _
      rw [ih]
      simp [List.reduceOption]
    | some f =>
      show (AdeFS.registered fac l : AdeFS P F).m_package_factories ++ [f] = _
      rw [ih]
      simp [List.reduceOption]

theorem registered_by_type {P F X : Type} (fac : F → IPackageFactory X)
    (regs : List (Option F)) (e : List Char) :
    map_find (AdeFS.registered fac regs : AdeFS P F).m_package_factories_by_type (lower e) =
      find_last (fun f => reports_extension (fac f) e) regs.reduceOption := by
  induction regs using List.reverseRecOn with
  | nil => rfl
  | append_singleton l p ih =>
    rw [registered_snoc, List.reduceOption_append]
    cases p with
    | none =>
      show map_find (AdeFS.registered fac l : AdeFS P F).m_package_factories_by_type _ = _
      rw [ih]
      simp [List.reduceOption]
    | some f =>
      show map_find ((fac f).file_types.foldl (fun m type => map_set m (lower type) f)
        (AdeFS.registered fac l : AdeFS P F).m_package_factories_by_type) (lower e) = _
      rw [types_fold_find, ih]
      have : [some f].reduceOption = [f] := rfl
      rw [this, find_last_append]
      rfl

theorem probe_factories_spec {X F : Type} (fac : F → IPackageFactory X) (name : List Char)
    (l : List F) :
    (probe_factories fac name l).1 = l.find? (fun f => (fac f).is_supported name) ∧
    (probe_factories fac name l).2 =
      l.takeWhile (fun f => !(fac f).is_supported name) ++
        (l.find? (fun f => (fac f).is_supported name)).toList := by
  induction l with
  | nil => exact ⟨rfl, rfl⟩
  | cons f rest ih =>
    unfold probe_factories
    by_cases h : (fac f).is_supported name = true
    · simp [h, List.find?, List.takeWhile]
    · simp only [h, Bool.false_eq_true, if_false]
      have h2 : (fac f).is_supported name = false := by simpa using h
      simp [List.find?, List.takeWhile, h2, ih.1, ih.2]

/-- C25. After any sequence of `register_package_factory` calls on a new `AdeFS` (null
pointers are ignored): for a package name `pre.e` whose text `e` after the last `.` is not
empty and holds none of `/`, `\`, `*`, if some registered factory reported an extension equal
to `e` ignoring ASCII case, `get_package_factory` returns the last registered such factory and
calls no `is_supported`; if the name has no `.`, or `e` is empty or holds one of the three
characters, or no registered factory reported `e`, it returns the first factory in
registration order whose `is_supported(name)` is true, or none, having called `is_supported`
on the factories up to that one. -/
theorem factory_selection {P F X : Type} (fac : F → IPackageFactory X)
    (regs : List (Option F)) (name : List Char) :
    (∀ (pre e : List Char) (f : F), name = pre ++ '.' :: e → '.' ∉ e → e ≠ [] →
      (∀ c ∈ e, c ≠ '/' ∧ c ≠ '\\' ∧ c ≠ '*') →
      find_last (fun f => reports_extension (fac f) e) regs.reduceOption = some f →
      (AdeFS.registered fac regs : AdeFS P F).get_package_factory fac name = (some f, [])) ∧
    (('.' ∉ name ∨ ∃ pre e, name = pre ++ '.' :: e ∧ '.' ∉ e ∧
        (e = [] ∨ (∃ c ∈ e, c = '/' ∨ c = '\\' ∨ c = '*') ∨
          find_last (fun f => reports_extension (fac f) e) regs.reduceOption = none)) →
      (AdeFS.registered fac regs : AdeFS P F).get_package_factory fac name =
        (regs.reduceOption.find? (fun f => (fac f).is_supported name),
          regs.reduceOption.takeWhile (fun f => !(fac f).is_supported name) ++
            (regs.reduceOption.find? (fun f => (fac f).is_supported name)).toList)) := by
  have hprobe : probe_factories fac name
      (AdeFS.registered fac regs : AdeFS P F).m_package_factories =
      (regs.reduceOption.find? (fun f => (fac f).is_supported name),
        regs.reduceOption.takeWhile (fun f => !(fac f).is_supported name) ++
          (regs.reduceOption.find? (fun f => (fac f).is_supported name)).toList) := by
    rw [registered_factories]
    exact Prod.ext (probe_factories_spec fac name _).1 (probe_factories_spec fac name _).2
  constructor
  · intro pre e f hname hdot hne hok hlast
    unfold AdeFS.get_package_factory
    rw [hname, find_last_of_dot_append pre e hdot]
    have hdrop : (pre ++ '.' :: e).drop (pre.length + 1) = e := by
      rw [show pre ++ '.' :: e = (pre ++ ['.']) ++ e by simp]
      exact List.drop_left' (by simp)
    simp only [hdrop]
    rw [if_pos ⟨hne, (no_path_char_iff e).mpr hok⟩, registered_by_type, hlast]
  · intro h
    unfold AdeFS.get_package_factory
    rcases h with h | ⟨pre, e, hname, hdot, h⟩
    · rw [(find_last_of_dot_none name).mpr h]
      exact hprobe
    · have hfind : find_last_of_dot name = some pre.length := by
        rw [hname]; exact find_last_of_dot_append pre e hdot
      have hdrop : name.drop (pre.length + 1) = e := by
        rw [hname, show pre ++ '.' :: e = (pre ++ ['.']) ++ e by simp]
        exact List.drop_left' (by simp)
      rw [hfind]
      simp only [hdrop]
      rcases h with h | h | h
      · rw [if_neg (fun hc => hc.1 h)]
        exact hprobe
      · have : ¬ (no_path_char e = true) := by
          rw [no_path_char_iff]
          obtain ⟨c, hc, hbad⟩ := h
          intro hall
          have := hall c hc
          rcases hbad with hb | hb | hb
          · exact this.1 hb
          · exact this.2.1 hb
          · exact this.2.2 hb
        rw [if_neg (fun hc => this hc.2)]
        exact hprobe
      · by_cases hc : e ≠ [] ∧ no_path_char e = true
        · rw [if_pos hc, registered_by_type, h]
          exact hprobe
        · rw [if_neg hc]
          exact hprobe

/-- Witness for C25: with factories registered for `gcf`, then for `ZIP` and `gcf`, then a
probing one, the name `game.GCF` selects the second factory without a probe, and the name
`pak0.dat`, whose extension nobody reported, selects the probing factory after three
probes. -/
theorem factory_selection_witness :
    (AdeFS.registered example_factories [some 0, none, some 1, some 2] :
      AdeFS Unit Nat).get_package_factory example_factories "game.GCF".toList = (some 1, []) ∧
    (AdeFS.registered example_factories [some 0, none, some 1, some 2] :
      AdeFS Unit Nat).get_package_factory example_factories "pak0.dat".toList =
        (some 2, [0, 1, 2]) :=
  ⟨(factory_selection example_factories [some 0, none, some 1, some 2] "game.GCF".toList).1
      "game".toList "GCF".toList 1 rfl (by decide) (by decide) (by decide) (by decide),
   (factory_selection example_factories [some 0, none, some 1, some 2] "pak0.dat".toList).2
      (Or.inr ⟨"pak0".toList, "dat".toList, rfl, by decide, Or.inr (Or.inr (by decide))⟩)⟩

/-! ## C26: creating and mounting a package by name -/

theorem children_set_self (cs : List (List Char × MountPoint)) (k : List Char) (v : MountPoint)
    (h : children_find cs k = some v) : children_set cs k v = cs := by
  induction cs with
  | nil => simp [children_find] at h
  | cons hd tl ih =>
    obtain ⟨k0, v0⟩ := hd
    by_cases hk : k0 = k
    · subst hk
      simp only [children_find, if_true, Option.some.injEq] at h
      subst h
      simp [children_set]
    · simp only [children_find, hk, if_false] at h
      simp [children_set, hk, ih h]

theorem set_child_self (mp : MountPoint) (k : List Char) (v : MountPoint)
    (h : children_find mp.m_children k = some v) : mp.set_child k v = mp := by
  cases mp with
  | mk n a d c =>
    show MountPoint.mk n a d (children_set c k v) = MountPoint.mk n a d c
    rw [children_set_self c k v h]

theorem replace_at_self (mp : MountPoint) (addr : List (List Char)) (node : MountPoint)
    (h : node_at mp addr = some node) : replace_at mp addr node = mp := by
  induction addr generalizing mp with
  | nil =>
    simp only [node_at, Option.some.injEq] at h
    rw [replace_at, h]
  | cons k ks ih =>
    rw [node_at_cons] at h
    rw [replace_at]
    cases hc : children_find mp.m_children k with
    | none => rfl
    | some child =>
      rw [hc] at h
      simp only at h ⊢
      rw [ih child h, set_child_self mp k child hc]

theorem directories_at_make_path (mp : MountPoint) (ks addr : List (List Char)) :
    directories_at (make_path mp ks) addr = directories_at mp addr := by
  induction ks generalizing mp addr with
  | nil => rfl
  | cons k ks ih =>
    rw [make_path_cons]
    cases addr with
    | nil => simp only [directories_at_nil, set_child_directories]
    | cons k2 as =>
      rw [directories_at_cons, directories_at_cons]
      by_cases hk : k2 = k
      · subst hk
        rw [find_set_child_same]
        simp only
        rw [ih]
        cases children_find mp.m_children k2 with
        | some child => rfl
        | none => simp [directories_at_fresh]
      · rw [find_set_child_other _ _ _ _ hk]

theorem make_path_attributes (mp : MountPoint) (ks : List (List Char)) :
    (make_path mp ks).m_attributes = mp.m_attributes := by
  cases ks with
  | nil => rfl
  | cons k ks => rw [make_path_cons, set_child_attributes]

theorem search_directories_nil {H : Type} (lock : Nat → Option (IDirectory H)) (req : Nat)
    (name : List Char) : search_directories lock req name [] = none := rfl

theorem find_file_owner_directories {H : Type} (lock : Nat → Option (IDirectory H))
    (mp : MountPoint) (path : List Char) (req : Nat) :
    mp.find_file_owner lock path req =
      if find_first_of path = none then
        (if mp.m_attributes &&& req = req then
          search_directories lock req (lower path) (directories_at mp []).reverse
        else none)
      else
        search_directories lock 0 (lower (split_path path).2)
          (directories_at mp (path_segments (split_path path).1)).reverse := by
  rw [find_file_owner_eq]
  unfold directories_at
  split
  · rfl
  · cases node_at mp (path_segments (split_path path).1) <;> rfl

theorem openfile_make_path {H : Type} (lock : Nat → Option (IDirectory H)) (mp : MountPoint)
    (ks : List (List Char)) (filename : List Char) (mode : Nat) :
    (make_path mp ks).openfile lock filename mode = mp.openfile lock filename mode := by
  rw [openfile_eq, openfile_eq, find_file_owner_directories, find_file_owner_directories]
  simp only [directories_at_make_path, make_path_attributes]

theorem fix_slashes_idem (p : List Char) : fix_slashes (fix_slashes p) = fix_slashes p := by
  unfold fix_slashes
  rw [List.map_map]
  apply List.map_congr_left
  intro c _
  by_cases h : c = '\\'
  · simp [h]
  · simp [h]

theorem fix_slashes_append_slash (p : List Char) :
    fix_slashes (p ++ ['/']) = fix_slashes p ++ ['/'] := by
  simp [fix_slashes]

theorem package_fs_root (name : List Char) (attr : Nat) :
    DirectoryFS.new (PackageFS.new name ATTR_READ).m_path attr =
      ⟨(PackageFS.new name ATTR_READ).m_path, attr, []⟩ := by
  have key : ∀ q : List Char, q ≠ [] → fix_slashes q = q → q.getLast? = some '/' →
      DirectoryFS.new q attr = ⟨q, attr, []⟩ := by
    intro q h1 h2 h3
    unfold DirectoryFS.new
    rw [if_pos h1]
    simp only [h2, h3, ne_eq, not_true_eq_false, if_false]
  unfold PackageFS.new
  simp only
  by_cases h : fix_slashes name = [] ∨ (fix_slashes name).getLast? ≠ some '/'
  · rw [if_pos h]
    apply key
    · simp
    · rw [fix_slashes_append_slash, fix_slashes_idem]
    · simp
  · rw [if_neg h]
    have h1 : fix_slashes name ≠ [] := fun e => h (Or.inl e)
    have h2 : (fix_slashes name).getLast? = some '/' := by
      by_contra e
      exact h (Or.inr e)
    exact key _ h1 (fix_slashes_idem name) h2

theorem package_fs_scan_missing (host : HostFS) (fuel first_address : Nat) (name : List Char)
    (hdir : host.opendir ((PackageFS.new name ATTR_READ).m_path ++ ['.']) = none) :
    (PackageFS.new name ATTR_READ).scan host (fuel + 1) first_address =
      .ok (PackageFS.new name ATTR_READ, 0) := by
  have hscan : (DirectoryFS.new (PackageFS.new name ATTR_READ).m_path ATTR_READ).scan host =
      (⟨(PackageFS.new name ATTR_READ).m_path, ATTR_READ, []⟩, 0, []) := by
    rw [package_fs_root]
    unfold DirectoryFS.scan
    simp only [hdir]
    split <;> rfl
  have hattr : (PackageFS.new name ATTR_READ).m_attributes = ATTR_READ := rfl
  have hdirs : (PackageFS.new name ATTR_READ).m_directories = [] := rfl
  unfold PackageFS.scan
  unfold PackageFS.scan_path
  simp only [hattr, hscan, ne_eq, not_true_eq_false, if_false, List.foldlM_nil, pure,
    Except.pure]
  rfl

theorem scan_path_returns (host : HostFS) (attributes first_address : Nat) :
    ∀ (depth : Nat) (path : List Char) (dirs : List (Nat × DirectoryFS)),
      PackageFS.depth_within host attributes depth path = true →
      ∃ dirs1, PackageFS.scan_path host attributes first_address depth path dirs = .ok dirs1 := by
  intro depth
  induction depth with
  | zero =>
    intro path dirs h
    simp [PackageFS.depth_within] at h
  | succ n ih =>
    intro path dirs h
    unfold PackageFS.depth_within at h
    rw [List.all_eq_true] at h
    unfold PackageFS.scan_path
    simp only
    generalize (if ((DirectoryFS.new path attributes).scan host).2.1 ≠ 0 then
      dirs ++ [(first_address + dirs.length, ((DirectoryFS.new path attributes).scan host).1)]
      else dirs) = start
    generalize ((DirectoryFS.new path attributes).scan host).2.2 = subs at h
    induction subs generalizing start with
    | nil => exact ⟨start, rfl⟩
    | cons s rest ihs =>
      obtain ⟨d1, hd1⟩ := ih (path ++ s ++ ['/']) start (h s (List.mem_cons_self _ _))
      rw [List.foldlM_cons, hd1]
      exact ihs d1 (fun x hx => h x (List.mem_cons_of_mem _ hx))

/-- C26. `create_package(name)`: when `get_package_factory` gives a factory, the result is the
package that the factory creates, after its `scan()`, exactly when there is one and `scan()`
returns 0, and none otherwise; when `create_package` returns none, `AdeFS::mount(name, mp)`
returns `-1` and leaves the facade as it was. When no factory matches, a `PackageFS` on
`name` is made; if the directory of that name cannot be opened, `scan()` returns 0 with no
directory kept, `AdeFS::mount(name, mp)` returns 0, the package joins the owned packages,
and every `openfile` gives what it gave before. When no factory matches, whatever the host
holds under `name`, the result is never none: once the recursion of `scan()` is given as many
levels as the directories under `name` are deep, it is the `PackageFS` with the path of
`name` (slashes normalised, one `/` at the end), the attribute READ and the directories that
the scan of that path keeps. -/
theorem create_package_contract {F X : Type} (fac : F → IPackageFactory X) (ops : IPackage X)
    (host : HostFS) (fuel first_address : Nat) (fs : AdeFS (AnyPackage X) F)
    (name mountpoint : List Char) :
    (∀ f, (fs.get_package_factory fac name).1 = some f →
      fs.create_package fac ops host fuel first_address name =
        .ok (match (fac f).create_package name with
          | none => none
          | some p => if (ops.scan p).2 = 0 then some (.made (ops.scan p).1) else none)) ∧
    (fs.create_package fac ops host fuel first_address name = .ok none →
      fs.mount_package fac ops host fuel first_address name mountpoint = .ok (fs, -1)) ∧
    ((fs.get_package_factory fac name).1 = none →
      host.opendir ((PackageFS.new name ATTR_READ).m_path ++ ['.']) = none →
      fs.create_package fac ops host (fuel + 1) first_address name =
        .ok (some (.host (PackageFS.new name ATTR_READ))) ∧
      (PackageFS.new name ATTR_READ).m_directories = [] ∧
      ∃ fs2, fs.mount_package fac ops host (fuel + 1) first_address name mountpoint =
          .ok (fs2, 0) ∧
        fs2.m_owned_packages = fs.m_owned_packages ++ [.host (PackageFS.new name ATTR_READ)] ∧
        ∀ (H : Type) (lock : Nat → Option (IDirectory H)) (filename : List Char) (mode : Nat),
          fs2.openfile lock filename mode = fs.openfile lock filename mode) ∧
    ((fs.get_package_factory fac name).1 = none →
      fs.create_package fac ops host fuel first_address name ≠ .ok none ∧
      (PackageFS.new name ATTR_READ).m_path =
        (if fix_slashes name = [] ∨ (fix_slashes name).getLast? ≠ some '/'
          then fix_slashes name ++ ['/'] else fix_slashes name) ∧
      (PackageFS.depth_within host ATTR_READ fuel (PackageFS.new name ATTR_READ).m_path = true →
        ∃ dirs, PackageFS.scan_path host ATTR_READ first_address fuel
            (PackageFS.new name ATTR_READ).m_path [] = .ok dirs ∧
          fs.create_package fac ops host fuel first_address name =
            .ok (some (.host ⟨(PackageFS.new name ATTR_READ).m_path, ATTR_READ, dirs⟩)))) := by
  refine ⟨?_, ?_, ?_, ?_⟩
  · intro f hf
    unfold AdeFS.create_package
    rw [hf]
    simp only
    cases (fac f).create_package name with
    | none => rfl
    | some p =>
      simp only
      split <;> rfl
  · intro h
    unfold AdeFS.mount_package
    rw [h]
  · intro hf hdir
    have hc : fs.create_package fac ops host (fuel + 1) first_address name =
        .ok (some (.host (PackageFS.new name ATTR_READ))) := by
      unfold AdeFS.create_package
      rw [hf]
      simp only [package_fs_scan_missing host fuel first_address name hdir, if_true]
    refine ⟨hc, rfl, ?_⟩
    have hg := get_mountpoint_create fs.m_root mountpoint
    obtain ⟨nd, hnd⟩ := Option.isSome_iff_exists.mp
      (node_at_make_path fs.m_root (path_segments mountpoint))
    have hm : AdeFS.package_mount ops (AnyPackage.host (PackageFS.new name ATTR_READ)) nd =
        (.host (PackageFS.new name ATTR_READ), nd, 0) := rfl
    refine ⟨{ fs with m_root := make_path fs.m_root (path_segments mountpoint),
                      m_owned_packages := fs.m_owned_packages ++
                        [.host (PackageFS.new name ATTR_READ)] }, ?_, rfl, ?_⟩
    · unfold AdeFS.mount_package
      rw [hc]
      simp only [hg, hnd, hm, ne_eq, not_true_eq_false, if_false,
        replace_at_self _ _ _ hnd]
    · intro H lock filename mode
      exact openfile_make_path lock fs.m_root (path_segments mountpoint) filename mode
  · intro hf
    have hattr : (PackageFS.new name ATTR_READ).m_attributes = ATTR_READ := rfl
    have hc : fs.create_package fac ops host fuel first_address name =
        match PackageFS.scan_path host ATTR_READ first_address fuel
            (PackageFS.new name ATTR_READ).m_path [] with
        | .error e => .error e
        | .ok dirs => .ok (some (.host ⟨(PackageFS.new name ATTR_READ).m_path, ATTR_READ, dirs⟩)) := by
      unfold AdeFS.create_package
      rw [hf]
      simp only
      unfold PackageFS.scan
      rw [hattr]
      cases PackageFS.scan_path host ATTR_READ first_address fuel
        (PackageFS.new name ATTR_READ).m_path [] <;> rfl
    refine ⟨?_, rfl, ?_⟩
    · rw [hc]
      cases PackageFS.scan_path host ATTR_READ first_address fuel
        (PackageFS.new name ATTR_READ).m_path [] <;> simp
    · intro hdepth
      obtain ⟨dirs, hd⟩ := scan_path_returns host ATTR_READ first_address fuel _ [] hdepth
      exact ⟨dirs, hd, by rw [hc, hd]⟩

set_option maxRecDepth 8000 in
/-- Witness for C26: with the `pak` factory registered, `good.pak` gives the scanned package
`[7]`, `bad.pak` (scan fails) and `none.pak` (nothing created) give none and their mount
returns `-1`; `data`, for which no factory matches and which is no directory of the host,
mounts with 0; and on `data_host`, where `data` is a directory two levels deep, the package
made for `data` keeps its two directories, each holding its file. -/
theorem create_package_contract_witness :
    (AdeFS.registered pak_factory [some 0]).create_package pak_factory list_package
      empty_host 1 100 "good.pak".toList = .ok (some (.made [7])) ∧
    (AdeFS.registered pak_factory [some 0]).mount_package pak_factory list_package
      empty_host 1 100 "bad.pak".toList "/z".toList =
        .ok (AdeFS.registered pak_factory [some 0], -1) ∧
    (AdeFS.registered pak_factory [some 0]).mount_package pak_factory list_package
      empty_host 1 100 "none.pak".toList "/z".toList =
        .ok (AdeFS.registered pak_factory [some 0], -1) ∧
    (∃ fs2, (AdeFS.registered pak_factory [some 0]).mount_package pak_factory list_package
        empty_host 1 100 "data".toList "/z".toList = .ok (fs2, 0) ∧
      fs2.m_owned_packages = [.host (PackageFS.new "data".toList ATTR_READ)]) ∧
    PackageFS.depth_within data_host ATTR_READ 2 "data/".toList = true ∧
    PackageFS.scan_path data_host ATTR_READ 100 2 "data/".toList [] =
      .ok [(100, ⟨"data/".toList, ATTR_READ,
              [("a.txt".toList, ⟨"a.txt".toList, ATTR_READ ||| ATTR_RANDOM,
                ⟨0x8000 ||| S_IREAD ||| S_IWRITE, 3⟩⟩)]⟩),
           (101, ⟨"data/sub/".toList, ATTR_READ,
              [("b.txt".toList, ⟨"b.txt".toList, ATTR_READ ||| ATTR_RANDOM,
                ⟨0x8000 ||| S_IREAD, 5⟩⟩)]⟩)] ∧
    ∃ dirs, PackageFS.scan_path data_host ATTR_READ 100 2
        (PackageFS.new "data".toList ATTR_READ).m_path [] = .ok dirs ∧
      (AdeFS.registered pak_factory [some 0]).create_package pak_factory list_package
        data_host 2 100 "data".toList =
        .ok (some (.host ⟨(PackageFS.new "data".toList ATTR_READ).m_path, ATTR_READ, dirs⟩)) :=
  ⟨(create_package_contract pak_factory list_package empty_host 1 100
      (AdeFS.registered pak_factory [some 0]) "good.pak".toList []).1 0 rfl,
   (create_package_contract pak_factory list_package empty_host 1 100
      (AdeFS.registered pak_factory [some 0]) "bad.pak".toList "/z".toList).2.1 rfl,
   (create_package_contract pak_factory list_package empty_host 1 100
      (AdeFS.registered pak_factory [some 0]) "none.pak".toList "/z".toList).2.1 rfl,
   (((create_package_contract pak_factory list_package empty_host 0 100
      (AdeFS.registered pak_factory [some 0]) "data".toList "/z".toList).2.2.1 rfl rfl).2.2).imp
      (fun _ h => ⟨h.1, h.2.1⟩),
   by decide,
   rfl,
   ((create_package_contract pak_factory list_package data_host 2 100
      (AdeFS.registered pak_factory [some 0]) "data".toList []).2.2.2 rfl).2.2 (by decide)⟩

/-! ## C27: the loop of load -/

theorem memory_load_diverges (buffer_size : Nat) :
    ∀ (fuel : Nat) (f : FileInMemory) (size : Nat) (calls : List (Int × List Nat)),
      f.m_position ≤ f.m_data.length → f.m_b_fail = false →
      load_loop FileInMemory.ifile buffer_size fuel f size calls = .error .out_of_fuel := by
  intro fuel
  induction fuel with
  | zero => intro f size calls _ _; rfl
  | succ fuel ih =>
    intro f size calls hpos hfail
    have heof : FileInMemory.ifile.is_eof f = .ok false := by
      show Except.ok (decide (f.m_position > f.m_data.length)) = Except.ok false
      rw [decide_eq_false (by omega)]
    have hf : FileInMemory.ifile.is_fail f = false := hfail
    have hread : FileInMemory.ifile.read f buffer_size = .ok (f.read buffer_size) := rfl
    have hkeep : (f.read buffer_size).1.m_position = f.m_position ∧
        (f.read buffer_size).1.m_data = f.m_data ∧
        (f.read buffer_size).1.m_b_fail = f.m_b_fail := by
      unfold FileInMemory.read
      split <;> exact ⟨rfl, rfl, rfl⟩
    unfold load_loop
    simp only [heof, hf, Bool.false_eq_true, if_false, hread]
    split <;>
      exact ih _ _ _ (by rw [hkeep.1, hkeep.2.1]; exact hpos) (by rw [hkeep.2.2]; exact hfail)

/-- C27: `load` does not return on a memory handle. `FileInMemory::read` leaves `m_position`
where it is and `is_eof()` is `m_position > m_data.size()`, so on every handle that starts at
position 0, empty or not, the loop of `load` is still running after any number of passes,
for every buffer size; so is `load` on a mount tree that serves the handle of a deflated
entry of 42 bytes. -/
theorem load_memory_never_returns :
    (∀ (data : List Nat) (mode fuel buffer_size : Nat),
      load_loop FileInMemory.ifile buffer_size fuel ⟨data, 0, mode, 0, false⟩ 0 [] =
        .error .out_of_fuel) ∧
    (∀ fuel buffer_size,
      load_loop FileInMemory.ifile buffer_size fuel (FileInMemory.with_mode MODE_READ) 0 [] =
        .error .out_of_fuel) ∧
    (∀ fuel buffer_size,
      MountPoint.load FileInMemory.ifile
        (fun a => if a = 1 then some (handle_directory "a.bin".toList deflated_handle) else none)
        (fresh_root.mount "/z".toList 1).1 "/z/a.bin".toList buffer_size fuel =
        .error .out_of_fuel) := by
  refine ⟨?_, ?_, ?_⟩
  · intro data mode fuel buffer_size
    exact memory_load_diverges buffer_size fuel _ 0 [] (Nat.zero_le _) rfl
  · intro fuel buffer_size
    exact memory_load_diverges buffer_size fuel _ 0 [] (Nat.zero_le _) rfl
  · intro fuel buffer_size
    have ho : ((fresh_root.mount "/z".toList 1).1.openfile
        (fun a => if a = 1 then some (handle_directory "a.bin".toList deflated_handle) else none)
        "/z/a.bin".toList MODE_READ).1 = some deflated_handle := by decide
    unfold MountPoint.load
    rw [ho]
    exact memory_load_diverges buffer_size fuel _ 0 [] (Nat.zero_le _) rfl

/-- The GCF part of C27 on the scenario: with a buffer of 4 bytes, `load` on the handle
returns 10 after three calls of `func`, with offsets 0, 4 and 8. -/
theorem gcf_load_scenario :
    (scenario_handle.seek 0 >>= fun f => load_loop (FileGCF.ifile 4) 4 4 f 0 []) =
      .ok (10, [(0, [100, 101, 102, 103]), (4, [108, 109, 110, 111]), (8, [104, 105])]) := by
  rfl

/-! ## C28: count() of a GCF handle -/

theorem read_iteration_gcount (f f1 : FileGCF) (size size1 : Nat) (bytes : List Nat)
    (h : f.read_iteration size = .ok (some (f1, size1, bytes))) : f1.m_gcount = f.m_gcount := by
  unfold FileGCF.read_iteration at h
  simp only at h
  split at h
  · cases h
  · split at h
    · split at h
      · cases h
      · injection h with h
        injection h with h
        injection h with h1 _
        rw [← h1]
    · injection h with h
      injection h with h
      injection h with h1 _
      rw [← h1]

theorem read_loop_gcount : ∀ (fuel : Nat) (f : FileGCF) (size total : Nat) (buf : List Nat)
    (f2 : FileGCF) (r : Nat) (out : List Nat),
    FileGCF.read_loop fuel f size total buf = .ok (f2, r, out) → f2.m_gcount = f.m_gcount := by
  intro fuel
  induction fuel with
  | zero =>
    intro f size total buf f2 r out h
    cases size with
    | zero =>
      simp only [FileGCF.read_loop] at h
      injection h with h
      injection h with h1 _
      rw [← h1]
    | succ n => simp [FileGCF.read_loop] at h
  | succ fuel ih =>
    intro f size total buf f2 r out h
    cases size with
    | zero =>
      simp only [FileGCF.read_loop] at h
      injection h with h
      injection h with h1 _
      rw [← h1]
    | succ n =>
      simp only [FileGCF.read_loop] at h
      cases hit : f.read_iteration (n + 1) with
      | error e => rw [hit] at h; cases h
      | ok o =>
        rw [hit] at h
        cases o with
        | none =>
          simp only at h
          injection h with h
          injection h with h1 _
          rw [← h1]
        | some x =>
          obtain ⟨f1, size1, bytes⟩ := x
          simp only at h
          rw [ih f1 size1 _ _ f2 r out h]
          exact read_iteration_gcount f f1 _ size1 bytes hit

theorem read_gcount (fuel : Nat) (f : FileGCF) (size : Nat) (f2 : FileGCF) (r : Nat)
    (out : List Nat) (h : FileGCF.read fuel f size = .ok (f2, r, out)) :
    f2.count = f.count := by
  unfold FileGCF.read at h
  split at h
  · injection h with h
    injection h with h1 _
    rw [← h1]
  · exact read_loop_gcount fuel f _ 0 [] f2 r out h

/-- C28: `FileGCF::read` never assigns `m_gcount`. Whatever a read returns, `count()` is
afterwards what it was before, and it is 0 from the constructor on: in the scenario a read of
10 bytes returns 10 and `count()` is 0. -/
theorem gcf_count_not_updated :
    (∀ (fuel : Nat) (f : FileGCF) (size : Nat),
      (FileGCF.read fuel f size).map (fun x => x.1.count) =
        (FileGCF.read fuel f size).map (fun _ => f.count)) ∧
    (scenario_handle.seek 0 >>= fun f => FileGCF.read 10 f 10).map
      (fun x => (x.2.1, x.2.2, x.1.count)) =
        .ok (10, [100, 101, 102, 103, 108, 109, 110, 111, 104, 105], 0) := by
  refine ⟨?_, rfl⟩
  intro fuel f size
  cases h : FileGCF.read fuel f size with
  | error e => rfl
  | ok x =>
    obtain ⟨f2, r, out⟩ := x
    show Except.ok (f2.count) = Except.ok f.count
    rw [read_gcount fuel f size f2 r out h]

/-! ## C29: the links of the mount tree -/

theorem ofNat_shift_not_upper (n : Nat) (h1 : 65 ≤ n) (h2 : n ≤ 90) :
    (Char.ofNat (n + 32)).isUpper = false := by
  interval_cases n <;> decide

theorem isUpper_iff (c : Char) : c.isUpper = true ↔ c.toNat ≥ 65 ∧ c.toNat ≤ 90 := by
  unfold Char.isUpper
  simp only [Bool.and_eq_true, decide_eq_true_eq, ge_iff_le]
  constructor
  · rintro ⟨a, b⟩
    exact ⟨UInt32.le_def.mp a, UInt32.le_def.mp b⟩
  · rintro ⟨a, b⟩
    exact ⟨UInt32.le_def.mpr a, UInt32.le_def.mpr b⟩

theorem isUpper_toLower (c : Char) : c.toLower.isUpper = false := by
  by_cases h : c.toNat ≥ 65 ∧ c.toNat ≤ 90
  · have : c.toLower = Char.ofNat (c.toNat + 32) := by
      unfold Char.toLower; simp only; rw [if_pos h]
    rw [this]
    exact ofNat_shift_not_upper c.toNat h.1 h.2
  · have : c.toLower = c := by
      unfold Char.toLower; simp only; rw [if_neg h]
    rw [this]
    cases hu : c.isUpper with
    | false => rfl
    | true => exact absurd ((isUpper_iff c).mp hu) h

theorem lower_no_upper (s : List Char) : (lower s).any Char.isUpper = false := by
  induction s with
  | nil => rfl
  | cons c cs ih =>
    show (c.toLower.isUpper || (lower cs).any Char.isUpper) = false
    rw [isUpper_toLower, ih]
    rfl

theorem peel_dir_key (path : List Char) (hp : path ≠ []) (hh : path.head? ≠ some '/') :
    is_key (lower (peel_dir path)) = true := by
  have hne : peel_dir path ≠ [] ∧ '/' ∉ peel_dir path := by
    unfold peel_dir
    cases hf : find_first_of path with
    | none => exact ⟨hp, (find_first_of_eq_none path).mp hf⟩
    | some pos =>
      obtain ⟨h1, h2, h3⟩ := find_first_of_some path pos hf
      refine ⟨?_, h2⟩
      intro h0
      simp only at h0
      cases path with
      | nil => exact hp rfl
      | cons c cs =>
        cases pos with
        | zero =>
          simp only [find_first_of] at hf
          by_cases hc : c = '/'
          · subst hc; exact hh rfl
          · simp [hc] at hf
        | succ q => simp at h0
  have h1 : lower (peel_dir path) ≠ [] := fun e => hne.1 ((lower_eq_nil _).mp e)
  have h2 : '/' ∉ lower (peel_dir path) := by
    intro hm
    unfold lower at hm
    rw [List.mem_map] at hm
    obtain ⟨c, hc, hcl⟩ := hm
    rw [(toLower_eq_slash c).mp hcl] at hc
    exact hne.2 hc
  unfold is_key
  rw [lower_no_upper]
  have e1 : (lower (peel_dir path)).isEmpty = false := by
    cases h : lower (peel_dir path) with
    | nil => exact absurd h h1
    | cons _ _ => rfl
  have e2 : (lower (peel_dir path)).contains '/' = false := by
    cases h : (lower (peel_dir path)).contains '/' with
    | false => rfl
    | true => exact absurd (by simpa using h) h2
  rw [e1, e2]
  rfl

theorem linked_eq (self : List (List Char)) (attr : Nat) (mp : LinkedMountPoint) :
    mp.linked self attr = children_linked self attr mp.m_children := by
  cases mp with
  | mk p n a d cs => rw [LinkedMountPoint.linked]; rfl

theorem children_linked_cons (self : List (List Char)) (attr : Nat) (k : List Char)
    (c : LinkedMountPoint) (rest : List (List Char × LinkedMountPoint)) :
    children_linked self attr ((k, c) :: rest) = true ↔
      ChildLinked self attr k c ∧ children_linked self attr rest = true := by
  rw [children_linked]
  simp only [Bool.and_eq_true, beq_iff_eq]
  constructor
  · rintro ⟨⟨⟨⟨⟨a, b⟩, c1⟩, d⟩, e⟩, f⟩
    exact ⟨⟨a, b, c1, d, e⟩, f⟩
  · rintro ⟨⟨a, b, c1, d, e⟩, f⟩
    exact ⟨⟨⟨⟨⟨a, b⟩, c1⟩, d⟩, e⟩, f⟩

theorem children_linked_mem (self : List (List Char)) (attr : Nat)
    (cs : List (List Char × LinkedMountPoint)) (h : children_linked self attr cs = true)
    (k : List Char) (c : LinkedMountPoint) (hm : (k, c) ∈ cs) : ChildLinked self attr k c := by
  induction cs with
  | nil => cases hm
  | cons hd tl ih =>
    obtain ⟨k0, c0⟩ := hd
    rw [children_linked_cons] at h
    rcases List.mem_cons.mp hm with e | e
    · cases e; exact h.1
    · exact ih h.2 e

theorem map_find_mem {V : Type} (m : List (List Char × V)) (k : List Char) (v : V)
    (h : map_find m k = some v) : (k, v) ∈ m := by
  induction m with
  | nil => simp [map_find] at h
  | cons hd tl ih =>
    obtain ⟨k0, v0⟩ := hd
    by_cases hk : k0 = k
    · subst hk
      simp only [map_find, if_true, Option.some.injEq] at h
      subst h
      exact List.mem_cons_self _ _
    · simp only [map_find, hk, if_false] at h
      exact List.mem_cons_of_mem _ (ih h)

theorem children_linked_set (self : List (List Char)) (attr : Nat)
    (cs : List (List Char × LinkedMountPoint)) (h : children_linked self attr cs = true)
    (k : List Char) (c : LinkedMountPoint) (hc : ChildLinked self attr k c) :
    children_linked self attr (map_set cs k c) = true := by
  induction cs with
  | nil =>
    rw [map_set, children_linked_cons]
    exact ⟨hc, rfl⟩
  | cons hd tl ih =>
    obtain ⟨k0, c0⟩ := hd
    rw [children_linked_cons] at h
    by_cases hk : k0 = k
    · rw [map_set, if_pos hk, children_linked_cons]
      exact ⟨hc, h.2⟩
    · rw [map_set, if_neg hk, children_linked_cons]
      exact ⟨h.1, ih h.2⟩

theorem set_child_kept (self : List (List Char)) (attr : Nat) (mp : LinkedMountPoint)
    (h : mp.linked self attr = true) (k : List Char) (c : LinkedMountPoint)
    (hc : ChildLinked self attr k c) : NodeKept self attr mp (mp.set_child k c) := by
  cases mp with
  | mk p n a d cs =>
    rw [linked_eq] at h
    refine ⟨?_, rfl, rfl, rfl⟩
    rw [linked_eq]
    exact children_linked_set self attr cs h k c hc

theorem fresh_child_linked (self : List (List Char)) (attr : Nat) (k : List Char)
    (hk : is_key k = true) : ChildLinked self attr k (LinkedMountPoint.mk (some self) k attr [] []) :=
  ⟨rfl, hk, rfl, rfl, by rw [linked_eq]; rfl⟩

theorem child_kept (self : List (List Char)) (attr : Nat) (k : List Char)
    (c c2 : LinkedMountPoint) (hc : ChildLinked self attr k c)
    (hk : NodeKept (self ++ [k]) attr c c2) : ChildLinked self attr k c2 :=
  ⟨by rw [hk.name, hc.name], hc.key, by rw [hk.parent, hc.parent],
    by rw [hk.attributes, hc.attributes], hk.linked⟩

theorem linked_get_mountpoint_go_kept (n : Nat) :
    ∀ (self : List (List Char)) (mp : LinkedMountPoint) (path : List Char) (h : path.length < n)
      (b_create : Bool),
      mp.linked self mp.m_attributes = true →
      NodeKept self mp.m_attributes mp (linked_get_mountpoint_go n self mp path h b_create).1 := by
  induction n with
  | zero => intro self mp path h; exact absurd h (Nat.not_lt_zero _)
  | succ n ih =>
    intro self mp path h b_create hl
    unfold linked_get_mountpoint_go
    by_cases hp : path = []
    · simp only [hp, dite_true]
      exact ⟨hl, rfl, rfl, rfl⟩
    · simp only [hp, dite_false]
      by_cases hh : path.head? = some '/'
      · simp only [hh, if_true]
        exact ih self mp _ _ true hl
      · simp only [hh, if_false]
        have hkey := peel_dir_key path hp hh
        cases hf : map_find mp.m_children (lower (peel_dir path)) with
        | some child =>
          simp only
          have hc : ChildLinked self mp.m_attributes (lower (peel_dir path)) child := by
            rw [linked_eq] at hl
            exact children_linked_mem self _ _ hl _ _ (map_find_mem _ _ _ hf)
          have hb : child.linked (self ++ [lower (peel_dir path)]) child.m_attributes = true := by
            rw [hc.attributes]; exact hc.below
          have hk := ih (self ++ [lower (peel_dir path)]) child (peel_path path)
            (by
              unfold peel_path
              split
              · simp only [List.length_nil]; have := List.length_pos.mpr hp; omega
              · rw [List.length_drop]; have := List.length_pos.mpr hp; omega) true hb
          rw [hc.attributes] at hk
          exact set_child_kept self _ mp hl _ _ (child_kept self _ _ child _ hc hk)
        | none =>
          simp only
          cases b_create with
          | false => exact ⟨hl, rfl, rfl, rfl⟩
          | true =>
            simp only [if_true]
            have hc := fresh_child_linked self mp.m_attributes (lower (peel_dir path)) hkey
            have hk := ih (self ++ [lower (peel_dir path)])
              (LinkedMountPoint.mk (some self) (lower (peel_dir path)) mp.m_attributes [] [])
              (peel_path path)
              (by
                unfold peel_path
                split
                · simp only [List.length_nil]; have := List.length_pos.mpr hp; omega
                · rw [List.length_drop]; have := List.length_pos.mpr hp; omega) true hc.below
            exact set_child_kept self _ mp hl _ _ (child_kept self _ _ _ _ hc hk)

theorem push_directory_kept (self : List (List Char)) (attr : Nat) (mp : LinkedMountPoint)
    (h : mp.linked self attr = true) (p_dir : Nat) :
    NodeKept self attr mp (mp.push_directory p_dir) := by
  cases mp with
  | mk p n a d cs =>
    refine ⟨?_, rfl, rfl, rfl⟩
    rw [linked_eq] at h ⊢
    exact h

theorem linked_mount_go_kept (n : Nat) :
    ∀ (self : List (List Char)) (mp : LinkedMountPoint) (path : List Char) (h : path.length < n)
      (p_dir : Nat),
      mp.linked self mp.m_attributes = true →
      NodeKept self mp.m_attributes mp (linked_mount_go n self mp path h p_dir).1 := by
  induction n with
  | zero => intro self mp path h; exact absurd h (Nat.not_lt_zero _)
  | succ n ih =>
    intro self mp path h p_dir hl
    unfold linked_mount_go
    by_cases hp : path = []
    · simp only [hp, dite_true]
      exact push_directory_kept self _ mp hl p_dir
    · simp only [hp, dite_false]
      by_cases hh : path.head? = some '/'
      · simp only [hh, if_true]
        exact ih self mp _ _ p_dir hl
      · simp only [hh, if_false]
        have hkey := peel_dir_key path hp hh
        have hlen : (peel_path path).length < n := by
          unfold peel_path
          split
          · simp only [List.length_nil]; have := List.length_pos.mpr hp; omega
          · rw [List.length_drop]; have := List.length_pos.mpr hp; omega
        cases hf : map_find mp.m_children (lower (peel_dir path)) with
        | some child =>
          simp only
          have hc : ChildLinked self mp.m_attributes (lower (peel_dir path)) child := by
            rw [linked_eq] at hl
            exact children_linked_mem self _ _ hl _ _ (map_find_mem _ _ _ hf)
          have hb : child.linked (self ++ [lower (peel_dir path)]) child.m_attributes = true := by
            rw [hc.attributes]; exact hc.below
          have hk := ih (self ++ [lower (peel_dir path)]) child (peel_path path) hlen p_dir hb
          rw [hc.attributes] at hk
          exact set_child_kept self _ mp hl _ _ (child_kept self _ _ child _ hc hk)
        | none =>
          simp only
          have hc := fresh_child_linked self mp.m_attributes (lower (peel_dir path)) hkey
          have hk := ih (self ++ [lower (peel_dir path)])
            (LinkedMountPoint.mk (some self) (lower (peel_dir path)) mp.m_attributes [] [])
            (peel_path path) hlen p_dir hc.below
          exact set_child_kept self _ mp hl _ _ (child_kept self _ _ _ _ hc hk)

theorem call_at_kept (f : List (List Char) → LinkedMountPoint → LinkedMountPoint)
    (hf : ∀ self mp, mp.linked self mp.m_attributes = true →
      NodeKept self mp.m_attributes mp (f self mp)) :
    ∀ (rel self : List (List Char)) (mp : LinkedMountPoint),
      mp.linked self mp.m_attributes = true →
      NodeKept self mp.m_attributes mp (call_at f mp self rel) := by
  intro rel
  induction rel with
  | nil => intro self mp hl; exact hf self mp hl
  | cons k ks ih =>
    intro self mp hl
    rw [call_at]
    cases hc : map_find mp.m_children k with
    | none => exact ⟨hl, rfl, rfl, rfl⟩
    | some child =>
      simp only
      have hch : ChildLinked self mp.m_attributes k child := by
        rw [linked_eq] at hl
        exact children_linked_mem self _ _ hl _ _ (map_find_mem _ _ _ hc)
      have hb : child.linked (self ++ [k]) child.m_attributes = true := by
        rw [hch.attributes]; exact hch.below
      have hk := ih (self ++ [k]) child hb
      rw [hch.attributes] at hk
      exact set_child_kept self _ mp hl _ _ (child_kept self _ _ child _ hch hk)

theorem reachable_linked (t : LinkedMountPoint) (h : Reachable t) :
    t.m_p_parent = none ∧ t.m_name = [] ∧ t.m_attributes = ATTR_READ ||| ATTR_WRITE ∧
      t.linked [] (ATTR_READ ||| ATTR_WRITE) = true := by
  induction h with
  | fresh => exact ⟨rfl, rfl, rfl, by rw [linked_eq]; rfl⟩
  | get_mountpoint t node path b_create _ ih =>
    obtain ⟨h1, h2, h3, h4⟩ := ih
    have hk := call_at_kept (fun self mp => (mp.get_mountpoint self path b_create).1)
      (fun self mp hl => linked_get_mountpoint_go_kept _ self mp path _ b_create hl)
      node [] t (by rw [h3]; exact h4)
    rw [h3] at hk
    exact ⟨by rw [hk.parent, h1], by rw [hk.name, h2], by rw [hk.attributes, h3], hk.linked⟩
  | mount t node path p_dir _ ih =>
    obtain ⟨h1, h2, h3, h4⟩ := ih
    have hk := call_at_kept (fun self mp => (mp.mount self path p_dir).1)
      (fun self mp hl => linked_mount_go_kept _ self mp path _ p_dir hl)
      node [] t (by rw [h3]; exact h4)
    rw [h3] at hk
    exact ⟨by rw [hk.parent, h1], by rw [hk.name, h2], by rw [hk.attributes, h3], hk.linked⟩

theorem linked_node_at_spec (attr : Nat) :
    ∀ (addr self : List (List Char)) (mp nd : LinkedMountPoint),
      mp.m_attributes = attr → mp.linked self attr = true → linked_node_at mp addr = some nd →
      nd.m_attributes = attr ∧ nd.linked (self ++ addr) attr = true := by
  intro addr
  induction addr with
  | nil =>
    intro self mp nd ha hl hn
    simp only [linked_node_at, Option.some.injEq] at hn
    subst hn
    exact ⟨ha, by rw [List.append_nil]; exact hl⟩
  | cons k ks ih =>
    intro self mp nd ha hl hn
    rw [linked_node_at] at hn
    cases hc : map_find mp.m_children k with
    | none => rw [hc] at hn; cases hn
    | some child =>
      rw [hc] at hn
      simp only at hn
      have hch : ChildLinked self attr k child := by
        rw [linked_eq] at hl
        exact children_linked_mem self _ _ hl _ _ (map_find_mem _ _ _ hc)
      have := ih (self ++ [k]) child nd hch.attributes hch.below hn
      rw [List.append_assoc] at this
      exact this

theorem is_key_spec (k : List Char) (h : is_key k = true) :
    k ≠ [] ∧ '/' ∉ k ∧ ∀ c ∈ k, c.isUpper = false := by
  simp only [is_key, Bool.and_eq_true, Bool.not_eq_true'] at h
  obtain ⟨⟨h1, h2⟩, h3⟩ := h
  refine ⟨?_, ?_, ?_⟩
  · intro h0; subst h0; simp at h1
  · intro hm
    have : k.contains '/' = true := by simpa using hm
    rw [this] at h2
    cases h2
  · intro c hc
    cases hu : c.isUpper with
    | false => rfl
    | true =>
      have : k.any Char.isUpper = true := List.any_eq_true.mpr ⟨c, hc, hu⟩
      rw [this] at h3
      cases h3

/-- C29. In every state of the mount tree that calls of `get_mountpoint` and `mount`, on the
root or on any node, reach from a freshly constructed `AdeFS`: the root has an empty name, no
parent and the attributes `ATTR_READ | ATTR_WRITE`; and every child held by the children map
of a node of the tree is stored under a key equal to its name, the key is not empty and has
no `/` and no upper-case ASCII letter, the child's parent pointer designates the node that
holds it, and the child's attributes are those of that node, `ATTR_READ | ATTR_WRITE`. -/
theorem mount_tree_invariant (t : LinkedMountPoint) (h : Reachable t) :
    t.m_name = [] ∧ t.m_p_parent = none ∧ t.m_attributes = ATTR_READ ||| ATTR_WRITE ∧
    ∀ (addr : List (List Char)) (parent : LinkedMountPoint) (k : List Char)
      (child : LinkedMountPoint),
      linked_node_at t addr = some parent → (k, child) ∈ parent.m_children →
      child.m_name = k ∧ k ≠ [] ∧ '/' ∉ k ∧ (∀ c ∈ k, c.isUpper = false) ∧
        child.m_p_parent = some addr ∧ child.m_attributes = parent.m_attributes ∧
        child.m_attributes = ATTR_READ ||| ATTR_WRITE := by
  obtain ⟨h1, h2, h3, h4⟩ := reachable_linked t h
  refine ⟨h2, h1, h3, ?_⟩
  intro addr parent k child hn hm
  obtain ⟨ha, hl⟩ := linked_node_at_spec _ addr [] t parent h3 h4 hn
  rw [linked_eq] at hl
  have hc := children_linked_mem _ _ _ hl k child hm
  obtain ⟨k1, k2, k3⟩ := is_key_spec k hc.key
  exact ⟨hc.name, k1, k2, k3, by rw [hc.parent, List.nil_append],
    by rw [hc.attributes, ha], hc.attributes⟩

/-- Witness for C29: after `mount("/Data/Maps", p_dir)` on a fresh root, the node `data`
holds the child `maps`, whose parent pointer designates `data`. -/
theorem mount_tree_invariant_witness :
    ∃ parent child, linked_node_at data_maps_tree ["data".toList] = some parent ∧
      ("maps".toList, child) ∈ parent.m_children ∧
      child.m_name = "maps".toList ∧ child.m_p_parent = some ["data".toList] ∧
      child.m_attributes = ATTR_READ ||| ATTR_WRITE ∧ child.m_directories = [1] := by
  refine ⟨_, _, rfl, List.mem_singleton.mpr rfl, ?_⟩
  have h := (mount_tree_invariant data_maps_tree
    (Reachable.mount linked_root [] "/Data/Maps".toList 1 Reachable.fresh)).2.2.2
    ["data".toList] _ "maps".toList _ rfl (List.mem_singleton.mpr rfl)
  exact ⟨h.1, h.2.2.2.2.1, h.2.2.2.2.2.2, rfl⟩

theorem erase_children_find (cs : List (List Char × LinkedMountPoint)) (k : List Char) :
    children_find (erase_children cs) k = (map_find cs k).map LinkedMountPoint.erase := by
  induction cs with
  | nil => rfl
  | cons hd tl ih =>
    obtain ⟨k0, c0⟩ := hd
    rw [erase_children, children_find, map_find]
    by_cases hk : k0 = k
    · simp [hk]
    · simp [hk, ih]

theorem erase_children_set (cs : List (List Char × LinkedMountPoint)) (k : List Char)
    (c : LinkedMountPoint) :
    erase_children (map_set cs k c) = children_set (erase_children cs) k c.erase := by
  induction cs with
  | nil => rfl
  | cons hd tl ih =>
    obtain ⟨k0, c0⟩ := hd
    rw [erase_children, children_set, map_set]
    by_cases hk : k0 = k
    · simp [hk, erase_children]
    · simp [hk, erase_children, ih]

theorem erase_set_child (mp : LinkedMountPoint) (k : List Char) (c : LinkedMountPoint) :
    (mp.set_child k c).erase = mp.erase.set_child k c.erase := by
  cases mp with
  | mk p n a d cs =>
    show MountPoint.mk n a d (erase_children (map_set cs k c)) =
      MountPoint.mk n a d (children_set (erase_children cs) k c.erase)
    rw [erase_children_set]

theorem erase_children_eq (mp : LinkedMountPoint) :
    mp.erase.m_children = erase_children mp.m_children := by
  cases mp; rfl

theorem erase_attributes (mp : LinkedMountPoint) : mp.erase.m_attributes = mp.m_attributes := by
  cases mp; rfl

theorem erase_push_directory (mp : LinkedMountPoint) (d : Nat) :
    (mp.push_directory d).erase = mp.erase.push_directory d := by
  cases mp; rfl

theorem pair_eq_parts {A B : Type} {a : A} {b : B} {p : A × B} (h : (a, b) = p) :
    a = p.1 ∧ b = p.2 := by
  subst h
  exact ⟨rfl, rfl⟩

/-- The model with parent pointers and the model without agree: `get_mountpoint` on a node
gives the same tree, the pointers left out, and the same returned pointer. -/
theorem erase_get_mountpoint_go (n : Nat) :
    ∀ (self : List (List Char)) (mp : LinkedMountPoint) (path : List Char) (h : path.length < n)
      (b_create : Bool),
      ((linked_get_mountpoint_go n self mp path h b_create).1.erase,
        (linked_get_mountpoint_go n self mp path h b_create).2) =
      get_mountpoint_go n mp.erase path h b_create := by
  induction n with
  | zero => intro self mp path h; exact absurd h (Nat.not_lt_zero _)
  | succ n ih =>
    intro self mp path h b_create
    unfold linked_get_mountpoint_go get_mountpoint_go
    by_cases hp : path = []
    · simp only [hp, dite_true]
    · simp only [hp, dite_false]
      by_cases hh : path.head? = some '/'
      · simp only [hh, if_true]
        exact ih self mp _ _ true
      · simp only [hh, if_false]
        rw [erase_children_eq, erase_children_find]
        have hlen : (peel_path path).length < n := by
          unfold peel_path
          split
          · simp only [List.length_nil]; have := List.length_pos.mpr hp; omega
          · rw [List.length_drop]; have := List.length_pos.mpr hp; omega
        cases hf : map_find mp.m_children (lower (peel_dir path)) with
        | some child =>
          simp only [Option.map_some']
          have e := ih (self ++ [lower (peel_dir path)]) child (peel_path path) hlen true
          rw [erase_set_child, (pair_eq_parts e).1, (pair_eq_parts e).2]
        | none =>
          simp only [Option.map_none']
          cases b_create with
          | false => rfl
          | true =>
            simp only [if_true]
            have e := ih (self ++ [lower (peel_dir path)])
              (LinkedMountPoint.mk (some self) (lower (peel_dir path)) mp.m_attributes [] [])
              (peel_path path) hlen true
            rw [LinkedMountPoint.erase, erase_children] at e
            rw [erase_set_child, erase_attributes, (pair_eq_parts e).1, (pair_eq_parts e).2]

theorem erase_mount_go (n : Nat) :
    ∀ (self : List (List Char)) (mp : LinkedMountPoint) (path : List Char) (h : path.length < n)
      (p_dir : Nat),
      ((linked_mount_go n self mp path h p_dir).1.erase,
        (linked_mount_go n self mp path h p_dir).2) =
      mount_go n mp.erase path h p_dir := by
  induction n with
  | zero => intro self mp path h; exact absurd h (Nat.not_lt_zero _)
  | succ n ih =>
    intro self mp path h p_dir
    unfold linked_mount_go mount_go
    by_cases hp : path = []
    · simp only [hp, dite_true, erase_push_directory]
    · simp only [hp, dite_false]
      by_cases hh : path.head? = some '/'
      · simp only [hh, if_true]
        have e := ih self mp (path.drop 1)
          (by rw [List.length_drop]; have := List.length_pos.mpr hp; omega) p_dir
        rw [(pair_eq_parts e).1, (pair_eq_parts e).2]
      · simp only [hh, if_false]
        rw [erase_children_eq, erase_children_find]
        have hlen : (peel_path path).length < n := by
          unfold peel_path
          split
          · simp only [List.length_nil]; have := List.length_pos.mpr hp; omega
          · rw [List.length_drop]; have := List.length_pos.mpr hp; omega
        cases hf : map_find mp.m_children (lower (peel_dir path)) with
        | some child =>
          simp only [Option.map_some']
          have e := ih (self ++ [lower (peel_dir path)]) child (peel_path path) hlen p_dir
          rw [erase_set_child, (pair_eq_parts e).1, (pair_eq_parts e).2]
        | none =>
          simp only [Option.map_none']
          have e := ih (self ++ [lower (peel_dir path)])
            (LinkedMountPoint.mk (some self) (lower (peel_dir path)) mp.m_attributes [] [])
            (peel_path path) hlen p_dir
          rw [LinkedMountPoint.erase, erase_children] at e
          rw [erase_set_child, erase_attributes, (pair_eq_parts e).1, (pair_eq_parts e).2]

theorem erase_get_mountpoint (mp : LinkedMountPoint) (self : List (List Char))
    (path : List Char) (b_create : Bool) :
    ((mp.get_mountpoint self path b_create).1.erase, (mp.get_mountpoint self path b_create).2) =
      mp.erase.get_mountpoint path b_create :=
  erase_get_mountpoint_go _ self mp path _ b_create

theorem erase_mount (mp : LinkedMountPoint) (self : List (List Char)) (path : List Char)
    (p_dir : Nat) :
    ((mp.mount self path p_dir).1.erase, (mp.mount self path p_dir).2) =
      mp.erase.mount path p_dir :=
  erase_mount_go _ self mp path _ p_dir

/-! ## C30: the addresses of GCF data -/

/-- C30 as stated fails from `2 ^ 31` on. The fields of `high_handle` are 32-bit values, the
sum `m_first_data_block_offset + m_block_num * m_block_size + m_block_offset` is `2 ^ 31`,
and the position handed to `seekg` by `read` and `get` is `-2 ^ 31`: the sum is stored in the
32-bit signed `fileoffset`. The seek fails, and `get` returns `EOF` on a handle that is not at
its end. -/
theorem gcf_addressing_counterexample :
    is_u32 high_handle.m_first_data_block_offset = true ∧
    is_u32 high_handle.m_block_num = true ∧
    is_u32 high_handle.m_block_size = true ∧
    is_u32 high_handle.m_block_offset = true ∧
    high_handle.m_first_data_block_offset + high_handle.m_block_num * high_handle.m_block_size +
      high_handle.m_block_offset = 2 ^ 31 ∧
    high_handle.fileofs = -(2 ^ 31) ∧
    high_handle.is_eof = false ∧
    (high_handle.m_stream.seekg high_handle.fileofs).failbit = true ∧
    high_handle.get.map (fun x => x.2) = .ok (-1) :=
  ⟨by decide, by decide, by decide, by decide, by decide, rfl, by decide, rfl, rfl⟩

/-- C30, amended to sums below `2 ^ 31`. The position that `read` and `get` hand to `seekg`
is `fileofs`; when `m_first_data_block_offset + m_block_num * m_block_size + m_block_offset`
is below `2 ^ 31` it is that integer, and a stream that has not failed is placed there. -/
theorem gcf_addressing (f : FileGCF)
    (h : f.m_first_data_block_offset + f.m_block_num * f.m_block_size + f.m_block_offset <
      2 ^ 31) :
    f.fileofs = ((f.m_first_data_block_offset + f.m_block_num * f.m_block_size +
      f.m_block_offset : Nat) : Int) ∧
    (f.m_stream.failbit = false →
      (f.m_stream.seekg f.fileofs).pos =
        f.m_first_data_block_offset + f.m_block_num * f.m_block_size + f.m_block_offset ∧
      (f.m_stream.seekg f.fileofs).failbit = false) := by
  have e : f.fileofs = ((f.m_first_data_block_offset + f.m_block_num * f.m_block_size +
      f.m_block_offset : Nat) : Int) := by
    unfold FileGCF.fileofs
    rw [u32_small (f.m_block_num * f.m_block_size) (by omega),
      u32_small (f.m_first_data_block_offset + f.m_block_num * f.m_block_size) (by omega),
      u32_small _ (by omega), to_int32_small _ h]
  refine ⟨e, ?_⟩
  intro hf
  rw [e]
  generalize f.m_first_data_block_offset + f.m_block_num * f.m_block_size +
    f.m_block_offset = t
  have hn : ¬ ((t : Int) < 0) := by omega
  simp only [IfStream.seekg, hf, Bool.false_eq_true, if_false, hn, Int.toNat_ofNat, and_self]

/-- Witness for C30: the handle of the scenario placed on block 2 at offset 2 addresses byte
`100 + 2 * 4 + 2 = 110` of the package file. -/
theorem gcf_addressing_witness :
    { scenario_handle with m_block_num := 2, m_block_offset := 2 }.fileofs = 110 :=
  (gcf_addressing { scenario_handle with m_block_num := 2, m_block_offset := 2 }
    (by decide)).1

/-! ## Lemmas on the tree of a ZIP package -/

theorem sub_directories_find_eq (subs : List (List Char × DirectoryNode)) (k : List Char) :
    sub_directories_find subs k = map_find subs k := by
  induction subs with
  | nil => rfl
  | cons p rest ih =>
    obtain ⟨k1, v1⟩ := p
    simp [sub_directories_find, map_find, ih]

theorem sub_directories_set_eq (subs : List (List Char × DirectoryNode)) (k : List Char)
    (v : DirectoryNode) : sub_directories_set subs k v = map_set subs k v := by
  induction subs with
  | nil => rfl
  | cons p rest ih =>
    obtain ⟨k1, v1⟩ := p
    simp [sub_directories_set, map_set, ih]

theorem sub_find_set (subs : List (List Char × DirectoryNode)) (k k2 : List Char)
    (v : DirectoryNode) :
    sub_directories_find (sub_directories_set subs k v) k2 =
      if k = k2 then some v else sub_directories_find subs k2 := by
  rw [sub_directories_find_eq, sub_directories_set_eq, map_find_set, sub_directories_find_eq]

theorem dir_node_at_nil (node : DirectoryNode) : dir_node_at node [] = some node := by
  rw [dir_node_at]

theorem dir_node_at_cons (node : DirectoryNode) (k : List Char) (ks : List (List Char)) :
    dir_node_at node (k :: ks) =
      match sub_directories_find node.sub_directories k with
      | none => none
      | some child => dir_node_at child ks := rfl

theorem dir_node_at_set (p : Option Nat) (subs : List (List Char × DirectoryNode))
    (k : List Char) (v : DirectoryNode) (k2 : List Char) (ks : List (List Char)) :
    dir_node_at (.mk p (sub_directories_set subs k v)) (k2 :: ks) =
      if k = k2 then dir_node_at v ks else dir_node_at (.mk p subs) (k2 :: ks) := by
  rw [dir_node_at_cons, dir_node_at_cons]
  simp only [DirectoryNode.sub_directories, sub_find_set]
  by_cases h : k = k2
  · simp only [h, if_true]
  · simp only [h, if_false]

theorem backend_at_nil (node : DirectoryNode) : node.backend_at [] = node.p_directory := by
  simp only [DirectoryNode.backend_at, dir_node_at_nil]

theorem backend_at_set (p : Option Nat) (subs : List (List Char × DirectoryNode))
    (k : List Char) (v : DirectoryNode) (k2 : List Char) (ks : List (List Char)) :
    (DirectoryNode.mk p (sub_directories_set subs k v)).backend_at (k2 :: ks) =
      if k = k2 then v.backend_at ks else (DirectoryNode.mk p subs).backend_at (k2 :: ks) := by
  simp only [DirectoryNode.backend_at, dir_node_at_set]
  by_cases h : k = k2
  · simp only [h, if_true]
  · simp only [h, if_false]

theorem backend_at_child (node child : DirectoryNode) (k : List Char) (ks : List (List Char))
    (h : sub_directories_find node.sub_directories k = some child) :
    node.backend_at (k :: ks) = child.backend_at ks := by
  simp only [DirectoryNode.backend_at, dir_node_at_cons, h]

theorem dir_node_at_child (node child : DirectoryNode) (k : List Char) (ks : List (List Char))
    (h : sub_directories_find node.sub_directories k = some child) :
    dir_node_at node (k :: ks) = dir_node_at child ks := by
  simp only [dir_node_at_cons, h]

theorem dir_node_at_no_child (node : DirectoryNode) (k : List Char) (ks : List (List Char))
    (h : sub_directories_find node.sub_directories k = none) :
    dir_node_at node (k :: ks) = none := by
  simp only [dir_node_at_cons, h]

theorem backend_at_no_child (node : DirectoryNode) (k : List Char) (ks : List (List Char))
    (h : sub_directories_find node.sub_directories k = none) :
    node.backend_at (k :: ks) = none := by
  simp only [DirectoryNode.backend_at, dir_node_at_no_child node k ks h]

theorem node_eta (node : DirectoryNode) :
    DirectoryNode.mk node.p_directory node.sub_directories = node := by
  cases node
  rfl

theorem skip_slashes_head (s : List Char) : (skip_slashes s).head? ≠ some '/' := by
  induction s with
  | nil => simp [skip_slashes]
  | cons c cs ih =>
    simp only [skip_slashes]
    split
    · exact ih
    · rename_i hc
      simp only [List.head?_cons, ne_eq, Option.some.injEq]
      exact hc

theorem path_segments_skip_slashes (s : List Char) :
    path_segments (skip_slashes s) = path_segments s := by
  induction s with
  | nil => rfl
  | cons c cs ih =>
    simp only [skip_slashes]
    split
    · rename_i hc
      subst hc
      rw [ih, path_segments_slash]
    · rfl

theorem lower_skip_slashes (s : List Char) (h : lower s = s) :
    lower (skip_slashes s) = skip_slashes s := by
  induction s with
  | nil => rfl
  | cons c cs ih =>
    rw [lower_cons] at h
    have h1 := (List.cons.inj h).1
    have h2 := (List.cons.inj h).2
    simp only [skip_slashes]
    split
    · exact ih h2
    · rw [lower_cons, h1, h2]

theorem make_directories_cons (node : DirectoryNode) (bs : List DirectoryZIP) (k : List Char)
    (ks : List (List Char)) :
    make_directories node bs (k :: ks) =
      ((.mk node.p_directory (sub_directories_set node.sub_directories k
          (make_directories
            (match sub_directories_find node.sub_directories k with
             | some child => child
             | none => .mk (some bs.length) [])
            (match sub_directories_find node.sub_directories k with
             | some _ => bs
             | none => bs ++ [⟨[]⟩]) ks).1)),
        (make_directories
            (match sub_directories_find node.sub_directories k with
             | some child => child
             | none => .mk (some bs.length) [])
            (match sub_directories_find node.sub_directories k with
             | some _ => bs
             | none => bs ++ [⟨[]⟩]) ks).2) := by
  rw [make_directories]
  cases sub_directories_find node.sub_directories k <;> rfl

/-- With `b_create = true` the descent of `get_directory` makes the folders of the reference
segmentation and returns the node they lead to. -/
theorem get_directory_go_create (n : Nat) (bs : List DirectoryZIP) (node : DirectoryNode)
    (rest : List Char) (h : rest.length < n) (hl : lower rest = rest)
    (hs : rest.head? ≠ some '/') :
    get_directory_go n bs node rest h true =
      ((make_directories node bs (path_segments rest)).1,
        (make_directories node bs (path_segments rest)).2, some (path_segments rest)) := by
  induction n generalizing bs node rest with
  | zero => exact absurd h (Nat.not_lt_zero _)
  | succ n ih =>
    rw [get_directory_go]
    by_cases hr : rest = []
    · subst hr
      simp [path_segments_nil, make_directories]
    · rw [dif_neg hr]
      split
      · rename_i hf
        have h1 : '/' ∉ rest := (find_first_of_eq_none rest).mp hf
        rw [path_segments_single _ h1, if_neg hr, hl]
        rw [make_directories_cons]
        cases hc : sub_directories_find node.sub_directories rest with
        | some child =>
          simp only [ih _ _ [] _ rfl (by simp), path_segments_nil, make_directories,
            Option.map_some']
        | none =>
          simp only [ih _ _ [] _ rfl (by simp), path_segments_nil, make_directories,
            Option.map_some', if_true]
      · rename_i pos2 hf
        obtain ⟨h1, h2, h3⟩ := find_first_of_some rest pos2 hf
        have hne : rest.take pos2 ≠ [] := by
          intro h0
          rw [h0] at h1
          rw [h1] at hs
          simp at hs
        have hdrop : rest.drop pos2 = '/' :: rest.drop (pos2 + 1) := by
          conv_lhs => rw [h1]
          rw [List.drop_append_of_le_length (by simp; omega)]
          simp [List.length_take, Nat.min_eq_left (Nat.le_of_lt h3)]
        have hlt : lower (rest.take pos2) = rest.take pos2 := by
          rw [lower_take, hl]
        have hld : lower (rest.drop pos2) = rest.drop pos2 := by
          rw [lower_drop, hl]
        have hseg : path_segments rest =
            rest.take pos2 :: path_segments (skip_slashes (rest.drop pos2)) := by
          conv_lhs => rw [h1, path_segments_first _ _ h2]
          rw [if_neg hne, hlt, path_segments_skip_slashes, hdrop, path_segments_slash]
          rfl
        simp only
        rw [dif_neg hne, hseg, make_directories_cons]
        cases hc : sub_directories_find node.sub_directories (rest.take pos2) with
        | some child =>
          simp only [ih _ _ _ _ (lower_skip_slashes _ hld) (skip_slashes_head _),
            Option.map_some']
        | none =>
          simp only [ih _ _ _ _ (lower_skip_slashes _ hld) (skip_slashes_head _),
            Option.map_some', if_true]

theorem get_directory_create (pkg : PackageZIP) (path : List Char) :
    pkg.get_directory path true =
      ({ pkg with
          m_root_directory :=
            (make_directories pkg.m_root_directory pkg.m_backends (path_segments path)).1,
          m_backends :=
            (make_directories pkg.m_root_directory pkg.m_backends (path_segments path)).2 },
        some (path_segments path)) := by
  unfold PackageZIP.get_directory
  simp only
  rw [get_directory_go_create _ _ _ _ _ (lower_skip_slashes _ (lower_lower path))
    (skip_slashes_head _), path_segments_skip_slashes, path_segments_lower]

theorem backend_at_set_node (node : DirectoryNode) (k : List Char) (v : DirectoryNode)
    (k2 : List Char) (ks : List (List Char)) :
    (DirectoryNode.mk node.p_directory
        (sub_directories_set node.sub_directories k v)).backend_at (k2 :: ks) =
      if k = k2 then v.backend_at ks else node.backend_at (k2 :: ks) := by
  rw [backend_at_set, node_eta]

theorem dir_node_at_set_node (node : DirectoryNode) (k : List Char) (v : DirectoryNode)
    (k2 : List Char) (ks : List (List Char)) :
    dir_node_at (DirectoryNode.mk node.p_directory
        (sub_directories_set node.sub_directories k v)) (k2 :: ks) =
      if k = k2 then dir_node_at v ks else dir_node_at node (k2 :: ks) := by
  rw [dir_node_at_set, node_eta]

theorem backend_at_set_nil (node : DirectoryNode) (k : List Char) (v : DirectoryNode) :
    (DirectoryNode.mk node.p_directory
        (sub_directories_set node.sub_directories k v)).backend_at [] = node.backend_at [] := by
  rw [backend_at_nil, backend_at_nil]
  rfl

theorem made_from_step (node : DirectoryNode) (bs : List DirectoryZIP) (k : List Char)
    (ks : List (List Char)) (r1 : DirectoryNode) (r2 : List DirectoryZIP)
    (hok : TreeOk node bs) (A1 : TreeOk r1 r2) (A2 : bs.length ≤ r2.length)
    (A3 : ∀ a, a < bs.length → r2.get? a = bs.get? a)
    (A4 : ∀ a, bs.length ≤ a → a < r2.length → r2.get? a = some ⟨[]⟩)
    (A5 : ∀ t a, node.backend_at (k :: t) = some a → r1.backend_at t = some a)
    (A6 : ∀ t a, r1.backend_at t = some a →
      node.backend_at (k :: t) = some a ∨ (bs.length ≤ a ∧ node.backend_at (k :: t) = none))
    (A7 : ∀ i, (r1.backend_at (ks.take i)).isSome) :
    MadeFrom node bs (k :: ks)
      (.mk node.p_directory (sub_directories_set node.sub_directories k r1)) r2 := by
  have hroot : (node.backend_at []).isSome := hok.present [] (by rw [dir_node_at_nil]; rfl)
  have kept : ∀ ks1 a, node.backend_at ks1 = some a →
      (DirectoryNode.mk node.p_directory
        (sub_directories_set node.sub_directories k r1)).backend_at ks1 = some a := by
    intro ks1 a h
    cases ks1 with
    | nil => rw [backend_at_set_nil]; exact h
    | cons k2 t =>
      rw [backend_at_set_node]
      by_cases hk : k = k2
      · subst hk
        rw [if_pos rfl]
        exact A5 t a h
      · rw [if_neg hk]
        exact h
  have origin : ∀ ks1 a, (DirectoryNode.mk node.p_directory
        (sub_directories_set node.sub_directories k r1)).backend_at ks1 = some a →
      node.backend_at ks1 = some a ∨ (bs.length ≤ a ∧ node.backend_at ks1 = none) := by
    intro ks1 a h
    cases ks1 with
    | nil =>
      rw [backend_at_set_nil] at h
      exact Or.inl h
    | cons k2 t =>
      rw [backend_at_set_node] at h
      by_cases hk : k = k2
      · subst hk
        rw [if_pos rfl] at h
        exact A6 t a h
      · rw [if_neg hk] at h
        exact Or.inl h
  refine ⟨⟨?_, ?_, ?_⟩, A2, A3, A4, kept, origin, ?_⟩
  · -- present
    intro ks1 h
    cases ks1 with
    | nil => rw [backend_at_set_nil]; exact hroot
    | cons k2 t =>
      rw [dir_node_at_set_node] at h
      rw [backend_at_set_node]
      by_cases hk : k = k2
      · subst hk
        rw [if_pos rfl] at h ⊢
        exact A1.present t h
      · rw [if_neg hk] at h ⊢
        exact hok.present _ h
  · -- bound
    intro ks1 a h
    rcases origin ks1 a h with h1 | ⟨_, _⟩
    · have := hok.bound ks1 a h1
      omega
    · cases ks1 with
      | nil =>
        rw [backend_at_set_nil] at h
        have := hok.bound [] a h
        omega
      | cons k2 t =>
        rw [backend_at_set_node] at h
        by_cases hk : k = k2
        · subst hk
          rw [if_pos rfl] at h
          exact A1.bound t a h
        · rw [if_neg hk] at h
          have := hok.bound _ a h
          omega
  · -- inj
    intro ks1 ks2 a h1 h2
    rcases origin ks1 a h1 with o1 | ⟨n1, z1⟩
    · rcases origin ks2 a h2 with o2 | ⟨n2, _⟩
      · exact hok.inj ks1 ks2 a o1 o2
      · have := hok.bound ks1 a o1
        omega
    · rcases origin ks2 a h2 with o2 | ⟨n2, z2⟩
      · have := hok.bound ks2 a o2
        omega
      · -- both are new: both lie below `k`
        cases ks1 with
        | nil =>
          rw [backend_at_set_nil] at h1
          rw [h1] at z1
          cases z1
        | cons k1 t1 =>
          cases ks2 with
          | nil =>
            rw [backend_at_set_nil] at h2
            rw [h2] at z2
            cases z2
          | cons k2 t2 =>
            rw [backend_at_set_node] at h1 h2
            by_cases hk1 : k = k1
            · by_cases hk2 : k = k2
              · subst hk1
                subst hk2
                rw [if_pos rfl] at h1 h2
                rw [A1.inj t1 t2 a h1 h2]
              · rw [if_neg hk2] at h2
                rw [h2] at z2
                cases z2
            · rw [if_neg hk1] at h1
              rw [h1] at z1
              cases z1
  · -- chain
    intro i
    cases i with
    | zero =>
      simp only [List.take_zero]
      rw [backend_at_set_nil]
      exact hroot
    | succ j =>
      simp only [List.take_succ_cons]
      rw [backend_at_set_node, if_pos rfl]
      exact A7 j

theorem tree_ok_child (node child : DirectoryNode) (bs : List DirectoryZIP) (k : List Char)
    (hok : TreeOk node bs) (h : sub_directories_find node.sub_directories k = some child) :
    TreeOk child bs := by
  refine ⟨?_, ?_, ?_⟩
  · intro t ht
    rw [← backend_at_child node child k t h]
    apply hok.present
    rw [dir_node_at_child node child k t h]
    exact ht
  · intro t a ht
    rw [← backend_at_child node child k t h] at ht
    exact hok.bound _ a ht
  · intro t1 t2 a h1 h2
    rw [← backend_at_child node child k t1 h] at h1
    rw [← backend_at_child node child k t2 h] at h2
    have := hok.inj _ _ a h1 h2
    exact (List.cons.inj this).2

theorem backend_at_leaf (a : Nat) (t : List (List Char)) (b : Nat)
    (h : (DirectoryNode.mk (some a) []).backend_at t = some b) : t = [] ∧ b = a := by
  cases t with
  | nil =>
    rw [backend_at_nil] at h
    simp only [DirectoryNode.p_directory, Option.some.injEq] at h
    exact ⟨rfl, h.symm⟩
  | cons k t =>
    rw [backend_at_no_child (DirectoryNode.mk (some a) []) k t rfl] at h
    cases h

theorem tree_ok_leaf (bs : List DirectoryZIP) :
    TreeOk (DirectoryNode.mk (some bs.length) []) (bs ++ [⟨[]⟩]) := by
  refine ⟨?_, ?_, ?_⟩
  · intro t ht
    cases t with
    | nil => rw [backend_at_nil]; rfl
    | cons k t =>
      rw [dir_node_at_no_child (DirectoryNode.mk (some bs.length) []) k t rfl] at ht
      cases ht
  · intro t a ht
    obtain ⟨_, rfl⟩ := backend_at_leaf _ t a ht
    simp
  · intro t1 t2 a h1 h2
    obtain ⟨rfl, _⟩ := backend_at_leaf _ t1 a h1
    obtain ⟨rfl, _⟩ := backend_at_leaf _ t2 a h2
    rfl

theorem make_directories_ok : ∀ (ks : List (List Char)) (node : DirectoryNode)
    (bs : List DirectoryZIP), TreeOk node bs →
    MadeFrom node bs ks (make_directories node bs ks).1 (make_directories node bs ks).2 := by
  intro ks
  induction ks with
  | nil =>
    intro node bs hok
    refine ⟨hok, Nat.le_refl _, fun _ _ => rfl, fun a h1 h2 => ?_, fun _ _ h => h,
      fun _ _ h => Or.inl h, fun i => ?_⟩
    · simp only [make_directories] at h2
      omega
    · simp only [List.take_nil]
      exact hok.present [] (by rw [dir_node_at_nil]; rfl)
  | cons k ks ih =>
    intro node bs hok
    rw [make_directories_cons]
    cases hc : sub_directories_find node.sub_directories k with
    | some child =>
      simp only
      have hm := ih child bs (tree_ok_child node child bs k hok hc)
      refine made_from_step node bs k ks _ _ hok hm.ok hm.longer hm.old hm.fresh ?_ ?_ hm.chain
      · intro t a h
        rw [backend_at_child node child k t hc] at h
        exact hm.kept t a h
      · intro t a h
        rw [backend_at_child node child k t hc]
        exact hm.origin t a h
    | none =>
      simp only
      have hm := ih (.mk (some bs.length) []) (bs ++ [⟨[]⟩]) (tree_ok_leaf bs)
      have hlen : (bs ++ [(⟨[]⟩ : DirectoryZIP)]).length = bs.length + 1 := by simp
      refine made_from_step node bs k ks _ _ hok hm.ok (by have := hm.longer; omega) ?_ ?_ ?_ ?_
        hm.chain
      · intro a ha
        rw [hm.old a (by omega), List.get?_eq_getElem?, List.get?_eq_getElem?,
          List.getElem?_append_left ha]
      · intro a h1 h2
        by_cases ha : a = bs.length
        · subst ha
          rw [hm.old _ (by omega), List.get?_eq_getElem?]
          simp
        · exact hm.fresh a (by omega) h2
      · intro t a h
        rw [backend_at_no_child node k t hc] at h
        cases h
      · intro t a h
        refine Or.inr ⟨?_, backend_at_no_child node k t hc⟩
        rcases hm.origin t a h with h1 | ⟨h1, _⟩
        · obtain ⟨_, rfl⟩ := backend_at_leaf _ t a h1
          exact Nat.le_refl _
        · omega

/-- The method `add_file` through the reference: the folders of the path are made, and the
file is registered in the backend of the last one when its name is not empty. -/
theorem add_file_eq (pkg : PackageZIP) (path : List Char) (info : ZipFileInfo) :
    pkg.add_file path info =
      match (make_directories pkg.m_root_directory pkg.m_backends
          (path_segments (split_path path).1)).1.backend_at (path_segments (split_path path).1) with
      | none =>
        ({ pkg with
            m_root_directory := (make_directories pkg.m_root_directory pkg.m_backends
              (path_segments (split_path path).1)).1,
            m_backends := (make_directories pkg.m_root_directory pkg.m_backends
              (path_segments (split_path path).1)).2 }, -1)
      | some a =>
        if (split_path path).2 = [] then
          ({ pkg with
            m_root_directory := (make_directories pkg.m_root_directory pkg.m_backends
              (path_segments (split_path path).1)).1,
            m_backends := (make_directories pkg.m_root_directory pkg.m_backends
              (path_segments (split_path path).1)).2 }, -1)
        else
          ({ pkg with
            m_root_directory := (make_directories pkg.m_root_directory pkg.m_backends
              (path_segments (split_path path).1)).1,
            m_file_info := pkg.m_file_info ++ [info],
            m_backends := PackageZIP.backends_add_file
              (make_directories pkg.m_root_directory pkg.m_backends
                (path_segments (split_path path).1)).2 a (split_path path).2
              (to_int32 pkg.m_file_info.length) }, to_int32 pkg.m_file_info.length) := by
  unfold PackageZIP.add_file split_path
  cases hf : find_last_of path with
  | none =>
    simp only [path_segments_nil, make_directories, backend_at_nil]
    cases hp : pkg.m_root_directory.p_directory with
    | none => rfl
    | some a => rfl
  | some pos =>
    simp only [get_directory_create]
    have e : ∀ (q : PackageZIP) (ks : List (List Char)),
        q.backend_of ks = q.m_root_directory.backend_at ks := fun _ _ => rfl
    rw [e]
    simp only
    cases hb : (make_directories pkg.m_root_directory pkg.m_backends
        (path_segments (path.take pos))).1.backend_at (path_segments (path.take pos)) with
    | none => rfl
    | some a => rfl

theorem get_file_id_add_file (d : DirectoryZIP) (name nm : List Char) (id : Int)
    (hn : name ≠ []) (hid : 0 ≤ id) :
    (d.add_file name id).get_file_id nm =
      if lower name = lower nm then id else d.get_file_id nm := by
  unfold DirectoryZIP.add_file DirectoryZIP.get_file_id
  rw [if_pos ⟨hn, hid⟩]
  simp only [files_find_eq, files_set_eq, map_find_set]
  by_cases h : lower name = lower nm
  · simp only [h, if_true]
  · simp only [h, if_false]

theorem take_length_self {A : Type} (l : List A) : l.take l.length = l := List.take_length l

/-- What `add_file` does on a tree in which every node holds its own backend, for a path
whose file name is not empty. -/
theorem add_file_ok (pkg : PackageZIP) (path : List Char) (info : ZipFileInfo)
    (hok : TreeOk pkg.m_root_directory pkg.m_backends)
    (hlen : pkg.m_file_info.length + 1 < 2 ^ 31) (hname : (split_path path).2 ≠ []) :
    (pkg.add_file path info).2 = (pkg.m_file_info.length : Int) ∧
    (pkg.add_file path info).1.m_file_info = pkg.m_file_info ++ [info] ∧
    TreeOk (pkg.add_file path info).1.m_root_directory (pkg.add_file path info).1.m_backends ∧
    (∀ i, ∃ a, (pkg.add_file path info).1.backend_of
        ((path_segments (split_path path).1).take i) = some a ∧
      a < (pkg.add_file path info).1.m_backends.length) ∧
    (pkg.add_file path info).1.file_id_at (path_segments (split_path path).1)
      (split_path path).2 = (pkg.m_file_info.length : Int) ∧
    (∀ ks nm, ¬ (ks = path_segments (split_path path).1 ∧
        lower nm = lower (split_path path).2) →
      (pkg.add_file path info).1.file_id_at ks nm = pkg.file_id_at ks nm) := by
  have hm := make_directories_ok (path_segments (split_path path).1) pkg.m_root_directory
    pkg.m_backends hok
  generalize hks : path_segments (split_path path).1 = ks at hm
  generalize hname' : (split_path path).2 = name at hname
  generalize hr : make_directories pkg.m_root_directory pkg.m_backends ks = r at hm
  have hchain := hm.chain ks.length
  rw [take_length_self] at hchain
  obtain ⟨a, ha⟩ := Option.isSome_iff_exists.mp hchain
  have hab := hm.ok.bound ks a ha
  obtain ⟨d, hd⟩ : ∃ d, r.2.get? a = some d := by
    rw [List.get?_eq_getElem?]
    exact ⟨_, List.getElem?_eq_getElem hab⟩
  have hn32 : to_int32 pkg.m_file_info.length = (pkg.m_file_info.length : Int) :=
    to_int32_small _ (by omega)
  have hadd : pkg.add_file path info =
      ({ pkg with m_root_directory := r.1, m_file_info := pkg.m_file_info ++ [info],
                  m_backends := r.2.set a (d.add_file name (pkg.m_file_info.length : Int)) },
        (pkg.m_file_info.length : Int)) := by
    rw [add_file_eq, hks, hname', hr, ha]
    simp only
    rw [if_neg hname, hn32]
    simp only [PackageZIP.backends_add_file, hd]
  rw [hadd]
  simp only
  have hbo : ∀ (q : PackageZIP) (ks : List (List Char)),
      q.backend_of ks = q.m_root_directory.backend_at ks := fun _ _ => rfl
  refine ⟨trivial, trivial, ⟨hm.ok.present, ?_, hm.ok.inj⟩, ?_, ?_, ?_⟩
  · intro ks1 b hb
    rw [List.length_set]
    exact hm.ok.bound ks1 b hb
  · intro i
    obtain ⟨b, hb⟩ := Option.isSome_iff_exists.mp (hm.chain i)
    refine ⟨b, ?_, ?_⟩
    · rw [hbo]; exact hb
    · rw [List.length_set]
      exact hm.ok.bound _ b hb
  · unfold PackageZIP.file_id_at
    rw [hbo]
    simp only [ha, List.get?_eq_getElem?, List.getElem?_set_self hab]
    rw [get_file_id_add_file d name name _ hname (by omega), if_pos rfl]
  · intro ks1 nm hne
    unfold PackageZIP.file_id_at
    rw [hbo, hbo]
    simp only
    cases hb1 : r.1.backend_at ks1 with
    | none =>
      cases hb0 : pkg.m_root_directory.backend_at ks1 with
      | none => rfl
      | some b0 =>
        have := hm.kept ks1 b0 hb0
        rw [hb1] at this
        cases this
    | some b =>
      have hbb := hm.ok.bound ks1 b hb1
      simp only [List.get?_eq_getElem?]
      by_cases hba : a = b
      · subst hba
        have hk : ks1 = ks := hm.ok.inj ks1 ks a hb1 ha
        subst hk
        have hnm : ¬ lower name = lower nm := fun h => hne ⟨rfl, h.symm⟩
        rw [List.getElem?_set_self hab]
        simp only
        rw [get_file_id_add_file d name nm _ hname (by omega), if_neg hnm]
        rcases hm.origin ks1 a hb1 with o | ⟨o1, o2⟩
        · rw [o]
          simp only
          have hlt := hok.bound ks1 a o
          have := hm.old a hlt
          rw [hd, List.get?_eq_getElem?] at this
          rw [← this]
        · rw [o2]
          simp only
          have := hm.fresh a o1 hab
          rw [hd] at this
          injection this with this
          rw [this]
          rfl
      · rw [List.getElem?_set_ne hba]
        rcases hm.origin ks1 b hb1 with o | ⟨o1, o2⟩
        · rw [o]
          simp only
          have hlt := hok.bound ks1 b o
          have := hm.old b hlt
          rw [List.get?_eq_getElem?, List.get?_eq_getElem?] at this
          rw [this]
        · rw [o2]
          simp only
          have := hm.fresh b o1 hbb
          rw [List.get?_eq_getElem?] at this
          rw [this]
          rfl

/-- The file table after `add_file` with a file name that is not empty. -/
theorem add_file_table (pkg : PackageZIP) (path : List Char) (info : ZipFileInfo)
    (hok : TreeOk pkg.m_root_directory pkg.m_backends)
    (hlen : pkg.m_file_info.length + 1 < 2 ^ 31) (hname : (split_path path).2 ≠ []) :
    (pkg.add_file path info).1.m_file_info = pkg.m_file_info ++ [info] ∧
    (pkg.add_file path info).1.get_file_info (pkg.m_file_info.length : Int) = some info := by
  obtain ⟨h1, h2, h3, h4, h5, h6⟩ := add_file_ok pkg path info hok hlen hname
  refine ⟨h2, ?_⟩
  rw [get_file_info_eq _ _ (by rw [h2]; simp; omega), h2]
  have hc : (0 : Int) ≤ (pkg.m_file_info.length : Int) ∧
      (pkg.m_file_info.length : Int) < ((pkg.m_file_info ++ [info]).length : Int) := by
    simp
  rw [if_pos hc]
  simp [List.get?_eq_getElem?]

/-- What `add_file` does for a path whose file name is empty (the empty path, or a path that
ends in `/`): the folders are made and no file is registered. -/
theorem add_file_no_name (pkg : PackageZIP) (path : List Char) (info : ZipFileInfo)
    (hok : TreeOk pkg.m_root_directory pkg.m_backends) (hname : (split_path path).2 = []) :
    (pkg.add_file path info).2 = -1 ∧
    (pkg.add_file path info).1.m_file_info = pkg.m_file_info ∧
    TreeOk (pkg.add_file path info).1.m_root_directory (pkg.add_file path info).1.m_backends ∧
    (∀ ks nm, (pkg.add_file path info).1.file_id_at ks nm = pkg.file_id_at ks nm) := by
  have hm := make_directories_ok (path_segments (split_path path).1) pkg.m_root_directory
    pkg.m_backends hok
  generalize hks : path_segments (split_path path).1 = ks at hm
  generalize hr : make_directories pkg.m_root_directory pkg.m_backends ks = r at hm
  have hchain := hm.chain ks.length
  rw [take_length_self] at hchain
  obtain ⟨a, ha⟩ := Option.isSome_iff_exists.mp hchain
  have hadd : pkg.add_file path info =
      ({ pkg with m_root_directory := r.1, m_backends := r.2 }, -1) := by
    rw [add_file_eq, hks, hr, ha]
    simp only
    rw [if_pos hname]
  rw [hadd]
  simp only
  have hbo : ∀ (q : PackageZIP) (ks : List (List Char)),
      q.backend_of ks = q.m_root_directory.backend_at ks := fun _ _ => rfl
  refine ⟨trivial, trivial, hm.ok, ?_⟩
  intro ks1 nm
  unfold PackageZIP.file_id_at
  rw [hbo, hbo]
  simp only
  cases hb1 : r.1.backend_at ks1 with
  | none =>
    cases hb0 : pkg.m_root_directory.backend_at ks1 with
    | none => rfl
    | some b0 =>
      have := hm.kept ks1 b0 hb0
      rw [hb1] at this
      cases this
  | some b =>
    have hbb := hm.ok.bound ks1 b hb1
    rcases hm.origin ks1 b hb1 with o | ⟨o1, o2⟩
    · rw [o]
      simp only
      rw [hm.old b (hok.bound ks1 b o)]
    · rw [o2]
      simp only
      rw [hm.fresh b o1 hbb]
      rfl

/-! ## Lemmas on the walk over the central directory -/

theorem read_not_failed (s : IfStream) (n : Nat) (hn : 0 < n)
    (h : (s.read n).1.failbit = false) :
    s.failbit = false ∧ s.eofbit = false ∧ s.pos + n ≤ s.file.size ∧
      (s.read n).2 = s.file.slice s.pos n ∧ (s.read n).1.pos = s.pos + n ∧
      (s.read n).1.eofbit = false := by
  unfold IfStream.read at h ⊢
  by_cases hc : (s.failbit || s.eofbit) = true
  · rw [if_pos hc] at h
    simp at h
  · rw [if_neg hc] at h ⊢
    simp only [Bool.or_eq_true, not_or, Bool.not_eq_true] at hc
    simp only [decide_eq_false_iff_not, Nat.not_lt] at h
    have hl : (s.file.slice s.pos n).length = min n (s.file.size - s.pos) := by
      simp [HostFile.slice]
    have hle : s.pos + n ≤ s.file.size := by omega
    have hl2 : (s.file.slice s.pos n).length = n := by omega
    refine ⟨hc.1, hc.2, hle, rfl, ?_, ?_⟩
    · simp only [hl2]
    · simp only [hl2, Nat.lt_irrefl, decide_False]

theorem read_file (s : IfStream) (n : Nat) : (s.read n).1.file = s.file := by
  unfold IfStream.read
  split <;> rfl

theorem seekg_file (s : IfStream) (off : Int) : (s.seekg off).file = s.file := by
  unfold IfStream.seekg
  split
  · rfl
  · split <;> rfl

theorem seekg_not_failed (s : IfStream) (off : Nat) (h : (s.seekg (off : Int)).failbit = false) :
    s.failbit = false ∧ (s.seekg (off : Int)).pos = off := by
  unfold IfStream.seekg at h ⊢
  by_cases hf : s.failbit = true
  · rw [if_pos hf] at h
    simp only at h
    rw [hf] at h
    exact absurd h (by decide)
  · have hf2 : s.failbit = false := by simpa using hf
    have hneg : ¬ ((off : Int) < 0) := by omega
    rw [if_neg hf, if_neg hneg]
    exact ⟨hf2, by simp⟩

theorem slice_byte_lt (file : HostFile) (pos n : Nat) (hb : ∀ i, file.byte i < 256) :
    ∀ b ∈ file.slice pos n, b < 256 := by
  intro b hmem
  unfold HostFile.slice at hmem
  obtain ⟨i, _, rfl⟩ := List.mem_map.mp hmem
  exact hb _

theorem getD_lt (l : List Nat) (i : Nat) (h : ∀ b ∈ l, b < 256) : l.getD i 0 < 256 := by
  rw [List.getD_eq_getElem?_getD]
  cases hg : l[i]? with
  | none => simp
  | some b =>
    simp only [Option.getD_some]
    obtain ⟨hi, he⟩ := List.getElem?_eq_some.mp hg
    exact h b (he ▸ List.getElem_mem hi)

theorem le16_lt (l : List Nat) (off : Nat) (h : ∀ b ∈ l, b < 256) : le16 l off < 2 ^ 16 := by
  unfold le16
  have h1 := getD_lt l off h
  have h2 := getD_lt l (off + 1) h
  omega

/-- A pass of the walk keeps the file, and a pass that does not end the walk found a whole
record at `offset` and moves `offset` forward by at least 46 bytes, without wrapping. -/
theorem step_progress (w : ZipWalk) (hL : w.zip_file.file.size < 2 ^ 32 - 2 ^ 18)
    (hb : ∀ i, w.zip_file.file.byte i < 256) :
    w.step.1.zip_file.file = w.zip_file.file ∧
    (w.step.2 = false → w.offset + 46 ≤ w.zip_file.file.size ∧
      w.offset + 46 ≤ w.step.1.offset ∧
      w.step.1.offset = w.offset + (46 +
        (zip_dir_entry.decode (w.zip_file.file.slice (w.offset + 4) 42)).filename_size +
        (zip_dir_entry.decode (w.zip_file.file.slice (w.offset + 4) 42)).extra_size +
        (zip_dir_entry.decode (w.zip_file.file.slice (w.offset + 4) 42)).comment_size)) := by
  obtain ⟨s, o, fh, pkg⟩ := w
  simp only at hL hb ⊢
  unfold ZipWalk.step
  simp only
  by_cases c1 : (!((s.seekg (o : Int)).read 4).1.failbit &&
      ((s.seekg (o : Int)).read 4).2 == [0x50, 0x4B, 1, 2]) = true
  · rw [if_pos c1]
    simp only [Bool.and_eq_true, Bool.not_eq_true', beq_iff_eq] at c1
    obtain ⟨f1, _, p1, _, q1, e1⟩ := read_not_failed (s.seekg (o : Int)) 4 (by decide) c1.1
    obtain ⟨_, hpo⟩ := seekg_not_failed s o f1
    rw [hpo, seekg_file] at p1
    rw [hpo] at q1
    by_cases c2 : (!(((s.seekg (o : Int)).read 4).1.read sizeof_dir_entry).1.failbit) = true
    · rw [if_pos c2]
      simp only [Bool.not_eq_true'] at c2
      obtain ⟨_, _, p2, d2, _, _⟩ := read_not_failed _ sizeof_dir_entry (by decide) c2
      rw [q1, read_file, seekg_file] at p2
      rw [q1, read_file, seekg_file] at d2
      simp only [sizeof_dir_entry] at p2 d2 ⊢
      rw [d2]
      generalize hde : zip_dir_entry.decode (s.file.slice (o + 4) 42) = de
      have hbs := slice_byte_lt s.file (o + 4) 42 hb
      have b1 : de.filename_size < 2 ^ 16 := by
        rw [← hde]; exact le16_lt _ _ hbs
      have b2 : de.extra_size < 2 ^ 16 := by
        rw [← hde]; exact le16_lt _ _ hbs
      have b3 : de.comment_size < 2 ^ 16 := by
        rw [← hde]; exact le16_lt _ _ hbs
      have hu : u32 (o + (42 + 4 + de.filename_size + de.extra_size + de.comment_size)) =
          o + (46 + de.filename_size + de.extra_size + de.comment_size) := by
        rw [u32_small _ (by omega)]
      simp only [hu]
      split
      · split
        · refine ⟨?_, fun _ => ⟨by omega, ?_, rfl⟩⟩
          · simp only [read_file, seekg_file]
          · simp only; omega
        · refine ⟨?_, fun _ => ⟨by omega, ?_, rfl⟩⟩
          · simp only [read_file, seekg_file]
          · simp only; omega
      · refine ⟨?_, fun h => ?_⟩
        · simp only [read_file, seekg_file]
        · simp at h
    · rw [if_neg c2]
      refine ⟨?_, fun h => ?_⟩
      · simp only [read_file, seekg_file]
      · simp at h
  · rw [if_neg c1]
    refine ⟨?_, fun h => ?_⟩
    · simp only [read_file, seekg_file]
    · simp at h

theorem run_ends (n : Nat) (w : ZipWalk) (hL : w.zip_file.file.size < 2 ^ 32 - 2 ^ 18)
    (hb : ∀ i, w.zip_file.file.byte i < 256)
    (hn : (w.zip_file.file.size - w.offset) / 46 < n) :
    ∃ w1, ZipWalk.run n w = .ok w1 ∧ w1.zip_file.file = w.zip_file.file := by
  induction n generalizing w with
  | zero => omega
  | succ n ih =>
    obtain ⟨hfile, hstep⟩ := step_progress w hL hb
    rw [ZipWalk.run]
    by_cases hfin : w.step.2 = true
    · rw [if_pos hfin]
      exact ⟨_, rfl, hfile⟩
    · rw [if_neg hfin]
      have hfin2 : w.step.2 = false := by simpa using hfin
      obtain ⟨h1, h2, _⟩ := hstep hfin2
      have hlt : (w.step.1.zip_file.file.size - w.step.1.offset) / 46 < n := by
        rw [hfile]
        have e : w.zip_file.file.size - w.offset =
            (w.zip_file.file.size - w.offset - 46) + 46 := by omega
        have h3 : (w.zip_file.file.size - w.offset) / 46 =
            (w.zip_file.file.size - w.offset - 46) / 46 + 1 := by
          rw [e, Nat.add_div_right _ (by decide)]
          simp
        have h4 : (w.zip_file.file.size - w.step.1.offset) / 46 ≤
            (w.zip_file.file.size - w.offset - 46) / 46 :=
          Nat.div_le_div_right (by omega)
        omega
      obtain ⟨w1, hr, hf1⟩ := ih w.step.1 (by rw [hfile]; exact hL)
        (by rw [hfile]; exact hb) hlt
      exact ⟨w1, hr, by rw [hf1, hfile]⟩

theorem step_record (w : ZipWalk) (hf : w.zip_file.failbit = false)
    (h1 : w.offset + 46 + w.entry_at.filename_size ≤ w.zip_file.file.size)
    (hs1 : w.zip_file.file.slice w.offset 4 = [0x50, 0x4B, 1, 2])
    (h2 : w.entry_at.file_offset + 30 ≤ w.zip_file.file.size)
    (hs2 : w.zip_file.file.slice w.entry_at.file_offset 4 = [0x50, 0x4B, 3, 4])
    (hsize32 : w.zip_file.file.size < 2 ^ 32) :
    w.step.2 = false ∧
    w.step.1.pkg = (if w.local_header_at.size_uncompressed ≠ 0 then
      (w.pkg.add_file w.name_at
        (scan_info w.entry_at.file_offset (w.offset + 4) w.local_header_at)).1 else w.pkg) ∧
    w.step.1.offset = u32 (w.offset + (46 + w.entry_at.filename_size +
      w.entry_at.extra_size + w.entry_at.comment_size)) := by
  obtain ⟨s, o, fh, pkg⟩ := w
  unfold ZipWalk.local_header_at ZipWalk.name_at ZipWalk.entry_at at *
  simp only [sizeof_dir_entry, sizeof_zipfile_header] at hf h1 hs1 h2 hs2 hsize32 ⊢
  generalize hde : zip_dir_entry.decode (s.file.slice (o + 4) 42) = de at h1 h2 hs2 ⊢
  have r1 : (s.seekg (o : Int)).read 4 =
      (⟨s.file, o + 4, false, false, 4⟩, [0x50, 0x4B, 1, 2]) := by
    rw [seekg_read_ok s o 4 hf (by omega), hs1]
  have r2 : (IfStream.mk s.file (o + 4) false false 4).read sizeof_dir_entry =
      (⟨s.file, o + 46, false, false, 42⟩, s.file.slice (o + 4) 42) := by
    rw [read_ok _ _ rfl rfl (by show o + 4 + 42 ≤ s.file.size; omega)]
    rfl
  have r3 : (IfStream.mk s.file (o + 46) false false 42).read de.filename_size =
      (⟨s.file, o + 46 + de.filename_size, false, false, de.filename_size⟩,
        s.file.slice (o + 46) de.filename_size) := by
    rw [read_ok _ _ rfl rfl (by show o + 46 + de.filename_size ≤ s.file.size; omega)]
  have r4 : ((IfStream.mk s.file (o + 46 + de.filename_size) false false
      de.filename_size).seekg (de.file_offset : Int)).read 4 =
      (⟨s.file, de.file_offset + 4, false, false, 4⟩, [0x50, 0x4B, 3, 4]) := by
    rw [seekg_read_ok _ de.file_offset 4 rfl (by show de.file_offset + 4 ≤ s.file.size; omega)]
    simp only [hs2]
  have r5 : (IfStream.mk s.file (de.file_offset + 4) false false 4).read
      sizeof_zipfile_header =
      (⟨s.file, de.file_offset + 30, false, false, 26⟩, s.file.slice (de.file_offset + 4) 26) := by
    rw [read_ok _ _ rfl rfl (by show de.file_offset + 4 + 26 ≤ s.file.size; omega)]
    rfl
  have hl3 : (s.file.slice (o + 46) de.filename_size).length = de.filename_size :=
    slice_length _ _ _ (by omega)
  have hl5 : (s.file.slice (de.file_offset + 4) 26).length = 26 :=
    slice_length _ _ _ (by omega)
  have hpos : u32 (o + 4) = o + 4 := u32_small _ (by omega)
  unfold ZipWalk.step
  simp only [r1, Bool.not_false, Bool.true_and, beq_self_eq_true, if_true, r2, hde, r3, hl3,
    Nat.sub_self, List.replicate_zero, List.append_nil, r4, r5, hl5, hpos]
  rw [zip_file_header_decode_append _ _ hl5]
  by_cases hne : (zip_file_header.decode (s.file.slice (de.file_offset + 4) 26)).size_uncompressed
      ≠ 0
  · rw [if_pos hne, if_pos hne]
    exact ⟨rfl, rfl, rfl⟩
  · rw [if_neg hne, if_neg hne]
    exact ⟨rfl, rfl, rfl⟩

theorem ofList_byte_lt (bytes : List Nat) (h : bytes.all (fun b => decide (b < 256)) = true) :
    ∀ i, (HostFile.ofList bytes).byte i < 256 := by
  intro i
  apply getD_lt
  intro b hb
  have := List.all_eq_true.mp h b hb
  simpa using this

/-! ## Lemmas on sequences of calls on a GCF handle -/

theorem lays_out_file (dirinfo : DirectoryInfo) (idx i : Nat) (next : EntryTree)
    (h : dirinfo.lays_out idx (.file i next) = true) :
    idx = i ∧ i ≠ 0 ∧ ∃ e nm, dirinfo.entry i = .ok e ∧ dirinfo.name e.NameOffset = .ok nm ∧
      e.DirectoryType ≠ 0 ∧ i < dirinfo.dir_map.length ∧
      dirinfo.lays_out e.NextIndex next = true := by
  rw [DirectoryInfo.lays_out] at h
  simp only [Bool.and_eq_true, beq_iff_eq, bne_iff_ne, ne_eq] at h
  obtain ⟨⟨h1, h2⟩, h3⟩ := h
  refine ⟨h1, h2, ?_⟩
  cases he : dirinfo.entry i with
  | error x => rw [he] at h3; cases h3
  | ok e =>
    rw [he] at h3
    simp only [Bool.and_eq_true, bne_iff_ne, ne_eq, decide_eq_true_eq] at h3
    obtain ⟨⟨⟨h4, h5⟩, h6⟩, h7⟩ := h3
    cases hn : dirinfo.name e.NameOffset with
    | error x => rw [hn] at h4; cases h4
    | ok nm => exact ⟨e, nm, rfl, hn, h5, h6, h7⟩

theorem lays_out_folder (dirinfo : DirectoryInfo) (idx i : Nat) (first next : EntryTree)
    (h : dirinfo.lays_out idx (.folder i first next) = true) :
    idx = i ∧ i ≠ 0 ∧ ∃ e nm, dirinfo.entry i = .ok e ∧ dirinfo.name e.NameOffset = .ok nm ∧
      e.DirectoryType = 0 ∧ dirinfo.lays_out e.FirstIndex first = true ∧
      dirinfo.lays_out e.NextIndex next = true := by
  rw [DirectoryInfo.lays_out] at h
  simp only [Bool.and_eq_true, beq_iff_eq, bne_iff_ne, ne_eq] at h
  obtain ⟨⟨h1, h2⟩, h3⟩ := h
  refine ⟨h1, h2, ?_⟩
  cases he : dirinfo.entry i with
  | error x => rw [he] at h3; cases h3
  | ok e =>
    rw [he] at h3
    simp only [Bool.and_eq_true, beq_iff_eq] at h3
    obtain ⟨⟨⟨h4, h5⟩, h6⟩, h7⟩ := h3
    cases hn : dirinfo.name e.NameOffset with
    | error x => rw [hn] at h4; cases h4
    | ok nm => exact ⟨e, nm, rfl, hn, h5, h6, h7⟩

theorem entry_of_eq (dirinfo : DirectoryInfo) (i : Nat) (e : GCFDirectoryEntry)
    (h : dirinfo.entry i = .ok e) : dirinfo.entry_of i = e := by
  simp only [DirectoryInfo.entry_of, h]

theorem name_of_eq (dirinfo : DirectoryInfo) (i : Nat) (e : GCFDirectoryEntry) (nm : List Char)
    (h : dirinfo.entry i = .ok e) (hn : dirinfo.name e.NameOffset = .ok nm) :
    dirinfo.name_of i = nm := by
  simp only [DirectoryInfo.name_of, entry_of_eq dirinfo i e h, hn]

theorem cost_pos (t : EntryTree) : 0 < t.cost := by
  cases t <;> simp only [EntryTree.cost] <;> omega

theorem getD_of_lt (l : List Nat) (i : Nat) (h : i < l.length) :
    l.get? i = some (l.getD i 0) := by
  rw [List.get?_eq_getElem?, List.getD_eq_getElem?_getD, List.getElem?_eq_getElem h]
  rfl

theorem gcf_backends_add_file_eq (bs : List DirectoryGCF) (p : Nat) (d : DirectoryGCF)
    (nm : List Char) (index size id : Nat) (h : bs.get? p = some d) :
    gcf_backends_add_file bs p nm index size id = bs.set p (d.add_file nm index size id) := by
  simp only [gcf_backends_add_file, h]

theorem get?_lt {A : Type} (l : List A) (i : Nat) (a : A) (h : l.get? i = some a) :
    i < l.length := by
  rw [List.get?_eq_getElem?] at h
  exact (List.getElem?_eq_some.mp h).1

theorem scan_entries_spec (dirinfo : DirectoryInfo) :
    ∀ (t : EntryTree) (fuel entry_index p_dir : Nat) (pkg : PackageGCF)
      (bs : List DirectoryGCF) (subs : List (List Char × DirectoryNode)) (d : DirectoryGCF),
      dirinfo.lays_out entry_index t = true → dirinfo.distinct_names t = true →
      t.cost ≤ fuel → bs.get? p_dir = some d →
      pkg.m_file_info.length + t.files.length ≤ 2 ^ 32 →
      ∃ bs1 subs1 d1,
        scan_entries fuel dirinfo entry_index p_dir pkg bs subs =
          .ok ({ pkg with m_file_info := pkg.m_file_info ++ t.files.map dirinfo.info_of },
            bs1, subs1) ∧
        ScannedEntries dirinfo t p_dir pkg bs subs d bs1 subs1 d1 := by
  intro t
  induction t with
  | done =>
    intro fuel entry_index p_dir pkg bs subs d hl _ hfuel hd _
    rw [DirectoryInfo.lays_out] at hl
    have h0 : entry_index = 0 := by simpa using hl
    subst h0
    obtain ⟨f, rfl⟩ : ∃ f, fuel = f + 1 := ⟨fuel - 1, by simp only [EntryTree.cost] at hfuel; omega⟩
    refine ⟨bs, subs, d, ?_, Nat.le_refl _, fun _ _ _ => rfl, hd, fun _ _ => rfl,
      fun _ _ => rfl, fun _ _ => trivial⟩
    rw [scan_entries]
    simp [EntryTree.files]
  | file i next ih =>
    intro fuel entry_index p_dir pkg bs subs d hl hdist hfuel hd hcount
    obtain ⟨rfl, hi0, e, nm, he, hn, hty, hmap, hnext⟩ := lays_out_file dirinfo _ i next hl
    obtain ⟨f, rfl⟩ : ∃ f, fuel = f + 1 := ⟨fuel - 1, by simp only [EntryTree.cost] at hfuel; omega⟩
    simp only [EntryTree.cost] at hfuel
    simp only [EntryTree.files, List.length_cons] at hcount
    rw [DirectoryInfo.distinct_names] at hdist
    simp only [Bool.and_eq_true, List.all_eq_true, bne_iff_ne, ne_eq] at hdist
    obtain ⟨hd1, hd2⟩ := hdist
    have hname := name_of_eq dirinfo entry_index e nm he hn
    have hentry := entry_of_eq dirinfo entry_index e he
    have hp := get?_lt bs p_dir d hd
    have hid : u32 pkg.m_file_info.length = pkg.m_file_info.length := u32_small _ (by omega)
    have hd' : (bs.set p_dir (d.add_file nm (dirinfo.dir_map.getD entry_index 0) e.ItemSize
        pkg.m_file_info.length)).get? p_dir =
        some (d.add_file nm (dirinfo.dir_map.getD entry_index 0) e.ItemSize
          pkg.m_file_info.length) := by
      rw [List.get?_eq_getElem?, List.getElem?_set_self hp]
    obtain ⟨bs1, subs1, d1, hrun, hs⟩ := ih f e.NextIndex p_dir
      { pkg with m_file_info := pkg.m_file_info ++
          [(e.ItemSize, dirinfo.dir_map.getD entry_index 0)] }
      (bs.set p_dir (d.add_file nm (dirinfo.dir_map.getD entry_index 0) e.ItemSize
        pkg.m_file_info.length)) subs _ hnext hd2 (by omega) hd'
      (by simp only [List.length_append, List.length_singleton]; omega)
    have hlen1 : (bs.set p_dir (d.add_file nm (dirinfo.dir_map.getD entry_index 0) e.ItemSize
        pkg.m_file_info.length)).length = bs.length := List.length_set _ _ _
    refine ⟨bs1, subs1, d1, ?_, ?_, ?_, hs.backend, ?_, ?_, ?_⟩
    · rw [scan_entries]
      simp only [hi0, if_false, he, hn, ne_eq, hty, not_false_eq_true, if_true,
        getD_of_lt _ _ hmap, PackageGCF.add_file, hid,
        gcf_backends_add_file_eq bs p_dir d _ _ _ _ hd]
      rw [hrun]
      simp only [EntryTree.files, List.map_cons, DirectoryInfo.info_of, hentry,
        List.append_assoc, List.singleton_append]
    · have := hs.longer
      omega
    · intro a ha hne
      rw [hs.others a (by omega) hne, List.get?_eq_getElem?, List.get?_eq_getElem?,
        List.getElem?_set_ne (Ne.symm hne)]
    · intro key hkey
      have h1 := hs.files_kept key (fun j hj => hkey j (by
        simp only [EntryTree.siblings, List.mem_cons]; exact Or.inr hj))
      rw [h1]
      have h2 : lower nm ≠ key := by
        have := hkey entry_index (by simp [EntryTree.siblings])
        rwa [hname] at this
      simp only [DirectoryGCF.add_file, map_find_set, if_neg h2]
    · intro key hkey
      exact hs.subs_kept key (fun j hj => hkey j (by
        simp only [EntryTree.siblings, List.mem_cons]; exact Or.inr hj))
    · intro bs2 hbs2
      rw [DirectoryInfo.holds]
      refine ⟨?_, ?_⟩
      · have h1 := hs.files_kept (lower (dirinfo.name_of entry_index)) (fun j hj => hd1 j hj)
        rw [h1, hname, hentry]
        simp only [DirectoryGCF.add_file, map_find_set, if_true]
      · have := hs.holds bs2 (fun a h1 h2 => hbs2 a (by omega) h2)
        simpa only [List.length_append, List.length_singleton] using this
  | folder i first next ih1 ih2 =>
    intro fuel entry_index p_dir pkg bs subs d hl hdist hfuel hd hcount
    obtain ⟨rfl, hi0, e, nm, he, hn, hty, hfirst, hnext⟩ :=
      lays_out_folder dirinfo _ i first next hl
    simp only [EntryTree.cost] at hfuel
    have hc1 := cost_pos first
    have hc2 := cost_pos next
    obtain ⟨f, rfl⟩ : ∃ f, fuel = f + 1 + 1 := ⟨fuel - 2, by omega⟩
    simp only [EntryTree.files, List.length_append] at hcount
    rw [DirectoryInfo.distinct_names] at hdist
    simp only [Bool.and_eq_true, List.all_eq_true, bne_iff_ne, ne_eq] at hdist
    obtain ⟨⟨hd1, hd2⟩, hd3⟩ := hdist
    have hname := name_of_eq dirinfo entry_index e nm he hn
    have hp := get?_lt bs p_dir d hd
    have hnew : (bs ++ [(⟨[]⟩ : DirectoryGCF)]).get? bs.length = some ⟨[]⟩ := by
      rw [List.get?_eq_getElem?]
      simp
    have hlenA : (bs ++ [(⟨[]⟩ : DirectoryGCF)]).length = bs.length + 1 := by simp
    obtain ⟨bsA, subsA, dA, hrunA, hsA⟩ := ih1 f e.FirstIndex bs.length pkg
      (bs ++ [⟨[]⟩]) [] ⟨[]⟩ hfirst hd2 (by omega) hnew (by omega)
    have hdA : bsA.get? p_dir = some d := by
      rw [hsA.others p_dir (by omega) (by omega), List.get?_eq_getElem?,
        List.getElem?_append_left hp, ← List.get?_eq_getElem?]
      exact hd
    obtain ⟨bs1, subs1, d1, hrun, hs⟩ := ih2 (f + 1) e.NextIndex p_dir
      { pkg with m_file_info := pkg.m_file_info ++ first.files.map dirinfo.info_of }
      bsA (sub_directories_set subs (lower nm) (.mk (some bs.length) subsA)) d hnext hd3
      (by omega) hdA
      (by simp only [List.length_append, List.length_map]; omega)
    have hlA := hsA.longer
    have hl1 := hs.longer
    refine ⟨bs1, subs1, d1, ?_, ?_, ?_, hs.backend, ?_, ?_, ?_⟩
    · rw [scan_entries]
      simp only [hi0, if_false, he, hn, ne_eq, hty, not_true_eq_false]
      rw [scan_directory, hrunA]
      simp only
      rw [hrun]
      simp only [EntryTree.files, List.map_append, List.append_assoc]
    · omega
    · intro a ha hne
      rw [hs.others a (by omega) hne, hsA.others a (by omega) (by omega),
        List.get?_eq_getElem?, List.get?_eq_getElem?, List.getElem?_append_left ha]
    · intro key hkey
      exact hs.files_kept key (fun j hj => hkey j (by
        simp only [EntryTree.siblings, List.mem_cons]; exact Or.inr hj))
    · intro key hkey
      have h1 := hs.subs_kept key (fun j hj => hkey j (by
        simp only [EntryTree.siblings, List.mem_cons]; exact Or.inr hj))
      rw [h1]
      have h2 : lower nm ≠ key := by
        have := hkey entry_index (by simp [EntryTree.siblings])
        rwa [hname] at this
      rw [sub_find_set, if_neg h2]
    · intro bs2 hbs2
      rw [DirectoryInfo.holds]
      refine ⟨⟨bs.length, subsA, dA, ?_, ?_, ?_⟩, ?_⟩
      · have h1 := hs.subs_kept (lower (dirinfo.name_of entry_index)) (fun j hj => hd1 j hj)
        rw [h1, hname, sub_find_set, if_pos rfl]
      · rw [hbs2 bs.length (Nat.le_refl _) (by omega),
          hs.others bs.length (by omega) (by omega)]
        exact hsA.backend
      · apply hsA.holds bs2
        intro a h1 h2
        rw [hbs2 a (by omega) (by omega), hs.others a h2 (by omega)]
      · have := hs.holds bs2 (fun a h1 h2 => hbs2 a (by omega) h2)
        simpa only [List.length_append, List.length_map] using this

theorem gcf_get_file_info_append (pkg pkg1 : PackageGCF) (l : List (Nat × Nat))
    (h : pkg1.m_file_info = pkg.m_file_info ++ l) (k : Nat) (hk : k < l.length) :
    pkg1.get_file_info (pkg.m_file_info.length + k) =
      some ((l.getD k (0, 0)).2, (l.getD k (0, 0)).1) := by
  unfold PackageGCF.get_file_info
  have hlt : ¬ pkg.m_file_info.length + k ≥ pkg1.m_file_info.length := by
    rw [h, List.length_append]
    omega
  rw [if_neg hlt, h, List.get?_eq_getElem?, List.getElem?_append_right (Nat.le_add_right _ _)]
  simp only [Nat.add_sub_cancel_left]
  rw [List.getD_eq_getElem?_getD, List.getElem?_eq_getElem hk]
  rfl

/-- C31. When the table of entries holds a tree `t` from `entry_index` on (a finite
traversal: siblings along `NextIndex` until index 0, the children of a folder from its
`FirstIndex`), the names within each folder are different ignoring case, and the ids fit in
32 bits, `scan_directory` returns (with fuel for the size of the tree) and: the file table
grows by one entry `(ItemSize, dir_map[i])` per file entry `i`, in traversal order, so that
the files get the ids `n, n + 1, ...` after the `n` files registered before (0, 1, 2, ... in
a new package) and `get_file_info(id)` gives block index `dir_map[i]` and size `ItemSize`;
the node gets a new backend; the backend of each folder maps the lower-cased name of each
of its file entries to `{filename, dir_map[i], ItemSize, id}`, and each folder entry is a
child node under its lower-cased name, with its own backend, holding its entries in the
same way. -/
theorem gcf_scan_directory_tree (dirinfo : DirectoryInfo) (t : EntryTree)
    (entry_index fuel : Nat) (pkg : PackageGCF) (bs : List DirectoryGCF)
    (hl : dirinfo.lays_out entry_index t = true) (hd : dirinfo.distinct_names t = true)
    (hfuel : t.cost + 1 ≤ fuel)
    (hcount : pkg.m_file_info.length + t.files.length ≤ 2 ^ 32) :
    ∃ pkg1 bs1 subs d,
      scan_directory fuel dirinfo entry_index pkg bs =
        .ok (pkg1, bs1, .mk (some bs.length) subs) ∧
      pkg1.m_file_info = pkg.m_file_info ++ t.files.map dirinfo.info_of ∧
      (∀ k, k < t.files.length →
        pkg1.get_file_info (pkg.m_file_info.length + k) =
          some (dirinfo.dir_map.getD (t.files.getD k 0) 0,
            (dirinfo.entry_of (t.files.getD k 0)).ItemSize)) ∧
      bs1.get? bs.length = some d ∧
      dirinfo.holds bs1 t pkg.m_file_info.length d subs := by
  obtain ⟨f, rfl⟩ : ∃ f, fuel = f + 1 := ⟨fuel - 1, by omega⟩
  have hnew : (bs ++ [(⟨[]⟩ : DirectoryGCF)]).get? bs.length = some ⟨[]⟩ := by
    rw [List.get?_eq_getElem?]
    simp
  obtain ⟨bs1, subs1, d1, hrun, hs⟩ := scan_entries_spec dirinfo t f entry_index bs.length pkg
    (bs ++ [⟨[]⟩]) [] ⟨[]⟩ hl hd (by omega) hnew hcount
  refine ⟨{ pkg with m_file_info := pkg.m_file_info ++ t.files.map dirinfo.info_of }, bs1,
    subs1, d1, ?_, rfl, ?_, hs.backend, hs.holds bs1 (fun _ _ _ => rfl)⟩
  · rw [scan_directory, hrun]
  · intro k hk
    have h := gcf_get_file_info_append pkg
      { pkg with m_file_info := pkg.m_file_info ++ t.files.map dirinfo.info_of }
      (t.files.map dirinfo.info_of) rfl k (by simpa using hk)
    rw [h]
    have e : (t.files.map dirinfo.info_of).getD k (0, 0) = dirinfo.info_of (t.files.getD k 0) := by
      rw [List.getD_eq_getElem?_getD, List.getD_eq_getElem?_getD, List.getElem?_map,
        List.getElem?_eq_getElem hk]
      rfl
    rw [e]
    rfl

set_option maxRecDepth 8000 in
/-- Witness for C31: `example_dirinfo` from entry 1 on, in a new package: `A.txt` gets id 0
and `de.bsp`, in the folder `maps`, id 1. -/
theorem gcf_scan_directory_tree_witness :
    example_entries.files = [1, 3] ∧
    (PackageGCF.scan_tree 10 example_dirinfo (PackageGCF.new []) []).map
      (fun r => (r.1.m_file_info, r.1.m_root_directory.p_directory, r.2)) =
      .ok ([(10, 5), (20, 9)], some 0,
        [⟨[("a.txt".toList, ⟨"A.txt".toList, 5, 10, 0⟩)]⟩,
          ⟨[("de.bsp".toList, ⟨"de.bsp".toList, 9, 20, 1⟩)]⟩]) ∧
    ∃ pkg1 bs1 subs d,
      scan_directory 10 example_dirinfo 1 (PackageGCF.new []) [] =
        .ok (pkg1, bs1, .mk (some 0) subs) ∧
      pkg1.m_file_info = [] ++ example_entries.files.map example_dirinfo.info_of ∧
      (∀ k, k < example_entries.files.length →
        pkg1.get_file_info (0 + k) =
          some (example_dirinfo.dir_map.getD (example_entries.files.getD k 0) 0,
            (example_dirinfo.entry_of (example_entries.files.getD k 0)).ItemSize)) ∧
      bs1.get? 0 = some d ∧
      example_dirinfo.holds bs1 example_entries 0 d subs :=
  ⟨by decide, rfl, gcf_scan_directory_tree example_dirinfo example_entries 1 10 (PackageGCF.new []) []
    (by decide) (by decide) (by decide) (by decide)⟩

/-! ## C32: where the data block header is read -/

theorem to_int64_small (n : Nat) (h : n < 2 ^ 63) : to_int64 n = (n : Int) := by
  unfold to_int64
  have : n % 2 ^ 64 = n := Nat.mod_eq_of_lt (by omega)
  rw [this, if_pos h]

theorem seekg_size_t_read_ok (s : IfStream) (off n : Nat) (hs : s.failbit = false)
    (h : off + n ≤ s.file.size) (hL : s.file.size < 2 ^ 63) :
    ((s.seekg_size_t off).read n) =
      ({ file := s.file, pos := off + n, failbit := false, eofbit := false, gcount := n },
        s.file.slice off n) := by
  unfold IfStream.seekg_size_t
  rw [to_int64_small off (by omega)]
  exact seekg_read_ok s off n hs h

theorem read_into_full (old got : List Nat) (n : Nat) (h1 : old.length ≤ n)
    (h2 : got.length = n) : read_into old got = got := by
  unfold read_into
  rw [List.drop_eq_nil_of_le (by omega)]
  simp

theorem le32_append_left (l rest : List Nat) (off : Nat) (h : off + 4 ≤ l.length) :
    le32 (l ++ rest) off = le32 l off := by
  unfold le32
  rw [getD_append_left l rest off (by omega), getD_append_left l rest (off + 1) (by omega),
    getD_append_left l rest (off + 2) (by omega), getD_append_left l rest (off + 3) (by omega)]

theorem decode_dir_header_append (l rest : List Nat) (h : l.length = 56) :
    GCFDirectoryHeader.decode (l ++ rest) = GCFDirectoryHeader.decode l := by
  unfold GCFDirectoryHeader.decode
  rw [le32_append_left l rest 0 (by omega), le32_append_left l rest 4 (by omega),
    le32_append_left l rest 8 (by omega), le32_append_left l rest 12 (by omega),
    le32_append_left l rest 16 (by omega), le32_append_left l rest 20 (by omega),
    le32_append_left l rest 24 (by omega), le32_append_left l rest 28 (by omega),
    le32_append_left l rest 32 (by omega), le32_append_left l rest 36 (by omega),
    le32_append_left l rest 40 (by omega), le32_append_left l rest 44 (by omega),
    le32_append_left l rest 48 (by omega), le32_append_left l rest 52 (by omega)]

theorem decode_chksum_header_append (l rest : List Nat) (h : l.length = 8) :
    GCFChecksumHeader.decode (l ++ rest) = GCFChecksumHeader.decode l := by
  unfold GCFChecksumHeader.decode
  rw [le32_append_left l rest 0 (by omega), le32_append_left l rest 4 (by omega)]

theorem decode_data_block_header_append (l rest : List Nat) (h : l.length = 24) :
    GCFDataBlockHeader.decode (l ++ rest) = GCFDataBlockHeader.decode l := by
  unfold GCFDataBlockHeader.decode
  rw [le32_append_left l rest 0 (by omega), le32_append_left l rest 4 (by omega),
    le32_append_left l rest 8 (by omega), le32_append_left l rest 12 (by omega),
    le32_append_left l rest 16 (by omega), le32_append_left l rest 20 (by omega)]

set_option maxRecDepth 8000 in
/-- Claim C32, counterexample. In `layout_file` the directory header is at `d = 0` with
`DirectorySize = 56` and `ItemCount = 0`, so `c = 64`, and `ChecksumSize = 16`. `scan` reads
the data block header at 88 and records `FirstBlockOffset = 1000`; the position
`c + 8 + 16 + (ChecksumSize - 8)` is 96, where a header would give `FirstBlockOffset = 7`. -/
theorem gcf_data_block_header_position_counterexample :
    (PackageGCF.scan_directory_info (IfStream.opened layout_file) [] []
        (PackageGCF.new [])).2.2.get_first_block_offset = 1000 ∧
    (PackageGCF.scan_directory_info (IfStream.opened layout_file) [] []
        (PackageGCF.new [])).1.pos = 88 + 24 ∧
    (GCFDataBlockHeader.decode (layout_file.slice 88 24)).FirstBlockOffset = 1000 ∧
    64 + 8 + 16 + (16 - 8) = 96 ∧
    (GCFDataBlockHeader.decode (layout_file.slice 96 24)).FirstBlockOffset = 7 := by
  refine ⟨?_, ?_, ?_, ?_, ?_⟩ <;> decide

/-- Claim C32, amended. With `d` the offset of the `GCFDirectoryHeader` (the position of a
stream in good state), `D = DirectorySize`, `I = ItemCount`, `c = d + D + 8 + 4 * I` the
offset of the `GCFChecksumHeader` and `C = ChecksumSize`, in a file that holds these records,
the `GCFDataBlockHeader` that `scan` records is the one at
`c + sizeof(GCFChecksumHeader) + C = c + 8 + C`, and the stream is left in good state right
after it. -/
theorem gcf_data_block_header_position (s : IfStream) (g1 g2 : List Nat) (pkg : PackageGCF)
    (D I C : Nat) (hs : s.failbit = false) (he : s.eofbit = false)
    (hL : s.file.size < 2 ^ 63) (h1 : s.pos + 56 ≤ s.file.size)
    (hD : (GCFDirectoryHeader.decode (s.file.slice s.pos 56)).DirectorySize = D)
    (hI : (GCFDirectoryHeader.decode (s.file.slice s.pos 56)).ItemCount = I)
    (h2 : s.pos + D + 8 + 4 * I + 8 + 16 ≤ s.file.size)
    (hC : (GCFChecksumHeader.decode (s.file.slice (s.pos + D + 8 + 4 * I) 8)).ChecksumSize = C)
    (h3 : s.pos + D + 8 + 4 * I + 8 + C + 24 ≤ s.file.size) :
    (PackageGCF.scan_directory_info s g1 g2 pkg).2.2.m_gcf_data_block_header =
        GCFDataBlockHeader.decode (s.file.slice (s.pos + D + 8 + 4 * I + 8 + C) 24) ∧
      (PackageGCF.scan_directory_info s g1 g2 pkg).1.pos = s.pos + D + 8 + 4 * I + 8 + C + 24 ∧
      (PackageGCF.scan_directory_info s g1 g2 pkg).1.failbit = false := by
  have hpos : s.tellg_size_t = s.pos := by
    unfold IfStream.tellg_size_t IfStream.tellg
    rw [hs]
    simp only [Bool.false_eq_true, if_false]
    have : ((s.pos : Int) % 2 ^ 64) = (s.pos : Int) := Int.emod_eq_of_lt (by omega) (by omega)
    rw [this]
    simp
  have e1 := read_ok s 56 hs he h1
  have l1 := slice_length s.file s.pos 56 h1
  have hdr : GCFDirectoryHeader.decode (read_into g1 (s.file.slice s.pos 56)) =
      GCFDirectoryHeader.decode (s.file.slice s.pos 56) :=
    decode_dir_header_append _ _ l1
  unfold PackageGCF.scan_directory_info
  simp only [sizeof_GCFDirectoryHeader, sizeof_GCFDirectoryMapHeader, sizeof_GCFChecksumHeader,
    sizeof_GCFChecksumMapHeader, sizeof_GCFDataBlockHeader, hpos, e1, hdr, hD, hI]
  have e2 := seekg_size_t_read_ok
    { file := s.file, pos := s.pos + 56, failbit := false, eofbit := false, gcount := 56 }
    (s.pos + D) 8 rfl (by simp only; omega) hL
  simp only at e2
  rw [e2]
  simp only
  have e3 := read_ok
    { file := s.file, pos := s.pos + D + 8, failbit := false, eofbit := false, gcount := 8 }
    (I * 4) rfl rfl (by simp only; omega)
  simp only at e3
  rw [e3]
  simp only
  have e4 := seekg_size_t_read_ok
    { file := s.file, pos := s.pos + D + 8 + I * 4, failbit := false, eofbit := false,
      gcount := I * 4 }
    s.pos D rfl (by simp only; omega) hL
  simp only at e4
  rw [e4]
  simp only
  have hc : s.pos + (D + 8 + I * 4) = s.pos + D + 8 + 4 * I := by omega
  have e5 := seekg_size_t_read_ok
    { file := s.file, pos := s.pos + D, failbit := false, eofbit := false, gcount := D }
    (s.pos + D + 8 + 4 * I) 8 rfl (by simp only; omega) hL
  simp only at e5
  rw [hc, e5]
  simp only
  have l5 := slice_length s.file (s.pos + D + 8 + 4 * I) 8 (by omega)
  have hck : GCFChecksumHeader.decode (read_into g2 (s.file.slice (s.pos + D + 8 + 4 * I) 8)) =
      GCFChecksumHeader.decode (s.file.slice (s.pos + D + 8 + 4 * I) 8) :=
    decode_chksum_header_append _ _ l5
  rw [hck, hC]
  have e6 := read_ok
    { file := s.file, pos := s.pos + D + 8 + 4 * I + 8, failbit := false, eofbit := false,
      gcount := 8 }
    16 rfl rfl (by simp only; omega)
  simp only at e6
  rw [e6]
  simp only
  have hd : s.pos + D + 8 + 4 * I + (C + 8) = s.pos + D + 8 + 4 * I + 8 + C := by omega
  have e7 := seekg_size_t_read_ok
    { file := s.file, pos := s.pos + D + 8 + 4 * I + 8 + 16, failbit := false, eofbit := false,
      gcount := 16 }
    (s.pos + D + 8 + 4 * I + 8 + C) 24 rfl (by simp only; omega) hL
  simp only at e7
  rw [hd, e7]
  simp only
  have l7 := slice_length s.file (s.pos + D + 8 + 4 * I + 8 + C) 24 (by omega)
  exact ⟨decode_data_block_header_append _ _ l7, trivial, trivial⟩

set_option maxRecDepth 8000 in
/-- Claim C32, witness: `layout_file`, with `d = 0`, `D = 56`, `I = 0`, `c = 64` and
`C = 16`; the header is read at 88. -/
theorem gcf_data_block_header_position_witness :
    (PackageGCF.scan_directory_info (IfStream.opened layout_file) [] []
        (PackageGCF.new [])).2.2.m_gcf_data_block_header = ⟨1, 2, 4, 1000, 2, 7⟩ ∧
      (PackageGCF.scan_directory_info (IfStream.opened layout_file) [] []
        (PackageGCF.new [])).1.pos = 112 ∧
      (PackageGCF.scan_directory_info (IfStream.opened layout_file) [] []
        (PackageGCF.new [])).1.failbit = false :=
  have h := gcf_data_block_header_position (IfStream.opened layout_file) [] []
    (PackageGCF.new []) 56 0 16 rfl rfl (by decide) (by decide) (by decide) (by decide)
    (by decide) (by decide) (by decide)
  ⟨by rw [h.1]; decide, h.2.1, h.2.2⟩

/-! ## C33: the registration of a ZIP entry -/

set_option maxRecDepth 8000 in
/-- Claim C33, counterexample. The entry of `folder_archive` is named `d/`; its local header,
at its `file_offset` 0, bears the signature and has `size_uncompressed = 1`. `scan` makes
the folder `d` and registers no `FileInfo`: `add_file` returns `-1` for a path that ends
in `/`. -/
theorem zip_entry_registration_counterexample :
    folder_archive.slice 0 4 = [0x50, 0x4B, 3, 4] ∧
    (zip_file_header.decode (folder_archive.slice 4 26)).size_uncompressed = 1 ∧
    ∃ r, (PackageZIP.new []).scan (some folder_archive) zero_fileheader 3 = .ok (r, 0) ∧
      r.m_file_info = [] ∧
      r.m_root_directory = .mk (some 0) [("d".toList, .mk (some 1) [])] ∧
      r.m_backends = [⟨[]⟩, ⟨[]⟩] :=
  ⟨by decide, by decide, _, rfl, rfl, rfl, rfl⟩

/-- Claim C33, amended. In an archive of bytes shorter than `2^31`, for a central-directory
entry that is wholly inside the archive together with its name and whose local header at
`entry.file_offset` bears the signature `50 4B 03 04` and is wholly inside the archive, when
the name of the entry has a non-empty part after its last `/` (it does not end in `/`) and
the package tree holds one backend per node: the pass does not end the walk; a `FileInfo` is
registered exactly when the local header's `size_uncompressed` is not zero, as the last
entry of the file table; its `compression_method` and `crc` are those of the local header,
its data offset is `entry.file_offset + 26 + 4 + filename_size + extra_size` (lengths of the
local header) when this is below `2^31`, and its two sizes are those of the local header when
they are below `2^31`; and `offset` advances by `42 + 4 + filename_size + extra_size +
comment_size` of the central-directory entry. -/
theorem zip_entry_registration (w : ZipWalk) (hf : w.zip_file.failbit = false)
    (hb : ∀ i, w.zip_file.file.byte i < 256) (hsize : w.zip_file.file.size < 2 ^ 31)
    (h1 : w.offset + 46 + w.entry_at.filename_size ≤ w.zip_file.file.size)
    (hs1 : w.zip_file.file.slice w.offset 4 = [0x50, 0x4B, 1, 2])
    (h2 : w.entry_at.file_offset + 30 ≤ w.zip_file.file.size)
    (hs2 : w.zip_file.file.slice w.entry_at.file_offset 4 = [0x50, 0x4B, 3, 4])
    (hok : TreeOk w.pkg.m_root_directory w.pkg.m_backends)
    (hlen : w.pkg.m_file_info.length + 1 < 2 ^ 31)
    (hname : (split_path w.name_at).2 ≠ []) :
    w.step.2 = false ∧
    w.step.1.offset = w.offset + (42 + 4 + w.entry_at.filename_size + w.entry_at.extra_size +
      w.entry_at.comment_size) ∧
    (w.local_header_at.size_uncompressed = 0 → w.step.1.pkg = w.pkg) ∧
    (w.local_header_at.size_uncompressed ≠ 0 →
      w.step.1.pkg.m_file_info = w.pkg.m_file_info ++
        [scan_info w.entry_at.file_offset (w.offset + 4) w.local_header_at] ∧
      w.step.1.pkg.get_file_info (w.pkg.m_file_info.length : Int) =
        some (scan_info w.entry_at.file_offset (w.offset + 4) w.local_header_at)) ∧
    (scan_info w.entry_at.file_offset (w.offset + 4) w.local_header_at).compression_method =
      w.local_header_at.compression_method ∧
    (scan_info w.entry_at.file_offset (w.offset + 4) w.local_header_at).crc =
      w.local_header_at.crc ∧
    (w.entry_at.file_offset + 26 + 4 + w.local_header_at.filename_size +
        w.local_header_at.extra_size < 2 ^ 31 →
      (scan_info w.entry_at.file_offset (w.offset + 4) w.local_header_at).file_offset =
        ((w.entry_at.file_offset + 26 + 4 + w.local_header_at.filename_size +
          w.local_header_at.extra_size : Nat) : Int)) ∧
    (w.local_header_at.size_compressed < 2 ^ 31 →
      (scan_info w.entry_at.file_offset (w.offset + 4) w.local_header_at).size_compressed =
        (w.local_header_at.size_compressed : Int)) ∧
    (w.local_header_at.size_uncompressed < 2 ^ 31 →
      (scan_info w.entry_at.file_offset (w.offset + 4) w.local_header_at).size_uncompressed =
        (w.local_header_at.size_uncompressed : Int)) := by
  obtain ⟨a1, a2, a3⟩ := step_record w hf h1 hs1 h2 hs2 (by omega)
  obtain ⟨_, p2⟩ := step_progress w (by omega) hb
  obtain ⟨_, _, p3⟩ := p2 a1
  refine ⟨a1, ?_, ?_, ?_, rfl, rfl, ?_, ?_, ?_⟩
  · rw [p3]
    simp only [ZipWalk.entry_at, sizeof_dir_entry]
  · intro h0
    rw [a2, if_neg (by simpa using h0)]
  · intro hne
    rw [a2, if_pos hne]
    have hz := add_file_table w.pkg w.name_at
      (scan_info w.entry_at.file_offset (w.offset + 4) w.local_header_at) hok hlen hname
    exact hz
  · intro h
    simp only [scan_info, sizeof_zipfile_header]
    exact to_int32_small _ h
  · intro h
    simp only [scan_info]
    exact to_int32_small _ h
  · intro h
    simp only [scan_info]
    exact to_int32_small _ h

set_option maxRecDepth 8000 in
/-- Witness for C33: the record of `note_archive` at 133 (`note.txt`, local header at 90,
data at `90 + 26 + 4 + 8 + 0 = 128`): the file is registered and the walk moves to
`133 + 46 + 8 = 187`. -/
theorem zip_entry_registration_witness :
    note_walk.step.2 = false ∧ note_walk.step.1.offset = 187 ∧
    note_walk.step.1.pkg.m_file_info = [⟨5, 5, 128, 137, 0, 0⟩] ∧
    note_walk.step.1.pkg.get_file_info 0 = some ⟨5, 5, 128, 137, 0, 0⟩ :=
  have h := zip_entry_registration note_walk rfl (ofList_byte_lt _ (by decide)) (by decide)
    (by decide) (by decide) (by decide) (by decide) (tree_ok_leaf []) (by decide) (by decide)
  ⟨h.1, by rw [h.2.1]; decide, by rw [(h.2.2.2.1 (by decide)).1]; decide,
    ((h.2.2.2.1 (by decide)).2).trans (by decide)⟩

/-! ## C34: the tree of a ZIP package -/

/-- C34. On a package tree in which every node holds its own backend (as after the start of
`scan` and after every `add_file`), with fewer than `2^31 - 1` files registered:
`add_file(P, info)` for a path `P` whose file name (the text after the last `/`) is not empty
returns the number of files registered before as the new id; `get_file_info(id)` is then
`info` and the earlier infos are unchanged; along the lower-cased, non-empty segments of the
folder part of `P` every node exists and holds a backend; the backend of the last one gives
the new id for the name, and every other (folder, name) pair gives the id it gave before. For
a path with an empty file name (a path ending in `/`) it returns `-1`, registers no file and
changes no id. In both cases the tree still has one backend per node, no two nodes sharing
one. -/
theorem zip_add_file_tree (pkg : PackageZIP) (path : List Char) (info : ZipFileInfo)
    (hok : TreeOk pkg.m_root_directory pkg.m_backends)
    (hlen : pkg.m_file_info.length + 1 < 2 ^ 31) :
    ((split_path path).2 ≠ [] →
      (pkg.add_file path info).2 = (pkg.m_file_info.length : Int) ∧
      (pkg.add_file path info).1.get_file_info (pkg.m_file_info.length : Int) = some info ∧
      (∀ j : Nat, j < pkg.m_file_info.length →
        (pkg.add_file path info).1.get_file_info (j : Int) = pkg.get_file_info (j : Int)) ∧
      (∀ i, ∃ a, (pkg.add_file path info).1.backend_of
          ((path_segments (split_path path).1).take i) = some a ∧
        a < (pkg.add_file path info).1.m_backends.length) ∧
      (pkg.add_file path info).1.file_id_at (path_segments (split_path path).1)
        (split_path path).2 = (pkg.m_file_info.length : Int) ∧
      (∀ ks nm, ¬ (ks = path_segments (split_path path).1 ∧
          lower nm = lower (split_path path).2) →
        (pkg.add_file path info).1.file_id_at ks nm = pkg.file_id_at ks nm)) ∧
    ((split_path path).2 = [] →
      (pkg.add_file path info).2 = -1 ∧
      (pkg.add_file path info).1.m_file_info = pkg.m_file_info ∧
      (∀ ks nm, (pkg.add_file path info).1.file_id_at ks nm = pkg.file_id_at ks nm)) ∧
    TreeOk (pkg.add_file path info).1.m_root_directory (pkg.add_file path info).1.m_backends := by
  refine ⟨?_, ?_, ?_⟩
  · intro hname
    obtain ⟨h1, h2, h3, h4, h5, h6⟩ := add_file_ok pkg path info hok hlen hname
    refine ⟨h1, ?_, ?_, h4, h5, h6⟩
    · rw [get_file_info_eq _ _ (by rw [h2]; simp; omega), h2]
      have hc : (0 : Int) ≤ (pkg.m_file_info.length : Int) ∧
          (pkg.m_file_info.length : Int) < ((pkg.m_file_info ++ [info]).length : Int) := by
        simp
      rw [if_pos hc]
      simp [List.get?_eq_getElem?]
    · intro j hj
      rw [get_file_info_eq _ _ (by rw [h2]; simp; omega), h2,
        get_file_info_eq _ _ (by omega)]
      have hc1 : (0 : Int) ≤ (j : Int) ∧ (j : Int) < ((pkg.m_file_info ++ [info]).length : Int) := by
        simp; omega
      have hc2 : (0 : Int) ≤ (j : Int) ∧ (j : Int) < (pkg.m_file_info.length : Int) := by
        omega
      rw [if_pos hc1, if_pos hc2]
      simp only [Int.toNat_ofNat, List.get?_eq_getElem?]
      rw [List.getElem?_append_left hj]
  · intro hname
    obtain ⟨h1, h2, _, h4⟩ := add_file_no_name pkg path info hok hname
    exact ⟨h1, h2, h4⟩
  · by_cases hname : (split_path path).2 = []
    · exact (add_file_no_name pkg path info hok hname).2.2.1
    · exact (add_file_ok pkg path info hok hlen hname).2.2.1

set_option maxRecDepth 8000 in
/-- Witness for C34: in the package as `scan` starts it, the path `Maps//De/X.bsp` gets id 0
in the backend of the folder `maps/de`, and then the path `Maps/` gets `-1`. -/
theorem zip_add_file_tree_witness :
    ((PackageZIP.new []).scan_reset.add_file "Maps//De/X.bsp".toList example_info).2 = 0 ∧
    ((PackageZIP.new []).scan_reset.add_file "Maps//De/X.bsp".toList
      example_info).1.get_file_info 0 = some example_info ∧
    ((PackageZIP.new []).scan_reset.add_file "Maps//De/X.bsp".toList
      example_info).1.file_id_at ["maps".toList, "de".toList] "x.BSP".toList = 0 ∧
    ((PackageZIP.new []).scan_reset.add_file "Maps/".toList example_info).2 = -1 :=
  have h := zip_add_file_tree (PackageZIP.new []).scan_reset "Maps//De/X.bsp".toList example_info
    (tree_ok_leaf []) (by decide)
  have h2 := zip_add_file_tree (PackageZIP.new []).scan_reset "Maps/".toList example_info
    (tree_ok_leaf []) (by decide)
  ⟨(h.1 (by decide)).1, (h.1 (by decide)).2.1, by decide, (h2.2.1 (by decide)).1⟩

/-! ## C35: the state after reset -/

/-- C35. After `reset()` the root has no name, no children and no directories, and the
package and factory lists are empty, but its attributes are `0`, not `READ | WRITE` as in a
new VFS. So after a reset, `mount(d, "/")` followed by `openfile("f", MODE_READ)` returns no
handle and calls no backend, whatever `d` is, while on a new VFS the call is delegated to a
backend with `dir_attr` `READ` that has the file. -/
theorem reset_is_not_fresh :
    (∀ fs : AdeFS Unit Unit, fs.reset = ⟨MountPoint.mk [] 0 [] [], [], [], []⟩) ∧
    (AdeFS.new : AdeFS Unit Unit) = ⟨MountPoint.mk [] (ATTR_READ ||| ATTR_WRITE) [] [], [], [], []⟩ ∧
    (AdeFS.new : AdeFS Unit Unit).m_root.m_attributes = 3 ∧
    (∀ (fs : AdeFS Unit Unit) (lock : Nat → Option (IDirectory String)) (p_dir : Nat),
      (fs.reset.mount p_dir "/".toList).1.openfile lock "f".toList MODE_READ = (none, [])) ∧
    ((AdeFS.new : AdeFS Unit Unit).mount 1 "/".toList).1.openfile
        (lock_one (single_file_directory ATTR_READ "f".toList "data")) "f".toList MODE_READ =
      (some "data", [(1, "f".toList, MODE_READ)]) ∧
    (((AdeFS.new : AdeFS Unit Unit).reset.mount 1 "/".toList).1.openfile
        (lock_one (single_file_directory ATTR_READ "f".toList "data")) "f".toList MODE_READ =
      (none, [])) := by
  refine ⟨fun _ => rfl, rfl, by decide, ?_, by decide, by decide⟩
  intro fs lock p_dir
  have hown : (fs.reset.mount p_dir "/".toList).1.m_root.find_file_owner lock "f".toList
      (openfile_attr MODE_READ) = none := by
    rw [find_file_owner_eq]
    have h1 : find_first_of "f".toList = none := by decide
    have h2 : (fs.reset.mount p_dir "/".toList).1.m_root.m_attributes = 0 := by
      simp only [AdeFS.mount, mount_eq]
      rfl
    have h3 : ¬ (0 &&& openfile_attr MODE_READ = openfile_attr MODE_READ) := by decide
    rw [if_pos h1, h2, if_neg h3]
  simp only [AdeFS.openfile]
  rw [openfile_eq, hown]

/-! ## C36: the names that the GCF factory supports -/

theorem find_last_of_dot_drop (path : List Char) (pos : Nat)
    (h : find_last_of_dot path = some pos) : ∃ rest, path.drop pos = '.' :: rest := by
  induction path generalizing pos with
  | nil => simp [find_last_of_dot] at h
  | cons c cs ih =>
    simp only [find_last_of_dot] at h
    cases hcs : find_last_of_dot cs with
    | some i =>
      rw [hcs] at h
      simp only [Option.some.injEq] at h
      subst h
      obtain ⟨rest, hr⟩ := ih i hcs
      exact ⟨rest, by simpa using hr⟩
    | none =>
      rw [hcs] at h
      simp only at h
      split at h
      · rename_i hc
        simp only [Option.some.injEq] at h
        subst h
        exact ⟨cs, by simp [hc]⟩
      · simp at h

/-- C36. `PackageFactoryGCF::is_supported` is false for every path, `game.gcf` and `game.GCF`
included: the text compared with `gcf` starts with the `.` itself. The factory is still
chosen for a name ending in `.gcf` by `get_package_factory`, through the extension it
reports, and without a call of `is_supported`. -/
theorem gcf_is_supported_never :
    (∀ path, PackageFactoryGCF.is_supported path = false) ∧
    PackageFactoryGCF.is_supported "game.gcf".toList = false ∧
    PackageFactoryGCF.is_supported "game.GCF".toList = false ∧
    lower ("game.gcf".toList.drop 4) = ".gcf".toList ∧
    (AdeFS.registered (fun _ : Unit => PackageFactoryGCF.factory) [some ()] :
        AdeFS Unit Unit).get_package_factory (fun _ : Unit => PackageFactoryGCF.factory)
      "game.gcf".toList = (some (), []) := by
  refine ⟨?_, ?_, ?_, by decide, by decide⟩
  · intro path
    unfold PackageFactoryGCF.is_supported
    cases h : find_last_of_dot path with
    | none => rfl
    | some pos =>
      obtain ⟨rest, hr⟩ := find_last_of_dot_drop path pos h
      simp only [hr, lower, List.map_cons]
      have e : "gcf".toList = ['g', 'c', 'f'] := rfl
      rw [e, beq_eq_false_iff_ne]
      intro hc
      have h1 := (List.cons.inj hc).1
      exact absurd h1 (by decide)
  · decide
  · decide

/-! ## C37: the position of a GCF handle stays inside the file -/

set_option maxRecDepth 8000 in
/-- C39. On the stored handle of `note.txt` (window `[128, 133)` of `note_archive`),
`seek(-8, BEGINNING)` followed by `get()` returns byte 120 of the archive, which lies in the
local header of the entry (the first letter of its file name), and so does `seek(2^32 - 8)` followed
by `get()`: `get` tests the end of the window only. `read`, which also tests the start,
returns nothing there. -/
theorem zip_get_before_window :
    FileZIPStore.get_seen ((note_handle.seek_dir (-8) Seek.BEGINNING).bind FileZIPStore.get) =
      .ok (note_archive.byte 120 : Int) ∧
    note_archive.byte 120 = 110 ∧
    FileZIPStore.get_seen ((note_handle.seek (2 ^ 32 - 8)).get) = .ok 110 ∧
    ((note_handle.seek_dir (-8) Seek.BEGINNING).bind (fun f => f.read 4)).map
      (fun r => (r.2.1, r.2.2)) = .ok (0, []) := by
  refine ⟨?_, ?_, ?_, ?_⟩ <;> rfl

/-! ## C40: the walk over the central directory ends -/

theorem seekg_end_file (s : IfStream) (off : Int) : (s.seekg_end off).file = s.file := by
  unfold IfStream.seekg_end
  split
  · rfl
  · split <;> rfl

theorem locate_central_dir_file (file : HostFile) (s : IfStream) (cd : zip_central_dir)
    (h : PackageZIP.locate_central_dir file = .ok (some (s, cd))) : s.file = file := by
  unfold PackageZIP.locate_central_dir at h
  simp only at h
  split at h
  · simp at h
  · split at h
    · simp at h
    · split at h
      · simp at h
      · simp only [Except.ok.injEq, Option.some.injEq, Prod.mk.injEq] at h
        rw [← h.1, read_file, seekg_end_file]
        rfl

theorem locate_central_dir_small (file : HostFile) (h : file.size < 2 ^ 31) :
    ∃ r, PackageZIP.locate_central_dir file = .ok r := by
  unfold PackageZIP.locate_central_dir
  simp only
  split
  · exact ⟨_, rfl⟩
  · have h1 : to_int32 file.size = (file.size : Int) := to_int32_small _ h
    rw [h1]
    have h2 : ¬ (min (file.size : Int) ((0x0FFFF + sizeof_central_dir + 4 : Nat) : Int) + 4 < 0) := by
      omega
    rw [if_neg h2]
    split
    · exact ⟨_, rfl⟩
    · exact ⟨_, rfl⟩

theorem scan_central_dir_ends (s : IfStream) (cd : zip_central_dir) (garbage : List Nat)
    (pkg : PackageZIP) (hL : s.file.size < 2 ^ 32 - 2 ^ 18) (hb : ∀ i, s.file.byte i < 256) :
    ∃ r, PackageZIP.scan_central_dir s cd garbage (s.file.size / 46 + 1) pkg = .ok (r, 0) := by
  unfold PackageZIP.scan_central_dir
  split
  · exact ⟨_, rfl⟩
  · split
    · obtain ⟨w1, hr, _⟩ := run_ends (s.file.size / 46 + 1) ⟨s, cd.dir_offset, garbage, pkg⟩ hL hb
        (Nat.lt_succ_of_le (Nat.div_le_div_right (Nat.sub_le _ _)))
      rw [hr]
      exact ⟨_, rfl⟩
    · exact ⟨_, rfl⟩

/-- C40. On an archive of length `L < 2^32 - 2^18` (a file of bytes), a pass of the
central-directory walk that does not set `finished` found a whole record inside the file and
moves `offset` forward by at least 46 bytes; a pass whose `offset` is at or beyond the end of
the file sets `finished`; so from any state the walk ends within `L / 46 + 1` passes.
`scan` with that bound never runs out of passes, and it returns 0 when `L < 2^31` (from `2^31`
on it is left by the exception of the buffer allocation, before the walk). -/
theorem zip_scan_terminates (file : HostFile) (garbage : List Nat) (pkg : PackageZIP)
    (hL : file.size < 2 ^ 32 - 2 ^ 18) (hb : ∀ i, file.byte i < 256) :
    (∀ w : ZipWalk, w.zip_file.file = file →
      (w.step.2 = false →
        w.offset + 46 ≤ file.size ∧ w.offset + 46 ≤ w.step.1.offset) ∧
      (file.size ≤ w.offset → w.step.2 = true) ∧
      ∃ w1, ZipWalk.run (file.size / 46 + 1) w = .ok w1) ∧
    PackageZIP.scan (some file) garbage (file.size / 46 + 1) pkg ≠ .error .out_of_fuel ∧
    (file.size < 2 ^ 31 →
      ∃ r, PackageZIP.scan (some file) garbage (file.size / 46 + 1) pkg = .ok (r, 0)) := by
  have hscan : ∀ r0, PackageZIP.locate_central_dir file = .ok r0 →
      ∃ r, PackageZIP.scan (some file) garbage (file.size / 46 + 1) pkg = .ok (r, 0) := by
    intro r0 h0
    unfold PackageZIP.scan
    simp only [h0]
    cases r0 with
    | none => exact ⟨_, rfl⟩
    | some p =>
      obtain ⟨s, cd⟩ := p
      have hs := locate_central_dir_file file s cd h0
      simp only
      have := scan_central_dir_ends s cd garbage pkg.scan_reset (by rw [hs]; exact hL)
        (by rw [hs]; exact hb)
      rw [hs] at this
      exact this
  refine ⟨?_, ?_, ?_⟩
  · intro w hw
    subst hw
    obtain ⟨_, hstep⟩ := step_progress w hL hb
    refine ⟨fun h => ⟨(hstep h).1, (hstep h).2.1⟩, ?_, ?_⟩
    · intro hle
      cases hfin : w.step.2 with
      | true => rfl
      | false =>
        have := (hstep hfin).1
        omega
    · obtain ⟨w1, hr, _⟩ := run_ends (w.zip_file.file.size / 46 + 1) w hL hb
        (Nat.lt_succ_of_le (Nat.div_le_div_right (Nat.sub_le _ _)))
      exact ⟨w1, hr⟩
  · cases h0 : PackageZIP.locate_central_dir file with
    | error e =>
      unfold PackageZIP.scan
      simp only [h0]
      intro hc
      have he : e = Fault.out_of_fuel := by
        simpa using hc
      subst he
      unfold PackageZIP.locate_central_dir at h0
      simp only at h0
      split at h0
      · simp at h0
      · split at h0
        · simp at h0
        · split at h0 <;> simp at h0
    | ok r0 =>
      obtain ⟨r, hr⟩ := hscan r0 h0
      rw [hr]
      simp
  · intro h31
    obtain ⟨r0, h0⟩ := locate_central_dir_small file h31
    exact hscan r0 h0

set_option maxRecDepth 8000 in
/-- Witness for C40: `note_archive` (209 bytes): the walk ends within `209 / 46 + 1 = 5`
passes and `scan` returns 0. -/
theorem zip_scan_terminates_witness :
    note_archive.size = 209 ∧
    ∃ r, PackageZIP.scan (some note_archive) zero_fileheader 5 (PackageZIP.new []) = .ok (r, 0) :=
  ⟨by decide, (zip_scan_terminates note_archive zero_fileheader (PackageZIP.new [])
    (by decide) (ofList_byte_lt _ (by decide))).2.2 (by decide)⟩

end adefs
